import Mathlib

/-!
# Red-black tree lab (`rbtree.c`): a shallow embedding

The C program keeps its nodes on the heap and links them with pointers; one
shared sentinel node `t->nil` terminates every leaf.  The embedding keeps this
shape: a pointer is an index into a list of cells, reading and writing a field
is reading and updating a cell, and every `while` loop of the source is a
function that recurses on a step budget and answers `none` when the budget is
used up before the loop condition turns false.
-/

namespace RBTreeLab

/-- Modelled from the spec: the header `rbtree.h` that declares `color_t` is
not among the sources. The data model gives every node one of two colours,
RED or BLACK; the names are the ones `rbtree.c` uses. -/
inductive color_t where
  | RBTREE_RED
  | RBTREE_BLACK
deriving DecidableEq, Repr

open color_t

/-- Modelled from the spec: the header `rbtree.h` that declares `node_t` and
`key_t` is not among the sources. The data model gives a node a key (an
ordered scalar, here an integer), a colour and links to parent, left child and
right child; the field names are the ones `rbtree.c` uses. A link is the index
of a cell. -/
structure node_t where
  color : color_t
  key : Int
  parent : Nat
  left : Nat
  right : Nat
deriving DecidableEq, Repr

/-- The contents of a cell that was never written. `rbtree.c` assigns every
field of a cell it allocates before reading it, so the choice is not
observable. -/
instance : Inhabited node_t := ⟨⟨RBTREE_RED, 0, 0, 0, 0⟩⟩

/-- Modelled from the spec: the header `rbtree.h` that declares `rbtree` is not
among the sources. The data model gives a tree a root reference and the
sentinel it owns (`root` and `nil` in `rbtree.c`). The record also carries the
heap the nodes live in: `mem` lists the cells ever allocated, `freed` the
cells passed to `free` (most recent first). -/
structure rbtree where
  root : Nat
  nil : Nat
  mem : List node_t
  freed : List Nat
deriving DecidableEq, Repr

/-- Read the cell behind pointer `p`. -/
def rd (t : rbtree) (p : Nat) : node_t := t.mem.getD p default

/-- Overwrite the cell behind pointer `p`. -/
def wr (t : rbtree) (p : Nat) (n : node_t) : rbtree := { t with mem := t.mem.set p n }

/-- The assignment `p->color = c`. -/
def set_color (t : rbtree) (p : Nat) (c : color_t) : rbtree := wr t p { rd t p with color := c }

/-- The assignment `p->key = k`. -/
def set_key (t : rbtree) (p : Nat) (k : Int) : rbtree := wr t p { rd t p with key := k }

/-- The assignment `p->parent = q`. -/
def set_parent (t : rbtree) (p q : Nat) : rbtree := wr t p { rd t p with parent := q }

/-- The assignment `p->left = q`. -/
def set_left (t : rbtree) (p q : Nat) : rbtree := wr t p { rd t p with left := q }

/-- The assignment `p->right = q`. -/
def set_right (t : rbtree) (p q : Nat) : rbtree := wr t p { rd t p with right := q }

/-- The assignment `t->root = q`. -/
def set_root (t : rbtree) (q : Nat) : rbtree := { t with root := q }

/-- A fresh cell, as `calloc(1, sizeof(node_t))` gives: the new cell is the
next index of `mem`, different from every cell allocated before. -/
def calloc (t : rbtree) : rbtree × Nat := ({ t with mem := t.mem ++ [default] }, t.mem.length)

/-- The call `free(p)`: the cell is recorded as released. -/
def free (t : rbtree) (p : Nat) : rbtree := { t with freed := p :: t.freed }

/-- `new_rbtree`: the sentinel is the first cell; it is black, has key 0 and
all three links point to itself; the root is the sentinel. -/
def new_rbtree : rbtree :=
  let nil := 0
  { root := nil, nil := nil, mem := [⟨RBTREE_BLACK, 0, nil, nil, nil⟩], freed := [] }

/-- `_rotate_left(t, x)`, statement by statement. -/
def _rotate_left (t : rbtree) (x : Nat) : rbtree :=
  let y := (rd t x).right
  let beta := (rd t y).left
  let t := set_right t x beta
  let t := if beta ≠ t.nil then set_parent t (rd t y).left x else t
  let t := set_parent t y (rd t x).parent
  let t :=
    if (rd t x).parent = t.nil then set_root t y
    else if (rd t (rd t x).parent).left = x then set_left t (rd t x).parent y
    else set_right t (rd t x).parent y
  let t := set_left t y x
  set_parent t x y

/-- `_rotate_right(t, y)`, statement by statement. -/
def _rotate_right (t : rbtree) (y : Nat) : rbtree :=
  let x := (rd t y).left
  let beta := (rd t x).right
  let t := set_left t y beta
  let t := if beta ≠ t.nil then set_parent t beta y else t
  let t := set_parent t x (rd t y).parent
  let t :=
    if (rd t y).parent = t.nil then set_root t x
    else if (rd t (rd t y).parent).left = y then set_left t (rd t y).parent x
    else set_right t (rd t y).parent x
  let t := set_right t x y
  set_parent t y x

/-- The descent loop of `_insert` (STEP2): returns the final
`parent_of_new_node`. -/
def _insert_loop : Nat → rbtree → Nat → Nat → Nat → Option Nat
  | 0, _, _, _, _ => none
  | fuel + 1, t, new_node, current, parent_of_new_node =>
    if current ≠ t.nil then
      if (rd t new_node).key < (rd t current).key then
        _insert_loop fuel t new_node (rd t current).left current
      else
        _insert_loop fuel t new_node (rd t current).right current
    else some parent_of_new_node

/-- `_insert(t, key)`: allocate a red node, walk down, link it. -/
def _insert (fuel : Nat) (t : rbtree) (key : Int) : Option (rbtree × Nat) :=
  let (t, new_node) := calloc t
  let t := set_color t new_node RBTREE_RED
  let t := set_key t new_node key
  let t := set_parent t new_node t.nil
  let t := set_left t new_node t.nil
  let t := set_right t new_node t.nil
  match _insert_loop fuel t new_node t.root t.nil with
  | none => none
  | some parent_of_new_node =>
    let t := set_parent t new_node parent_of_new_node
    let t :=
      if parent_of_new_node = t.nil then set_root t new_node
      else if (rd t new_node).key < (rd t parent_of_new_node).key then
        set_left t parent_of_new_node new_node
      else set_right t parent_of_new_node new_node
    some (t, new_node)

/-- The `while (parent->color == RBTREE_RED)` loop of `_insert_fixup`, with its
three local pointers `current`, `parent`, `ancestor` as arguments.  As in the
source, `parent` and `ancestor` are reassigned only in Case 1. -/
def _insert_fixup_loop : Nat → rbtree → Nat → Nat → Nat → Option rbtree
  | 0, _, _, _, _ => none
  | fuel + 1, t, current, parent, ancestor =>
    if (rd t parent).color = RBTREE_RED then
      if parent = (rd t ancestor).left then
        let uncle := (rd t ancestor).right
        if (rd t uncle).color = RBTREE_RED then
          let t := set_color t parent RBTREE_BLACK
          let t := set_color t uncle RBTREE_BLACK
          let t := set_color t ancestor RBTREE_RED
          let current := ancestor
          let parent := (rd t current).parent
          let ancestor := (rd t parent).parent
          _insert_fixup_loop fuel t current parent ancestor
        else
          let (t, current) :=
            if current = (rd t parent).right then (_rotate_left t parent, parent)
            else (t, current)
          let t := set_color t parent RBTREE_BLACK
          let t := set_color t ancestor RBTREE_RED
          let t := _rotate_right t ancestor
          _insert_fixup_loop fuel t current parent ancestor
      else
        let uncle := (rd t ancestor).left
        if (rd t uncle).color = RBTREE_RED then
          let t := set_color t parent RBTREE_BLACK
          let t := set_color t uncle RBTREE_BLACK
          let t := set_color t ancestor RBTREE_RED
          let current := ancestor
          let parent := (rd t current).parent
          let ancestor := (rd t parent).parent
          _insert_fixup_loop fuel t current parent ancestor
        else
          let (t, current) :=
            if current = (rd t parent).left then (_rotate_right t parent, parent)
            else (t, current)
          let t := set_color t parent RBTREE_BLACK
          let t := set_color t ancestor RBTREE_RED
          let t := _rotate_left t ancestor
          _insert_fixup_loop fuel t current parent ancestor
    else some t

/-- `_insert_fixup(t, new_node)`: run the loop, blacken the root, return
`t->root`. -/
def _insert_fixup (fuel : Nat) (t : rbtree) (new_node : Nat) : Option (rbtree × Nat) :=
  let current := new_node
  let parent := (rd t current).parent
  let ancestor := (rd t (rd t current).parent).parent
  match _insert_fixup_loop fuel t current parent ancestor with
  | none => none
  | some t =>
    let t := set_color t t.root RBTREE_BLACK
    some (t, t.root)

/-- `rbtree_insert(t, key)`: `_insert`, then `_insert_fixup`, whose return
value is returned. -/
def rbtree_insert (fuel : Nat) (t : rbtree) (key : Int) : Option (rbtree × Nat) :=
  match _insert fuel t key with
  | none => none
  | some (t, new_node) =>
    match _insert_fixup fuel t new_node with
    | none => none
    | some (t, root) => some (t, root)

/-- The loop of `rbtree_find`; the inner `none` is the `NULL` result. -/
def rbtree_find_loop : Nat → rbtree → Int → Nat → Option (Option Nat)
  | 0, _, _, _ => none
  | fuel + 1, t, key, current =>
    if current ≠ t.nil then
      if (rd t current).key < key then rbtree_find_loop fuel t key (rd t current).right
      else if (rd t current).key > key then rbtree_find_loop fuel t key (rd t current).left
      else some (some current)
    else some none

/-- `rbtree_find(t, key)`: `some (some p)` is the node `p`, `some none` is
`NULL`. -/
def rbtree_find (fuel : Nat) (t : rbtree) (key : Int) : Option (Option Nat) :=
  rbtree_find_loop fuel t key t.root

/-- The loop `while (current->left != nil)` shared by `rbtree_min` and
`_find_subtree_min`. -/
def leftmost_loop : Nat → rbtree → Nat → Nat → Option Nat
  | 0, _, _, _ => none
  | fuel + 1, t, nil, current =>
    if (rd t current).left ≠ nil then leftmost_loop fuel t nil (rd t current).left
    else some current

/-- The loop `while (current->right != t->nil)` of `rbtree_max`. -/
def rightmost_loop : Nat → rbtree → Nat → Option Nat
  | 0, _, _ => none
  | fuel + 1, t, current =>
    if (rd t current).right ≠ t.nil then rightmost_loop fuel t (rd t current).right
    else some current

/-- `rbtree_min(t)`. -/
def rbtree_min (fuel : Nat) (t : rbtree) : Option Nat :=
  let current := t.root
  if current = t.nil then some t.nil
  else leftmost_loop fuel t t.nil current

/-- `rbtree_max(t)`. -/
def rbtree_max (fuel : Nat) (t : rbtree) : Option Nat :=
  let current := t.root
  if current = t.nil then some t.nil
  else rightmost_loop fuel t current

/-- `_rb_transplant(t, replacement_node, substitution_node)`. -/
def _rb_transplant (t : rbtree) (replacement_node substitution_node : Nat) : rbtree :=
  let t :=
    if (rd t replacement_node).parent = t.nil then set_root t substitution_node
    else if (rd t (rd t replacement_node).parent).left = replacement_node then
      set_left t (rd t replacement_node).parent substitution_node
    else set_right t (rd t replacement_node).parent substitution_node
  set_parent t substitution_node (rd t replacement_node).parent

/-- `_find_subtree_min(right_subtree, nil)`. -/
def _find_subtree_min (fuel : Nat) (t : rbtree) (right_subtree nil : Nat) : Option Nat :=
  leftmost_loop fuel t nil right_subtree

/-- One pass through the body of the loop of `_rb_delete_fixup` when `curr` is
its parent's left child: returns the new state and the new `curr`. -/
def _rb_delete_fixup_left (t : rbtree) (curr : Nat) : rbtree × Nat :=
  let brother := (rd t (rd t curr).parent).right
  let (t, brother) :=
    if (rd t brother).color = RBTREE_RED then
      let t := set_color t brother RBTREE_BLACK
      let t := set_color t (rd t curr).parent RBTREE_RED
      let t := _rotate_left t (rd t curr).parent
      (t, (rd t (rd t curr).parent).right)
    else (t, brother)
  if (rd t (rd t brother).left).color = RBTREE_BLACK ∧
      (rd t (rd t brother).right).color = RBTREE_BLACK then
    let t := set_color t brother RBTREE_RED
    (t, (rd t curr).parent)
  else
    let (t, brother) :=
      if (rd t (rd t brother).left).color = RBTREE_RED ∧
          (rd t (rd t brother).right).color = RBTREE_BLACK then
        let t := set_color t (rd t brother).left RBTREE_BLACK
        let t := set_color t brother RBTREE_RED
        let t := _rotate_right t brother
        (t, (rd t (rd t curr).parent).right)
      else (t, brother)
    let t := set_color t brother (rd t (rd t curr).parent).color
    let t := set_color t (rd t curr).parent RBTREE_BLACK
    let t := set_color t (rd t brother).right RBTREE_BLACK
    let t := _rotate_left t (rd t curr).parent
    (t, t.root)

/-- The mirror pass, when `curr` is not its parent's left child. -/
def _rb_delete_fixup_right (t : rbtree) (curr : Nat) : rbtree × Nat :=
  let brother := (rd t (rd t curr).parent).left
  let (t, brother) :=
    if (rd t brother).color = RBTREE_RED then
      let t := set_color t brother RBTREE_BLACK
      let t := set_color t (rd t curr).parent RBTREE_RED
      let t := _rotate_right t (rd t curr).parent
      (t, (rd t (rd t curr).parent).left)
    else (t, brother)
  if (rd t (rd t brother).left).color = RBTREE_BLACK ∧
      (rd t (rd t brother).right).color = RBTREE_BLACK then
    let t := set_color t brother RBTREE_RED
    (t, (rd t curr).parent)
  else
    let (t, brother) :=
      if (rd t (rd t brother).left).color = RBTREE_BLACK ∧
          (rd t (rd t brother).right).color = RBTREE_RED then
        let t := set_color t (rd t brother).right RBTREE_BLACK
        let t := set_color t brother RBTREE_RED
        let t := _rotate_left t brother
        (t, (rd t (rd t curr).parent).left)
      else (t, brother)
    let t := set_color t brother (rd t (rd t curr).parent).color
    let t := set_color t (rd t curr).parent RBTREE_BLACK
    let t := set_color t (rd t brother).left RBTREE_BLACK
    let t := _rotate_right t (rd t curr).parent
    (t, t.root)

/-- The loop `while (curr != t->root && curr->color == RBTREE_BLACK)` of
`_rb_delete_fixup`, followed by `curr->color = RBTREE_BLACK`. -/
def _rb_delete_fixup : Nat → rbtree → Nat → Option rbtree
  | 0, _, _ => none
  | fuel + 1, t, curr =>
    if curr ≠ t.root ∧ (rd t curr).color = RBTREE_BLACK then
      if curr = (rd t (rd t curr).parent).left then
        let (t, curr) := _rb_delete_fixup_left t curr
        _rb_delete_fixup fuel t curr
      else
        let (t, curr) := _rb_delete_fixup_right t curr
        _rb_delete_fixup fuel t curr
    else some (set_color t curr RBTREE_BLACK)

/-- `rbtree_erase(t, p)`: the node to delete is the one `rbtree_find` returns
for `p->key`. The result pairs the new state with the returned `int`. -/
def rbtree_erase (fuel : Nat) (t : rbtree) (p : Nat) : Option (rbtree × Int) :=
  match rbtree_find fuel t (rd t p).key with
  | none => none
  | some none => some (t, 0)
  | some (some target_node_to_delete) =>
    let z := target_node_to_delete
    let removed_node_original_color := (rd t z).color
    let r : Option (rbtree × Nat × color_t) :=
      if (rd t z).left = t.nil ∧ (rd t z).right = t.nil then
        some (_rb_transplant t z t.nil, t.nil, removed_node_original_color)
      else if (rd t z).left = t.nil then
        some (_rb_transplant t z (rd t z).right, (rd t z).right, removed_node_original_color)
      else if (rd t z).right = t.nil then
        some (_rb_transplant t z (rd t z).left, (rd t z).left, removed_node_original_color)
      else
        match _find_subtree_min fuel t (rd t z).right t.nil with
        | none => none
        | some node_actually_removed =>
          let y := node_actually_removed
          let removed_node_original_color := (rd t y).color
          let fixup_start_node := (rd t y).right
          let t :=
            if y ≠ (rd t z).right then
              let t := _rb_transplant t y (rd t y).right
              let t := set_right t y (rd t z).right
              set_parent t (rd t y).right y
            else set_parent t fixup_start_node y
          let t := _rb_transplant t z y
          let t := set_left t y (rd t z).left
          let t := set_parent t (rd t y).left y
          let t := set_color t y (rd t z).color
          some (t, fixup_start_node, removed_node_original_color)
    match r with
    | none => none
    | some (t, fixup_start_node, removed_node_original_color) =>
      let r :=
        if removed_node_original_color = RBTREE_BLACK then _rb_delete_fixup fuel t fixup_start_node
        else some t
      match r with
      | none => none
      | some t => some (free t z, 0)

/-! ## Drivers and observers used to state the properties -/

/-- One call of the public interface: insert a key, or erase through a node
pointer. -/
inductive op where
  | insert (key : Int)
  | erase (p : Nat)
deriving DecidableEq, Repr

/-- Run a sequence of public calls, left to right, each with the same step
budget; `none` when some call does not finish within it. -/
def run (fuel : Nat) : rbtree → List op → Option rbtree
  | t, [] => some t
  | t, op.insert key :: rest =>
    match rbtree_insert fuel t key with
    | none => none
    | some (t, _) => run fuel t rest
  | t, op.erase p :: rest =>
    match rbtree_erase fuel t p with
    | none => none
    | some (t, _) => run fuel t rest

/-- Insert the keys of a list one after the other with `rbtree_insert`. -/
def insert_all (fuel : Nat) : rbtree → List Int → Option rbtree
  | t, [] => some t
  | t, key :: rest =>
    match rbtree_insert fuel t key with
    | none => none
    | some (t, _) => insert_all fuel t rest

/-- For the subtree at `p`: the number of black nodes on each path from `p`
down to the sentinel, paths listed left to right (the sentinel itself is not
counted). -/
def path_blacks : Nat → rbtree → Nat → Option (List Nat)
  | 0, _, _ => none
  | fuel + 1, t, p =>
    if p = t.nil then some [0]
    else
      match path_blacks fuel t (rd t p).left, path_blacks fuel t (rd t p).right with
      | some l, some r =>
        some ((l ++ r).map (fun n => if (rd t p).color = RBTREE_BLACK then n + 1 else n))
      | _, _ => none

/-- For the subtree at `p`: the (parent key, child key) pairs of the red nodes
that have a red child, in pre-order. -/
def red_red_pairs : Nat → rbtree → Nat → Option (List (Int × Int))
  | 0, _, _ => none
  | fuel + 1, t, p =>
    if p = t.nil then some []
    else
      match red_red_pairs fuel t (rd t p).left, red_red_pairs fuel t (rd t p).right with
      | some l, some r =>
        let here (c : Nat) : List (Int × Int) :=
          if c ≠ t.nil ∧ (rd t p).color = RBTREE_RED ∧ (rd t c).color = RBTREE_RED then
            [((rd t p).key, (rd t c).key)]
          else []
        some (here (rd t p).left ++ here (rd t p).right ++ l ++ r)
      | _, _ => none

/-- The keys of the subtree at `p` in in-order (left, node, right). -/
def inorder_keys : Nat → rbtree → Nat → Option (List Int)
  | 0, _, _ => none
  | fuel + 1, t, p =>
    if p = t.nil then some []
    else
      match inorder_keys fuel t (rd t p).left, inorder_keys fuel t (rd t p).right with
      | some l, some r => some (l ++ (rd t p).key :: r)
      | _, _ => none

/-- The nodes (cell indices) of the subtree at `p` in in-order: the nodes
reachable from `p` through `left` and `right` links. -/
def inorder_nodes : Nat → rbtree → Nat → Option (List Nat)
  | 0, _, _ => none
  | fuel + 1, t, p =>
    if p = t.nil then some []
    else
      match inorder_nodes fuel t (rd t p).left, inorder_nodes fuel t (rd t p).right with
      | some l, some r => some (l ++ p :: r)
      | _, _ => none

/-! ## Abstract trees and the heap layouts that represent them -/

/-- A binary tree as the heap is meant to encode it: every node records its
cell index, colour and key. -/
inductive Tree where
  | leaf : Tree
  | node (a : Nat) (c : color_t) (k : Int) (l r : Tree) : Tree

/-- The pointer that stands for a tree: the sentinel for `leaf`, the cell of
the top node otherwise. -/
def Tree.ptr (nil : Nat) : Tree → Nat
  | .leaf => nil
  | .node a _ _ _ _ => a

/-- The cells of a tree, in in-order. -/
def Tree.addrs : Tree → List Nat
  | .leaf => []
  | .node a _ _ l r => l.addrs ++ a :: r.addrs

/-- The keys of a tree, in in-order. -/
def Tree.keys : Tree → List Int
  | .leaf => []
  | .node _ _ k l r => l.keys ++ k :: r.keys

/-- Number of nodes on the longest path from the top to a leaf. -/
def Tree.height : Tree → Nat
  | .leaf => 0
  | .node _ _ _ l r => max l.height r.height + 1

/-- One step of a path from a node towards the root: the parent `a` with its
colour and key and the sibling subtree. `L` says the path came from the left
child of `a`, `R` from the right child. -/
inductive Frame where
  | L (a : Nat) (c : color_t) (k : Int) (r : Tree) : Frame
  | R (a : Nat) (c : color_t) (k : Int) (l : Tree) : Frame

/-- The cell of the parent a frame describes. -/
def Frame.addr : Frame → Nat
  | .L a _ _ _ => a
  | .R a _ _ _ => a

/-- The colour of the parent a frame describes. -/
def Frame.color : Frame → color_t
  | .L _ c _ _ => c
  | .R _ c _ _ => c

/-- The sibling subtree of a frame. -/
def Frame.sibling : Frame → Tree
  | .L _ _ _ r => r
  | .R _ _ _ l => l

/-- Put a subtree back under the parent of a frame. -/
def Frame.fill : Frame → Tree → Tree
  | .L a c k r, s => .node a c k s r
  | .R a c k l, s => .node a c k l s

/-- Rebuild the whole tree from a path (nearest parent first) and the subtree
at its lower end. -/
def plug : List Frame → Tree → Tree
  | [], s => s
  | f :: rest, s => plug rest (f.fill s)

/-- The cell of the nearest parent on a path, the sentinel for the empty
path. -/
def ctxTop (nil : Nat) : List Frame → Nat
  | [] => nil
  | f :: _ => f.addr

/-- All cells that a path owns: the parents and their sibling subtrees. -/
def ctxAddrs : List Frame → List Nat
  | [] => []
  | f :: rest => f.addr :: (f.sibling.addrs ++ ctxAddrs rest)

/-- The heap of `t` holds the tree `s` below a node (or root slot) `par`:
each node is a live cell different from the sentinel whose fields are the ones
the tree prescribes. -/
def Rep (t : rbtree) : Nat → Tree → Prop
  | _, .leaf => True
  | par, .node a c k l r =>
    a ≠ t.nil ∧ a < t.mem.length ∧
    rd t a = ⟨c, k, par, l.ptr t.nil, r.ptr t.nil⟩ ∧ Rep t a l ∧ Rep t a r

/-- The heap of `t` holds the path `ctx` above the pointer `hp`: the nearest
parent links to `hp` on the side the frame names, and so on up to `t->root`. -/
def RepCtx (t : rbtree) : Nat → List Frame → Prop
  | hp, [] => t.root = hp
  | hp, .L a c k r :: rest =>
    a ≠ t.nil ∧ a < t.mem.length ∧
    rd t a = ⟨c, k, ctxTop t.nil rest, hp, r.ptr t.nil⟩ ∧ Rep t a r ∧ RepCtx t a rest
  | hp, .R a c k l :: rest =>
    a ≠ t.nil ∧ a < t.mem.length ∧
    rd t a = ⟨c, k, ctxTop t.nil rest, l.ptr t.nil, hp⟩ ∧ Rep t a l ∧ RepCtx t a rest

/-- The heap of `t` holds the tree `plug ctx s`, seen from the subtree `s`:
path and subtree are laid out as prescribed and no cell is used twice. -/
def Zip (t : rbtree) (ctx : List Frame) (s : Tree) : Prop :=
  RepCtx t (s.ptr t.nil) ctx ∧ Rep t (ctxTop t.nil ctx) s ∧ (ctxAddrs ctx ++ s.addrs).Nodup

/-- The heap of `t` holds exactly the tree `s` under `t->root`. -/
def WF (t : rbtree) (s : Tree) : Prop := Zip t [] s

/-- Where the descent of `_insert` for `key` ends: the path from the leaf
reached down from `s` (below `ctx`) back up. -/
def descend (key : Int) : List Frame → Tree → List Frame
  | ctx, .leaf => ctx
  | ctx, .node a c k l r =>
    if key < k then descend key (.L a c k r :: ctx) l
    else descend key (.R a c k l :: ctx) r

/-- Binary-search-tree insertion of a fresh red node `n` with key `key`:
left when the key is strictly smaller, right otherwise. -/
def Tree.ins (n : Nat) (key : Int) : Tree → Tree
  | .leaf => .node n RBTREE_RED key .leaf .leaf
  | .node a c k l r =>
    if key < k then .node a c k (l.ins n key) r
    else .node a c k l (r.ins n key)

/-- How often the cell `a` is the cell `q`: 1 or 0. -/
def hit (q a : Nat) : Nat := if a = q then 1 else 0

/-- Recolour the parent a frame describes. -/
def Frame.paint (c : color_t) : Frame → Frame
  | .L a _ k r => .L a c k r
  | .R a _ k l => .R a c k l

/-- The step from `t` to `t'` kept the sentinel pointer, the number of
allocated cells and the sentinel's own cell. -/
def Keeps (t t' : rbtree) : Prop :=
  t'.nil = t.nil ∧ t'.mem.length = t.mem.length ∧ rd t' t.nil = rd t t.nil

/-- The sentinel's colour field holds `RBTREE_BLACK`. -/
def NilBlack (t : rbtree) : Prop := (rd t t.nil).color = RBTREE_BLACK

/-- The topmost parent of a path (the root of the tree), if there is one, is
black. -/
def RootBlack (ctx : List Frame) : Prop := ∀ f, ctx.getLast? = some f → f.color = RBTREE_BLACK

/-- The top node of a tree, if there is one, is black. -/
def Tree.rootBlack : Tree → Prop
  | .leaf => True
  | .node _ c _ _ _ => c = RBTREE_BLACK

/-- What holds of the heap between two calls of `rbtree_insert`: it lays out
the tree `T`, the sentinel is an allocated black cell, and the root is black. -/
def Good (t : rbtree) (T : Tree) : Prop :=
  WF t T ∧ t.nil < t.mem.length ∧ NilBlack t ∧ T.rootBlack

/-- The heap after inserting 5, 3 and 8 into a new tree (the new tree itself
should the run not finish). -/
def tree_5_3_8 : rbtree :=
  (run 10 new_rbtree [op.insert 5, op.insert 3, op.insert 8]).getD new_rbtree

/-- The heap after inserting the key 1 twice into a new tree. -/
def tree_1_1 : rbtree :=
  (run 10 new_rbtree [op.insert 1, op.insert 1]).getD new_rbtree

/-- The heap after inserting 10 into a new tree. -/
def tree_10 : rbtree :=
  (run 10 new_rbtree [op.insert 10]).getD new_rbtree

/-- The number of nodes on the longest path from `p` down to the sentinel. -/
def height : Nat → rbtree → Nat → Option Nat
  | 0, _, _ => none
  | fuel + 1, t, p =>
    if p = t.nil then some 0
    else
      match height fuel t (rd t p).left, height fuel t (rd t p).right with
      | some l, some r => some (max l r + 1)
      | _, _ => none

/-- Whether at every node of the subtree at `p` all keys of the left subtree
are smaller than the key of the node (strictly when `strict` is set, smaller
or equal otherwise) and all keys of the right subtree are greater or equal. -/
def bst_ordered (strict : Bool) : Nat → rbtree → Nat → Option Bool
  | 0, _, _ => none
  | fuel + 1, t, p =>
    if p = t.nil then some true
    else
      match inorder_keys fuel t (rd t p).left, inorder_keys fuel t (rd t p).right,
        bst_ordered strict fuel t (rd t p).left, bst_ordered strict fuel t (rd t p).right with
      | some lk, some rk, some bl, some br =>
        some (bl && br &&
          lk.all (fun x => if strict then decide (x < (rd t p).key) else decide (x ≤ (rd t p).key))
          && rk.all (fun x => decide ((rd t p).key ≤ x)))
      | _, _, _, _ => none

/-- The ordering `bst_ordered` checks, on an abstract tree. -/
def Tree.ordered (strict : Bool) : Tree → Bool
  | .leaf => true
  | .node _ _ k l r =>
    l.ordered strict && r.ordered strict &&
      l.keys.all (fun x => if strict then decide (x < k) else decide (x ≤ k))
      && r.keys.all (fun x => decide (k ≤ x))

/-- The heap after inserting 15, 10, 20, 8, 12, 17, 25 into a new tree (cells 1
to 7 in this order). -/
def tree_scenario_c : rbtree :=
  (run 10 new_rbtree [op.insert 15, op.insert 10, op.insert 20, op.insert 8, op.insert 12,
    op.insert 17, op.insert 25]).getD new_rbtree

/-- The heap after inserting 10, 5, 15, 1 into a new tree (cells 1 to 4 in this
order): the next key 3 will hang as the right child of the red node 1, whose
parent is 5 and whose uncle is the sentinel. -/
def tree_10_5_15_1 : rbtree :=
  (run 10 new_rbtree [op.insert 10, op.insert 5, op.insert 15, op.insert 1]).getD new_rbtree

/-- The cell `t->root` points to when the path `ctx` lies above the pointer
`hp`: `hp` itself for the empty path, the topmost parent otherwise. -/
def ctxBottom : Nat → List Frame → Nat
  | hp, [] => hp
  | _, f :: rest => ctxBottom f.addr rest

/-- Whether a heap lays out a given subtree can be computed. -/
instance Rep.decide (t : rbtree) : ∀ (par : Nat) (s : Tree), Decidable (Rep t par s)
  | _, .leaf => isTrue trivial
  | par, .node a c k l r =>
    haveI := Rep.decide t a l
    haveI := Rep.decide t a r
    inferInstanceAs (Decidable (a ≠ t.nil ∧ a < t.mem.length ∧
      rd t a = ⟨c, k, par, l.ptr t.nil, r.ptr t.nil⟩ ∧ Rep t a l ∧ Rep t a r))

/-- Whether the root pointer is the given one can be computed. -/
instance RepCtx.decide_nil (t : rbtree) (hp : Nat) : Decidable (RepCtx t hp []) :=
  inferInstanceAs (Decidable (t.root = hp))

/-- Whether a heap lays out a given tree under its root can be computed. -/
instance WF.decide (t : rbtree) (T : Tree) : Decidable (WF t T) :=
  inferInstanceAs (Decidable (RepCtx t (T.ptr t.nil) [] ∧ Rep t (ctxTop t.nil []) T ∧
    (ctxAddrs [] ++ T.addrs).Nodup))

/-- The tree that `tree_scenario_c` lays out: 15 at the root, 10 and 20 below
it, then 8, 12, 17, 25. -/
def shape_scenario_c : Tree :=
  .node 1 RBTREE_BLACK 15
    (.node 2 RBTREE_BLACK 10 (.node 4 RBTREE_RED 8 .leaf .leaf) (.node 5 RBTREE_RED 12 .leaf .leaf))
    (.node 3 RBTREE_BLACK 20 (.node 6 RBTREE_RED 17 .leaf .leaf) (.node 7 RBTREE_RED 25 .leaf .leaf))

/-! ## The red-black conditions on abstract trees -/

/-- The colour of the top node of a tree; a leaf (the sentinel) counts as
black. -/
def Tree.color : Tree → color_t
  | .leaf => RBTREE_BLACK
  | .node _ c _ _ _ => c

/-- Every path from the top of the tree down to a leaf passes exactly `n`
black nodes (the leaf itself is not counted). -/
def Tree.bh : Tree → Nat → Prop
  | .leaf, n => n = 0
  | .node _ RBTREE_RED _ l r, n => l.bh n ∧ r.bh n
  | .node _ RBTREE_BLACK _ _ _, 0 => False
  | .node _ RBTREE_BLACK _ l r, n + 1 => l.bh n ∧ r.bh n

/-- No red node of the tree has a red child. -/
def Tree.noRR : Tree → Prop
  | .leaf => True
  | .node _ c _ l r =>
    (c = RBTREE_RED → l.color = RBTREE_BLACK ∧ r.color = RBTREE_BLACK) ∧ l.noRR ∧ r.noRR

/-- No red node strictly below the top of the tree has a red child. -/
def Tree.kidsNoRR : Tree → Prop
  | .leaf => True
  | .node _ _ _ l r => l.noRR ∧ r.noRR

/-- The colour of the nearest parent on a path; black for the empty path
(the parent of the root is the sentinel). -/
def ctxColor : List Frame → color_t
  | [] => RBTREE_BLACK
  | f :: _ => f.color

/-- The path `ctx` is that of a red-black tree whose subtree at the lower end
has black-height `n`: every sibling subtree has the black-height its place
requires and no red-red pair, and a red parent has a black sibling subtree and
a black parent of its own. -/
def CtxOK : List Frame → Nat → Prop
  | [], _ => True
  | f :: rest, n =>
    f.sibling.bh n ∧ f.sibling.noRR ∧
    (f.color = RBTREE_RED → f.sibling.color = RBTREE_BLACK ∧ ctxColor rest = RBTREE_BLACK) ∧
    CtxOK rest (if f.color = RBTREE_BLACK then n + 1 else n)

/-- The keys to the left of the lower end of a path, in in-order. -/
def ctxLeftKeys : List Frame → List Int
  | [] => []
  | .L _ _ _ _ :: rest => ctxLeftKeys rest
  | .R _ _ k l :: rest => ctxLeftKeys rest ++ l.keys ++ [k]

/-- The keys to the right of the lower end of a path, in in-order. -/
def ctxRightKeys : List Frame → List Int
  | [] => []
  | .L _ _ k r :: rest => k :: r.keys ++ ctxRightKeys rest
  | .R _ _ _ _ :: rest => ctxRightKeys rest

/-- The sentinel is black and its left and right links point to itself. -/
def SentinelOK (t : rbtree) : Prop :=
  (rd t t.nil).color = RBTREE_BLACK ∧ (rd t t.nil).left = t.nil ∧ (rd t t.nil).right = t.nil

/-- The red-black conditions on the tree a heap lays out, with the ordering
in its non-strict form: the root is black, no red node has a red child, all
paths from the root pass the same number of black nodes, and the in-order keys
are non-decreasing (at every node the keys on the left are smaller or equal,
those on the right greater or equal). A tree ordered in the strict form, with
the keys on the left strictly smaller, satisfies this clause as well; the
strict form itself is not kept by the rotations when a key occurs twice. -/
def RBValid (T : Tree) : Prop :=
  T.rootBlack ∧ T.noRR ∧ (∃ n, T.bh n) ∧ T.keys.Pairwise (· ≤ ·)

/-- The last statements of the loop body of `_rb_delete_fixup` when `curr` is
a left child (Case 4), as a function of the state and the sibling `brother`
that Case 3 left. -/
def _rb_delete_fixup_left_last (t : rbtree) (curr brother : Nat) : rbtree × Nat :=
  let t := set_color t brother (rd t (rd t curr).parent).color
  let t := set_color t (rd t curr).parent RBTREE_BLACK
  let t := set_color t (rd t brother).right RBTREE_BLACK
  let t := _rotate_left t (rd t curr).parent
  (t, t.root)

/-- The statements of the loop body of `_rb_delete_fixup` after Case 1 when
`curr` is a left child (Cases 2, 3 and 4), as a function of the state and the
sibling `brother` that Case 1 left. -/
def _rb_delete_fixup_left_rest (t : rbtree) (curr brother : Nat) : rbtree × Nat :=
  if (rd t (rd t brother).left).color = RBTREE_BLACK ∧
      (rd t (rd t brother).right).color = RBTREE_BLACK then
    let t := set_color t brother RBTREE_RED
    (t, (rd t curr).parent)
  else
    let (t, brother) :=
      if (rd t (rd t brother).left).color = RBTREE_RED ∧
          (rd t (rd t brother).right).color = RBTREE_BLACK then
        let t := set_color t (rd t brother).left RBTREE_BLACK
        let t := set_color t brother RBTREE_RED
        let t := _rotate_right t brother
        (t, (rd t (rd t curr).parent).right)
      else (t, brother)
    _rb_delete_fixup_left_last t curr brother

/-- The last statements of the loop body of `_rb_delete_fixup` when `curr` is
a right child (Case 4). -/
def _rb_delete_fixup_right_last (t : rbtree) (curr brother : Nat) : rbtree × Nat :=
  let t := set_color t brother (rd t (rd t curr).parent).color
  let t := set_color t (rd t curr).parent RBTREE_BLACK
  let t := set_color t (rd t brother).left RBTREE_BLACK
  let t := _rotate_right t (rd t curr).parent
  (t, t.root)

/-- The statements of the loop body of `_rb_delete_fixup` after Case 1 when
`curr` is a right child. -/
def _rb_delete_fixup_right_rest (t : rbtree) (curr brother : Nat) : rbtree × Nat :=
  if (rd t (rd t brother).left).color = RBTREE_BLACK ∧
      (rd t (rd t brother).right).color = RBTREE_BLACK then
    let t := set_color t brother RBTREE_RED
    (t, (rd t curr).parent)
  else
    let (t, brother) :=
      if (rd t (rd t brother).left).color = RBTREE_BLACK ∧
          (rd t (rd t brother).right).color = RBTREE_RED then
        let t := set_color t (rd t brother).right RBTREE_BLACK
        let t := set_color t brother RBTREE_RED
        let t := _rotate_left t brother
        (t, (rd t (rd t curr).parent).left)
      else (t, brother)
    _rb_delete_fixup_right_last t curr brother

/-! ## The steps of `rbtree_erase` -/

/-- The part of `rbtree_erase` between the lookup and the fix-up, as a function
of the state and the node `z` found: the four cases that take `z` out of the
tree. The result is the new state, the node the fix-up starts at, and the
colour of the node that was removed or moved. -/
def rbtree_erase_unlink (fuel : Nat) (t : rbtree) (z : Nat) : Option (rbtree × Nat × color_t) :=
  let removed_node_original_color := (rd t z).color
  if (rd t z).left = t.nil ∧ (rd t z).right = t.nil then
    some (_rb_transplant t z t.nil, t.nil, removed_node_original_color)
  else if (rd t z).left = t.nil then
    some (_rb_transplant t z (rd t z).right, (rd t z).right, removed_node_original_color)
  else if (rd t z).right = t.nil then
    some (_rb_transplant t z (rd t z).left, (rd t z).left, removed_node_original_color)
  else
    match _find_subtree_min fuel t (rd t z).right t.nil with
    | none => none
    | some node_actually_removed =>
      let y := node_actually_removed
      let removed_node_original_color := (rd t y).color
      let fixup_start_node := (rd t y).right
      let t :=
        if y ≠ (rd t z).right then
          let t := _rb_transplant t y (rd t y).right
          let t := set_right t y (rd t z).right
          set_parent t (rd t y).right y
        else set_parent t fixup_start_node y
      let t := _rb_transplant t z y
      let t := set_left t y (rd t z).left
      let t := set_parent t (rd t y).left y
      let t := set_color t y (rd t z).color
      some (t, fixup_start_node, removed_node_original_color)

/-- A path made of left-frames only: every step of it goes down to a left
child. -/
def AllLeft : List Frame → Prop
  | [] => True
  | .L _ _ _ _ :: rest => AllLeft rest
  | .R _ _ _ _ :: _ => False

/-- How `rbtree_erase` takes the node `z(l, r)` of colour `c` below the path
`ctx` out of the tree: the path `ctx1` and subtree `s1` at which the fix-up
starts, and the colour `rc` of the node removed from its place. With an empty
left subtree `r` takes the place of `z`; with an empty right subtree `l` does;
otherwise the leftmost node `y` of `r` takes the place and colour of `z`, and
the right subtree of `y` takes the place of `y`. -/
def Unlinked (ctx : List Frame) (c : color_t) (l r : Tree) (ctx1 : List Frame) (s1 : Tree)
    (rc : color_t) : Prop :=
  (l = .leaf ∧ ctx1 = ctx ∧ s1 = r ∧ rc = c) ∨
  (r = .leaf ∧ ctx1 = ctx ∧ s1 = l ∧ rc = c) ∨
  (∃ cr y cy ky yr, AllLeft cr ∧ r = plug cr (.node y cy ky .leaf yr) ∧
    ctx1 = cr ++ .R y c ky l :: ctx ∧ s1 = yr ∧ rc = cy)

/-! ## Reachability on the heap -/

/-- The node `q` can be reached from `t->root` by following `left` and `right`
links, stopping at the sentinel. -/
inductive Reachable (t : rbtree) : Nat → Prop where
  | root : t.root ≠ t.nil → Reachable t t.root
  | left (p : Nat) : Reachable t p → (rd t p).left ≠ t.nil → Reachable t (rd t p).left
  | right (p : Nat) : Reachable t p → (rd t p).right ≠ t.nil → Reachable t (rd t p).right

/-- The cells of `S` are closed under the links of the heap: the sentinel and
the root are in `S`, and every cell of `S` is allocated and its parent, left
and right links lead to cells of `S`. -/
def Closed (S : List Nat) (t : rbtree) : Prop :=
  t.nil ∈ S ∧ t.root ∈ S ∧
  ∀ c ∈ S, c < t.mem.length ∧ (rd t c).parent ∈ S ∧ (rd t c).left ∈ S ∧ (rd t c).right ∈ S

/-- The heap after inserting 5, 3, 5, 5 into a new tree (cells 1 to 4 in this
order). -/
def tree_5_3_5_5 : rbtree :=
  (run 10 new_rbtree [op.insert 5, op.insert 3, op.insert 5, op.insert 5]).getD new_rbtree

/-- The tree that `tree_5_3_5_5` lays out: 5 at the root, 3 on its left, the
second 5 on its right with the third 5 as its right child. -/
def shape_5_3_5_5 : Tree :=
  .node 1 RBTREE_BLACK 5 (.node 2 RBTREE_BLACK 3 .leaf .leaf)
    (.node 3 RBTREE_BLACK 5 .leaf (.node 4 RBTREE_RED 5 .leaf .leaf))

/-! ## Proofs -/

set_option maxRecDepth 1000000


/-- Reading after a write: the written cell when it is the same live cell, the
old contents otherwise. -/
theorem rd_wr (t : rbtree) (p q : Nat) (n : node_t) :
    rd (wr t p n) q = if q = p ∧ p < t.mem.length then n else rd t q := by
  unfold rd wr
  simp only [List.getD_eq_getElem?_getD, List.getElem?_set]
  by_cases h : p = q
  · subst h
    by_cases h2 : p < t.mem.length
    · simp [h2]
    · simp [h2, List.getElem?_eq_none (not_lt.mp h2)]
  · have h' : ¬ q = p := fun e => h e.symm
    simp [h, h']

@[simp]
theorem wr_nil (t : rbtree) (p : Nat) (n : node_t) : (wr t p n).nil = t.nil := rfl
@[simp]
theorem wr_root (t : rbtree) (p : Nat) (n : node_t) : (wr t p n).root = t.root := rfl
@[simp]
theorem wr_freed (t : rbtree) (p : Nat) (n : node_t) : (wr t p n).freed = t.freed := rfl
@[simp]
theorem wr_length (t : rbtree) (p : Nat) (n : node_t) :
    (wr t p n).mem.length = t.mem.length := by simp [wr]

@[simp]
theorem set_color_nil (t : rbtree) (p : Nat) (c : color_t) : (set_color t p c).nil = t.nil := rfl
@[simp]
theorem set_color_root (t : rbtree) (p : Nat) (c : color_t) : (set_color t p c).root = t.root := rfl
@[simp]
theorem set_color_length (t : rbtree) (p : Nat) (c : color_t) :
    (set_color t p c).mem.length = t.mem.length := by simp [set_color]
@[simp]
theorem set_parent_nil (t : rbtree) (p q : Nat) : (set_parent t p q).nil = t.nil := rfl
@[simp]
theorem set_parent_root (t : rbtree) (p q : Nat) : (set_parent t p q).root = t.root := rfl
@[simp]
theorem set_parent_length (t : rbtree) (p q : Nat) :
    (set_parent t p q).mem.length = t.mem.length := by simp [set_parent]
@[simp]
theorem set_left_nil (t : rbtree) (p q : Nat) : (set_left t p q).nil = t.nil := rfl
@[simp]
theorem set_left_root (t : rbtree) (p q : Nat) : (set_left t p q).root = t.root := rfl
@[simp]
theorem set_left_length (t : rbtree) (p q : Nat) :
    (set_left t p q).mem.length = t.mem.length := by simp [set_left]
@[simp]
theorem set_right_nil (t : rbtree) (p q : Nat) : (set_right t p q).nil = t.nil := rfl
@[simp]
theorem set_right_root (t : rbtree) (p q : Nat) : (set_right t p q).root = t.root := rfl
@[simp]
theorem set_right_length (t : rbtree) (p q : Nat) :
    (set_right t p q).mem.length = t.mem.length := by simp [set_right]
@[simp]
theorem set_root_nil (t : rbtree) (q : Nat) : (set_root t q).nil = t.nil := rfl
@[simp]
theorem set_root_root (t : rbtree) (q : Nat) : (set_root t q).root = q := rfl
@[simp]
theorem set_root_length (t : rbtree) (q : Nat) : (set_root t q).mem.length = t.mem.length := rfl
@[simp]
theorem rd_set_root (t : rbtree) (q p : Nat) : rd (set_root t q) p = rd t p := rfl

theorem rd_set_color (t : rbtree) (p q : Nat) (c : color_t) :
    rd (set_color t p c) q = if q = p ∧ p < t.mem.length then { rd t p with color := c } else rd t q := by
  simp [set_color, rd_wr]
theorem rd_set_parent (t : rbtree) (p q r : Nat) :
    rd (set_parent t p r) q = if q = p ∧ p < t.mem.length then { rd t p with parent := r } else rd t q := by
  simp [set_parent, rd_wr]
theorem rd_set_left (t : rbtree) (p q r : Nat) :
    rd (set_left t p r) q = if q = p ∧ p < t.mem.length then { rd t p with left := r } else rd t q := by
  simp [set_left, rd_wr]
theorem rd_set_right (t : rbtree) (p q r : Nat) :
    rd (set_right t p r) q = if q = p ∧ p < t.mem.length then { rd t p with right := r } else rd t q := by
  simp [set_right, rd_wr]


/-! ### Rotations, cell by cell -/

/-- Cell-level effect of `_rotate_left` at `x` when its right child `y` is a
real node: only `x`, `y`, the inner grandchild `b` and the parent `p` change,
and the last two only when they are not the sentinel. -/
theorem rotate_left_cells (t : rbtree) (x y p a b g : Nat) (cx cy : color_t) (kx ky : Int)
    (hx : rd t x = ⟨cx, kx, p, a, y⟩) (hy : rd t y = ⟨cy, ky, x, b, g⟩)
    (hxl : x < t.mem.length) (hyl : y < t.mem.length) (hxy : x ≠ y)
    (hb : b ≠ t.nil → b < t.mem.length ∧ b ≠ x ∧ b ≠ y)
    (hp : p ≠ t.nil → p < t.mem.length ∧ p ≠ x ∧ p ≠ y ∧ p ≠ b) :
    rd (_rotate_left t x) x = ⟨cx, kx, y, a, b⟩ ∧
    rd (_rotate_left t x) y = ⟨cy, ky, p, x, g⟩ ∧
    (b ≠ t.nil → rd (_rotate_left t x) b = { rd t b with parent := x }) ∧
    (p ≠ t.nil → rd (_rotate_left t x) p =
      if (rd t p).left = x then { rd t p with left := y } else { rd t p with right := y }) ∧
    (∀ q, q ≠ x → q ≠ y → (b ≠ t.nil → q ≠ b) → (p ≠ t.nil → q ≠ p) →
      rd (_rotate_left t x) q = rd t q) ∧
    (_rotate_left t x).root = (if p = t.nil then y else t.root) ∧
    (_rotate_left t x).nil = t.nil ∧
    (_rotate_left t x).mem.length = t.mem.length := by
  have hyx : y ≠ x := fun e => hxy e.symm
  by_cases hbn : b = t.nil
  · subst hbn
    by_cases hpn : p = t.nil
    · refine ⟨?_, ?_, ?_, ?_, ?_, ?_, ?_, ?_⟩ <;> (try intro q h1 h2 h3 h4) <;>
        simp [_rotate_left, rd_set_right, rd_set_left, rd_set_parent, hx, hy, hxl, hyl, hxy, hyx,
          hpn, *]
    · obtain ⟨hpl, hpx, hpy, -⟩ := hp hpn
      have hxp : x ≠ p := fun e => hpx e.symm
      have hyp : y ≠ p := fun e => hpy e.symm
      by_cases hl : (rd t p).left = x
      · refine ⟨?_, ?_, ?_, ?_, ?_, ?_, ?_, ?_⟩ <;>
          (try intro q h1 h2 h3 h4; have h5 := h4 hpn) <;>
          simp [_rotate_left, rd_set_right, rd_set_left, rd_set_parent, hx, hy, hxl, hyl, hpl,
            hxy, hyx, hpn, hl, hpx, hpy, hxp, hyp, *]
      · refine ⟨?_, ?_, ?_, ?_, ?_, ?_, ?_, ?_⟩ <;>
          (try intro q h1 h2 h3 h4; have h5 := h4 hpn) <;>
          simp [_rotate_left, rd_set_right, rd_set_left, rd_set_parent, hx, hy, hxl, hyl, hpl,
            hxy, hyx, hpn, hl, hpx, hpy, hxp, hyp, *]
  · obtain ⟨hbl, hbx, hby⟩ := hb hbn
    have hxb : x ≠ b := fun e => hbx e.symm
    have hyb : y ≠ b := fun e => hby e.symm
    by_cases hpn : p = t.nil
    · refine ⟨?_, ?_, ?_, ?_, ?_, ?_, ?_, ?_⟩ <;>
        (try intro q h1 h2 h3 h4; have h5 := h3 hbn) <;>
        simp [_rotate_left, rd_set_right, rd_set_left, rd_set_parent, hx, hy, hxl, hyl, hbl, hxy,
          hyx, hpn, hbn, hbx, hby, hxb, hyb, *]
    · obtain ⟨hpl, hpx, hpy, hpb⟩ := hp hpn
      have hxp : x ≠ p := fun e => hpx e.symm
      have hyp : y ≠ p := fun e => hpy e.symm
      have hbp : b ≠ p := fun e => hpb e.symm
      by_cases hl : (rd t p).left = x
      · refine ⟨?_, ?_, ?_, ?_, ?_, ?_, ?_, ?_⟩ <;>
          (try intro q h1 h2 h3 h4; have h5 := h4 hpn; have h6 := h3 hbn) <;>
          simp [_rotate_left, rd_set_right, rd_set_left, rd_set_parent, hx, hy, hxl, hyl, hbl,
            hpl, hxy, hyx, hpn, hbn, hbx, hby, hxb, hyb, hl, hpx, hpy, hxp, hyp, hpb, hbp, *]
      · refine ⟨?_, ?_, ?_, ?_, ?_, ?_, ?_, ?_⟩ <;>
          (try intro q h1 h2 h3 h4; have h5 := h4 hpn; have h6 := h3 hbn) <;>
          simp [_rotate_left, rd_set_right, rd_set_left, rd_set_parent, hx, hy, hxl, hyl, hbl,
            hpl, hxy, hyx, hpn, hbn, hbx, hby, hxb, hyb, hl, hpx, hpy, hxp, hyp, hpb, hbp, *]

/-- Cell-level effect of `_rotate_right` at `y` when its left child `x` is a
real node: the mirror image of `rotate_left_cells`. -/
theorem rotate_right_cells (t : rbtree) (x y p a b g : Nat) (cx cy : color_t) (kx ky : Int)
    (hy : rd t y = ⟨cy, ky, p, x, g⟩) (hx : rd t x = ⟨cx, kx, y, a, b⟩)
    (hxl : x < t.mem.length) (hyl : y < t.mem.length) (hxy : x ≠ y)
    (hb : b ≠ t.nil → b < t.mem.length ∧ b ≠ x ∧ b ≠ y)
    (hp : p ≠ t.nil → p < t.mem.length ∧ p ≠ x ∧ p ≠ y ∧ p ≠ b) :
    rd (_rotate_right t y) y = ⟨cy, ky, x, b, g⟩ ∧
    rd (_rotate_right t y) x = ⟨cx, kx, p, a, y⟩ ∧
    (b ≠ t.nil → rd (_rotate_right t y) b = { rd t b with parent := y }) ∧
    (p ≠ t.nil → rd (_rotate_right t y) p =
      if (rd t p).left = y then { rd t p with left := x } else { rd t p with right := x }) ∧
    (∀ q, q ≠ x → q ≠ y → (b ≠ t.nil → q ≠ b) → (p ≠ t.nil → q ≠ p) →
      rd (_rotate_right t y) q = rd t q) ∧
    (_rotate_right t y).root = (if p = t.nil then x else t.root) ∧
    (_rotate_right t y).nil = t.nil ∧
    (_rotate_right t y).mem.length = t.mem.length := by
  have hyx : y ≠ x := fun e => hxy e.symm
  by_cases hbn : b = t.nil
  · subst hbn
    by_cases hpn : p = t.nil
    · refine ⟨?_, ?_, ?_, ?_, ?_, ?_, ?_, ?_⟩ <;> (try intro q h1 h2 h3 h4) <;>
        simp [_rotate_right, rd_set_right, rd_set_left, rd_set_parent, hx, hy, hxl, hyl, hxy, hyx,
          hpn, *]
    · obtain ⟨hpl, hpx, hpy, -⟩ := hp hpn
      have hxp : x ≠ p := fun e => hpx e.symm
      have hyp : y ≠ p := fun e => hpy e.symm
      by_cases hl : (rd t p).left = y
      · refine ⟨?_, ?_, ?_, ?_, ?_, ?_, ?_, ?_⟩ <;>
          (try intro q h1 h2 h3 h4; have h5 := h4 hpn) <;>
          simp [_rotate_right, rd_set_right, rd_set_left, rd_set_parent, hx, hy, hxl, hyl, hpl,
            hxy, hyx, hpn, hl, hpx, hpy, hxp, hyp, *]
      · refine ⟨?_, ?_, ?_, ?_, ?_, ?_, ?_, ?_⟩ <;>
          (try intro q h1 h2 h3 h4; have h5 := h4 hpn) <;>
          simp [_rotate_right, rd_set_right, rd_set_left, rd_set_parent, hx, hy, hxl, hyl, hpl,
            hxy, hyx, hpn, hl, hpx, hpy, hxp, hyp, *]
  · obtain ⟨hbl, hbx, hby⟩ := hb hbn
    have hxb : x ≠ b := fun e => hbx e.symm
    have hyb : y ≠ b := fun e => hby e.symm
    by_cases hpn : p = t.nil
    · refine ⟨?_, ?_, ?_, ?_, ?_, ?_, ?_, ?_⟩ <;>
        (try intro q h1 h2 h3 h4; have h5 := h3 hbn) <;>
        simp [_rotate_right, rd_set_right, rd_set_left, rd_set_parent, hx, hy, hxl, hyl, hbl, hxy,
          hyx, hpn, hbn, hbx, hby, hxb, hyb, *]
    · obtain ⟨hpl, hpx, hpy, hpb⟩ := hp hpn
      have hxp : x ≠ p := fun e => hpx e.symm
      have hyp : y ≠ p := fun e => hpy e.symm
      have hbp : b ≠ p := fun e => hpb e.symm
      by_cases hl : (rd t p).left = y
      · refine ⟨?_, ?_, ?_, ?_, ?_, ?_, ?_, ?_⟩ <;>
          (try intro q h1 h2 h3 h4; have h5 := h4 hpn; have h6 := h3 hbn) <;>
          simp [_rotate_right, rd_set_right, rd_set_left, rd_set_parent, hx, hy, hxl, hyl, hbl,
            hpl, hxy, hyx, hpn, hbn, hbx, hby, hxb, hyb, hl, hpx, hpy, hxp, hyp, hpb, hbp, *]
      · refine ⟨?_, ?_, ?_, ?_, ?_, ?_, ?_, ?_⟩ <;>
          (try intro q h1 h2 h3 h4; have h5 := h4 hpn; have h6 := h3 hbn) <;>
          simp [_rotate_right, rd_set_right, rd_set_left, rd_set_parent, hx, hy, hxl, hyl, hbl,
            hpl, hxy, hyx, hpn, hbn, hbx, hby, hxb, hyb, hl, hpx, hpy, hxp, hyp, hpb, hbp, *]

/-! ### Layout predicates: framing and moving along the path -/

theorem Tree.ptr_mem_addrs (nil : Nat) (s : Tree) (h : s.ptr nil ≠ nil) : s.ptr nil ∈ s.addrs := by
  cases s with
  | leaf => exact absurd rfl h
  | node a c k l r => simp [Tree.ptr, Tree.addrs]

/-- Framing: a subtree stays represented when none of its cells changes, also
when the heap grows. -/
theorem Rep_frame_le (t t' : rbtree) (hnil : t'.nil = t.nil)
    (hlen : t.mem.length ≤ t'.mem.length) :
    ∀ (s : Tree) (par : Nat), (∀ a ∈ s.addrs, rd t' a = rd t a) → Rep t par s → Rep t' par s := by
  intro s
  induction s with
  | leaf => intro par _ _; trivial
  | node a c k l r ihl ihr =>
    intro par h hr
    obtain ⟨h1, h2, h3, h4, h5⟩ := hr
    refine ⟨by rw [hnil]; exact h1, by omega, ?_, ?_, ?_⟩
    · rw [h a (by simp [Tree.addrs]), hnil]; exact h3
    · exact ihl a (fun q hq => h q (by simp [Tree.addrs, hq])) h4
    · exact ihr a (fun q hq => h q (by simp [Tree.addrs, hq])) h5

/-- Framing for paths: a path stays represented when none of its cells and not
the root pointer changes, also when the heap grows. -/
theorem RepCtx_frame_le (t t' : rbtree) (hnil : t'.nil = t.nil)
    (hlen : t.mem.length ≤ t'.mem.length) (hroot : t'.root = t.root) :
    ∀ (ctx : List Frame) (hp : Nat), (∀ a ∈ ctxAddrs ctx, rd t' a = rd t a) →
      RepCtx t hp ctx → RepCtx t' hp ctx := by
  intro ctx
  induction ctx with
  | nil => intro hp _ h; simpa [RepCtx, hroot] using h
  | cons f rest ih =>
    intro hp h hr
    cases f with
    | L a c k r =>
      obtain ⟨h1, h2, h3, h4, h5⟩ := hr
      refine ⟨by rw [hnil]; exact h1, by omega, ?_, ?_, ?_⟩
      · rw [h a (by simp [ctxAddrs, Frame.addr]), hnil]; exact h3
      · exact Rep_frame_le t t' hnil hlen r a
          (fun q hq => h q (by simp [ctxAddrs, Frame.sibling, hq])) h4
      · exact ih a (fun q hq => h q (by simp [ctxAddrs, hq])) h5
    | R a c k l =>
      obtain ⟨h1, h2, h3, h4, h5⟩ := hr
      refine ⟨by rw [hnil]; exact h1, by omega, ?_, ?_, ?_⟩
      · rw [h a (by simp [ctxAddrs, Frame.addr]), hnil]; exact h3
      · exact Rep_frame_le t t' hnil hlen l a
          (fun q hq => h q (by simp [ctxAddrs, Frame.sibling, hq])) h4
      · exact ih a (fun q hq => h q (by simp [ctxAddrs, hq])) h5

/-- Framing for subtrees between heaps of the same size. -/
theorem Rep_frame (t t' : rbtree) (hnil : t'.nil = t.nil) (hlen : t'.mem.length = t.mem.length) :
    ∀ (s : Tree) (par : Nat), (∀ a ∈ s.addrs, rd t' a = rd t a) → Rep t par s → Rep t' par s :=
  Rep_frame_le t t' hnil hlen.ge

/-- Framing for paths between heaps of the same size. -/
theorem RepCtx_frame (t t' : rbtree) (hnil : t'.nil = t.nil)
    (hlen : t'.mem.length = t.mem.length) (hroot : t'.root = t.root) :
    ∀ (ctx : List Frame) (hp : Nat), (∀ a ∈ ctxAddrs ctx, rd t' a = rd t a) →
      RepCtx t hp ctx → RepCtx t' hp ctx :=
  RepCtx_frame_le t t' hnil hlen.ge hroot

/-- Every cell of a represented tree is live and is not the sentinel. -/
theorem Rep_bound {t : rbtree} : ∀ (s : Tree) (par : Nat), Rep t par s →
    ∀ a ∈ s.addrs, a ≠ t.nil ∧ a < t.mem.length := by
  intro s
  induction s with
  | leaf => intro par _ a ha; simp [Tree.addrs] at ha
  | node b c k l r ihl ihr =>
    intro par hr a ha
    obtain ⟨h1, h2, _, h4, h5⟩ := hr
    simp only [Tree.addrs, List.mem_append, List.mem_cons] at ha
    rcases ha with ha | rfl | ha
    · exact ihl b h4 a ha
    · exact ⟨h1, h2⟩
    · exact ihr b h5 a ha

/-- Every cell of a represented path is live and is not the sentinel. -/
theorem RepCtx_bound {t : rbtree} : ∀ (ctx : List Frame) (hp : Nat), RepCtx t hp ctx →
    ∀ a ∈ ctxAddrs ctx, a ≠ t.nil ∧ a < t.mem.length := by
  intro ctx
  induction ctx with
  | nil => intro hp _ a ha; simp [ctxAddrs] at ha
  | cons f rest ih =>
    intro hp hr a ha
    cases f with
    | L b c k r =>
      obtain ⟨h1, h2, _, h4, h5⟩ := hr
      simp only [ctxAddrs, Frame.addr, Frame.sibling, List.mem_append, List.mem_cons] at ha
      rcases ha with rfl | ha | ha
      · exact ⟨h1, h2⟩
      · exact Rep_bound r b h4 a ha
      · exact ih b h5 a ha
    | R b c k l =>
      obtain ⟨h1, h2, _, h4, h5⟩ := hr
      simp only [ctxAddrs, Frame.addr, Frame.sibling, List.mem_append, List.mem_cons] at ha
      rcases ha with rfl | ha | ha
      · exact ⟨h1, h2⟩
      · exact Rep_bound l b h4 a ha
      · exact ih b h5 a ha

theorem ctxTop_ne_nil {t : rbtree} {f : Frame} {rest : List Frame} {hp : Nat}
    (h : RepCtx t hp (f :: rest)) : ctxTop t.nil (f :: rest) ≠ t.nil := by
  cases f <;> exact h.1

/-- Moving the focus one step up or down does not change what the heap
represents. -/
theorem zip_up (t : rbtree) (f : Frame) (rest : List Frame) (s : Tree) :
    Zip t (f :: rest) s ↔ Zip t rest (f.fill s) := by
  have hperm : ∀ q, List.count q (ctxAddrs (f :: rest) ++ s.addrs)
      = List.count q (ctxAddrs rest ++ (f.fill s).addrs) := by
    intro q
    cases f <;>
      simp only [ctxAddrs, Frame.addr, Frame.sibling, Frame.fill, Tree.addrs, List.count_append,
        List.count_cons, List.cons_append] <;> omega
  have hnd : (ctxAddrs (f :: rest) ++ s.addrs).Nodup ↔
      (ctxAddrs rest ++ (f.fill s).addrs).Nodup :=
    List.Perm.nodup_iff (List.perm_iff_count.mpr hperm)
  unfold Zip
  rw [hnd]
  cases f with
  | L a c k r =>
    simp only [RepCtx, Rep, Frame.fill, Tree.ptr, ctxTop, Frame.addr]
    tauto
  | R a c k l =>
    simp only [RepCtx, Rep, Frame.fill, Tree.ptr, ctxTop, Frame.addr]
    tauto

/-- A focused layout is a layout of the whole tree. -/
theorem zip_plug (t : rbtree) : ∀ (ctx : List Frame) (s : Tree),
    Zip t ctx s ↔ WF t (plug ctx s) := by
  intro ctx
  induction ctx with
  | nil => intro s; rfl
  | cons f rest ih => intro s; rw [zip_up, ih]; rfl

/-! ### Recolouring and rotating at the focus -/

theorem color_set_color (t : rbtree) (p q : Nat) (c : color_t) :
    (rd (set_color t p c) q).key = (rd t q).key ∧ (rd (set_color t p c) q).parent = (rd t q).parent ∧
    (rd (set_color t p c) q).left = (rd t q).left ∧ (rd (set_color t p c) q).right = (rd t q).right := by
  rw [rd_set_color]; split
  · next h => obtain ⟨rfl, _⟩ := h; exact ⟨rfl, rfl, rfl, rfl⟩
  · exact ⟨rfl, rfl, rfl, rfl⟩

/-- Counting occurrences in a list with one more cell in front. -/
theorem count_cons_hit (q a : Nat) (l : List Nat) :
    List.count q (a :: l) = List.count q l + hit q a := by
  simp [List.count_cons, hit]

theorem hit_self (q : Nat) : hit q q = 1 := by simp [hit]

/-- Recolouring the node in focus recolours that node of the represented tree
and nothing else. -/
theorem zip_set_color {t : rbtree} {ctx : List Frame} {a : Nat} {c : color_t} {k : Int}
    {l r : Tree} (c' : color_t) (h : Zip t ctx (.node a c k l r)) :
    Zip (set_color t a c') ctx (.node a c' k l r) := by
  obtain ⟨hc, ⟨h1, h2, h3, h4, h5⟩, hnd⟩ := h
  have hcnt := fun q => List.nodup_iff_count_le_one.mp hnd q
  simp only [Tree.addrs, List.count_append, count_cons_hit] at hcnt
  have hfr : ∀ q, q ≠ a → rd (set_color t a c') q = rd t q := by
    intro q hq; simp [rd_set_color, hq]
  refine ⟨?_, ⟨h1, by simpa using h2, ?_, ?_, ?_⟩, hnd⟩
  · refine RepCtx_frame t (set_color t a c') rfl (by simp) rfl ctx _ (fun q hq => hfr q ?_) hc
    rintro rfl
    have := hcnt q; have := List.count_pos_iff.mpr hq; have := hit_self q; omega
  · simp [rd_set_color, h2, h3]
  · refine Rep_frame t (set_color t a c') rfl (by simp) l a (fun q hq => hfr q ?_) h4
    rintro rfl
    have := hcnt q; have := List.count_pos_iff.mpr hq; have := hit_self q; omega
  · refine Rep_frame t (set_color t a c') rfl (by simp) r a (fun q hq => hfr q ?_) h5
    rintro rfl
    have := hcnt q; have := List.count_pos_iff.mpr hq; have := hit_self q; omega

/-- The nearest parent of a non-empty path is one of its cells. -/
theorem ctxTop_mem (nil : Nat) (ctx : List Frame) (h : ctxTop nil ctx ≠ nil) :
    ctxTop nil ctx ∈ ctxAddrs ctx := by
  cases ctx with
  | nil => exact absurd rfl h
  | cons f rest => simp [ctxTop, ctxAddrs]

/-- A subtree stays represented when only the `parent` field of its top node
is redirected. -/
theorem Rep_reparent (t t' : rbtree) (hnil : t'.nil = t.nil)
    (hlen : t'.mem.length = t.mem.length) (s : Tree) (par par' : Nat)
    (htop : s.ptr t.nil ≠ t.nil →
      rd t' (s.ptr t.nil) = { rd t (s.ptr t.nil) with parent := par' })
    (hothers : ∀ a ∈ s.addrs, a ≠ s.ptr t.nil → rd t' a = rd t a)
    (hnd : s.addrs.Nodup) (h : Rep t par s) : Rep t' par' s := by
  cases s with
  | leaf => trivial
  | node a c k l r =>
    obtain ⟨h1, h2, h3, h4, h5⟩ := h
    have hcnt := fun q => List.nodup_iff_count_le_one.mp hnd q
    simp only [Tree.addrs, List.count_append, count_cons_hit] at hcnt
    simp only [Tree.ptr] at htop hothers
    refine ⟨by rw [hnil]; exact h1, by rw [hlen]; exact h2, ?_, ?_, ?_⟩
    · rw [htop h1, h3, hnil]
    · refine Rep_frame t t' hnil hlen l a (fun q hq => hothers q (by simp [Tree.addrs, hq]) ?_) h4
      rintro rfl
      have := hcnt q; have := List.count_pos_iff.mpr hq; have := hit_self q; omega
    · refine Rep_frame t t' hnil hlen r a (fun q hq => hothers q (by simp [Tree.addrs, hq]) ?_) h5
      rintro rfl
      have := hcnt q; have := List.count_pos_iff.mpr hq; have := hit_self q; omega

/-- A path stays represented when only the child link of its nearest parent
that leads to the focus is redirected. -/
theorem RepCtx_rehole (t t' : rbtree) (hnil : t'.nil = t.nil)
    (hlen : t.mem.length ≤ t'.mem.length) (hroot : t'.root = t.root)
    (f : Frame) (rest : List Frame) (hp hp' : Nat)
    (hcell : rd t' f.addr = match f with
      | .L _ _ _ _ => { rd t f.addr with left := hp' }
      | .R _ _ _ _ => { rd t f.addr with right := hp' })
    (hothers : ∀ a ∈ ctxAddrs (f :: rest), a ≠ f.addr → rd t' a = rd t a)
    (hnd : (ctxAddrs (f :: rest)).Nodup)
    (h : RepCtx t hp (f :: rest)) : RepCtx t' hp' (f :: rest) := by
  have hcnt := fun q => List.nodup_iff_count_le_one.mp hnd q
  cases f with
  | L a c k r =>
    obtain ⟨h1, h2, h3, h4, h5⟩ := h
    simp only [ctxAddrs, Frame.addr, Frame.sibling, List.count_append, count_cons_hit] at hcnt
    simp only [Frame.addr] at hcell hothers
    refine ⟨by rw [hnil]; exact h1, by omega, ?_, ?_, ?_⟩
    · rw [hcell, h3, hnil]
    · refine Rep_frame_le t t' hnil hlen r a
        (fun q hq => hothers q (by simp [ctxAddrs, Frame.sibling, hq]) ?_) h4
      rintro rfl
      have := hcnt q; have := List.count_pos_iff.mpr hq; have := hit_self q; omega
    · refine RepCtx_frame_le t t' hnil hlen hroot rest a
        (fun q hq => hothers q (by simp [ctxAddrs, hq]) ?_) h5
      rintro rfl
      have := hcnt q; have := List.count_pos_iff.mpr hq; have := hit_self q; omega
  | R a c k l =>
    obtain ⟨h1, h2, h3, h4, h5⟩ := h
    simp only [ctxAddrs, Frame.addr, Frame.sibling, List.count_append, count_cons_hit] at hcnt
    simp only [Frame.addr] at hcell hothers
    refine ⟨by rw [hnil]; exact h1, by omega, ?_, ?_, ?_⟩
    · rw [hcell, h3, hnil]
    · refine Rep_frame_le t t' hnil hlen l a
        (fun q hq => hothers q (by simp [ctxAddrs, Frame.sibling, hq]) ?_) h4
      rintro rfl
      have := hcnt q; have := List.count_pos_iff.mpr hq; have := hit_self q; omega
    · refine RepCtx_frame_le t t' hnil hlen hroot rest a
        (fun q hq => hothers q (by simp [ctxAddrs, hq]) ?_) h5
      rintro rfl
      have := hcnt q; have := List.count_pos_iff.mpr hq; have := hit_self q; omega

/-- `_rotate_left` at the focus `x`, whose right child `y` is a real node,
turns the represented subtree `x(α, y(β, γ))` into `y(x(α, β), γ)` and leaves
the path above it as it is. -/
theorem zip_rotate_left {t : rbtree} {ctx : List Frame} {x y : Nat} {cx cy : color_t}
    {kx ky : Int} {α β γ : Tree}
    (h : Zip t ctx (.node x cx kx α (.node y cy ky β γ))) :
    Zip (_rotate_left t x) ctx (.node y cy ky (.node x cx kx α β) γ) ∧
    (_rotate_left t x).nil = t.nil ∧ (_rotate_left t x).mem.length = t.mem.length ∧
    rd (_rotate_left t x) t.nil = rd t t.nil := by
  obtain ⟨hc, ⟨hx1, hx2, hx3, hα, hy1, hy2, hy3, hβ, hγ⟩, hnd⟩ := h
  have hcnt := fun q => List.nodup_iff_count_le_one.mp hnd q
  simp only [Tree.addrs, List.count_append, count_cons_hit] at hcnt
  simp only [Tree.ptr] at hx3 hc
  have hxy : x ≠ y := by
    rintro rfl
    have := hcnt x; have := hit_self x; omega
  have hbβ : β.ptr t.nil ≠ t.nil → β.ptr t.nil ∈ β.addrs := Tree.ptr_mem_addrs t.nil β
  have hpc : ctxTop t.nil ctx ≠ t.nil → ctxTop t.nil ctx ∈ ctxAddrs ctx := ctxTop_mem t.nil ctx
  have hb : β.ptr t.nil ≠ t.nil →
      β.ptr t.nil < t.mem.length ∧ β.ptr t.nil ≠ x ∧ β.ptr t.nil ≠ y := by
    intro hn
    have hm := hbβ hn
    refine ⟨(Rep_bound β y hβ _ hm).2, ?_, ?_⟩
    · intro e; rw [e] at hm
      have := hcnt x; have := List.count_pos_iff.mpr hm; have := hit_self x; omega
    · intro e; rw [e] at hm
      have := hcnt y; have := List.count_pos_iff.mpr hm; have := hit_self y; omega
  have hp : ctxTop t.nil ctx ≠ t.nil → ctxTop t.nil ctx < t.mem.length ∧ ctxTop t.nil ctx ≠ x ∧
      ctxTop t.nil ctx ≠ y ∧ ctxTop t.nil ctx ≠ β.ptr t.nil := by
    intro hn
    have hm := hpc hn
    refine ⟨(RepCtx_bound ctx x hc _ hm).2, ?_, ?_, ?_⟩
    · intro e; rw [e] at hm
      have := hcnt x; have := List.count_pos_iff.mpr hm; have := hit_self x; omega
    · intro e; rw [e] at hm
      have := hcnt y; have := List.count_pos_iff.mpr hm; have := hit_self y; omega
    · intro e
      have hm2 := hbβ (e ▸ hn)
      rw [e] at hm
      have := hcnt (β.ptr t.nil); have := List.count_pos_iff.mpr hm
      have := List.count_pos_iff.mpr hm2; omega
  obtain ⟨c1, c2, c3, c4, c5, c6, c7, c8⟩ :=
    rotate_left_cells t x y (ctxTop t.nil ctx) (α.ptr t.nil) (β.ptr t.nil) (γ.ptr t.nil)
      cx cy kx ky hx3 hy3 hx2 hy2 hxy hb hp
  have hnilcell : rd (_rotate_left t x) t.nil = rd t t.nil := by
    apply c5 t.nil (fun e => hx1 e.symm) (fun e => hy1 e.symm)
    · intro hn e; exact hn e.symm
    · intro hn e; exact hn e.symm
  refine ⟨⟨?_, ⟨by rw [c7]; exact hy1, by rw [c8]; exact hy2, ?_, ⟨by rw [c7]; exact hx1,
    by rw [c8]; exact hx2, ?_, ?_, ?_⟩, ?_⟩, ?_⟩, c7, c8, hnilcell⟩
  · -- the path above
    cases ctx with
    | nil => simp only [RepCtx, Tree.ptr]; rw [c6]; simp [ctxTop]
    | cons f rest =>
      have hpn : ctxTop t.nil (f :: rest) ≠ t.nil := ctxTop_ne_nil hc
      have hroot : (_rotate_left t x).root = t.root := by rw [c6]; simp [hpn]
      have hndc : (ctxAddrs (f :: rest)).Nodup := (List.nodup_append.mp hnd).1
      refine RepCtx_rehole t _ c7 c8.ge hroot f rest x _ ?_ ?_ hndc hc
      · have c4' := c4 hpn
        simp only [ctxTop] at c4'
        rw [c4']
        cases f with
        | L a c k r =>
          obtain ⟨_, _, h3, _, _⟩ := hc
          simp [Frame.addr, h3, Tree.ptr]
        | R a c k l =>
          obtain ⟨_, _, h3, h4, _⟩ := hc
          have hne : l.ptr t.nil ≠ x := by
            intro e
            have hm := Tree.ptr_mem_addrs t.nil l (by rw [e]; exact hx1)
            rw [e] at hm
            have e1 := hcnt x
            simp only [ctxAddrs, Frame.sibling, List.count_append, count_cons_hit] at e1
            have := List.count_pos_iff.mpr hm; have := hit_self x
            omega
          simp [Frame.addr, h3, hne]
          rfl
      · intro a ha hne
        apply c5 a
        · rintro rfl
          have := hcnt a; have := List.count_pos_iff.mpr ha; have := hit_self a; omega
        · rintro rfl
          have := hcnt a; have := List.count_pos_iff.mpr ha; have := hit_self a; omega
        · intro hn e
          have hm2 := hbβ hn
          rw [← e] at hm2
          have := hcnt a; have := List.count_pos_iff.mpr ha
          have := List.count_pos_iff.mpr hm2; omega
        · intro _; simpa [ctxTop] using hne
  · rw [c2, c7]; rfl
  · rw [c1, c7]
  · -- α keeps its place under x
    refine Rep_frame t _ c7 c8 α x (fun q hq => c5 q ?_ ?_ ?_ ?_) hα
    · rintro rfl
      have := hcnt q; have := List.count_pos_iff.mpr hq; have := hit_self q; omega
    · rintro rfl
      have := hcnt q; have := List.count_pos_iff.mpr hq; have := hit_self q; omega
    · intro hn e
      have hm2 := hbβ hn
      rw [← e] at hm2
      have := hcnt q; have := List.count_pos_iff.mpr hq
      have := List.count_pos_iff.mpr hm2; omega
    · intro hn e
      have hm2 := hpc hn
      rw [← e] at hm2
      have := hcnt q; have := List.count_pos_iff.mpr hq
      have := List.count_pos_iff.mpr hm2; omega
  · -- β moves from y to x
    have hndβ : β.addrs.Nodup := by
      refine List.nodup_iff_count_le_one.mpr (fun q => ?_)
      have := hcnt q; omega
    refine Rep_reparent t _ c7 c8 β y x c3 (fun q hq hne => c5 q ?_ ?_ ?_ ?_) hndβ hβ
    · rintro rfl
      have := hcnt q; have := List.count_pos_iff.mpr hq; have := hit_self q; omega
    · rintro rfl
      have := hcnt q; have := List.count_pos_iff.mpr hq; have := hit_self q; omega
    · intro _; exact hne
    · intro hn e
      have hm2 := hpc hn
      rw [← e] at hm2
      have := hcnt q; have := List.count_pos_iff.mpr hq
      have := List.count_pos_iff.mpr hm2; omega
  · -- γ keeps its place under y
    refine Rep_frame t _ c7 c8 γ y (fun q hq => c5 q ?_ ?_ ?_ ?_) hγ
    · rintro rfl
      have := hcnt q; have := List.count_pos_iff.mpr hq; have := hit_self q; omega
    · rintro rfl
      have := hcnt q; have := List.count_pos_iff.mpr hq; have := hit_self q; omega
    · intro hn e
      have hm2 := hbβ hn
      rw [← e] at hm2
      have := hcnt q; have := List.count_pos_iff.mpr hq
      have := List.count_pos_iff.mpr hm2; omega
    · intro hn e
      have hm2 := hpc hn
      rw [← e] at hm2
      have := hcnt q; have := List.count_pos_iff.mpr hq
      have := List.count_pos_iff.mpr hm2; omega
  · refine List.nodup_iff_count_le_one.mpr (fun q => ?_)
    have := hcnt q
    simp only [Tree.addrs, List.count_append, count_cons_hit]
    omega

/-- `_rotate_right` at the focus `y`, whose left child `x` is a real node,
turns the represented subtree `y(x(α, β), γ)` into `x(α, y(β, γ))` and leaves
the path above it as it is. -/
theorem zip_rotate_right {t : rbtree} {ctx : List Frame} {x y : Nat} {cx cy : color_t}
    {kx ky : Int} {α β γ : Tree}
    (h : Zip t ctx (.node y cy ky (.node x cx kx α β) γ)) :
    Zip (_rotate_right t y) ctx (.node x cx kx α (.node y cy ky β γ)) ∧
    (_rotate_right t y).nil = t.nil ∧ (_rotate_right t y).mem.length = t.mem.length ∧
    rd (_rotate_right t y) t.nil = rd t t.nil := by
  obtain ⟨hc, ⟨hy1, hy2, hy3, ⟨hx1, hx2, hx3, hα, hβ⟩, hγ⟩, hnd⟩ := h
  have hcnt := fun q => List.nodup_iff_count_le_one.mp hnd q
  simp only [Tree.addrs, List.count_append, count_cons_hit] at hcnt
  simp only [Tree.ptr] at hy3 hc
  have hxy : x ≠ y := by
    rintro rfl
    have := hcnt x; have := hit_self x; omega
  have hbβ : β.ptr t.nil ≠ t.nil → β.ptr t.nil ∈ β.addrs := Tree.ptr_mem_addrs t.nil β
  have hpc : ctxTop t.nil ctx ≠ t.nil → ctxTop t.nil ctx ∈ ctxAddrs ctx := ctxTop_mem t.nil ctx
  have hb : β.ptr t.nil ≠ t.nil →
      β.ptr t.nil < t.mem.length ∧ β.ptr t.nil ≠ x ∧ β.ptr t.nil ≠ y := by
    intro hn
    have hm := hbβ hn
    refine ⟨(Rep_bound β x hβ _ hm).2, ?_, ?_⟩
    · intro e; rw [e] at hm
      have := hcnt x; have := List.count_pos_iff.mpr hm; have := hit_self x; omega
    · intro e; rw [e] at hm
      have := hcnt y; have := List.count_pos_iff.mpr hm; have := hit_self y; omega
  have hp : ctxTop t.nil ctx ≠ t.nil → ctxTop t.nil ctx < t.mem.length ∧ ctxTop t.nil ctx ≠ x ∧
      ctxTop t.nil ctx ≠ y ∧ ctxTop t.nil ctx ≠ β.ptr t.nil := by
    intro hn
    have hm := hpc hn
    refine ⟨(RepCtx_bound ctx y hc _ hm).2, ?_, ?_, ?_⟩
    · intro e; rw [e] at hm
      have := hcnt x; have := List.count_pos_iff.mpr hm; have := hit_self x; omega
    · intro e; rw [e] at hm
      have := hcnt y; have := List.count_pos_iff.mpr hm; have := hit_self y; omega
    · intro e
      have hm2 := hbβ (e ▸ hn)
      rw [e] at hm
      have := hcnt (β.ptr t.nil); have := List.count_pos_iff.mpr hm
      have := List.count_pos_iff.mpr hm2; omega
  obtain ⟨c1, c2, c3, c4, c5, c6, c7, c8⟩ :=
    rotate_right_cells t x y (ctxTop t.nil ctx) (α.ptr t.nil) (β.ptr t.nil) (γ.ptr t.nil)
      cx cy kx ky hy3 hx3 hx2 hy2 hxy hb hp
  have hnilcell : rd (_rotate_right t y) t.nil = rd t t.nil := by
    apply c5 t.nil (fun e => hx1 e.symm) (fun e => hy1 e.symm)
    · intro hn e; exact hn e.symm
    · intro hn e; exact hn e.symm
  refine ⟨⟨?_, ⟨by rw [c7]; exact hx1, by rw [c8]; exact hx2, ?_, ?_, ⟨by rw [c7]; exact hy1,
    by rw [c8]; exact hy2, ?_, ?_, ?_⟩⟩, ?_⟩, c7, c8, hnilcell⟩
  · -- the path above
    cases ctx with
    | nil => simp only [RepCtx, Tree.ptr]; rw [c6]; simp [ctxTop]
    | cons f rest =>
      have hpn : ctxTop t.nil (f :: rest) ≠ t.nil := ctxTop_ne_nil hc
      have hroot : (_rotate_right t y).root = t.root := by rw [c6]; simp [hpn]
      have hndc : (ctxAddrs (f :: rest)).Nodup := (List.nodup_append.mp hnd).1
      refine RepCtx_rehole t _ c7 c8.ge hroot f rest y _ ?_ ?_ hndc hc
      · have c4' := c4 hpn
        simp only [ctxTop] at c4'
        rw [c4']
        cases f with
        | L a c k r =>
          obtain ⟨_, _, h3, _, _⟩ := hc
          simp [Frame.addr, h3, Tree.ptr]
        | R a c k l =>
          obtain ⟨_, _, h3, h4, _⟩ := hc
          have hne : l.ptr t.nil ≠ y := by
            intro e
            have hm := Tree.ptr_mem_addrs t.nil l (by rw [e]; exact hy1)
            rw [e] at hm
            have e1 := hcnt y
            simp only [ctxAddrs, Frame.sibling, List.count_append, count_cons_hit] at e1
            have := List.count_pos_iff.mpr hm; have := hit_self y
            omega
          simp [Frame.addr, h3, hne]
          rfl
      · intro a ha hne
        apply c5 a
        · rintro rfl
          have := hcnt a; have := List.count_pos_iff.mpr ha; have := hit_self a; omega
        · rintro rfl
          have := hcnt a; have := List.count_pos_iff.mpr ha; have := hit_self a; omega
        · intro hn e
          have hm2 := hbβ hn
          rw [← e] at hm2
          have := hcnt a; have := List.count_pos_iff.mpr ha
          have := List.count_pos_iff.mpr hm2; omega
        · intro _; simpa [ctxTop] using hne
  · rw [c2, c7]; rfl
  · -- α keeps its place under x
    refine Rep_frame t _ c7 c8 α x (fun q hq => c5 q ?_ ?_ ?_ ?_) hα
    · rintro rfl
      have := hcnt q; have := List.count_pos_iff.mpr hq; have := hit_self q; omega
    · rintro rfl
      have := hcnt q; have := List.count_pos_iff.mpr hq; have := hit_self q; omega
    · intro hn e
      have hm2 := hbβ hn
      rw [← e] at hm2
      have := hcnt q; have := List.count_pos_iff.mpr hq
      have := List.count_pos_iff.mpr hm2; omega
    · intro hn e
      have hm2 := hpc hn
      rw [← e] at hm2
      have := hcnt q; have := List.count_pos_iff.mpr hq
      have := List.count_pos_iff.mpr hm2; omega
  · rw [c1, c7]
  · -- β moves from x to y
    have hndβ : β.addrs.Nodup := by
      refine List.nodup_iff_count_le_one.mpr (fun q => ?_)
      have := hcnt q; omega
    refine Rep_reparent t _ c7 c8 β x y c3 (fun q hq hne => c5 q ?_ ?_ ?_ ?_) hndβ hβ
    · rintro rfl
      have := hcnt q; have := List.count_pos_iff.mpr hq; have := hit_self q; omega
    · rintro rfl
      have := hcnt q; have := List.count_pos_iff.mpr hq; have := hit_self q; omega
    · intro _; exact hne
    · intro hn e
      have hm2 := hpc hn
      rw [← e] at hm2
      have := hcnt q; have := List.count_pos_iff.mpr hq
      have := List.count_pos_iff.mpr hm2; omega
  · -- γ keeps its place under y
    refine Rep_frame t _ c7 c8 γ y (fun q hq => c5 q ?_ ?_ ?_ ?_) hγ
    · rintro rfl
      have := hcnt q; have := List.count_pos_iff.mpr hq; have := hit_self q; omega
    · rintro rfl
      have := hcnt q; have := List.count_pos_iff.mpr hq; have := hit_self q; omega
    · intro hn e
      have hm2 := hbβ hn
      rw [← e] at hm2
      have := hcnt q; have := List.count_pos_iff.mpr hq
      have := List.count_pos_iff.mpr hm2; omega
    · intro hn e
      have hm2 := hpc hn
      rw [← e] at hm2
      have := hcnt q; have := List.count_pos_iff.mpr hq
      have := List.count_pos_iff.mpr hm2; omega
  · refine List.nodup_iff_count_le_one.mpr (fun q => ?_)
    have := hcnt q
    simp only [Tree.addrs, List.count_append, count_cons_hit]
    omega

/-! ### Steps of the insertion fix-up on the represented tree -/

theorem Keeps.refl (t : rbtree) : Keeps t t := ⟨rfl, rfl, rfl⟩

theorem Keeps.trans {t t1 t2 : rbtree} (h1 : Keeps t t1) (h2 : Keeps t1 t2) : Keeps t t2 := by
  obtain ⟨a1, b1, c1⟩ := h1
  obtain ⟨a2, b2, c2⟩ := h2
  refine ⟨by rw [a2, a1], by rw [b2, b1], ?_⟩
  rw [a1] at c2; rw [c2, c1]

theorem Keeps.nilBlack {t t' : rbtree} (h : Keeps t t') (hb : NilBlack t) : NilBlack t' := by
  obtain ⟨a, _, c⟩ := h
  unfold NilBlack at *
  rw [a, c]; exact hb

theorem keeps_set_color {t : rbtree} {a : Nat} (c : color_t) (h : a ≠ t.nil) :
    Keeps t (set_color t a c) := by
  refine ⟨rfl, by simp, ?_⟩
  rw [rd_set_color, if_neg]
  rintro ⟨e, _⟩; exact h e.symm

/-- Recolouring the nearest parent of the focus. -/
theorem zip_paint_top {t : rbtree} {f : Frame} {rest : List Frame} {s : Tree} (c : color_t)
    (h : Zip t (f :: rest) s) :
    Zip (set_color t f.addr c) (f.paint c :: rest) s ∧ Keeps t (set_color t f.addr c) := by
  have hn : f.addr ≠ t.nil := ctxTop_ne_nil h.1
  refine ⟨?_, keeps_set_color c hn⟩
  rw [zip_up] at h ⊢
  cases f with
  | L a c0 k r => exact zip_set_color c h
  | R a c0 k l => exact zip_set_color c h

/-- What the heap says about the nearest parent of the focus. -/
theorem zip_top_cell {t : rbtree} {f : Frame} {rest : List Frame} {s : Tree}
    (h : Zip t (f :: rest) s) :
    (rd t f.addr).color = f.color ∧ (rd t f.addr).parent = ctxTop t.nil rest ∧
    (match f with
      | .L _ _ _ r => (rd t f.addr).left = s.ptr t.nil ∧ (rd t f.addr).right = r.ptr t.nil
      | .R _ _ _ l => (rd t f.addr).left = l.ptr t.nil ∧ (rd t f.addr).right = s.ptr t.nil) := by
  obtain ⟨hc, _, _⟩ := h
  cases f with
  | L a c k r => obtain ⟨_, _, h3, _, _⟩ := hc; simp [Frame.addr, Frame.color, h3]
  | R a c k l => obtain ⟨_, _, h3, _, _⟩ := hc; simp [Frame.addr, Frame.color, h3]

/-- What the heap says about the node in focus. -/
theorem zip_focus_cell {t : rbtree} {ctx : List Frame} {a : Nat} {c : color_t} {k : Int}
    {l r : Tree} (h : Zip t ctx (.node a c k l r)) :
    rd t a = ⟨c, k, ctxTop t.nil ctx, l.ptr t.nil, r.ptr t.nil⟩ ∧ a ≠ t.nil := by
  obtain ⟨_, ⟨h1, _, h3, _, _⟩, _⟩ := h
  exact ⟨h3, h1⟩

/-- The sibling of the focus does not start at the focus. -/
theorem zip_sibling_ne {t : rbtree} {f : Frame} {rest : List Frame} {a : Nat} {c : color_t}
    {k : Int} {l r : Tree} (h : Zip t (f :: rest) (.node a c k l r)) :
    f.sibling.ptr t.nil ≠ a := by
  obtain ⟨_, ⟨h1, _, _, _, _⟩, hnd⟩ := h
  intro e
  have hm := Tree.ptr_mem_addrs t.nil f.sibling (by rw [e]; exact h1)
  rw [e] at hm
  have hcnt := List.nodup_iff_count_le_one.mp hnd a
  simp only [ctxAddrs, Tree.addrs, List.count_append, count_cons_hit] at hcnt
  have := List.count_pos_iff.mpr hm; have := hit_self a; omega

/-- The in-order keys of the whole tree depend on the subtree in focus only
through its in-order keys. -/
theorem plug_keys (ctx : List Frame) : ∀ (s s' : Tree), s.keys = s'.keys →
    (plug ctx s).keys = (plug ctx s').keys := by
  induction ctx with
  | nil => intro s s' h; exact h
  | cons f rest ih =>
    intro s s' h
    apply ih
    cases f <;> simp [Frame.fill, Tree.keys, h]


/-- Case 1, parent on the left: parent and uncle turn black, the grandparent
red, and the grandparent becomes the focus. -/
theorem fixup_case1_left {t : rbtree} {f1 : Frame} {rest : List Frame} {s : Tree} {g ua : Nat}
    {cg uc : color_t} {kg uk : Int} {ul ur : Tree}
    (h : Zip t (f1 :: .L g cg kg (.node ua uc uk ul ur) :: rest) s) :
    Zip (set_color (set_color (set_color t f1.addr RBTREE_BLACK) ua RBTREE_BLACK) g RBTREE_RED)
      rest (.node g RBTREE_RED kg ((f1.paint RBTREE_BLACK).fill s)
        (.node ua RBTREE_BLACK uk ul ur)) ∧
    Keeps t (set_color (set_color (set_color t f1.addr RBTREE_BLACK) ua RBTREE_BLACK) g
      RBTREE_RED) := by
  obtain ⟨z1, k1⟩ := zip_paint_top RBTREE_BLACK h
  rw [zip_up, zip_up] at z1
  have z1' : Zip (set_color t f1.addr RBTREE_BLACK)
      (.R g cg kg ((f1.paint RBTREE_BLACK).fill s) :: rest) (.node ua uc uk ul ur) :=
    (zip_up _ _ _ _).mpr z1
  have z2 := zip_set_color RBTREE_BLACK z1'
  have k2 := keeps_set_color RBTREE_BLACK (zip_focus_cell z1').2
  rw [zip_up] at z2
  have z3 := zip_set_color RBTREE_RED z2
  have k3 := keeps_set_color RBTREE_RED (zip_focus_cell z2).2
  exact ⟨z3, (k1.trans k2).trans k3⟩

/-- Case 1, parent on the right. -/
theorem fixup_case1_right {t : rbtree} {f1 : Frame} {rest : List Frame} {s : Tree} {g ua : Nat}
    {cg uc : color_t} {kg uk : Int} {ul ur : Tree}
    (h : Zip t (f1 :: .R g cg kg (.node ua uc uk ul ur) :: rest) s) :
    Zip (set_color (set_color (set_color t f1.addr RBTREE_BLACK) ua RBTREE_BLACK) g RBTREE_RED)
      rest (.node g RBTREE_RED kg (.node ua RBTREE_BLACK uk ul ur)
        ((f1.paint RBTREE_BLACK).fill s)) ∧
    Keeps t (set_color (set_color (set_color t f1.addr RBTREE_BLACK) ua RBTREE_BLACK) g
      RBTREE_RED) := by
  obtain ⟨z1, k1⟩ := zip_paint_top RBTREE_BLACK h
  rw [zip_up, zip_up] at z1
  have z1' : Zip (set_color t f1.addr RBTREE_BLACK)
      (.L g cg kg ((f1.paint RBTREE_BLACK).fill s) :: rest) (.node ua uc uk ul ur) :=
    (zip_up _ _ _ _).mpr z1
  have z2 := zip_set_color RBTREE_BLACK z1'
  have k2 := keeps_set_color RBTREE_BLACK (zip_focus_cell z1').2
  rw [zip_up] at z2
  have z3 := zip_set_color RBTREE_RED z2
  have k3 := keeps_set_color RBTREE_RED (zip_focus_cell z2).2
  exact ⟨z3, (k1.trans k2).trans k3⟩

/-- Case 3 alone (line shape), parent on the left. -/
theorem fixup_line_left {t : rbtree} {rest : List Frame} {s sr u : Tree} {p g : Nat}
    {c1 cg : color_t} {k1 kg : Int}
    (h : Zip t (.L p c1 k1 sr :: .L g cg kg u :: rest) s) :
    Zip (_rotate_right (set_color (set_color t p RBTREE_BLACK) g RBTREE_RED) g) rest
      (.node p RBTREE_BLACK k1 s (.node g RBTREE_RED kg sr u)) ∧
    Keeps t (_rotate_right (set_color (set_color t p RBTREE_BLACK) g RBTREE_RED) g) := by
  obtain ⟨z1, k1⟩ := zip_paint_top RBTREE_BLACK h
  rw [zip_up, zip_up] at z1
  have z2 := zip_set_color RBTREE_RED z1
  have k2 := keeps_set_color RBTREE_RED (zip_focus_cell z1).2
  have z3 := zip_rotate_right z2
  exact ⟨z3.1, (k1.trans k2).trans z3.2⟩

/-- Case 3 alone (line shape), parent on the right. -/
theorem fixup_line_right {t : rbtree} {rest : List Frame} {s sl u : Tree} {p g : Nat}
    {c1 cg : color_t} {k1 kg : Int}
    (h : Zip t (.R p c1 k1 sl :: .R g cg kg u :: rest) s) :
    Zip (_rotate_left (set_color (set_color t p RBTREE_BLACK) g RBTREE_RED) g) rest
      (.node p RBTREE_BLACK k1 (.node g RBTREE_RED kg u sl) s) ∧
    Keeps t (_rotate_left (set_color (set_color t p RBTREE_BLACK) g RBTREE_RED) g) := by
  obtain ⟨z1, k1⟩ := zip_paint_top RBTREE_BLACK h
  rw [zip_up, zip_up] at z1
  have z2 := zip_set_color RBTREE_RED z1
  have k2 := keeps_set_color RBTREE_RED (zip_focus_cell z1).2
  have z3 := zip_rotate_left z2
  exact ⟨z3.1, (k1.trans k2).trans z3.2⟩

/-- Case 2 followed by Case 3 (triangle shape), parent on the left.  The
source blackens the node its stale `parent` variable still names, which after
the first rotation is the lower node `p`; the node `a` that ends up on top
keeps its colour. -/
theorem fixup_triangle_left {t : rbtree} {rest : List Frame} {sl u l r : Tree} {p g a : Nat}
    {c1 cg c : color_t} {k1 kg k : Int}
    (h : Zip t (.R p c1 k1 sl :: .L g cg kg u :: rest) (.node a c k l r)) :
    Zip (_rotate_right (set_color (set_color (_rotate_left t p) p RBTREE_BLACK) g RBTREE_RED) g)
      rest (.node a c k (.node p RBTREE_BLACK k1 sl l) (.node g RBTREE_RED kg r u)) ∧
    Keeps t
      (_rotate_right (set_color (set_color (_rotate_left t p) p RBTREE_BLACK) g RBTREE_RED) g) := by
  rw [zip_up] at h
  have z1 := zip_rotate_left h
  have z1' : Zip (_rotate_left t p) (.L a c k r :: .L g cg kg u :: rest) (.node p c1 k1 sl l) :=
    (zip_up _ _ _ _).mpr z1.1
  have z2 := zip_set_color RBTREE_BLACK z1'
  have k2 := keeps_set_color RBTREE_BLACK (zip_focus_cell z1').2
  rw [zip_up, zip_up] at z2
  have z3 := zip_set_color RBTREE_RED z2
  have k3 := keeps_set_color RBTREE_RED (zip_focus_cell z2).2
  have z4 := zip_rotate_right z3
  exact ⟨z4.1, ((Keeps.trans z1.2 k2).trans k3).trans z4.2⟩

/-- Case 2 followed by Case 3 (triangle shape), parent on the right. -/
theorem fixup_triangle_right {t : rbtree} {rest : List Frame} {sr u l r : Tree} {p g a : Nat}
    {c1 cg c : color_t} {k1 kg k : Int}
    (h : Zip t (.L p c1 k1 sr :: .R g cg kg u :: rest) (.node a c k l r)) :
    Zip (_rotate_left (set_color (set_color (_rotate_right t p) p RBTREE_BLACK) g RBTREE_RED) g)
      rest (.node a c k (.node g RBTREE_RED kg u l) (.node p RBTREE_BLACK k1 r sr)) ∧
    Keeps t
      (_rotate_left (set_color (set_color (_rotate_right t p) p RBTREE_BLACK) g RBTREE_RED) g) := by
  rw [zip_up] at h
  have z1 := zip_rotate_right h
  have z1' : Zip (_rotate_right t p) (.R a c k l :: .R g cg kg u :: rest) (.node p c1 k1 r sr) :=
    (zip_up _ _ _ _).mpr z1.1
  have z2 := zip_set_color RBTREE_BLACK z1'
  have k2 := keeps_set_color RBTREE_BLACK (zip_focus_cell z1').2
  rw [zip_up, zip_up] at z2
  have z3 := zip_set_color RBTREE_RED z2
  have k3 := keeps_set_color RBTREE_RED (zip_focus_cell z2).2
  have z4 := zip_rotate_left z3
  exact ⟨z4.1, ((Keeps.trans z1.2 k2).trans k3).trans z4.2⟩

/-- A tree rebuilt around a node is not empty. -/
theorem plug_node (ctx : List Frame) : ∀ (a : Nat) (c : color_t) (k : Int) (l r : Tree),
    ∃ a' c' k' l' r', plug ctx (.node a c k l r) = .node a' c' k' l' r' := by
  induction ctx with
  | nil => intro a c k l r; exact ⟨a, c, k, l, r, rfl⟩
  | cons f rest ih =>
    intro a c k l r
    cases f with
    | L b cb kb sr => exact ih b cb kb _ sr
    | R b cb kb sl => exact ih b cb kb sl _

/-- The loop test fails on a black `parent`. -/
theorem insert_fixup_loop_black (fuel : Nat) (t : rbtree) (current parent ancestor : Nat)
    (h : (rd t parent).color = RBTREE_BLACK) :
    _insert_fixup_loop (fuel + 1) t current parent ancestor = some t := by
  rw [_insert_fixup_loop]
  simp [h]

theorem RootBlack.tail2 {f1 f2 : Frame} {rest : List Frame} (h : RootBlack (f1 :: f2 :: rest)) :
    RootBlack rest := by
  intro f hf
  apply h f
  cases rest with
  | nil => simp at hf
  | cons g rest' => simpa [List.getLast?_cons_cons] using hf

/-- Once the node the loop variable `parent` names is black, the loop stops
at its next test. -/
theorem fixup_finish {t : rbtree} {rest : List Frame} {a : Nat} {c : color_t} {k : Int}
    {l r : Tree} (fuel current parent ancestor : Nat) (hfuel : 1 ≤ fuel)
    (z : Zip t rest (.node a c k l r)) (hb : (rd t parent).color = RBTREE_BLACK) :
    ∃ a' c' k' l' r',
      _insert_fixup_loop fuel t current parent ancestor = some t ∧
      WF t (.node a' c' k' l' r') ∧
      (Tree.node a' c' k' l' r').keys = (plug rest (.node a c k l r)).keys := by
  obtain ⟨fuel', rfl⟩ : ∃ f', fuel = f' + 1 := ⟨fuel - 1, by omega⟩
  obtain ⟨a', c', k', l', r', e⟩ := plug_node rest a c k l r
  refine ⟨a', c', k', l', r', insert_fixup_loop_black _ _ _ _ _ hb, ?_, by rw [e]⟩
  rw [← e]; exact (zip_plug t rest _).mp z

/-- The loop of `_insert_fixup` finishes within `ctx.length + 2` rounds and
leaves a well-formed tree with the same in-order keys. -/
theorem insert_fixup_loop_spec : ∀ (fuel : Nat) (t : rbtree) (ctx : List Frame) (a : Nat)
    (c : color_t) (k : Int) (l r : Tree),
    ctx.length + 2 ≤ fuel → Zip t ctx (.node a c k l r) → NilBlack t → RootBlack ctx →
    ∃ t' a' c' k' l' r',
      _insert_fixup_loop fuel t a (ctxTop t.nil ctx) (rd t (ctxTop t.nil ctx)).parent = some t' ∧
      WF t' (.node a' c' k' l' r') ∧
      (Tree.node a' c' k' l' r').keys = (plug ctx (.node a c k l r)).keys ∧ Keeps t t' := by
  intro fuel
  induction fuel with
  | zero => intro t ctx a c k l r hf; omega
  | succ fuel ih =>
    intro t ctx a c k l r hf hz hnb hrb
    have hexit : (rd t (ctxTop t.nil ctx)).color = RBTREE_BLACK →
        ∃ t' a' c' k' l' r',
          _insert_fixup_loop (fuel + 1) t a (ctxTop t.nil ctx)
            (rd t (ctxTop t.nil ctx)).parent = some t' ∧
          WF t' (.node a' c' k' l' r') ∧
          (Tree.node a' c' k' l' r').keys = (plug ctx (.node a c k l r)).keys ∧ Keeps t t' := by
      intro hb
      obtain ⟨a', c', k', l', r', e⟩ := plug_node ctx a c k l r
      refine ⟨t, a', c', k', l', r', insert_fixup_loop_black _ _ _ _ _ hb, ?_, by rw [e],
        Keeps.refl t⟩
      rw [← e]; exact (zip_plug t ctx _).mp hz
    match ctx, hf, hz, hrb, hexit with
    | [], _, _, _, hexit => exact hexit hnb
    | [f], _, hz, hrb, hexit =>
      apply hexit
      show (rd t f.addr).color = _
      rw [(zip_top_cell hz).1]
      exact hrb f rfl
    | f1 :: f2 :: rest, hf, hz, hrb, hexit =>
      by_cases hred : f1.color = RBTREE_RED
      swap
      · apply hexit
        show (rd t f1.addr).color = _
        rw [(zip_top_cell hz).1]
        cases hc : f1.color
        · exact absurd hc hred
        · rfl
      · have hpcol : (rd t f1.addr).color = RBTREE_RED := by
          rw [(zip_top_cell hz).1]; exact hred
        have hppar : (rd t f1.addr).parent = f2.addr := (zip_top_cell hz).2.1
        have hz2 : Zip t (f2 :: rest) (f1.fill (.node a c k l r)) := (zip_up _ _ _ _).mp hz
        have hfill : (f1.fill (.node a c k l r)).ptr t.nil = f1.addr := by cases f1 <;> rfl
        have hlen : rest.length + 2 ≤ fuel := by simp at hf; omega
        show ∃ t' a' c' k' l' r',
          _insert_fixup_loop (fuel + 1) t a f1.addr (rd t f1.addr).parent = some t' ∧ _
        rw [hppar]
        cases f2 with
        | L g cg kg u =>
          have hgl : (rd t g).left = f1.addr := by
            have := (zip_top_cell hz2).2.2
            simp only [Frame.addr] at this
            rw [this.1, hfill]
          have hgr : (rd t g).right = u.ptr t.nil := by
            have := (zip_top_cell hz2).2.2
            simp only [Frame.addr] at this
            exact this.2
          show ∃ t' a' c' k' l' r', _insert_fixup_loop (fuel + 1) t a f1.addr g = some t' ∧ _
          by_cases hu : (rd t (u.ptr t.nil)).color = RBTREE_RED
          · cases u with
            | leaf =>
              exfalso
              simp only [Tree.ptr] at hu
              rw [hnb] at hu
              exact absurd hu (by decide)
            | node ua uc uk ul ur =>
              simp only [Tree.ptr] at hu hgr
              obtain ⟨z3, k3⟩ := fixup_case1_left hz
              have hfc := (zip_focus_cell z3).1
              have step : _insert_fixup_loop (fuel + 1) t a f1.addr g =
                  _insert_fixup_loop fuel
                    (set_color (set_color (set_color t f1.addr RBTREE_BLACK) ua RBTREE_BLACK) g
                      RBTREE_RED) g
                    (ctxTop (set_color (set_color (set_color t f1.addr RBTREE_BLACK) ua
                      RBTREE_BLACK) g RBTREE_RED).nil rest)
                    (rd (set_color (set_color (set_color t f1.addr RBTREE_BLACK) ua RBTREE_BLACK)
                      g RBTREE_RED)
                      (ctxTop (set_color (set_color (set_color t f1.addr RBTREE_BLACK) ua
                      RBTREE_BLACK) g RBTREE_RED).nil rest)).parent := by
                rw [_insert_fixup_loop]
                simp only [hpcol, hgl, hgr, hu, if_true]
                rw [hfc]
              rw [step]
              obtain ⟨t', a', c', k', l', r', hloop, hwf, hkeys, hk⟩ :=
                ih _ rest g RBTREE_RED kg _ _ hlen z3 (k3.nilBlack hnb) hrb.tail2
              refine ⟨t', a', c', k', l', r', hloop, hwf, ?_, k3.trans hk⟩
              rw [hkeys]
              show _ = (plug rest _).keys
              apply plug_keys
              cases f1 <;> simp [Frame.fill, Frame.paint, Tree.keys]
          · cases f1 with
            | L p c1 k1 sr =>
              have hpr : (rd t p).right = sr.ptr t.nil := (zip_top_cell hz).2.2.2
              have hne : a ≠ sr.ptr t.nil := fun e => zip_sibling_ne hz e.symm
              obtain ⟨z3, k3⟩ := fixup_line_left hz
              have step : _insert_fixup_loop (fuel + 1) t a p g =
                  _insert_fixup_loop fuel
                    (_rotate_right (set_color (set_color t p RBTREE_BLACK) g RBTREE_RED) g)
                    a p g := by
                rw [_insert_fixup_loop]
                simp only [Frame.addr] at hpcol hgl
                simp only [hpcol, hgl, hgr, hu, hpr, hne, if_true, if_false]
              have hb := (zip_focus_cell z3).1
              obtain ⟨a', c', k', l', r', hloop, hwf, hkeys⟩ :=
                fixup_finish fuel a p g (by omega) z3 (by rw [hb])
              refine ⟨_, a', c', k', l', r', by rw [← hloop]; exact step, hwf, ?_, k3⟩
              rw [hkeys]
              show _ = (plug rest _).keys
              apply plug_keys
              simp [Frame.fill, Tree.keys]
            | R p c1 k1 sl =>
              have hpr : (rd t p).right = a := (zip_top_cell hz).2.2.2
              obtain ⟨z4, k4⟩ := fixup_triangle_left hz
              have step : _insert_fixup_loop (fuel + 1) t a p g =
                  _insert_fixup_loop fuel
                    (_rotate_right (set_color (set_color (_rotate_left t p) p RBTREE_BLACK) g
                      RBTREE_RED) g) p p g := by
                rw [_insert_fixup_loop]
                simp only [Frame.addr] at hpcol hgl
                simp only [hpcol, hgl, hgr, hu, hpr, if_true, if_false]
              have hb := (zip_focus_cell ((zip_up _ (.L a c k _) rest _).mpr z4)).1
              obtain ⟨a', c', k', l', r', hloop, hwf, hkeys⟩ :=
                fixup_finish fuel p p g (by omega) z4 (by rw [hb])
              refine ⟨_, a', c', k', l', r', by rw [← hloop]; exact step, hwf, ?_, k4⟩
              rw [hkeys]
              show _ = (plug rest _).keys
              apply plug_keys
              simp [Frame.fill, Tree.keys]
        | R g cg kg u =>
          have hgl : (rd t g).left = u.ptr t.nil := by
            have := (zip_top_cell hz2).2.2
            simp only [Frame.addr] at this
            exact this.1
          have hgne : f1.addr ≠ u.ptr t.nil := by
            intro e
            cases f1 <;> exact zip_sibling_ne hz2 e.symm
          show ∃ t' a' c' k' l' r', _insert_fixup_loop (fuel + 1) t a f1.addr g = some t' ∧ _
          by_cases hu : (rd t (u.ptr t.nil)).color = RBTREE_RED
          · cases u with
            | leaf =>
              exfalso
              simp only [Tree.ptr] at hu
              rw [hnb] at hu
              exact absurd hu (by decide)
            | node ua uc uk ul ur =>
              simp only [Tree.ptr] at hu hgl hgne
              obtain ⟨z3, k3⟩ := fixup_case1_right hz
              have hfc := (zip_focus_cell z3).1
              have step : _insert_fixup_loop (fuel + 1) t a f1.addr g =
                  _insert_fixup_loop fuel
                    (set_color (set_color (set_color t f1.addr RBTREE_BLACK) ua RBTREE_BLACK) g
                      RBTREE_RED) g
                    (ctxTop (set_color (set_color (set_color t f1.addr RBTREE_BLACK) ua
                      RBTREE_BLACK) g RBTREE_RED).nil rest)
                    (rd (set_color (set_color (set_color t f1.addr RBTREE_BLACK) ua RBTREE_BLACK)
                      g RBTREE_RED)
                      (ctxTop (set_color (set_color (set_color t f1.addr RBTREE_BLACK) ua
                      RBTREE_BLACK) g RBTREE_RED).nil rest)).parent := by
                rw [_insert_fixup_loop]
                simp only [hpcol, hgl, hgne, hu, if_true, if_false]
                rw [hfc]
              rw [step]
              obtain ⟨t', a', c', k', l', r', hloop, hwf, hkeys, hk⟩ :=
                ih _ rest g RBTREE_RED kg _ _ hlen z3 (k3.nilBlack hnb) hrb.tail2
              refine ⟨t', a', c', k', l', r', hloop, hwf, ?_, k3.trans hk⟩
              rw [hkeys]
              show _ = (plug rest _).keys
              apply plug_keys
              cases f1 <;> simp [Frame.fill, Frame.paint, Tree.keys]
          · cases f1 with
            | R p c1 k1 sl =>
              have hpl : (rd t p).left = sl.ptr t.nil := (zip_top_cell hz).2.2.1
              have hne : a ≠ sl.ptr t.nil := fun e => zip_sibling_ne hz e.symm
              obtain ⟨z3, k3⟩ := fixup_line_right hz
              have step : _insert_fixup_loop (fuel + 1) t a p g =
                  _insert_fixup_loop fuel
                    (_rotate_left (set_color (set_color t p RBTREE_BLACK) g RBTREE_RED) g)
                    a p g := by
                rw [_insert_fixup_loop]
                simp only [Frame.addr] at hpcol hgne
                simp only [hpcol, hgl, hgne, hu, hpl, hne, if_true, if_false]
              have hb := (zip_focus_cell z3).1
              obtain ⟨a', c', k', l', r', hloop, hwf, hkeys⟩ :=
                fixup_finish fuel a p g (by omega) z3 (by rw [hb])
              refine ⟨_, a', c', k', l', r', by rw [← hloop]; exact step, hwf, ?_, k3⟩
              rw [hkeys]
              show _ = (plug rest _).keys
              apply plug_keys
              simp [Frame.fill, Tree.keys]
            | L p c1 k1 sr =>
              have hpl : (rd t p).left = a := (zip_top_cell hz).2.2.1
              obtain ⟨z4, k4⟩ := fixup_triangle_right hz
              have step : _insert_fixup_loop (fuel + 1) t a p g =
                  _insert_fixup_loop fuel
                    (_rotate_left (set_color (set_color (_rotate_right t p) p RBTREE_BLACK) g
                      RBTREE_RED) g) p p g := by
                rw [_insert_fixup_loop]
                simp only [Frame.addr] at hpcol hgne
                simp only [hpcol, hgl, hgne, hu, hpl, if_true, if_false]
              have hb := (zip_focus_cell ((zip_up _ (.R a c k _) rest _).mpr z4)).1
              obtain ⟨a', c', k', l', r', hloop, hwf, hkeys⟩ :=
                fixup_finish fuel p p g (by omega) z4 (by rw [hb])
              refine ⟨_, a', c', k', l', r', by rw [← hloop]; exact step, hwf, ?_, k4⟩
              rw [hkeys]
              show _ = (plug rest _).keys
              apply plug_keys
              simp [Frame.fill, Tree.keys]

/-! ### `_insert`: allocation, descent and linking -/

theorem rd_calloc (t : rbtree) (q : Nat) :
    rd (calloc t).1 q = if q < t.mem.length then rd t q else default := by
  unfold rd calloc
  simp only [List.getD_eq_getElem?_getD]
  by_cases h : q < t.mem.length
  · simp [h, List.getElem?_append_left h]
  · simp only [h, if_false]
    rcases Nat.lt_or_ge t.mem.length q with h2 | h2
    · rw [List.getElem?_eq_none (by simp; omega)]; rfl
    · have : q = t.mem.length := by omega
      subst this
      simp

theorem rd_set_key (t : rbtree) (p q : Nat) (k : Int) :
    rd (set_key t p k) q = if q = p ∧ p < t.mem.length then { rd t p with key := k } else rd t q := by
  simp [set_key, rd_wr]

@[simp]
theorem set_key_nil (t : rbtree) (p : Nat) (k : Int) : (set_key t p k).nil = t.nil := rfl
@[simp]
theorem set_key_root (t : rbtree) (p : Nat) (k : Int) : (set_key t p k).root = t.root := rfl
@[simp]
theorem set_key_length (t : rbtree) (p : Nat) (k : Int) :
    (set_key t p k).mem.length = t.mem.length := by simp [set_key]
@[simp]
theorem calloc_nil (t : rbtree) : (calloc t).1.nil = t.nil := rfl
@[simp]
theorem calloc_root (t : rbtree) : (calloc t).1.root = t.root := rfl
@[simp]
theorem calloc_length (t : rbtree) : (calloc t).1.mem.length = t.mem.length + 1 := by
  simp [calloc]
@[simp]
theorem calloc_snd (t : rbtree) : (calloc t).2 = t.mem.length := rfl

/-- The state in which the descent loop of `_insert` runs: the new node is
allocated and initialised but not yet linked. -/
theorem insert_init_cells (t : rbtree) (key : Int) :
    let t1 := set_right (set_left (set_parent (set_key (set_color (calloc t).1 t.mem.length
      RBTREE_RED) t.mem.length key) t.mem.length t.nil) t.mem.length t.nil) t.mem.length t.nil
    rd t1 t.mem.length = ⟨RBTREE_RED, key, t.nil, t.nil, t.nil⟩ ∧
    (∀ q, q < t.mem.length → rd t1 q = rd t q) ∧
    t1.root = t.root ∧ t1.nil = t.nil ∧ t1.mem.length = t.mem.length + 1 := by
  refine ⟨?_, ?_, ?_, ?_, ?_⟩
  · simp [rd_set_right, rd_set_left, rd_set_parent, rd_set_key, rd_set_color, rd_calloc]
  · intro q hq
    have : q ≠ t.mem.length := by omega
    simp [rd_set_right, rd_set_left, rd_set_parent, rd_set_key, rd_set_color, rd_calloc, this, hq]
  · simp
  · simp
  · simp

/-- The descent loop of `_insert` walks the represented tree exactly as
`descend` does and returns the parent the new node will hang from. -/
theorem insert_loop_spec (t : rbtree) (n : Nat) (key : Int) (hkey : (rd t n).key = key) :
    ∀ (s : Tree) (fuel : Nat) (ctx : List Frame) (par : Nat), Rep t par s →
      s.height + 1 ≤ fuel →
      _insert_loop fuel t n (s.ptr t.nil) (ctxTop t.nil ctx) =
        some (ctxTop t.nil (descend key ctx s)) := by
  intro s
  induction s with
  | leaf =>
    intro fuel ctx par _ hf
    obtain ⟨fuel', rfl⟩ : ∃ f', fuel = f' + 1 := ⟨fuel - 1, by omega⟩
    simp [_insert_loop, Tree.ptr, descend]
  | node a c k l r ihl ihr =>
    intro fuel ctx par hr hf
    obtain ⟨fuel', rfl⟩ : ∃ f', fuel = f' + 1 := ⟨fuel - 1, by omega⟩
    obtain ⟨h1, h2, h3, h4, h5⟩ := hr
    simp only [Tree.height] at hf
    rw [_insert_loop]
    simp only [Tree.ptr, ne_eq, h1, not_false_eq_true, if_true, hkey, h3, descend]
    by_cases hlt : key < k
    · simp only [hlt, if_true]
      exact ihl fuel' (.L a c k r :: ctx) a h4 (by omega)
    · simp only [hlt, if_false]
      exact ihr fuel' (.R a c k l :: ctx) a h5 (by omega)

/-- The path found by the descent is a path of the represented tree, ending at
a leaf. -/
theorem zip_descend (t : rbtree) (key : Int) : ∀ (s : Tree) (ctx : List Frame),
    Zip t ctx s → Zip t (descend key ctx s) .leaf := by
  intro s
  induction s with
  | leaf => intro ctx h; exact h
  | node a c k l r ihl ihr =>
    intro ctx h
    simp only [descend]
    by_cases hlt : key < k
    · simp only [hlt, if_true]
      exact ihl _ ((zip_up t (.L a c k r) ctx l).mpr h)
    · simp only [hlt, if_false]
      exact ihr _ ((zip_up t (.R a c k l) ctx r).mpr h)

/-- Hanging the new red node where the descent ends is binary-search-tree
insertion. -/
theorem plug_descend (n : Nat) (key : Int) : ∀ (s : Tree) (ctx : List Frame),
    plug (descend key ctx s) (.node n RBTREE_RED key .leaf .leaf) = plug ctx (s.ins n key) := by
  intro s
  induction s with
  | leaf => intro ctx; rfl
  | node a c k l r ihl ihr =>
    intro ctx
    simp only [descend, Tree.ins]
    by_cases hlt : key < k
    · simp only [hlt, if_true]; rw [ihl]; rfl
    · simp only [hlt, if_false]; rw [ihr]; rfl

/-- The frame the descent ends under records the side the key comparison
chose. -/
theorem descend_top (key : Int) : ∀ (s : Tree) (ctx : List Frame),
    (∀ f rest, ctx = f :: rest → match f with
      | .L _ _ k _ => key < k
      | .R _ _ k _ => ¬ key < k) →
    ∀ f rest, descend key ctx s = f :: rest → match f with
      | .L _ _ k _ => key < k
      | .R _ _ k _ => ¬ key < k := by
  intro s
  induction s with
  | leaf => intro ctx h f rest e; exact h f rest e
  | node a c k l r ihl ihr =>
    intro ctx h f rest e
    simp only [descend] at e
    by_cases hlt : key < k
    · simp only [hlt, if_true] at e
      refine ihl _ ?_ f rest e
      intro f' rest' e'
      cases e'
      exact hlt
    · simp only [hlt, if_false] at e
      refine ihr _ ?_ f rest e
      intro f' rest' e'
      cases e'
      exact hlt

/-- Cell-level effect of STEP3 of `_insert`: the new node `n` gets its
parent, and the parent (or `t->root`) gets the new node. -/
theorem insert_link_cells (t1 : rbtree) (n top nl : Nat) (key : Int) (hnil : t1.nil = nl)
    (hn : rd t1 n = ⟨RBTREE_RED, key, nl, nl, nl⟩) (hnl : n < t1.mem.length)
    (htn : top ≠ n) (htl : top ≠ nl → top < t1.mem.length) :
    ∃ t3, t3 = (
      if top = nl then set_root (set_parent t1 n top) n
      else if (rd (set_parent t1 n top) n).key < (rd (set_parent t1 n top) top).key then
        set_left (set_parent t1 n top) top n
      else set_right (set_parent t1 n top) top n) ∧
    rd t3 n = ⟨RBTREE_RED, key, top, nl, nl⟩ ∧
    (top ≠ nl → rd t3 top =
      if key < (rd t1 top).key then { rd t1 top with left := n }
      else { rd t1 top with right := n }) ∧
    (∀ q, q ≠ n → (top ≠ nl → q ≠ top) → rd t3 q = rd t1 q) ∧
    t3.root = (if top = nl then n else t1.root) ∧ t3.nil = nl ∧
    t3.mem.length = t1.mem.length := by
  have hnt : n ≠ top := fun e => htn e.symm
  subst hnil
  refine ⟨_, rfl, ?_⟩
  by_cases h0 : top = t1.nil
  · refine ⟨?_, ?_, ?_, ?_, ?_, ?_⟩ <;> (try intro q h1 h2) <;>
      simp [rd_set_parent, rd_set_left, rd_set_right, hn, hnl, h0, *]
  · have hl := htl h0
    by_cases hk : key < (rd t1 top).key
    · refine ⟨?_, ?_, ?_, ?_, ?_, ?_⟩ <;> (try intro q h1 h2; have h3 := h2 h0) <;>
        simp [rd_set_parent, rd_set_left, rd_set_right, hn, hnl, h0, hl, hk, htn, hnt, *]
    · refine ⟨?_, ?_, ?_, ?_, ?_, ?_⟩ <;> (try intro q h1 h2; have h3 := h2 h0) <;>
        simp [rd_set_parent, rd_set_left, rd_set_right, hn, hnl, h0, hl, hk, htn, hnt, *]

/-- The body of `_insert` with the initialised heap written out. -/
theorem insert_eq (fuel : Nat) (t : rbtree) (key : Int) :
    _insert fuel t key =
      match _insert_loop fuel (set_right (set_left (set_parent (set_key (set_color (calloc t).1
          t.mem.length RBTREE_RED) t.mem.length key) t.mem.length t.nil) t.mem.length t.nil)
          t.mem.length t.nil) t.mem.length t.root t.nil with
      | none => none
      | some top =>
        some (
          if top = t.nil then set_root (set_parent (set_right (set_left (set_parent (set_key
            (set_color (calloc t).1 t.mem.length RBTREE_RED) t.mem.length key) t.mem.length t.nil)
            t.mem.length t.nil) t.mem.length t.nil) t.mem.length top) t.mem.length
          else if (rd (set_parent (set_right (set_left (set_parent (set_key
            (set_color (calloc t).1 t.mem.length RBTREE_RED) t.mem.length key) t.mem.length t.nil)
            t.mem.length t.nil) t.mem.length t.nil) t.mem.length top) t.mem.length).key <
              (rd (set_parent (set_right (set_left (set_parent (set_key
            (set_color (calloc t).1 t.mem.length RBTREE_RED) t.mem.length key) t.mem.length t.nil)
            t.mem.length t.nil) t.mem.length t.nil) t.mem.length top) top).key then
            set_left (set_parent (set_right (set_left (set_parent (set_key
            (set_color (calloc t).1 t.mem.length RBTREE_RED) t.mem.length key) t.mem.length t.nil)
            t.mem.length t.nil) t.mem.length t.nil) t.mem.length top) top t.mem.length
          else set_right (set_parent (set_right (set_left (set_parent (set_key
            (set_color (calloc t).1 t.mem.length RBTREE_RED) t.mem.length key) t.mem.length t.nil)
            t.mem.length t.nil) t.mem.length t.nil) t.mem.length top) top t.mem.length,
          t.mem.length) := rfl

/-- `_insert` on a well-formed tree: it returns the freshly allocated cell,
linked as a red leaf where `descend` ends. -/
theorem insert_spec (t : rbtree) (T : Tree) (key : Int) (fuel : Nat) (hwf : WF t T)
    (hnl : t.nil < t.mem.length) (hf : T.height + 1 ≤ fuel) :
    ∃ t3, _insert fuel t key = some (t3, t.mem.length) ∧
      Zip t3 (descend key [] T) (.node t.mem.length RBTREE_RED key .leaf .leaf) ∧
      t3.nil = t.nil ∧ t3.mem.length = t.mem.length + 1 ∧ rd t3 t.nil = rd t t.nil := by
  obtain ⟨i1, i2, i3, i4, i5⟩ := insert_init_cells t key
  rw [insert_eq]
  generalize set_right (set_left (set_parent (set_key (set_color (calloc t).1 t.mem.length
      RBTREE_RED) t.mem.length key) t.mem.length t.nil) t.mem.length t.nil) t.mem.length t.nil
      = t1 at *
  -- the old tree is still laid out in the extended heap
  obtain ⟨hc, hr, hnd⟩ := hwf
  have hbT := Rep_bound T _ hr
  have hr1 : Rep t1 t1.nil T := by
    rw [i4]
    exact Rep_frame_le t t1 i4 (by omega) T t.nil (fun q hq => i2 q (hbT q hq).2) hr
  have hloop := insert_loop_spec t1 t.mem.length key (by rw [i1]) T fuel [] t1.nil hr1 hf
  have hroot : T.ptr t1.nil = t.root := by
    rw [i4]; exact hc.symm
  have hct : ctxTop t1.nil ([] : List Frame) = t1.nil := rfl
  rw [hct, hroot, i4] at hloop
  rw [hloop]
  -- the path the descent found, in the old heap
  have hzd : Zip t (descend key [] T) .leaf := zip_descend t key T [] ⟨hc, hr, hnd⟩
  obtain ⟨hcd, -, hndd⟩ := hzd
  have hbd := RepCtx_bound _ _ hcd
  simp only [Tree.addrs, List.append_nil] at hndd
  have htop_mem := ctxTop_mem t.nil (descend key [] T)
  have htn : ctxTop t.nil (descend key [] T) ≠ t.mem.length := by
    by_cases h0 : ctxTop t.nil (descend key [] T) = t.nil
    · rw [h0]; omega
    · have := (hbd _ (htop_mem h0)).2; omega
  have htl : ctxTop t.nil (descend key [] T) ≠ t.nil →
      ctxTop t.nil (descend key [] T) < t1.mem.length := by
    intro h0
    have := (hbd _ (htop_mem h0)).2; omega
  obtain ⟨t3, e3, l1, l2, l3, l4, l5, l6⟩ :=
    insert_link_cells t1 t.mem.length (ctxTop t.nil (descend key [] T)) t.nil key i4 i1
      (by omega) htn htl
  dsimp only
  rw [← e3]
  clear e3
  have hcellold : ∀ q, q < t.mem.length →
      (ctxTop t.nil (descend key [] T) ≠ t.nil → q ≠ ctxTop t.nil (descend key [] T)) →
      rd t3 q = rd t q := fun q hq hne => (l3 q (by omega) hne).trans (i2 q hq)
  refine ⟨t3, rfl, ⟨?_, ⟨by rw [l5]; omega, by rw [l6]; omega, ?_, trivial, trivial⟩, ?_⟩, l5,
    by rw [l6, i5], ?_⟩
  · have hdt := descend_top key T [] (fun f rest e => by cases e)
    rw [l5]
    show RepCtx t3 t.mem.length _
    revert hcd hbd hndd htop_mem htn htl l1 l2 l3 l4 l5 l6 hcellold hdt
    generalize descend key [] T = ctx
    intro hcd hbd hndd htop_mem htn htl l1 l2 l3 l4 l5 l6 hcellold hdt
    cases ctx with
    | nil => simp only [RepCtx]; rw [l4]; simp [ctxTop]
    | cons f rest =>
      have h0 : ctxTop t.nil (f :: rest) ≠ t.nil := ctxTop_ne_nil hcd
      have hroot : t3.root = t.root := by rw [l4, if_neg h0, i3]
      refine RepCtx_rehole t t3 l5 (by rw [l6]; omega) hroot f rest _ _ ?_ ?_ hndd hcd
      · have e2 := l2 h0
        rw [i2 _ (hbd _ (htop_mem h0)).2] at e2
        simp only [ctxTop] at e2
        rw [e2]
        have hd := hdt f rest rfl
        cases f with
        | L a c k r =>
          obtain ⟨_, _, h3, _, _⟩ := hcd
          simp only [Frame.addr, h3] at hd ⊢
          simp [hd]
        | R a c k l =>
          obtain ⟨_, _, h3, _, _⟩ := hcd
          simp only [Frame.addr, h3] at hd ⊢
          simp [hd]
      · intro a ha hne
        exact hcellold a (hbd a ha).2 (fun _ => hne)
  · rw [l1, l5]; rfl
  · simp only [Tree.addrs, List.nil_append]
    rw [List.nodup_append]
    refine ⟨hndd, by simp, ?_⟩
    intro a ha hb
    simp only [List.mem_singleton] at hb
    have := (hbd a ha).2
    omega
  · refine hcellold t.nil hnl (fun h0 e => h0 e.symm)

/-! ### Keys of the tree after an insertion -/

theorem ins_keys_perm (n : Nat) (key : Int) : ∀ T : Tree, (T.ins n key).keys.Perm (key :: T.keys) := by
  intro T
  induction T with
  | leaf => simp [Tree.ins, Tree.keys]
  | node a c k l r ihl ihr =>
    simp only [Tree.ins]
    by_cases hlt : key < k
    · simp only [hlt, if_true, Tree.keys]
      exact (List.Perm.append_right _ ihl).trans (by simp)
    · simp only [hlt, if_false, Tree.keys]
      have h1 : (l.keys ++ k :: (r.ins n key).keys).Perm (l.keys ++ k :: key :: r.keys) :=
        List.Perm.append_left _ (List.Perm.cons _ ihr)
      refine h1.trans ?_
      rw [List.perm_iff_count]
      intro x
      simp only [List.count_append, List.count_cons]
      omega

/-- Insertion keeps the in-order keys non-decreasing. -/
theorem ins_keys_sorted (n : Nat) (key : Int) : ∀ T : Tree, T.keys.Pairwise (· ≤ ·) →
    (T.ins n key).keys.Pairwise (· ≤ ·) := by
  intro T
  induction T with
  | leaf => intro _; simp [Tree.ins, Tree.keys]
  | node a c k l r ihl ihr =>
    intro h
    simp only [Tree.keys, List.pairwise_append, List.pairwise_cons] at h
    obtain ⟨hl, ⟨hkr, hr⟩, hlr⟩ := h
    simp only [Tree.ins]
    by_cases hlt : key < k
    · simp only [hlt, if_true, Tree.keys, List.pairwise_append, List.pairwise_cons]
      refine ⟨ihl hl, ⟨hkr, hr⟩, ?_⟩
      intro x hx y hy
      have hx' := (ins_keys_perm n key l).mem_iff.mp hx
      simp only [List.mem_cons] at hx' hy
      rcases hx' with rfl | hx'
      · rcases hy with rfl | hy
        · omega
        · have := hkr y hy; omega
      · exact hlr x hx' y (by simp [hy])
    · simp only [hlt, if_false, Tree.keys, List.pairwise_append, List.pairwise_cons]
      refine ⟨hl, ⟨?_, ihr hr⟩, ?_⟩
      · intro y hy
        have hy' := (ins_keys_perm n key r).mem_iff.mp hy
        simp only [List.mem_cons] at hy'
        rcases hy' with rfl | hy'
        · omega
        · exact hkr y hy'
      · intro x hx y hy
        simp only [List.mem_cons] at hy
        rcases hy with rfl | hy
        · exact hlr x hx _ (by simp)
        · have hy' := (ins_keys_perm n key r).mem_iff.mp hy
          simp only [List.mem_cons] at hy'
          rcases hy' with rfl | hy'
          · have := hlr x hx k (by simp); omega
          · exact hlr x hx y (by simp [hy'])

/-- The descent adds at most `height` frames. -/
theorem descend_length (key : Int) : ∀ (s : Tree) (ctx : List Frame),
    (descend key ctx s).length ≤ ctx.length + s.height := by
  intro s
  induction s with
  | leaf => intro ctx; simp [descend]
  | node a c k l r ihl ihr =>
    intro ctx
    simp only [descend, Tree.height]
    by_cases hlt : key < k
    · simp only [hlt, if_true]
      have := ihl (.L a c k r :: ctx)
      simp only [List.length_cons] at this
      omega
    · simp only [hlt, if_false]
      have := ihr (.R a c k l :: ctx)
      simp only [List.length_cons] at this
      omega

/-- The descent does not change the topmost frame of a non-empty path. -/
theorem descend_getLast (key : Int) : ∀ (s : Tree) (ctx : List Frame), ctx ≠ [] →
    (descend key ctx s).getLast? = ctx.getLast? := by
  intro s
  induction s with
  | leaf => intro ctx _; rfl
  | node a c k l r ihl ihr =>
    intro ctx hne
    simp only [descend]
    obtain ⟨f, rest, rfl⟩ := List.exists_cons_of_ne_nil hne
    by_cases hlt : key < k
    · simp only [hlt, if_true]
      rw [ihl _ (by simp), List.getLast?_cons_cons]
    · simp only [hlt, if_false]
      rw [ihr _ (by simp), List.getLast?_cons_cons]

/-- The topmost frame of the path found from the root is the root itself. -/
theorem descend_rootBlack (key : Int) (T : Tree) (h : T.rootBlack) :
    RootBlack (descend key [] T) := by
  cases T with
  | leaf => intro f hf; simp [descend] at hf
  | node a c k l r =>
    intro f hf
    simp only [descend] at hf
    by_cases hlt : key < k
    · simp only [hlt, if_true] at hf
      rw [descend_getLast _ _ _ (by simp)] at hf
      simp only [List.getLast?_singleton, Option.some.injEq] at hf
      subst hf
      exact h
    · simp only [hlt, if_false] at hf
      rw [descend_getLast _ _ _ (by simp)] at hf
      simp only [List.getLast?_singleton, Option.some.injEq] at hf
      subst hf
      exact h

/-- The height of a tree is at most its number of nodes. -/
theorem Tree.height_le_keys : ∀ T : Tree, T.height ≤ T.keys.length := by
  intro T
  induction T with
  | leaf => simp [Tree.height]
  | node a c k l r ihl ihr =>
    simp only [Tree.height, Tree.keys, List.length_append, List.length_cons]
    omega

/-! ### `rbtree_insert` and sequences of insertions -/

/-- One `rbtree_insert` on a good heap: it finishes, returns `t->root`, and
the new heap is good again and lays out a tree whose in-order keys are those
of the binary-search-tree insertion. -/
theorem rbtree_insert_spec (t : rbtree) (T : Tree) (key : Int) (fuel : Nat) (hg : Good t T)
    (hf : T.height + 2 ≤ fuel) :
    ∃ t' T', rbtree_insert fuel t key = some (t', t'.root) ∧ Good t' T' ∧
      T'.keys = (T.ins t.mem.length key).keys ∧ t'.nil = t.nil ∧
      t'.mem.length = t.mem.length + 1 ∧ T'.ptr t'.nil ≠ t'.nil := by
  obtain ⟨hwf, hnl, hnb, hrb⟩ := hg
  obtain ⟨t3, e3, z3, n3, l3, c3⟩ := insert_spec t T key fuel hwf hnl (by omega)
  have hnb3 : NilBlack t3 := by
    unfold NilBlack at *
    rw [n3, c3]; exact hnb
  have hlen : (descend key [] T).length + 2 ≤ fuel := by
    have := descend_length key T []
    simp only [List.length_nil] at this
    omega
  obtain ⟨t4, a', c', k', l', r', e4, wf4, hk4, kp4⟩ :=
    insert_fixup_loop_spec fuel t3 (descend key [] T) t.mem.length RBTREE_RED key .leaf .leaf
      hlen z3 hnb3 (descend_rootBlack key T hrb)
  have hpar : (rd t3 t.mem.length).parent = ctxTop t3.nil (descend key [] T) := by
    rw [(zip_focus_cell z3).1]
  have hroot4 : t4.root = a' := wf4.1
  have wf5 := zip_set_color RBTREE_BLACK wf4
  have kp5 := keeps_set_color RBTREE_BLACK (zip_focus_cell wf4).2
  have kp := kp4.trans kp5
  refine ⟨set_color t4 a' RBTREE_BLACK, .node a' RBTREE_BLACK k' l' r', ?_, ⟨wf5, ?_, ?_, rfl⟩, ?_,
    ?_, ?_, (zip_focus_cell wf5).2⟩
  · unfold rbtree_insert
    rw [e3]
    simp only [_insert_fixup, hpar, e4, hroot4]
  · rw [kp.1, kp.2.1, n3, l3]; omega
  · exact kp.nilBlack hnb3
  · have : (Tree.node a' RBTREE_BLACK k' l' r').keys = (Tree.node a' c' k' l' r').keys := rfl
    rw [this, hk4, plug_descend]
    rfl
  · rw [kp.1, n3]
  · rw [kp.2.1, l3]

/-- The heap `new_rbtree` builds is good and lays out the empty tree. -/
theorem good_new : Good new_rbtree .leaf := by
  refine ⟨⟨rfl, trivial, by simp [ctxAddrs, Tree.addrs]⟩, by decide, rfl, trivial⟩

/-- Inserting a list of keys into a good heap: every call finishes when the
budget exceeds the number of keys, and the final in-order keys are sorted and
are the old keys together with the inserted ones. -/
theorem insert_all_spec : ∀ (keys : List Int) (t : rbtree) (T : Tree) (fuel : Nat),
    Good t T → T.keys.length + keys.length < fuel → T.keys.Pairwise (· ≤ ·) →
    ∃ t' T', insert_all fuel t keys = some t' ∧ Good t' T' ∧
      T'.keys.Pairwise (· ≤ ·) ∧ T'.keys.Perm (T.keys ++ keys) ∧ t'.nil = t.nil := by
  intro keys
  induction keys with
  | nil =>
    intro t T fuel hg _ hs
    exact ⟨t, T, rfl, hg, hs, by simp, rfl⟩
  | cons key rest ih =>
    intro t T fuel hg hf hs
    simp only [List.length_cons] at hf
    have hh := Tree.height_le_keys T
    obtain ⟨t1, T1, e1, g1, hk1, hn1, -, -⟩ := rbtree_insert_spec t T key fuel hg (by omega)
    have hp1 : T1.keys.Perm (key :: T.keys) := by rw [hk1]; exact ins_keys_perm _ _ _
    have hs1 : T1.keys.Pairwise (· ≤ ·) := by rw [hk1]; exact ins_keys_sorted _ _ _ hs
    have hl1 : T1.keys.length = T.keys.length + 1 := by rw [hp1.length_eq]; simp
    obtain ⟨t2, T2, e2, g2, hs2, hp2, hn2⟩ := ih t1 T1 fuel g1 (by omega) hs1
    refine ⟨t2, T2, ?_, g2, hs2, ?_, by rw [hn2, hn1]⟩
    · simp only [insert_all, e1]
      exact e2
    · refine hp2.trans ?_
      refine (List.Perm.append_right rest hp1).trans ?_
      rw [List.perm_iff_count]
      intro x
      simp only [List.count_append, List.count_cons, List.cons_append]
      omega

/-! ### Observers on a well-formed heap -/

theorem Tree.ptr_node (nil a : Nat) (c : color_t) (k : Int) (l r : Tree) :
    (Tree.node a c k l r).ptr nil = a := rfl

/-- On a represented tree the in-order traversal of the heap reads off the keys
of the tree. -/
theorem inorder_keys_spec (t : rbtree) : ∀ (s : Tree) (fuel par : Nat), Rep t par s →
    s.height + 1 ≤ fuel → inorder_keys fuel t (s.ptr t.nil) = some s.keys := by
  intro s
  induction s with
  | leaf =>
    intro fuel par _ hf
    obtain ⟨fuel', rfl⟩ : ∃ f', fuel = f' + 1 := ⟨fuel - 1, by omega⟩
    simp [inorder_keys, Tree.ptr, Tree.keys]
  | node a c k l r ihl ihr =>
    intro fuel par hr hf
    obtain ⟨fuel', rfl⟩ : ∃ f', fuel = f' + 1 := ⟨fuel - 1, by omega⟩
    obtain ⟨h1, h2, h3, h4, h5⟩ := hr
    simp only [Tree.height] at hf
    rw [inorder_keys]
    simp only [Tree.ptr_node, h1, if_false, h3]
    rw [ihl fuel' a h4 (by omega), ihr fuel' a h5 (by omega)]
    rfl

/-- On a represented non-empty tree the leftmost descent ends at a real node
that holds the first key of the in-order sequence. -/
theorem leftmost_spec (t : rbtree) : ∀ (s : Tree) (fuel par : Nat), Rep t par s →
    s.ptr t.nil ≠ t.nil → s.height ≤ fuel →
    ∃ p tl, leftmost_loop fuel t t.nil (s.ptr t.nil) = some p ∧ p ≠ t.nil ∧
      s.keys = (rd t p).key :: tl := by
  intro s
  induction s with
  | leaf => intro fuel par _ hne _; exact absurd rfl hne
  | node a c k l r ihl _ =>
    intro fuel par hr _ hf
    simp only [Tree.height] at hf
    obtain ⟨fuel', rfl⟩ : ∃ f', fuel = f' + 1 := ⟨fuel - 1, by omega⟩
    obtain ⟨h1, h2, h3, h4, h5⟩ := hr
    rw [leftmost_loop]
    simp only [Tree.ptr_node, h3]
    by_cases hl : l.ptr t.nil = t.nil
    · simp only [hl, ne_eq, not_true_eq_false, if_false]
      refine ⟨a, r.keys, rfl, h1, ?_⟩
      cases l with
      | leaf => simp [Tree.keys, h3]
      | node b _ _ _ _ => exact absurd hl h4.1
    · simp only [ne_eq, hl, not_false_eq_true, if_true]
      obtain ⟨p, tl, e, hp, hk⟩ := ihl fuel' a h4 hl (by omega)
      exact ⟨p, tl ++ k :: r.keys, e, hp, by simp [Tree.keys, hk]⟩

/-- On a represented non-empty tree the rightmost descent ends at a real node
that holds the last key of the in-order sequence. -/
theorem rightmost_spec (t : rbtree) : ∀ (s : Tree) (fuel par : Nat), Rep t par s →
    s.ptr t.nil ≠ t.nil → s.height ≤ fuel →
    ∃ p pre, rightmost_loop fuel t (s.ptr t.nil) = some p ∧ p ≠ t.nil ∧
      s.keys = pre ++ [(rd t p).key] := by
  intro s
  induction s with
  | leaf => intro fuel par _ hne _; exact absurd rfl hne
  | node a c k l r _ ihr =>
    intro fuel par hr _ hf
    simp only [Tree.height] at hf
    obtain ⟨fuel', rfl⟩ : ∃ f', fuel = f' + 1 := ⟨fuel - 1, by omega⟩
    obtain ⟨h1, h2, h3, h4, h5⟩ := hr
    rw [rightmost_loop]
    simp only [Tree.ptr_node, h3]
    by_cases hl : r.ptr t.nil = t.nil
    · simp only [hl, ne_eq, not_true_eq_false, if_false]
      refine ⟨a, l.keys, rfl, h1, ?_⟩
      cases r with
      | leaf => simp [Tree.keys, h3]
      | node b _ _ _ _ => exact absurd hl h5.1
    · simp only [ne_eq, hl, not_false_eq_true, if_true]
      obtain ⟨p, pre, e, hp, hk⟩ := ihr fuel' a h5 hl (by omega)
      exact ⟨p, l.keys ++ k :: pre, e, hp, by simp [Tree.keys, hk]⟩

/-! ### Fields that the fix-up never writes -/

theorem key_set_color (t : rbtree) (p q : Nat) (c : color_t) :
    (rd (set_color t p c) q).key = (rd t q).key := (color_set_color t p q c).1

theorem key_set_parent (t : rbtree) (p q r : Nat) :
    (rd (set_parent t p r) q).key = (rd t q).key := by
  rw [rd_set_parent]; split
  · next h => obtain ⟨rfl, _⟩ := h; rfl
  · rfl

theorem key_set_left (t : rbtree) (p q r : Nat) :
    (rd (set_left t p r) q).key = (rd t q).key := by
  rw [rd_set_left]; split
  · next h => obtain ⟨rfl, _⟩ := h; rfl
  · rfl

theorem key_set_right (t : rbtree) (p q r : Nat) :
    (rd (set_right t p r) q).key = (rd t q).key := by
  rw [rd_set_right]; split
  · next h => obtain ⟨rfl, _⟩ := h; rfl
  · rfl

theorem key_rotate_left (t : rbtree) (x q : Nat) :
    (rd (_rotate_left t x) q).key = (rd t q).key := by
  unfold _rotate_left
  simp only []
  split_ifs <;> simp only [key_set_parent, key_set_left, key_set_right, rd_set_root]

theorem key_rotate_right (t : rbtree) (x q : Nat) :
    (rd (_rotate_right t x) q).key = (rd t q).key := by
  unfold _rotate_right
  simp only []
  split_ifs <;> simp only [key_set_parent, key_set_left, key_set_right, rd_set_root]

/-- The loop of `_insert_fixup` writes no key field. -/
theorem key_insert_fixup_loop : ∀ (fuel : Nat) (t t' : rbtree) (current parent ancestor : Nat),
    _insert_fixup_loop fuel t current parent ancestor = some t' →
    ∀ q, (rd t' q).key = (rd t q).key := by
  intro fuel
  induction fuel with
  | zero => intro t t' _ _ _ h; simp [_insert_fixup_loop] at h
  | succ fuel ih =>
    intro t t' current parent ancestor h q
    rw [_insert_fixup_loop] at h
    simp only [] at h
    split_ifs at h <;>
      first
      | (cases h; rfl)
      | (rw [ih _ _ _ _ _ h q]
         simp only [key_set_color, key_rotate_right, key_rotate_left])

/-! ### What `rbtree_insert` returns, on any heap -/

theorem key_insert (fuel : Nat) (t t3 : rbtree) (key : Int) (n : Nat)
    (h : _insert fuel t key = some (t3, n)) : n = t.mem.length ∧ (rd t3 n).key = key := by
  rw [insert_eq] at h
  split at h
  · exact absurd h (by simp)
  · next top _ =>
    simp only [Option.some.injEq, Prod.mk.injEq] at h
    obtain ⟨h1, h2⟩ := h
    subst h2
    refine ⟨rfl, ?_⟩
    subst h1
    split_ifs <;>
      simp [key_set_parent, key_set_left, key_set_right, rd_set_key, rd_set_color, rd_calloc]

/-- On any heap: what `rbtree_insert` returns is `t->root`, and the cell it
allocated holds the key. -/
theorem rbtree_insert_result (fuel : Nat) (t t' : rbtree) (key : Int) (r : Nat)
    (h : rbtree_insert fuel t key = some (t', r)) :
    r = t'.root ∧ (rd t' t.mem.length).key = key := by
  unfold rbtree_insert at h
  split at h
  · exact absurd h (by simp)
  · next t3 n e3 =>
    obtain ⟨hn, hk⟩ := key_insert fuel t t3 key n e3
    subst hn
    unfold _insert_fixup at h
    simp only [] at h
    split at h
    · exact absurd h (by simp)
    · next t5 r5 e5 =>
      split at e5
      · exact absurd e5 (by simp)
      · next t4 e4 =>
        simp only [Option.some.injEq, Prod.mk.injEq] at e5 h
        obtain ⟨rfl, rfl⟩ := e5
        obtain ⟨rfl, rfl⟩ := h
        refine ⟨rfl, ?_⟩
        rw [key_set_color, key_insert_fixup_loop _ _ _ _ _ _ e4, hk]

/-! ### The record of freed cells -/

@[simp]
theorem set_color_freed (t : rbtree) (p : Nat) (c : color_t) :
    (set_color t p c).freed = t.freed := rfl
@[simp]
theorem set_parent_freed (t : rbtree) (p q : Nat) : (set_parent t p q).freed = t.freed := rfl
@[simp]
theorem set_left_freed (t : rbtree) (p q : Nat) : (set_left t p q).freed = t.freed := rfl
@[simp]
theorem set_right_freed (t : rbtree) (p q : Nat) : (set_right t p q).freed = t.freed := rfl
@[simp]
theorem set_root_freed (t : rbtree) (q : Nat) : (set_root t q).freed = t.freed := rfl

@[simp]
theorem rotate_left_freed (t : rbtree) (x : Nat) : (_rotate_left t x).freed = t.freed := by
  unfold _rotate_left
  simp only []
  split_ifs <;> simp

@[simp]
theorem rotate_right_freed (t : rbtree) (x : Nat) : (_rotate_right t x).freed = t.freed := by
  unfold _rotate_right
  simp only []
  split_ifs <;> simp

@[simp]
theorem transplant_freed (t : rbtree) (u v : Nat) : (_rb_transplant t u v).freed = t.freed := by
  unfold _rb_transplant
  simp only []
  split_ifs <;> simp

@[simp]
theorem delete_fixup_left_freed (t : rbtree) (curr : Nat) :
    (_rb_delete_fixup_left t curr).1.freed = t.freed := by
  unfold _rb_delete_fixup_left
  simp only []
  split_ifs <;> simp

@[simp]
theorem delete_fixup_right_freed (t : rbtree) (curr : Nat) :
    (_rb_delete_fixup_right t curr).1.freed = t.freed := by
  unfold _rb_delete_fixup_right
  simp only []
  split_ifs <;> simp

/-- `_rb_delete_fixup` frees nothing. -/
theorem delete_fixup_freed : ∀ (fuel : Nat) (t t' : rbtree) (curr : Nat),
    _rb_delete_fixup fuel t curr = some t' → t'.freed = t.freed := by
  intro fuel
  induction fuel with
  | zero => intro t t' _ h; simp [_rb_delete_fixup] at h
  | succ fuel ih =>
    intro t t' curr h
    rw [_rb_delete_fixup] at h
    simp only [] at h
    split_ifs at h
    · rw [ih _ _ _ h]; simp
    · rw [ih _ _ _ h]; simp
    · cases h; rfl

/-- When `rbtree_erase` finds a node for `p->key`, that node is the one it
frees, and it returns 0. -/
theorem erase_freed (fuel : Nat) (t t' : rbtree) (p z : Nat) (r : Int)
    (hf : rbtree_find fuel t (rd t p).key = some (some z))
    (h : rbtree_erase fuel t p = some (t', r)) : t'.freed = z :: t.freed ∧ r = 0 := by
  unfold rbtree_erase at h
  rw [hf] at h
  simp only [] at h
  split at h
  · exact absurd h (by simp)
  · next t2 x col heq =>
    have h2 : t2.freed = t.freed := by
      split_ifs at heq
      · simp only [Option.some.injEq, Prod.mk.injEq] at heq
        obtain ⟨rfl, -, -⟩ := heq
        simp
      · simp only [Option.some.injEq, Prod.mk.injEq] at heq
        obtain ⟨rfl, -, -⟩ := heq
        simp
      · simp only [Option.some.injEq, Prod.mk.injEq] at heq
        obtain ⟨rfl, -, -⟩ := heq
        simp
      · split at heq
        · exact absurd heq (by simp)
        · simp only [Option.some.injEq, Prod.mk.injEq] at heq
          obtain ⟨rfl, -, -⟩ := heq
          split_ifs <;> simp
    split at h
    · exact absurd h (by simp)
    · next t3 e3 =>
      simp only [Option.some.injEq, Prod.mk.injEq] at h
      obtain ⟨rfl, rfl⟩ := h
      refine ⟨?_, rfl⟩
      have h3 : t3.freed = t2.freed := by
        split_ifs at e3
        · exact delete_fixup_freed _ _ _ _ e3
        · cases e3; rfl
      simp [free, h3, h2]

/-- When `rbtree_find` answers `NULL` for `p->key`, `rbtree_erase` returns 0
and the state is untouched. -/
theorem erase_absent (fuel : Nat) (t : rbtree) (p : Nat)
    (hf : rbtree_find fuel t (rd t p).key = some none) : rbtree_erase fuel t p = some (t, 0) := by
  unfold rbtree_erase
  rw [hf]

/-- A node returned by `rbtree_find` is not the sentinel and holds the key
searched for. -/
theorem find_loop_key : ∀ (fuel : Nat) (t : rbtree) (key : Int) (current z : Nat),
    rbtree_find_loop fuel t key current = some (some z) → z ≠ t.nil ∧ (rd t z).key = key := by
  intro fuel
  induction fuel with
  | zero => intro t key current z h; simp [rbtree_find_loop] at h
  | succ fuel ih =>
    intro t key current z h
    rw [rbtree_find_loop] at h
    split_ifs at h with h1 h2 h3
    · exact ih _ _ _ _ h
    · exact ih _ _ _ _ h
    · simp only [Option.some.injEq] at h
      subst h
      exact ⟨h1, by omega⟩
    · simp at h

/-! ## The claims -/

/-- Claim C1, black-height invariant, evaluated at the input insert 3, 1, 2: the
calls finish, and of the four paths from the root to the sentinel the two
through the root's left child pass two black nodes while the two through its
right child pass one. -/
theorem C1_black_height_differs :
    (run 10 new_rbtree [op.insert 3, op.insert 1, op.insert 2]).bind
      (fun t => path_blacks 10 t t.root) = some [2, 2, 1, 1] := by
  decide

/-- Claim C2, no-red-red invariant, evaluated at the input insert 10, 5, 15, 1, 3:
the calls finish, and the red node with key 3 has the red child with key 5. -/
theorem C2_red_node_with_red_child :
    (run 10 new_rbtree [op.insert 10, op.insert 5, op.insert 15, op.insert 1, op.insert 3]).bind
      (fun t => red_red_pairs 10 t t.root) = some [(3, 5)] := by
  decide

/-- Claim C3, counterexample: after insert 10, the call insert 20 allocates cell 2
for its node but returns cell 1, the root, whose key is 10. -/
theorem C3_second_insert_returns_first_node :
    (calloc tree_10).2 = 2 ∧
    (rbtree_insert 10 tree_10 20).map (fun s => (s.2, s.1.root, (rd s.1 s.2).key, (rd s.1 2).key))
      = some (1, 1, 10, 20) := by
  decide

/-- Claim C3, amended: whenever `rbtree_insert(t, k)` returns, on any heap, the node
it returns is `t->root` as it stands after the fix-up, and the cell allocated
for the call holds the key `k`; on a tree built from `new_rbtree` by
insertions alone the call does return once the step budget exceeds the number
of keys by one. -/
theorem C3_insert_returns_root :
    (∀ (fuel : Nat) (t t' : rbtree) (key : Int) (r : Nat),
      rbtree_insert fuel t key = some (t', r) →
        r = t'.root ∧ (calloc t).2 = t.mem.length ∧ (rd t' t.mem.length).key = key) ∧
    (∀ (keys : List Int) (key : Int) (fuel : Nat), keys.length + 1 < fuel →
      ∃ t t', insert_all fuel new_rbtree keys = some t ∧
        rbtree_insert fuel t key = some (t', t'.root)) := by
  refine ⟨?_, ?_⟩
  · intro fuel t t' key r h
    obtain ⟨h1, h2⟩ := rbtree_insert_result fuel t t' key r h
    exact ⟨h1, rfl, h2⟩
  · intro keys key fuel hf
    obtain ⟨t, T, e, g, -, hp, -⟩ :=
      insert_all_spec keys new_rbtree .leaf fuel good_new (by simp [Tree.keys]; omega)
        (by simp [Tree.keys])
    have hl : T.keys.length = keys.length := by rw [hp.length_eq]; simp [Tree.keys]
    have hh := Tree.height_le_keys T
    obtain ⟨t', T', e', -⟩ := rbtree_insert_spec t T key fuel g (by omega)
    exact ⟨t, t', e, e'⟩

/-- Claim C3, witness: both parts at the input insert 10, then insert 20. -/
theorem C3_insert_returns_root_witness :
    (∃ t', rbtree_insert 10 tree_10 20 = some (t', 1) ∧
      (1 = t'.root ∧ (calloc tree_10).2 = tree_10.mem.length ∧
        (rd t' tree_10.mem.length).key = 20)) ∧
    ([10].length + 1 < 10 ∧
      ∃ t t', insert_all 10 new_rbtree [10] = some t ∧
        rbtree_insert 10 t 20 = some (t', t'.root)) := by
  refine ⟨?_, by decide, C3_insert_returns_root.2 [10] 20 10 (by decide)⟩
  have h : ∃ t', rbtree_insert 10 tree_10 20 = some (t', 1) := by
    cases e : rbtree_insert 10 tree_10 20 with
    | none => exact absurd e (by decide)
    | some s =>
      have h2 : s.2 = 1 := by
        have : (rbtree_insert 10 tree_10 20).map (fun s => s.2) = some 1 := by decide
        rw [e] at this
        simpa using this
      exact ⟨s.1, by rw [← h2]⟩
  obtain ⟨t', e⟩ := h
  exact ⟨t', e, C3_insert_returns_root.1 10 tree_10 t' 20 1 e⟩

/-- Claim C4, search correctness, evaluated at the input insert 3, 1, 2, 4, 5, then
erase the nodes with keys 5, 1, 2 (cells 5, 2, 3): the calls finish, exactly
those three cells are freed, the cells 1 and 4 still hold the keys 3 and 4,
and `rbtree_find` answers `NULL` for both keys. -/
theorem C4_find_misses_present_keys :
    (run 10 new_rbtree [op.insert 3, op.insert 1, op.insert 2, op.insert 4, op.insert 5,
        op.erase 5, op.erase 2, op.erase 3]).map
      (fun t => ([(rd t 5).key, (rd t 2).key, (rd t 3).key], t.freed,
        [(rd t 1).key, (rd t 4).key], [rbtree_find 10 t 3, rbtree_find 10 t 4]))
      = some ([5, 1, 2], [3, 2, 5], [3, 4], [some none, some none]) := by
  decide

/-- Claim C5, round trip, evaluated at twelve distinct keys: inserting 12, 4, 10, 2,
1, 11, 9, 3, 5, 6, 8, 7 (cells 1 to 12 in this order) and then erasing the
nodes with keys 12, 3, 4, 9, 5, 6, 1, 7, 10, 8, 2, 11, each call finishing,
leaves `t->root` at cell 12 (key 7), not at the sentinel (cell 0); the cells
freed are only those with keys 12, 3, 4, 9, 5, 1, 10, 8, 2. -/
theorem C5_round_trip_not_empty :
    (run 20 new_rbtree
      [op.insert 12, op.insert 4, op.insert 10, op.insert 2, op.insert 1, op.insert 11,
        op.insert 9, op.insert 3, op.insert 5, op.insert 6, op.insert 8, op.insert 7,
        op.erase 1, op.erase 8, op.erase 2, op.erase 7, op.erase 9, op.erase 10,
        op.erase 5, op.erase 12, op.erase 3, op.erase 11, op.erase 4, op.erase 6]).map
      (fun t => ((List.range 13).map (fun i => (rd t i).key), t.nil, t.root,
        inorder_keys 20 t t.root, t.freed))
      = some ([0, 12, 4, 10, 2, 1, 11, 9, 3, 5, 6, 8, 7], 0, 12, some [11, 6, 7],
        [4, 11, 3, 5, 9, 7, 2, 8, 1]) := by
  decide

/-- Claim C6, sentinel stays black, evaluated at the input insert 3, 1, 2, then erase
the node with key 1 (cell 2): the calls finish and the sentinel's colour is
`RBTREE_RED`. -/
theorem C6_sentinel_turns_red :
    (run 10 new_rbtree [op.insert 3, op.insert 1, op.insert 2, op.erase 2]).map
      (fun t => ((rd t 2).key, t.freed, (rd t t.nil).color)) = some (1, [2], RBTREE_RED) := by
  decide

/-- Claim C7, insert keeps every key, in order: for every list of keys (duplicates
allowed) and every step budget larger than its length, inserting the keys one
after the other into a new tree finishes, and the in-order traversal of the
result is non-decreasing and a permutation of the list. -/
theorem C7_insert_all_sorted_perm (keys : List Int) (fuel : Nat) (hfuel : keys.length < fuel) :
    ∃ t ks, insert_all fuel new_rbtree keys = some t ∧
      inorder_keys fuel t t.root = some ks ∧ ks.Sorted (· ≤ ·) ∧ ks.Perm keys := by
  obtain ⟨t, T, e, ⟨⟨hroot, hr, _⟩, _⟩, hs, hp, -⟩ :=
    insert_all_spec keys new_rbtree .leaf fuel good_new (by simp [Tree.keys]; omega)
      (by simp [Tree.keys])
  have hl : T.keys.length = keys.length := by rw [hp.length_eq]; simp [Tree.keys]
  have hh := Tree.height_le_keys T
  refine ⟨t, T.keys, e, ?_, hs, by simpa [Tree.keys] using hp⟩
  have hroot' : t.root = T.ptr t.nil := hroot
  rw [hroot']
  exact inorder_keys_spec t T fuel _ hr (by omega)

/-- Claim C7, witness: the keys 3, 1, 2, 2 with a budget of 5 steps. -/
theorem C7_insert_all_sorted_perm_witness :
    [(3 : Int), 1, 2, 2].length < 5 ∧
    ∃ t ks, insert_all 5 new_rbtree [3, 1, 2, 2] = some t ∧
      inorder_keys 5 t t.root = some ks ∧ ks.Sorted (· ≤ ·) ∧ ks.Perm [3, 1, 2, 2] :=
  ⟨by decide, C7_insert_all_sorted_perm [3, 1, 2, 2] 5 (by decide)⟩

/-- Claim C8, min/max correctness: on a new tree `rbtree_min` and `rbtree_max` return
the sentinel; after inserting a non-empty list of keys into a new tree (step
budget larger than the length of the list) both finish, `rbtree_min` returns a
node other than the sentinel whose key is a smallest inserted key and
`rbtree_max` one whose key is a largest inserted key. -/
theorem C8_min_max :
    (∀ fuel : Nat, rbtree_min fuel new_rbtree = some new_rbtree.nil ∧
      rbtree_max fuel new_rbtree = some new_rbtree.nil) ∧
    (∀ (keys : List Int) (fuel : Nat), keys ≠ [] → keys.length < fuel →
      ∃ t pmin pmax, insert_all fuel new_rbtree keys = some t ∧
        rbtree_min fuel t = some pmin ∧ rbtree_max fuel t = some pmax ∧
        pmin ≠ t.nil ∧ pmax ≠ t.nil ∧
        (rd t pmin).key ∈ keys ∧ (∀ k ∈ keys, (rd t pmin).key ≤ k) ∧
        (rd t pmax).key ∈ keys ∧ (∀ k ∈ keys, k ≤ (rd t pmax).key)) := by
  refine ⟨fun fuel => ⟨by simp [rbtree_min, new_rbtree], by simp [rbtree_max, new_rbtree]⟩, ?_⟩
  intro keys fuel hne hfuel
  obtain ⟨t, T, e, ⟨⟨hroot, hr, _⟩, _⟩, hs, hp, -⟩ :=
    insert_all_spec keys new_rbtree .leaf fuel good_new (by simp [Tree.keys]; omega)
      (by simp [Tree.keys])
  have hp' : T.keys.Perm keys := by simpa [Tree.keys] using hp
  have hl : T.keys.length = keys.length := hp'.length_eq
  have hh := Tree.height_le_keys T
  have hroot' : t.root = T.ptr t.nil := hroot
  have hTne : T.ptr t.nil ≠ t.nil := by
    cases T with
    | leaf =>
      have : keys.length = 0 := by rw [← hl]; rfl
      exact absurd (List.length_eq_zero.mp this) hne
    | node a c k l r => exact hr.1
  obtain ⟨pmin, tl, emin, hmin, hkmin⟩ := leftmost_spec t T fuel _ hr hTne (by omega)
  obtain ⟨pmax, pre, emax, hmax, hkmax⟩ := rightmost_spec t T fuel _ hr hTne (by omega)
  refine ⟨t, pmin, pmax, e, ?_, ?_, hmin, hmax, ?_, ?_, ?_, ?_⟩
  · unfold rbtree_min
    simp only [hroot', hTne, if_false]
    exact emin
  · unfold rbtree_max
    simp only [hroot', hTne, if_false]
    exact emax
  · exact hp'.mem_iff.mp (by rw [hkmin]; simp)
  · intro k hk
    have hk' := hp'.mem_iff.mpr hk
    rw [hkmin] at hk' hs
    simp only [List.mem_cons] at hk'
    rcases hk' with rfl | hk'
    · exact le_refl _
    · exact (List.pairwise_cons.mp hs).1 k hk'
  · exact hp'.mem_iff.mp (by rw [hkmax]; simp)
  · intro k hk
    have hk' := hp'.mem_iff.mpr hk
    rw [hkmax] at hk' hs
    simp only [List.mem_append, List.mem_singleton] at hk'
    rcases hk' with hk' | rfl
    · exact (List.pairwise_append.mp hs).2.2 k hk' _ (by simp)
    · exact le_refl _

/-- Claim C8, witness: the keys 3, 1, 2 with a budget of 4 steps. -/
theorem C8_min_max_witness :
    ([(3 : Int), 1, 2] ≠ [] ∧ [(3 : Int), 1, 2].length < 4) ∧
    ∃ t pmin pmax, insert_all 4 new_rbtree [3, 1, 2] = some t ∧
      rbtree_min 4 t = some pmin ∧ rbtree_max 4 t = some pmax ∧
      pmin ≠ t.nil ∧ pmax ≠ t.nil ∧
      (rd t pmin).key ∈ [(3 : Int), 1, 2] ∧ (∀ k ∈ [(3 : Int), 1, 2], (rd t pmin).key ≤ k) ∧
      (rd t pmax).key ∈ [(3 : Int), 1, 2] ∧ (∀ k ∈ [(3 : Int), 1, 2], k ≤ (rd t pmax).key) :=
  ⟨⟨by decide, by decide⟩, C8_min_max.2 [3, 1, 2] 4 (by decide) (by decide)⟩

/-- Claim C9, erase of an absent key is a no-op: on every heap and for every node
pointer `p`, when `rbtree_find` answers `NULL` for `p->key`, `rbtree_erase(t,
p)` returns 0 and the whole state (root, sentinel, every cell, the freed
cells) is the state before the call. -/
theorem C9_erase_absent_is_noop (fuel : Nat) (t : rbtree) (p : Nat)
    (habsent : rbtree_find fuel t (rd t p).key = some none) :
    rbtree_erase fuel t p = some (t, 0) :=
  erase_absent fuel t p habsent

/-- Claim C9, witness: the tree with keys 5, 3, 8 and `p` the sentinel, whose key 0
is not in the tree. -/
theorem C9_erase_absent_is_noop_witness :
    rbtree_find 10 tree_5_3_8 (rd tree_5_3_8 tree_5_3_8.nil).key = some none ∧
    rbtree_erase 10 tree_5_3_8 tree_5_3_8.nil = some (tree_5_3_8, 0) :=
  ⟨by decide, C9_erase_absent_is_noop 10 tree_5_3_8 tree_5_3_8.nil (by decide)⟩

/-- Claim C10, counterexample: after inserting the key 1 twice, cell 1 is the root
and cell 2 its right child; `rbtree_erase` called with cell 2 frees cell 1,
and cell 2 is still the one node reachable from the root. -/
theorem C10_erase_frees_the_other_duplicate :
    (tree_1_1.root, (rd tree_1_1 1).right, (rd tree_1_1 1).key, (rd tree_1_1 2).key)
      = (1, 2, 1, 1) ∧
    (rbtree_erase 10 tree_1_1 2).map
      (fun s => (s.1.freed, s.1.root, inorder_nodes 10 s.1 s.1.root)) = some ([1], 2, some [2]) := by
  decide

/-! ## The claims, continued -/

/-- Claim C12, logarithmic height, evaluated at the input insert 3, 1, 2, then
the pairs (-10, -5), (-20, -15), ... (-70, -65): the 17 calls finish and the
tree has height 9, while the bound `2^h <= (n+1)^2` would need `512 <= 324`. -/
theorem C12_height_exceeds_bound :
    (insert_all 20 new_rbtree [3, 1, 2, -10, -5, -20, -15, -30, -25, -40, -35, -50, -45, -60,
      -55, -70, -65]).bind (fun t => height 20 t t.root) = some 9 ∧
    ¬ (2 ^ 9 ≤ (17 + 1) ^ 2) := by
  decide

/-- Claim C14, scenario C: after inserting 15, 10, 20, 8, 12, 17, 25 the node 10
(cell 2) is the black left child of 15 (cell 1) with children 8 (cell 4) and 12
(cell 5); erasing it finishes and frees cell 2, and afterwards the node 12 is
the left child of 15, has 15 as parent, 8 as left child and the sentinel as
right child, and is black as 10 was; the in-order keys are 8, 12, 15, 17, 20,
25; the root is black, no red node has a red child and all seven paths from the
root to the sentinel pass two black nodes. -/
theorem C14_scenario_c :
    (List.range 8).map (fun i => (rd tree_scenario_c i).key) = [0, 15, 10, 20, 8, 12, 17, 25] ∧
    rd tree_scenario_c 2 = ⟨RBTREE_BLACK, 10, 1, 4, 5⟩ ∧
    (rd tree_scenario_c 1).left = 2 ∧
    (rbtree_erase 10 tree_scenario_c 2).map (fun s => s.1.freed) = some [2] ∧
    (rbtree_erase 10 tree_scenario_c 2).map (fun s => (rd s.1 1).left) = some 5 ∧
    (rbtree_erase 10 tree_scenario_c 2).map (fun s => rd s.1 5) =
      some ⟨RBTREE_BLACK, 12, 1, 4, 0⟩ ∧
    (rbtree_erase 10 tree_scenario_c 2).bind (fun s => inorder_keys 10 s.1 s.1.root) =
      some [8, 12, 15, 17, 20, 25] ∧
    (rbtree_erase 10 tree_scenario_c 2).map (fun s => (rd s.1 s.1.root).color) =
      some RBTREE_BLACK ∧
    (rbtree_erase 10 tree_scenario_c 2).bind (fun s => red_red_pairs 10 s.1 s.1.root) =
      some [] ∧
    (rbtree_erase 10 tree_scenario_c 2).bind (fun s => path_blacks 10 s.1 s.1.root) =
      some [2, 2, 2, 2, 2, 2, 2] := by
  decide

/-- Claim C16, scenario B: inserting 5, 4, 3, 2, 1 into a new tree finishes; the
tree has height 3, each of its six paths from the root to the sentinel passes
two black nodes, the root is black and no red node has a red child. -/
theorem C16_scenario_b :
    (insert_all 10 new_rbtree [5, 4, 3, 2, 1]).bind (fun t => height 10 t t.root) = some 3 ∧
    (insert_all 10 new_rbtree [5, 4, 3, 2, 1]).bind (fun t => path_blacks 10 t t.root) =
      some [2, 2, 2, 2, 2, 2] ∧
    (insert_all 10 new_rbtree [5, 4, 3, 2, 1]).map (fun t => (rd t t.root).color) =
      some RBTREE_BLACK ∧
    (insert_all 10 new_rbtree [5, 4, 3, 2, 1]).bind (fun t => red_red_pairs 10 t t.root) =
      some [] := by
  decide

/-- Claim C18, triangle case, evaluated at the input insert 10, 5, 15, 1, 3: before
the last call the red node 1 (cell 4) is the left child of the black node 5
(cell 2) whose right child is the sentinel, and 3 becomes the right child of 1;
after the call the node 3 (cell 5) is the parent of 1 and 5 but is still red,
1 has been turned black and 5 red. -/
theorem C18_triangle_top_stays_red :
    ((rd tree_10_5_15_1 4).color, (rd tree_10_5_15_1 2).color, (rd tree_10_5_15_1 2).left,
      (rd tree_10_5_15_1 2).right) = (RBTREE_RED, RBTREE_BLACK, 4, 0) ∧
    (rbtree_insert 10 tree_10_5_15_1 3).map
      (fun s => [(rd s.1 5).key, (rd s.1 4).key, (rd s.1 2).key]) = some [3, 1, 5] ∧
    (rbtree_insert 10 tree_10_5_15_1 3).map
      (fun s => [(rd s.1 5).left, (rd s.1 5).right, (rd s.1 4).parent, (rd s.1 2).parent]) =
      some [4, 2, 5, 5] ∧
    (rbtree_insert 10 tree_10_5_15_1 3).map
      (fun s => [(rd s.1 5).color, (rd s.1 4).color, (rd s.1 2).color]) =
      some [RBTREE_RED, RBTREE_BLACK, RBTREE_RED] := by
  decide

/-! ### Ordering at every node -/

/-- On a represented tree the ordering check on the heap computes the ordering
of the tree. -/
theorem bst_ordered_spec (t : rbtree) (strict : Bool) : ∀ (s : Tree) (fuel par : Nat),
    Rep t par s → s.height + 1 ≤ fuel →
    bst_ordered strict fuel t (s.ptr t.nil) = some (s.ordered strict) := by
  intro s
  induction s with
  | leaf =>
    intro fuel par _ hf
    obtain ⟨fuel', rfl⟩ : ∃ f', fuel = f' + 1 := ⟨fuel - 1, by omega⟩
    simp [bst_ordered, Tree.ptr, Tree.ordered]
  | node a c k l r ihl ihr =>
    intro fuel par hr hf
    obtain ⟨fuel', rfl⟩ : ∃ f', fuel = f' + 1 := ⟨fuel - 1, by omega⟩
    obtain ⟨h1, h2, h3, h4, h5⟩ := hr
    simp only [Tree.height] at hf
    rw [bst_ordered]
    simp only [Tree.ptr_node, h1, if_false, h3]
    rw [ihl fuel' a h4 (by omega), ihr fuel' a h5 (by omega),
      inorder_keys_spec t l fuel' a h4 (by omega), inorder_keys_spec t r fuel' a h5 (by omega)]
    rfl

/-- A tree whose in-order keys are non-decreasing is ordered at every node in
the weak sense. -/
theorem ordered_of_sorted : ∀ T : Tree, T.keys.Pairwise (· ≤ ·) → T.ordered false = true := by
  intro T
  induction T with
  | leaf => intro _; rfl
  | node a c k l r ihl ihr =>
    intro h
    simp only [Tree.keys, List.pairwise_append, List.pairwise_cons] at h
    obtain ⟨hl, ⟨hkr, hr⟩, hlr⟩ := h
    simp only [Tree.ordered, Bool.and_eq_true, List.all_eq_true, decide_eq_true_eq,
      Bool.false_eq_true, if_false]
    exact ⟨⟨⟨ihl hl, ihr hr⟩, fun x hx => hlr x hx k (by simp)⟩, hkr⟩

/-- A tree whose in-order keys are strictly increasing is ordered at every node
in the strict sense. -/
theorem ordered_of_strictly_sorted : ∀ T : Tree, T.keys.Pairwise (· < ·) →
    T.ordered true = true := by
  intro T
  induction T with
  | leaf => intro _; rfl
  | node a c k l r ihl ihr =>
    intro h
    simp only [Tree.keys, List.pairwise_append, List.pairwise_cons] at h
    obtain ⟨hl, ⟨hkr, hr⟩, hlr⟩ := h
    simp only [Tree.ordered, Bool.and_eq_true, List.all_eq_true, decide_eq_true_eq, if_true]
    exact ⟨⟨⟨ihl hl, ihr hr⟩, fun x hx => hlr x hx k (by simp)⟩, fun x hx => le_of_lt (hkr x hx)⟩

/-- Claim C11, counterexample: after inserting the key 1 three times the root
(cell 2) has the left child cell 1, whose key is the equal key 1, so the strict
ordering fails at the root. -/
theorem C11_equal_key_in_left_subtree :
    (insert_all 10 new_rbtree [1, 1, 1]).map
      (fun t => [t.root, (rd t t.root).left, t.nil]) = some [2, 1, 0] ∧
    (insert_all 10 new_rbtree [1, 1, 1]).map
      (fun t => [(rd t 2).key, (rd t 1).key]) = some [1, 1] ∧
    (insert_all 10 new_rbtree [1, 1, 1]).bind (fun t => bst_ordered true 10 t t.root) =
      some false := by
  decide

/-- Claim C11, amended: for every list of keys (duplicates allowed) inserted with
`rbtree_insert` into a new tree, the calls finish and at every node all keys in
the left subtree are less than or equal to the key of the node and all keys in
the right subtree are greater than or equal to it; when the keys of the list
are pairwise distinct, the keys in the left subtree are strictly less. -/
theorem C11_ordered_at_every_node (keys : List Int) (fuel : Nat) (hfuel : keys.length < fuel) :
    ∃ t, insert_all fuel new_rbtree keys = some t ∧
      bst_ordered false fuel t t.root = some true ∧
      (keys.Nodup → bst_ordered true fuel t t.root = some true) := by
  obtain ⟨t, T, e, ⟨⟨hroot, hr, _⟩, _⟩, hs, hp, -⟩ :=
    insert_all_spec keys new_rbtree .leaf fuel good_new (by simp [Tree.keys]; omega)
      (by simp [Tree.keys])
  have hp' : T.keys.Perm keys := by simpa [Tree.keys] using hp
  have hl : T.keys.length = keys.length := hp'.length_eq
  have hh := Tree.height_le_keys T
  have hroot' : t.root = T.ptr t.nil := hroot
  refine ⟨t, e, ?_, ?_⟩
  · rw [hroot', bst_ordered_spec t false T fuel _ hr (by omega), ordered_of_sorted T hs]
  · intro hnd
    have hnd' : T.keys.Nodup := hp'.nodup_iff.mpr hnd
    have hlt : T.keys.Pairwise (· < ·) := by
      have h2 : T.keys.Pairwise (fun a b => a ≤ b ∧ a ≠ b) := hs.and hnd'
      exact h2.imp (fun h => lt_of_le_of_ne h.1 h.2)
    rw [hroot', bst_ordered_spec t true T fuel _ hr (by omega), ordered_of_strictly_sorted T hlt]

/-- Claim C11, witness: the pairwise distinct keys 3, 1, 2 with a budget of 4
steps. -/
theorem C11_ordered_at_every_node_witness :
    [(3 : Int), 1, 2].length < 4 ∧ [(3 : Int), 1, 2].Nodup ∧
    ∃ t, insert_all 4 new_rbtree [3, 1, 2] = some t ∧
      bst_ordered false 4 t t.root = some true ∧ bst_ordered true 4 t t.root = some true := by
  obtain ⟨t, e, h1, h2⟩ := C11_ordered_at_every_node [3, 1, 2] 4 (by decide)
  exact ⟨by decide, by decide, t, e, h1, h2 (by decide)⟩

/-! ### Small scenarios with arbitrary keys -/

/-- The heap after inserting three increasing keys into a new tree, for every
budget of at least three steps. -/
theorem insert_three_ascending (a b c : Int) (n : Nat) (h1 : a < b) (h2 : b < c) :
    insert_all (n + 3) new_rbtree [a, b, c] = some ⟨2, 0,
      [⟨RBTREE_BLACK, 0, 0, 0, 0⟩, ⟨RBTREE_RED, a, 2, 0, 0⟩, ⟨RBTREE_BLACK, b, 0, 1, 3⟩,
        ⟨RBTREE_RED, c, 2, 0, 0⟩], []⟩ := by
  have n1 : ¬ b < a := by omega
  have n2 : ¬ c < a := by omega
  have n3 : ¬ c < b := by omega
  simp [insert_all, rbtree_insert, _insert, _insert_loop, _insert_fixup, _insert_fixup_loop,
    _rotate_left, _rotate_right, set_color, set_key, set_parent, set_left, set_right, set_root,
    wr, rd, calloc, new_rbtree, n1, n2, n3]

/-- The heap after inserting one key into a new tree, and what the call
returns. -/
theorem insert_one (k : Int) (n : Nat) :
    rbtree_insert (n + 1) new_rbtree k =
      some (⟨1, 0, [⟨RBTREE_BLACK, 0, 0, 0, 0⟩, ⟨RBTREE_BLACK, k, 0, 0, 0⟩], []⟩, 1) := by
  simp [rbtree_insert, _insert, _insert_loop, _insert_fixup, _insert_fixup_loop,
    set_color, set_key, set_parent, set_left, set_right, set_root,
    wr, rd, calloc, new_rbtree]

/-- Erasing the only node of a one-node tree. -/
theorem erase_only_node (k : Int) (n : Nat) :
    rbtree_erase (n + 1) ⟨1, 0, [⟨RBTREE_BLACK, 0, 0, 0, 0⟩, ⟨RBTREE_BLACK, k, 0, 0, 0⟩], []⟩ 1 =
      some (⟨0, 0, [⟨RBTREE_BLACK, 0, 0, 0, 0⟩, ⟨RBTREE_BLACK, k, 0, 0, 0⟩], [1]⟩, 0) := by
  simp [rbtree_erase, rbtree_find, rbtree_find_loop, _rb_transplant, _rb_delete_fixup, free,
    set_color, set_key, set_parent, set_left, set_right, set_root, wr, rd]

/-- Claim C13, scenario A generalised: for all keys a < b < c and every budget of
at least three steps, inserting a, b, c in this order into a new tree finishes
and gives a tree whose root holds b and is black, whose left child is a node
that holds a and is red, whose right child is a node that holds c and is red,
and whose four grandchild links are the sentinel. -/
theorem C13_scenario_a (a b c : Int) (fuel : Nat) (hab : a < b) (hbc : b < c)
    (hfuel : 3 ≤ fuel) :
    ∃ t, insert_all fuel new_rbtree [a, b, c] = some t ∧
      t.root ≠ t.nil ∧ (rd t t.root).key = b ∧ (rd t t.root).color = RBTREE_BLACK ∧
      (rd t t.root).left ≠ t.nil ∧ (rd t (rd t t.root).left).key = a ∧
      (rd t (rd t t.root).left).color = RBTREE_RED ∧
      (rd t t.root).right ≠ t.nil ∧ (rd t (rd t t.root).right).key = c ∧
      (rd t (rd t t.root).right).color = RBTREE_RED ∧
      (rd t (rd t t.root).left).left = t.nil ∧ (rd t (rd t t.root).left).right = t.nil ∧
      (rd t (rd t t.root).right).left = t.nil ∧ (rd t (rd t t.root).right).right = t.nil := by
  obtain ⟨n, rfl⟩ : ∃ n, fuel = n + 3 := ⟨fuel - 3, by omega⟩
  refine ⟨_, insert_three_ascending a b c n hab hbc, ?_⟩
  simp [rd]

/-- Claim C13, witness: the keys 10, 20, 30 with a budget of 3 steps. -/
theorem C13_scenario_a_witness :
    ((10 : Int) < 20 ∧ (20 : Int) < 30 ∧ 3 ≤ 3) ∧
    ∃ t, insert_all 3 new_rbtree [10, 20, 30] = some t ∧
      t.root ≠ t.nil ∧ (rd t t.root).key = 20 ∧ (rd t t.root).color = RBTREE_BLACK ∧
      (rd t t.root).left ≠ t.nil ∧ (rd t (rd t t.root).left).key = 10 ∧
      (rd t (rd t t.root).left).color = RBTREE_RED ∧
      (rd t t.root).right ≠ t.nil ∧ (rd t (rd t t.root).right).key = 30 ∧
      (rd t (rd t t.root).right).color = RBTREE_RED ∧
      (rd t (rd t t.root).left).left = t.nil ∧ (rd t (rd t t.root).left).right = t.nil ∧
      (rd t (rd t t.root).right).left = t.nil ∧ (rd t (rd t t.root).right).right = t.nil :=
  ⟨by decide, C13_scenario_a 10 20 30 3 (by decide) (by decide) (by decide)⟩

/-- Claim C15, scenario D generalised: for every key k and every budget of at
least one step, inserting k into a new tree finishes and returns the root, a
node other than the sentinel that holds k; erasing that node finishes, returns
0, frees it and leaves `t->root` equal to the sentinel, whose colour is black;
after that `rbtree_find` for k answers `NULL`. -/
theorem C15_scenario_d (k : Int) (fuel : Nat) (hfuel : 1 ≤ fuel) :
    ∃ t1 t2, rbtree_insert fuel new_rbtree k = some (t1, t1.root) ∧
      t1.root ≠ t1.nil ∧ (rd t1 t1.root).key = k ∧
      rbtree_erase fuel t1 t1.root = some (t2, 0) ∧ t2.freed = [t1.root] ∧
      t2.root = t2.nil ∧ (rd t2 t2.nil).color = RBTREE_BLACK ∧
      rbtree_find fuel t2 k = some none := by
  obtain ⟨n, rfl⟩ : ∃ n, fuel = n + 1 := ⟨fuel - 1, by omega⟩
  refine ⟨_, _, insert_one k n, by simp, by simp [rd], erase_only_node k n, rfl, rfl, rfl, ?_⟩
  simp [rbtree_find, rbtree_find_loop]

/-- Claim C15, witness: the key 7 with a budget of 1 step. -/
theorem C15_scenario_d_witness :
    1 ≤ 1 ∧
    ∃ t1 t2, rbtree_insert 1 new_rbtree 7 = some (t1, t1.root) ∧
      t1.root ≠ t1.nil ∧ (rd t1 t1.root).key = 7 ∧
      rbtree_erase 1 t1 t1.root = some (t2, 0) ∧ t2.freed = [t1.root] ∧
      t2.root = t2.nil ∧ (rd t2 t2.nil).color = RBTREE_BLACK ∧
      rbtree_find 1 t2 7 = some none :=
  ⟨by decide, C15_scenario_d 7 1 (by decide)⟩

/-! ### Finding a node of the tree; colours under rotation -/

theorem plug_append (c1 c2 : List Frame) : ∀ s : Tree, plug (c1 ++ c2) s = plug c2 (plug c1 s) := by
  induction c1 with
  | nil => intro s; rfl
  | cons f rest ih => intro s; exact ih (f.fill s)

/-- Every cell of a tree is the top of a subtree below some path. -/
theorem Tree.focus : ∀ (T : Tree) (x : Nat), x ∈ T.addrs →
    ∃ ctx c k l r, T = plug ctx (.node x c k l r) := by
  intro T
  induction T with
  | leaf => intro x hx; simp [Tree.addrs] at hx
  | node a c k l r ihl ihr =>
    intro x hx
    simp only [Tree.addrs, List.mem_append, List.mem_cons] at hx
    rcases hx with hx | rfl | hx
    · obtain ⟨ctx, c', k', l', r', e⟩ := ihl x hx
      exact ⟨ctx ++ [.L a c k r], c', k', l', r', by rw [plug_append, ← e]; rfl⟩
    · exact ⟨[], c, k, l, r, rfl⟩
    · obtain ⟨ctx, c', k', l', r', e⟩ := ihr x hx
      exact ⟨ctx ++ [.R a c k l], c', k', l', r', by rw [plug_append, ← e]; rfl⟩

/-- The root pointer of a heap that lays out a path. -/
theorem RepCtx_root {t : rbtree} : ∀ (ctx : List Frame) (hp : Nat), RepCtx t hp ctx →
    t.root = ctxBottom hp ctx := by
  intro ctx
  induction ctx with
  | nil => intro hp h; exact h
  | cons f rest ih =>
    intro hp h
    cases f with
    | L a c k r => exact ih a h.2.2.2.2
    | R a c k l => exact ih a h.2.2.2.2

theorem color_set_parent (t : rbtree) (p q r : Nat) :
    (rd (set_parent t p r) q).color = (rd t q).color := by
  rw [rd_set_parent]; split
  · next h => obtain ⟨rfl, _⟩ := h; rfl
  · rfl

theorem color_set_left (t : rbtree) (p q r : Nat) :
    (rd (set_left t p r) q).color = (rd t q).color := by
  rw [rd_set_left]; split
  · next h => obtain ⟨rfl, _⟩ := h; rfl
  · rfl

theorem color_set_right (t : rbtree) (p q r : Nat) :
    (rd (set_right t p r) q).color = (rd t q).color := by
  rw [rd_set_right]; split
  · next h => obtain ⟨rfl, _⟩ := h; rfl
  · rfl

/-- `_rotate_left` writes no colour field, on any heap. -/
theorem color_rotate_left (t : rbtree) (x q : Nat) :
    (rd (_rotate_left t x) q).color = (rd t q).color := by
  unfold _rotate_left
  simp only []
  split_ifs <;> simp only [color_set_parent, color_set_left, color_set_right, rd_set_root]

/-- `_rotate_right` writes no colour field, on any heap. -/
theorem color_rotate_right (t : rbtree) (x q : Nat) :
    (rd (_rotate_right t x) q).color = (rd t q).color := by
  unfold _rotate_right
  simp only []
  split_ifs <;> simp only [color_set_parent, color_set_left, color_set_right, rd_set_root]

/-! ### Rotations: what they leave alone, and what a layout determines -/

/-- `_rotate_left` at the focus writes only cells of the tree. -/
theorem zip_rotate_left_others {t : rbtree} {ctx : List Frame} {x y : Nat} {cx cy : color_t}
    {kx ky : Int} {α β γ : Tree}
    (h : Zip t ctx (.node x cx kx α (.node y cy ky β γ))) :
    ∀ q, q ∉ ctxAddrs ctx ++ (Tree.node x cx kx α (.node y cy ky β γ)).addrs →
      rd (_rotate_left t x) q = rd t q := by
  obtain ⟨hc, ⟨hx1, hx2, hx3, hα, hy1, hy2, hy3, hβ, hγ⟩, hnd⟩ := h
  have hcnt := fun q => List.nodup_iff_count_le_one.mp hnd q
  simp only [Tree.addrs, List.count_append, count_cons_hit] at hcnt
  simp only [Tree.ptr] at hx3 hc
  have hxy : x ≠ y := by
    rintro rfl
    have := hcnt x; have := hit_self x; omega
  have hbβ : β.ptr t.nil ≠ t.nil → β.ptr t.nil ∈ β.addrs := Tree.ptr_mem_addrs t.nil β
  have hpc : ctxTop t.nil ctx ≠ t.nil → ctxTop t.nil ctx ∈ ctxAddrs ctx := ctxTop_mem t.nil ctx
  have hb : β.ptr t.nil ≠ t.nil →
      β.ptr t.nil < t.mem.length ∧ β.ptr t.nil ≠ x ∧ β.ptr t.nil ≠ y := by
    intro hn
    have hm := hbβ hn
    refine ⟨(Rep_bound β y hβ _ hm).2, ?_, ?_⟩
    · intro e; rw [e] at hm
      have := hcnt x; have := List.count_pos_iff.mpr hm; have := hit_self x; omega
    · intro e; rw [e] at hm
      have := hcnt y; have := List.count_pos_iff.mpr hm; have := hit_self y; omega
  have hp : ctxTop t.nil ctx ≠ t.nil → ctxTop t.nil ctx < t.mem.length ∧ ctxTop t.nil ctx ≠ x ∧
      ctxTop t.nil ctx ≠ y ∧ ctxTop t.nil ctx ≠ β.ptr t.nil := by
    intro hn
    have hm := hpc hn
    refine ⟨(RepCtx_bound ctx x hc _ hm).2, ?_, ?_, ?_⟩
    · intro e; rw [e] at hm
      have := hcnt x; have := List.count_pos_iff.mpr hm; have := hit_self x; omega
    · intro e; rw [e] at hm
      have := hcnt y; have := List.count_pos_iff.mpr hm; have := hit_self y; omega
    · intro e
      have hm2 := hbβ (e ▸ hn)
      rw [e] at hm
      have := hcnt (β.ptr t.nil); have := List.count_pos_iff.mpr hm
      have := List.count_pos_iff.mpr hm2; omega
  obtain ⟨_, _, _, _, c5, _, _, _⟩ :=
    rotate_left_cells t x y (ctxTop t.nil ctx) (α.ptr t.nil) (β.ptr t.nil) (γ.ptr t.nil)
      cx cy kx ky hx3 hy3 hx2 hy2 hxy hb hp
  intro q hq
  simp only [Tree.addrs, List.mem_append, List.mem_cons, not_or] at hq
  apply c5 q
  · exact hq.2.2.1
  · exact hq.2.2.2.2.1
  · intro hn e; exact hq.2.2.2.1 (e ▸ hbβ hn)
  · intro hn e; exact hq.1 (e ▸ hpc hn)

/-- `_rotate_right` at the focus writes only cells of the tree. -/
theorem zip_rotate_right_others {t : rbtree} {ctx : List Frame} {x y : Nat} {cx cy : color_t}
    {kx ky : Int} {α β γ : Tree}
    (h : Zip t ctx (.node y cy ky (.node x cx kx α β) γ)) :
    ∀ q, q ∉ ctxAddrs ctx ++ (Tree.node y cy ky (.node x cx kx α β) γ).addrs →
      rd (_rotate_right t y) q = rd t q := by
  obtain ⟨hc, ⟨hy1, hy2, hy3, ⟨hx1, hx2, hx3, hα, hβ⟩, hγ⟩, hnd⟩ := h
  have hcnt := fun q => List.nodup_iff_count_le_one.mp hnd q
  simp only [Tree.addrs, List.count_append, count_cons_hit] at hcnt
  simp only [Tree.ptr] at hy3 hc
  have hxy : x ≠ y := by
    rintro rfl
    have := hcnt x; have := hit_self x; omega
  have hbβ : β.ptr t.nil ≠ t.nil → β.ptr t.nil ∈ β.addrs := Tree.ptr_mem_addrs t.nil β
  have hpc : ctxTop t.nil ctx ≠ t.nil → ctxTop t.nil ctx ∈ ctxAddrs ctx := ctxTop_mem t.nil ctx
  have hb : β.ptr t.nil ≠ t.nil →
      β.ptr t.nil < t.mem.length ∧ β.ptr t.nil ≠ x ∧ β.ptr t.nil ≠ y := by
    intro hn
    have hm := hbβ hn
    refine ⟨(Rep_bound β x hβ _ hm).2, ?_, ?_⟩
    · intro e; rw [e] at hm
      have := hcnt x; have := List.count_pos_iff.mpr hm; have := hit_self x; omega
    · intro e; rw [e] at hm
      have := hcnt y; have := List.count_pos_iff.mpr hm; have := hit_self y; omega
  have hp : ctxTop t.nil ctx ≠ t.nil → ctxTop t.nil ctx < t.mem.length ∧ ctxTop t.nil ctx ≠ x ∧
      ctxTop t.nil ctx ≠ y ∧ ctxTop t.nil ctx ≠ β.ptr t.nil := by
    intro hn
    have hm := hpc hn
    refine ⟨(RepCtx_bound ctx y hc _ hm).2, ?_, ?_, ?_⟩
    · intro e; rw [e] at hm
      have := hcnt x; have := List.count_pos_iff.mpr hm; have := hit_self x; omega
    · intro e; rw [e] at hm
      have := hcnt y; have := List.count_pos_iff.mpr hm; have := hit_self y; omega
    · intro e
      have hm2 := hbβ (e ▸ hn)
      rw [e] at hm
      have := hcnt (β.ptr t.nil); have := List.count_pos_iff.mpr hm
      have := List.count_pos_iff.mpr hm2; omega
  obtain ⟨_, _, _, _, c5, _, _, _⟩ :=
    rotate_right_cells t x y (ctxTop t.nil ctx) (α.ptr t.nil) (β.ptr t.nil) (γ.ptr t.nil)
      cx cy kx ky hy3 hx3 hx2 hy2 hxy hb hp
  intro q hq
  simp only [Tree.addrs, List.mem_append, List.mem_cons, not_or] at hq
  apply c5 q
  · exact hq.2.1.2.1
  · exact hq.2.2.1
  · intro hn e; exact hq.2.1.2.2 (e ▸ hbβ hn)
  · intro hn e; exact hq.1 (e ▸ hpc hn)

/-- Two heaps that lay out the same subtree agree on its cells. -/
theorem Rep_cells_eq {t t' : rbtree} (hnil : t'.nil = t.nil) : ∀ (s : Tree) (par : Nat),
    Rep t par s → Rep t' par s → ∀ a ∈ s.addrs, rd t' a = rd t a := by
  intro s
  induction s with
  | leaf => intro par _ _ a ha; simp [Tree.addrs] at ha
  | node b c k l r ihl ihr =>
    intro par h h' a ha
    obtain ⟨_, _, h3, h4, h5⟩ := h
    obtain ⟨_, _, h3', h4', h5'⟩ := h'
    simp only [Tree.addrs, List.mem_append, List.mem_cons] at ha
    rcases ha with ha | rfl | ha
    · exact ihl b h4 h4' a ha
    · rw [h3, h3', hnil]
    · exact ihr b h5 h5' a ha

/-- Two heaps that lay out the same path above the same pointer agree on its
cells. -/
theorem RepCtx_cells_eq {t t' : rbtree} (hnil : t'.nil = t.nil) : ∀ (ctx : List Frame) (hp : Nat),
    RepCtx t hp ctx → RepCtx t' hp ctx → ∀ a ∈ ctxAddrs ctx, rd t' a = rd t a := by
  intro ctx
  induction ctx with
  | nil => intro hp _ _ a ha; simp [ctxAddrs] at ha
  | cons f rest ih =>
    intro hp h h' a ha
    cases f with
    | L b c k r =>
      obtain ⟨_, _, h3, h4, h5⟩ := h
      obtain ⟨_, _, h3', h4', h5'⟩ := h'
      simp only [ctxAddrs, Frame.addr, Frame.sibling, List.mem_append, List.mem_cons] at ha
      rcases ha with rfl | ha | ha
      · rw [h3, h3', hnil]
      · exact Rep_cells_eq hnil r b h4 h4' a ha
      · exact ih b h5 h5' a ha
    | R b c k l =>
      obtain ⟨_, _, h3, h4, h5⟩ := h
      obtain ⟨_, _, h3', h4', h5'⟩ := h'
      simp only [ctxAddrs, Frame.addr, Frame.sibling, List.mem_append, List.mem_cons] at ha
      rcases ha with rfl | ha | ha
      · rw [h3, h3', hnil]
      · exact Rep_cells_eq hnil l b h4 h4' a ha
      · exact ih b h5 h5' a ha

/-- Heaps with the same cells are the same list of cells. -/
theorem mem_ext {t t' : rbtree} (hlen : t'.mem.length = t.mem.length)
    (h : ∀ q, rd t' q = rd t q) : t'.mem = t.mem := by
  apply List.ext_getElem hlen
  intro n h1 h2
  have := h n
  simp only [rd, List.getD_eq_getElem?_getD, List.getElem?_eq_getElem h1,
    List.getElem?_eq_getElem h2, Option.getD_some] at this
  exact this

/-- Two heaps that lay out the same tree seen from the same place, and agree
outside it, are equal. -/
theorem zip_ext {t t' : rbtree} {ctx : List Frame} {s : Tree} (h : Zip t ctx s)
    (h' : Zip t' ctx s) (hnil : t'.nil = t.nil) (hlen : t'.mem.length = t.mem.length)
    (hfreed : t'.freed = t.freed)
    (hothers : ∀ q, q ∉ ctxAddrs ctx ++ s.addrs → rd t' q = rd t q) : t' = t := by
  have hroot : t'.root = t.root := by
    rw [RepCtx_root ctx _ h.1, RepCtx_root ctx _ h'.1, hnil]
  have hmem : t'.mem = t.mem := by
    apply mem_ext hlen
    intro q
    by_cases hq : q ∈ ctxAddrs ctx ++ s.addrs
    · rcases List.mem_append.mp hq with hq | hq
      · have h1 := h'.1
        rw [hnil] at h1
        exact RepCtx_cells_eq hnil ctx _ h.1 h1 q hq
      · have h1 := h'.2.1
        rw [hnil] at h1
        exact Rep_cells_eq hnil s _ h.2.1 h1 q hq
    · exact hothers q hq
  cases t; cases t'
  simp only at hroot hnil hmem hfreed
  simp [hroot, hnil, hmem, hfreed]

/-! ### Rotations on a well-formed tree -/

theorem ctxBottom_mem : ∀ (ctx : List Frame) (hp : Nat), ctx ≠ [] →
    ctxBottom hp ctx ∈ ctxAddrs ctx := by
  intro ctx
  induction ctx with
  | nil => intro hp h; exact absurd rfl h
  | cons f rest ih =>
    intro hp _
    cases rest with
    | nil => simp [ctxBottom, ctxAddrs]
    | cons g rest' =>
      have := ih f.addr (by simp)
      simp only [ctxBottom, ctxAddrs, List.mem_cons, List.mem_append] at this ⊢
      tauto

/-- In a focused layout the root pointer is the focus exactly when the path
above the focus is empty. -/
theorem zip_root_iff {t : rbtree} {ctx : List Frame} {a : Nat} {c : color_t} {k : Int}
    {l r : Tree} (h : Zip t ctx (.node a c k l r)) : t.root = a ↔ ctx = [] := by
  constructor
  · intro e
    by_contra hne
    have hm := ctxBottom_mem ctx a hne
    have hr : t.root = ctxBottom a ctx := RepCtx_root ctx a h.1
    rw [← hr, e] at hm
    have hcnt := List.nodup_iff_count_le_one.mp h.2.2 a
    simp only [Tree.addrs, List.count_append, count_cons_hit] at hcnt
    have := List.count_pos_iff.mpr hm; have := hit_self a; omega
  · rintro rfl
    exact h.1

/-- The links `_rotate_left` sets, read off the layouts before and after. -/
theorem zip_rotate_left_links {t : rbtree} {ctx : List Frame} {x y : Nat} {cx cy : color_t}
    {kx ky : Int} {α β γ : Tree}
    (h : Zip t ctx (.node x cx kx α (.node y cy ky β γ))) :
    rd t x = ⟨cx, kx, ctxTop t.nil ctx, α.ptr t.nil, y⟩ ∧
    rd t y = ⟨cy, ky, x, β.ptr t.nil, γ.ptr t.nil⟩ ∧
    rd (_rotate_left t x) y = ⟨cy, ky, ctxTop t.nil ctx, x, γ.ptr t.nil⟩ ∧
    rd (_rotate_left t x) x = ⟨cx, kx, y, α.ptr t.nil, β.ptr t.nil⟩ ∧
    (β.ptr t.nil ≠ t.nil → (rd (_rotate_left t x) (β.ptr t.nil)).parent = x) ∧
    (t.root = x → (_rotate_left t x).root = y ∧ ctxTop t.nil ctx = t.nil) ∧
    (t.root ≠ x → (_rotate_left t x).root = t.root ∧ ctxTop t.nil ctx ≠ t.nil ∧
      (((rd t (ctxTop t.nil ctx)).left = x ∧ (rd (_rotate_left t x) (ctxTop t.nil ctx)).left = y ∧
          (rd (_rotate_left t x) (ctxTop t.nil ctx)).right = (rd t (ctxTop t.nil ctx)).right) ∨
        ((rd t (ctxTop t.nil ctx)).left ≠ x ∧ (rd t (ctxTop t.nil ctx)).right = x ∧
          (rd (_rotate_left t x) (ctxTop t.nil ctx)).right = y ∧
          (rd (_rotate_left t x) (ctxTop t.nil ctx)).left = (rd t (ctxTop t.nil ctx)).left))) := by
  obtain ⟨h', hn, _, _⟩ := zip_rotate_left h
  have hx := (zip_focus_cell h).1
  have hy' := (zip_focus_cell h').1
  have hyz : Zip t (.R x cx kx α :: ctx) (.node y cy ky β γ) := (zip_up t _ ctx _).mpr h
  have hy := (zip_focus_cell hyz).1
  have hxz : Zip (_rotate_left t x) (.L y cy ky γ :: ctx) (.node x cx kx α β) :=
    (zip_up _ _ ctx _).mpr h'
  have hx' := (zip_focus_cell hxz).1
  rw [hn] at hy' hx'
  refine ⟨hx, hy, hy', hx', ?_, ?_, ?_⟩
  · intro hb
    cases β with
    | leaf => exact absurd rfl hb
    | node b cb kb bl br =>
      have hbz : Zip (_rotate_left t x) (.R x cx kx α :: .L y cy ky γ :: ctx) (.node b cb kb bl br) :=
        (zip_up _ _ _ _).mpr hxz
      rw [Tree.ptr_node, (zip_focus_cell hbz).1]
      rfl
  · intro e
    have hc := (zip_root_iff h).mp e
    subst hc
    exact ⟨h'.1, rfl⟩
  · intro e
    cases ctx with
    | nil => exact absurd h.1 e
    | cons f rest =>
      have hr1 := RepCtx_root _ _ h.1
      have hr2 := RepCtx_root _ _ h'.1
      rw [hn] at hr2
      refine ⟨by rw [hr1, hr2]; rfl, ctxTop_ne_nil h.1, ?_⟩
      have t1 := zip_top_cell h
      have t2 := zip_top_cell h'
      have hs := zip_sibling_ne h
      rw [hn] at t2
      cases f with
      | L a c k r =>
        left
        exact ⟨t1.2.2.1, t2.2.2.1, t2.2.2.2.trans t1.2.2.2.symm⟩
      | R a c k l =>
        right
        exact ⟨fun e' => hs (t1.2.2.1.symm.trans e'), t1.2.2.2, t2.2.2.2,
          t2.2.2.1.trans t1.2.2.1.symm⟩

/-- The links `_rotate_right` sets, read off the layouts before and after. -/
theorem zip_rotate_right_links {t : rbtree} {ctx : List Frame} {x y : Nat} {cx cy : color_t}
    {kx ky : Int} {α β γ : Tree}
    (h : Zip t ctx (.node y cy ky (.node x cx kx α β) γ)) :
    rd t y = ⟨cy, ky, ctxTop t.nil ctx, x, γ.ptr t.nil⟩ ∧
    rd t x = ⟨cx, kx, y, α.ptr t.nil, β.ptr t.nil⟩ ∧
    rd (_rotate_right t y) x = ⟨cx, kx, ctxTop t.nil ctx, α.ptr t.nil, y⟩ ∧
    rd (_rotate_right t y) y = ⟨cy, ky, x, β.ptr t.nil, γ.ptr t.nil⟩ ∧
    (β.ptr t.nil ≠ t.nil → (rd (_rotate_right t y) (β.ptr t.nil)).parent = y) ∧
    (t.root = y → (_rotate_right t y).root = x ∧ ctxTop t.nil ctx = t.nil) ∧
    (t.root ≠ y → (_rotate_right t y).root = t.root ∧ ctxTop t.nil ctx ≠ t.nil ∧
      (((rd t (ctxTop t.nil ctx)).left = y ∧ (rd (_rotate_right t y) (ctxTop t.nil ctx)).left = x ∧
          (rd (_rotate_right t y) (ctxTop t.nil ctx)).right = (rd t (ctxTop t.nil ctx)).right) ∨
        ((rd t (ctxTop t.nil ctx)).left ≠ y ∧ (rd t (ctxTop t.nil ctx)).right = y ∧
          (rd (_rotate_right t y) (ctxTop t.nil ctx)).right = x ∧
          (rd (_rotate_right t y) (ctxTop t.nil ctx)).left = (rd t (ctxTop t.nil ctx)).left))) := by
  obtain ⟨h', hn, _, _⟩ := zip_rotate_right h
  have hy := (zip_focus_cell h).1
  have hx' := (zip_focus_cell h').1
  have hxz : Zip t (.L y cy ky γ :: ctx) (.node x cx kx α β) := (zip_up t _ ctx _).mpr h
  have hx := (zip_focus_cell hxz).1
  have hyz : Zip (_rotate_right t y) (.R x cx kx α :: ctx) (.node y cy ky β γ) :=
    (zip_up _ _ ctx _).mpr h'
  have hy' := (zip_focus_cell hyz).1
  rw [hn] at hy' hx'
  refine ⟨hy, hx, hx', hy', ?_, ?_, ?_⟩
  · intro hb
    cases β with
    | leaf => exact absurd rfl hb
    | node b cb kb bl br =>
      have hbz : Zip (_rotate_right t y) (.L y cy ky γ :: .R x cx kx α :: ctx) (.node b cb kb bl br) :=
        (zip_up _ _ _ _).mpr hyz
      rw [Tree.ptr_node, (zip_focus_cell hbz).1]
      rfl
  · intro e
    have hc := (zip_root_iff h).mp e
    subst hc
    exact ⟨h'.1, rfl⟩
  · intro e
    cases ctx with
    | nil => exact absurd h.1 e
    | cons f rest =>
      have hr1 := RepCtx_root _ _ h.1
      have hr2 := RepCtx_root _ _ h'.1
      rw [hn] at hr2
      refine ⟨by rw [hr1, hr2]; rfl, ctxTop_ne_nil h.1, ?_⟩
      have t1 := zip_top_cell h
      have t2 := zip_top_cell h'
      have hs := zip_sibling_ne h
      rw [hn] at t2
      cases f with
      | L a c k r =>
        left
        exact ⟨t1.2.2.1, t2.2.2.1, t2.2.2.2.trans t1.2.2.2.symm⟩
      | R a c k l =>
        right
        exact ⟨fun e' => hs (t1.2.2.1.symm.trans e'), t1.2.2.2, t2.2.2.2,
          t2.2.2.1.trans t1.2.2.1.symm⟩

/-- A node of a well-formed tree whose right child is not the sentinel is the
top of a subtree `x(α, y(β, γ))` below some path. -/
theorem focus_right {t : rbtree} {T : Tree} {x : Nat} (hwf : WF t T) (hx : x ∈ T.addrs)
    (hr : (rd t x).right ≠ t.nil) :
    ∃ ctx cx kx α cy ky β γ, T = plug ctx (.node x cx kx α (.node (rd t x).right cy ky β γ)) ∧
      Zip t ctx (.node x cx kx α (.node (rd t x).right cy ky β γ)) := by
  obtain ⟨ctx, cx, kx, α, r, e⟩ := Tree.focus T x hx
  subst e
  have hz := (zip_plug t ctx _).mpr hwf
  have hc := (zip_focus_cell hz).1
  cases r with
  | leaf => rw [hc] at hr; exact absurd rfl hr
  | node y cy ky β γ =>
    have e : (rd t x).right = y := by rw [hc]; rfl
    rw [e]
    exact ⟨ctx, cx, kx, α, cy, ky, β, γ, rfl, hz⟩

/-- A node of a well-formed tree whose left child is not the sentinel is the
top of a subtree `y(x(α, β), γ)` below some path. -/
theorem focus_left {t : rbtree} {T : Tree} {y : Nat} (hwf : WF t T) (hy : y ∈ T.addrs)
    (hl : (rd t y).left ≠ t.nil) :
    ∃ ctx cx kx α cy ky β γ, T = plug ctx (.node y cy ky (.node (rd t y).left cx kx α β) γ) ∧
      Zip t ctx (.node y cy ky (.node (rd t y).left cx kx α β) γ) := by
  obtain ⟨ctx, cy, ky, l, γ, e⟩ := Tree.focus T y hy
  subst e
  have hz := (zip_plug t ctx _).mpr hwf
  have hc := (zip_focus_cell hz).1
  cases l with
  | leaf => rw [hc] at hl; exact absurd rfl hl
  | node x cx kx α β =>
    have e : (rd t y).left = x := by rw [hc]; rfl
    rw [e]
    exact ⟨ctx, cx, kx, α, cy, ky, β, γ, rfl, hz⟩

/-- The in-order keys of a well-formed tree, read from the heap. -/
theorem wf_inorder_keys {t : rbtree} {T : Tree} (fuel : Nat) (hwf : WF t T)
    (hfuel : T.keys.length < fuel) : inorder_keys fuel t t.root = some T.keys := by
  have h1 : t.root = T.ptr t.nil := hwf.1
  rw [h1]
  have := Tree.height_le_keys T
  exact inorder_keys_spec t T fuel _ hwf.2.1 (by omega)

theorem rotate_keys (x y : Nat) (cx cy : color_t) (kx ky : Int) (α β γ : Tree) :
    (Tree.node y cy ky (.node x cx kx α β) γ).keys = (Tree.node x cx kx α (.node y cy ky β γ)).keys := by
  simp [Tree.keys]

theorem scenario_c_heap : tree_scenario_c = ⟨1, 0, [⟨RBTREE_BLACK, 0, 0, 0, 0⟩,
    ⟨RBTREE_BLACK, 15, 0, 2, 3⟩, ⟨RBTREE_BLACK, 10, 1, 4, 5⟩, ⟨RBTREE_BLACK, 20, 1, 6, 7⟩,
    ⟨RBTREE_RED, 8, 2, 0, 0⟩, ⟨RBTREE_RED, 12, 2, 0, 0⟩, ⟨RBTREE_RED, 17, 3, 0, 0⟩,
    ⟨RBTREE_RED, 25, 3, 0, 0⟩], []⟩ := by decide

/-- The heap after inserting 15, 10, 20, 8, 12, 17, 25 lays out
`shape_scenario_c`. -/
theorem wf_scenario_c : WF tree_scenario_c shape_scenario_c := by
  rw [scenario_c_heap]; decide

/-- Claim C19, rotations preserve order and re-root correctly. Let the heap `t`
lay out a tree `T` and let `x` be a node of it. If the right child `y` of `x`
is not the sentinel, then `T` is `x(α, y(β, γ))` below some path and after
`_rotate_left(t, x)` the heap lays out `y(x(α, β), γ)` below the same path; the
in-order key sequence read from the root is the same as before; `t->root` is
`y` when it was `x`, and otherwise is unchanged while the former parent of `x`
points to `y` on the side where it pointed to `x` and keeps its other link;
`y` takes the former parent of `x` as parent, `x` is the left child of `y` with
`y` as parent, the right link of `x` is the former left link of `y` (whose
node, if any, takes `x` as parent), `x` keeps its left and `y` its right link;
the sentinel's cell is unchanged, and no cell changes its colour or key. The
mirror statement holds for `_rotate_right(t, x)` when the left child of `x` is
not the sentinel. -/
theorem C19_rotations_preserve_order (t : rbtree) (T : Tree) (x fuel : Nat) (hwf : WF t T)
    (hx : x ∈ T.addrs) (hfuel : T.keys.length < fuel) :
    ((rd t x).right ≠ t.nil →
      (∃ ctx cx kx α cy ky β γ,
        T = plug ctx (.node x cx kx α (.node (rd t x).right cy ky β γ)) ∧
        WF (_rotate_left t x) (plug ctx (.node (rd t x).right cy ky (.node x cx kx α β) γ))) ∧
      inorder_keys fuel (_rotate_left t x) (_rotate_left t x).root = inorder_keys fuel t t.root ∧
      inorder_keys fuel t t.root = some T.keys ∧
      (t.root = x → (_rotate_left t x).root = (rd t x).right) ∧
      (t.root ≠ x → (_rotate_left t x).root = t.root ∧ (rd t x).parent ≠ t.nil ∧
        (((rd t (rd t x).parent).left = x ∧
            (rd (_rotate_left t x) (rd t x).parent).left = (rd t x).right ∧
            (rd (_rotate_left t x) (rd t x).parent).right = (rd t (rd t x).parent).right) ∨
          ((rd t (rd t x).parent).left ≠ x ∧ (rd t (rd t x).parent).right = x ∧
            (rd (_rotate_left t x) (rd t x).parent).right = (rd t x).right ∧
            (rd (_rotate_left t x) (rd t x).parent).left = (rd t (rd t x).parent).left))) ∧
      (rd (_rotate_left t x) (rd t x).right).parent = (rd t x).parent ∧
      (rd (_rotate_left t x) (rd t x).right).left = x ∧
      (rd (_rotate_left t x) x).parent = (rd t x).right ∧
      (rd (_rotate_left t x) x).right = (rd t (rd t x).right).left ∧
      ((rd t (rd t x).right).left ≠ t.nil →
        (rd (_rotate_left t x) (rd t (rd t x).right).left).parent = x) ∧
      (rd (_rotate_left t x) x).left = (rd t x).left ∧
      (rd (_rotate_left t x) (rd t x).right).right = (rd t (rd t x).right).right ∧
      (_rotate_left t x).nil = t.nil ∧
      rd (_rotate_left t x) t.nil = rd t t.nil ∧
      (∀ q, (rd (_rotate_left t x) q).color = (rd t q).color) ∧
      (∀ q, (rd (_rotate_left t x) q).key = (rd t q).key)) ∧
    ((rd t x).left ≠ t.nil →
      (∃ ctx cy ky α cx kx β γ,
        T = plug ctx (.node x cx kx (.node (rd t x).left cy ky α β) γ) ∧
        WF (_rotate_right t x) (plug ctx (.node (rd t x).left cy ky α (.node x cx kx β γ)))) ∧
      inorder_keys fuel (_rotate_right t x) (_rotate_right t x).root = inorder_keys fuel t t.root ∧
      inorder_keys fuel t t.root = some T.keys ∧
      (t.root = x → (_rotate_right t x).root = (rd t x).left) ∧
      (t.root ≠ x → (_rotate_right t x).root = t.root ∧ (rd t x).parent ≠ t.nil ∧
        (((rd t (rd t x).parent).left = x ∧
            (rd (_rotate_right t x) (rd t x).parent).left = (rd t x).left ∧
            (rd (_rotate_right t x) (rd t x).parent).right = (rd t (rd t x).parent).right) ∨
          ((rd t (rd t x).parent).left ≠ x ∧ (rd t (rd t x).parent).right = x ∧
            (rd (_rotate_right t x) (rd t x).parent).right = (rd t x).left ∧
            (rd (_rotate_right t x) (rd t x).parent).left = (rd t (rd t x).parent).left))) ∧
      (rd (_rotate_right t x) (rd t x).left).parent = (rd t x).parent ∧
      (rd (_rotate_right t x) (rd t x).left).right = x ∧
      (rd (_rotate_right t x) x).parent = (rd t x).left ∧
      (rd (_rotate_right t x) x).left = (rd t (rd t x).left).right ∧
      ((rd t (rd t x).left).right ≠ t.nil →
        (rd (_rotate_right t x) (rd t (rd t x).left).right).parent = x) ∧
      (rd (_rotate_right t x) x).right = (rd t x).right ∧
      (rd (_rotate_right t x) (rd t x).left).left = (rd t (rd t x).left).left ∧
      (_rotate_right t x).nil = t.nil ∧
      rd (_rotate_right t x) t.nil = rd t t.nil ∧
      (∀ q, (rd (_rotate_right t x) q).color = (rd t q).color) ∧
      (∀ q, (rd (_rotate_right t x) q).key = (rd t q).key)) := by
  have hk := wf_inorder_keys fuel hwf hfuel
  constructor
  · intro hr
    obtain ⟨ctx, cx, kx, α, cy, ky, β, γ, e, hz⟩ := focus_right hwf hx hr
    generalize (rd t x).right = y at hz e
    obtain ⟨l1, l2, l3, l4, l5, l6, l7⟩ := zip_rotate_left_links hz
    obtain ⟨h', hn, _, hnilc⟩ := zip_rotate_left hz
    have hwf' := (zip_plug _ ctx _).mp h'
    have hkeys : (plug ctx (.node y cy ky (.node x cx kx α β) γ)).keys = T.keys := by
      rw [e]; exact plug_keys ctx _ _ (rotate_keys x y cx cy kx ky α β γ)
    have hk' := wf_inorder_keys fuel hwf' (by rw [hkeys]; exact hfuel)
    rw [hkeys] at hk'
    simp only [l1, l2, l3, l4]
    refine ⟨⟨ctx, cx, kx, α, cy, ky, β, γ, e, hwf'⟩, by rw [hk, hk'], hk, fun e1 => (l6 e1).1, ?_,
      trivial, trivial, trivial, trivial, l5, trivial, trivial, hn, hnilc, color_rotate_left t x, key_rotate_left t x⟩
    intro e1
    exact l7 e1
  · intro hl
    obtain ⟨ctx, cy, ky, α, cx, kx, β, γ, e, hz⟩ := focus_left hwf hx hl
    generalize (rd t x).left = y at hz e
    obtain ⟨l1, l2, l3, l4, l5, l6, l7⟩ := zip_rotate_right_links hz
    obtain ⟨h', hn, _, hnilc⟩ := zip_rotate_right hz
    have hwf' := (zip_plug _ ctx _).mp h'
    have hkeys : (plug ctx (.node y cy ky α (.node x cx kx β γ))).keys = T.keys := by
      rw [e]; exact plug_keys ctx _ _ (rotate_keys y x cy cx ky kx α β γ).symm
    have hk' := wf_inorder_keys fuel hwf' (by rw [hkeys]; exact hfuel)
    rw [hkeys] at hk'
    simp only [l1, l2, l3, l4]
    refine ⟨⟨ctx, cy, ky, α, cx, kx, β, γ, e, hwf'⟩, by rw [hk, hk'], hk, fun e1 => (l6 e1).1, ?_,
      trivial, trivial, trivial, trivial, l5, trivial, trivial, hn, hnilc, color_rotate_right t x, key_rotate_right t x⟩
    intro e1
    exact l7 e1

/-- Applies C19 to the heap after inserting 15, 10, 20, 8, 12, 17, 25 and its
node 10 (cell 2), whose children 8 (cell 4) and 12 (cell 5) are real nodes. -/
theorem C19_rotations_preserve_order_witness :
    WF tree_scenario_c shape_scenario_c ∧ 2 ∈ shape_scenario_c.addrs ∧
    shape_scenario_c.keys.length < 8 ∧
    (rd tree_scenario_c 2).right ≠ tree_scenario_c.nil ∧
    (rd tree_scenario_c 2).left ≠ tree_scenario_c.nil ∧
    inorder_keys 8 (_rotate_left tree_scenario_c 2) (_rotate_left tree_scenario_c 2).root =
      inorder_keys 8 tree_scenario_c tree_scenario_c.root ∧
    inorder_keys 8 (_rotate_right tree_scenario_c 2) (_rotate_right tree_scenario_c 2).root =
      inorder_keys 8 tree_scenario_c tree_scenario_c.root :=
  ⟨wf_scenario_c, by decide, by decide, by decide, by decide,
    ((C19_rotations_preserve_order tree_scenario_c shape_scenario_c 2 8 wf_scenario_c
      (by decide) (by decide)).1 (by decide)).2.1,
    ((C19_rotations_preserve_order tree_scenario_c shape_scenario_c 2 8 wf_scenario_c
      (by decide) (by decide)).2 (by decide)).2.1⟩

/-- Claim C20, rotations are mutually inverse. Let the heap `t` lay out a tree
`T` and let `x` be a node of it. If the right child `y` of `x` is not the
sentinel, `_rotate_left(t, x)` followed by `_rotate_right(t, y)` gives back the
state `t` itself: the root pointer, the sentinel pointer and every cell (all
links, colours and keys, the sentinel's cell included). Symmetrically, if the
left child `y` of `x` is not the sentinel, `_rotate_right(t, x)` followed by
`_rotate_left(t, y)` gives back `t`. -/
theorem C20_rotations_mutually_inverse (t : rbtree) (T : Tree) (x : Nat) (hwf : WF t T)
    (hx : x ∈ T.addrs) :
    ((rd t x).right ≠ t.nil → _rotate_right (_rotate_left t x) (rd t x).right = t) ∧
    ((rd t x).left ≠ t.nil → _rotate_left (_rotate_right t x) (rd t x).left = t) := by
  constructor
  · intro hr
    obtain ⟨ctx, cx, kx, α, cy, ky, β, γ, e, hz⟩ := focus_right hwf hx hr
    generalize (rd t x).right = y at hz e
    obtain ⟨h1, hn1, hl1, _⟩ := zip_rotate_left hz
    obtain ⟨h2, hn2, hl2, _⟩ := zip_rotate_right h1
    have o1 := zip_rotate_left_others hz
    have o2 := zip_rotate_right_others h1
    refine zip_ext hz h2 (hn2.trans hn1) (hl2.trans hl1) (by simp) ?_
    intro q hq
    rw [o2 q (by simpa [Tree.addrs] using hq), o1 q hq]
  · intro hl
    obtain ⟨ctx, cy, ky, α, cx, kx, β, γ, e, hz⟩ := focus_left hwf hx hl
    generalize (rd t x).left = y at hz e
    obtain ⟨h1, hn1, hl1, _⟩ := zip_rotate_right hz
    obtain ⟨h2, hn2, hl2, _⟩ := zip_rotate_left h1
    have o1 := zip_rotate_right_others hz
    have o2 := zip_rotate_left_others h1
    refine zip_ext hz h2 (hn2.trans hn1) (hl2.trans hl1) (by simp) ?_
    intro q hq
    rw [o2 q (by simpa [Tree.addrs] using hq), o1 q hq]

/-- Applies C20 to the heap after inserting 15, 10, 20, 8, 12, 17, 25 and its
node 10 (cell 2), whose children 8 (cell 4) and 12 (cell 5) are real nodes. -/
theorem C20_rotations_mutually_inverse_witness :
    WF tree_scenario_c shape_scenario_c ∧ 2 ∈ shape_scenario_c.addrs ∧
    (rd tree_scenario_c 2).right ≠ tree_scenario_c.nil ∧
    (rd tree_scenario_c 2).left ≠ tree_scenario_c.nil ∧
    _rotate_right (_rotate_left tree_scenario_c 2) (rd tree_scenario_c 2).right = tree_scenario_c ∧
    _rotate_left (_rotate_right tree_scenario_c 2) (rd tree_scenario_c 2).left = tree_scenario_c :=
  ⟨wf_scenario_c, by decide, by decide, by decide,
    (C20_rotations_mutually_inverse tree_scenario_c shape_scenario_c 2 wf_scenario_c
      (by decide)).1 (by decide),
    (C20_rotations_mutually_inverse tree_scenario_c shape_scenario_c 2 wf_scenario_c
      (by decide)).2 (by decide)⟩

/-! ### Deletion: the body of the fix-up loop, piece by piece -/

@[simp]
theorem parent_set_color (t : rbtree) (p q : Nat) (c : color_t) :
    (rd (set_color t p c) q).parent = (rd t q).parent := by
  rw [rd_set_color]; split
  · next h => obtain ⟨rfl, _⟩ := h; rfl
  · rfl

@[simp]
theorem left_set_color (t : rbtree) (p q : Nat) (c : color_t) :
    (rd (set_color t p c) q).left = (rd t q).left := by
  rw [rd_set_color]; split
  · next h => obtain ⟨rfl, _⟩ := h; rfl
  · rfl

@[simp]
theorem right_set_color (t : rbtree) (p q : Nat) (c : color_t) :
    (rd (set_color t p c) q).right = (rd t q).right := by
  rw [rd_set_color]; split
  · next h => obtain ⟨rfl, _⟩ := h; rfl
  · rfl

/-- With a black sibling the body of the loop (left side) skips Case 1. -/
theorem delete_fixup_left_black (t : rbtree) (curr p b : Nat) (e1 : (rd t curr).parent = p)
    (e2 : (rd t p).right = b) (h : (rd t b).color ≠ RBTREE_RED) :
    _rb_delete_fixup_left t curr = _rb_delete_fixup_left_rest t curr b := by
  subst e1; subst e2
  unfold _rb_delete_fixup_left
  simp only []
  rw [if_neg h]
  rfl

/-- With a red sibling the body of the loop (left side) runs Case 1 and goes
on with the new sibling. -/
theorem delete_fixup_left_red (t : rbtree) (curr p b : Nat) (e1 : (rd t curr).parent = p)
    (e2 : (rd t p).right = b) (h : (rd t b).color = RBTREE_RED) :
    _rb_delete_fixup_left t curr =
      _rb_delete_fixup_left_rest
        (_rotate_left (set_color (set_color t b RBTREE_BLACK) p RBTREE_RED) p) curr
        (rd (_rotate_left (set_color (set_color t b RBTREE_BLACK) p RBTREE_RED) p)
          (rd (_rotate_left (set_color (set_color t b RBTREE_BLACK) p RBTREE_RED) p)
            curr).parent).right := by
  subst e1; subst e2
  have key : ∀ t1, t1 = (_rotate_left (set_color (set_color t (rd t (rd t curr).parent).right
      RBTREE_BLACK) (rd (set_color t (rd t (rd t curr).parent).right RBTREE_BLACK) curr).parent
      RBTREE_RED) (rd (set_color (set_color t (rd t (rd t curr).parent).right RBTREE_BLACK)
      (rd (set_color t (rd t (rd t curr).parent).right RBTREE_BLACK) curr).parent RBTREE_RED)
      curr).parent) →
      _rb_delete_fixup_left t curr =
        _rb_delete_fixup_left_rest t1 curr (rd t1 (rd t1 curr).parent).right := by
    intro t1 ht1
    unfold _rb_delete_fixup_left
    simp only []
    rw [if_pos h, ← ht1]
    rfl
  exact key _ (by simp only [parent_set_color])

/-- With a black sibling the body of the loop (right side) skips Case 1. -/
theorem delete_fixup_right_black (t : rbtree) (curr p b : Nat) (e1 : (rd t curr).parent = p)
    (e2 : (rd t p).left = b) (h : (rd t b).color ≠ RBTREE_RED) :
    _rb_delete_fixup_right t curr = _rb_delete_fixup_right_rest t curr b := by
  subst e1; subst e2
  unfold _rb_delete_fixup_right
  simp only []
  rw [if_neg h]
  rfl

/-- With a red sibling the body of the loop (right side) runs Case 1 and goes
on with the new sibling. -/
theorem delete_fixup_right_red (t : rbtree) (curr p b : Nat) (e1 : (rd t curr).parent = p)
    (e2 : (rd t p).left = b) (h : (rd t b).color = RBTREE_RED) :
    _rb_delete_fixup_right t curr =
      _rb_delete_fixup_right_rest
        (_rotate_right (set_color (set_color t b RBTREE_BLACK) p RBTREE_RED) p) curr
        (rd (_rotate_right (set_color (set_color t b RBTREE_BLACK) p RBTREE_RED) p)
          (rd (_rotate_right (set_color (set_color t b RBTREE_BLACK) p RBTREE_RED) p)
            curr).parent).left := by
  subst e1; subst e2
  have key : ∀ t1, t1 = (_rotate_right (set_color (set_color t (rd t (rd t curr).parent).left
      RBTREE_BLACK) (rd (set_color t (rd t (rd t curr).parent).left RBTREE_BLACK) curr).parent
      RBTREE_RED) (rd (set_color (set_color t (rd t (rd t curr).parent).left RBTREE_BLACK)
      (rd (set_color t (rd t (rd t curr).parent).left RBTREE_BLACK) curr).parent RBTREE_RED)
      curr).parent) →
      _rb_delete_fixup_right t curr =
        _rb_delete_fixup_right_rest t1 curr (rd t1 (rd t1 curr).parent).left := by
    intro t1 ht1
    unfold _rb_delete_fixup_right
    simp only []
    rw [if_pos h, ← ht1]
    rfl
  exact key _ (by simp only [parent_set_color])

/-- Case 2 (left side): the sibling turns red and `curr` moves to its parent. -/
theorem delete_fixup_left_rest_case2 (t : rbtree) (curr b : Nat)
    (h1 : (rd t (rd t b).left).color = RBTREE_BLACK)
    (h2 : (rd t (rd t b).right).color = RBTREE_BLACK) :
    _rb_delete_fixup_left_rest t curr b = (set_color t b RBTREE_RED, (rd t curr).parent) := by
  unfold _rb_delete_fixup_left_rest
  simp only [h1, h2, and_self, if_true, parent_set_color]

/-- Case 4 without Case 3 (left side). -/
theorem delete_fixup_left_rest_case4 (t : rbtree) (curr b : Nat)
    (h2 : (rd t (rd t b).right).color = RBTREE_RED) :
    _rb_delete_fixup_left_rest t curr b = _rb_delete_fixup_left_last t curr b := by
  unfold _rb_delete_fixup_left_rest
  have n2 : ¬ (rd t (rd t b).right).color = RBTREE_BLACK := by rw [h2]; decide
  rw [if_neg (fun h => n2 h.2)]
  simp only []
  rw [if_neg (fun h => n2 h.2)]

/-- Case 3 followed by Case 4 (left side). -/
theorem delete_fixup_left_rest_case3 (t : rbtree) (curr b e : Nat) (e1 : (rd t b).left = e)
    (h1 : (rd t e).color = RBTREE_RED)
    (h2 : (rd t (rd t b).right).color = RBTREE_BLACK) :
    _rb_delete_fixup_left_rest t curr b =
      _rb_delete_fixup_left_last
        (_rotate_right (set_color (set_color t e RBTREE_BLACK) b RBTREE_RED) b) curr
        (rd (_rotate_right (set_color (set_color t e RBTREE_BLACK) b RBTREE_RED) b)
          (rd (_rotate_right (set_color (set_color t e RBTREE_BLACK) b RBTREE_RED) b)
            curr).parent).right := by
  subst e1
  unfold _rb_delete_fixup_left_rest
  have n1 : ¬ (rd t (rd t b).left).color = RBTREE_BLACK := by rw [h1]; decide
  rw [if_neg (fun h => n1 h.1)]
  simp only []
  rw [if_pos ⟨h1, h2⟩]

/-- Case 4 itself (left side), with the cells it reads named. -/
theorem delete_fixup_left_last_eq (t : rbtree) (curr b p d : Nat) (cp : color_t)
    (e1 : (rd t curr).parent = p) (e2 : (rd t p).color = cp) (e3 : (rd t b).right = d) :
    _rb_delete_fixup_left_last t curr b =
      (_rotate_left (set_color (set_color (set_color t b cp) p RBTREE_BLACK) d RBTREE_BLACK) p,
        (_rotate_left (set_color (set_color (set_color t b cp) p RBTREE_BLACK) d RBTREE_BLACK)
          p).root) := by
  unfold _rb_delete_fixup_left_last
  simp only [parent_set_color, right_set_color, e1, e2, e3]

/-- Case 2 (right side). -/
theorem delete_fixup_right_rest_case2 (t : rbtree) (curr b : Nat)
    (h1 : (rd t (rd t b).left).color = RBTREE_BLACK)
    (h2 : (rd t (rd t b).right).color = RBTREE_BLACK) :
    _rb_delete_fixup_right_rest t curr b = (set_color t b RBTREE_RED, (rd t curr).parent) := by
  unfold _rb_delete_fixup_right_rest
  simp only [h1, h2, and_self, if_true, parent_set_color]

/-- Case 4 without Case 3 (right side). -/
theorem delete_fixup_right_rest_case4 (t : rbtree) (curr b : Nat)
    (h2 : (rd t (rd t b).left).color = RBTREE_RED) :
    _rb_delete_fixup_right_rest t curr b = _rb_delete_fixup_right_last t curr b := by
  unfold _rb_delete_fixup_right_rest
  have n2 : ¬ (rd t (rd t b).left).color = RBTREE_BLACK := by rw [h2]; decide
  rw [if_neg (fun h => n2 h.1)]
  simp only []
  rw [if_neg (fun h => n2 h.1)]

/-- Case 3 followed by Case 4 (right side). -/
theorem delete_fixup_right_rest_case3 (t : rbtree) (curr b e : Nat) (e1 : (rd t b).right = e)
    (h1 : (rd t e).color = RBTREE_RED)
    (h2 : (rd t (rd t b).left).color = RBTREE_BLACK) :
    _rb_delete_fixup_right_rest t curr b =
      _rb_delete_fixup_right_last
        (_rotate_left (set_color (set_color t e RBTREE_BLACK) b RBTREE_RED) b) curr
        (rd (_rotate_left (set_color (set_color t e RBTREE_BLACK) b RBTREE_RED) b)
          (rd (_rotate_left (set_color (set_color t e RBTREE_BLACK) b RBTREE_RED) b)
            curr).parent).left := by
  subst e1
  unfold _rb_delete_fixup_right_rest
  have n1 : ¬ (rd t (rd t b).right).color = RBTREE_BLACK := by rw [h1]; decide
  rw [if_neg (fun h => n1 h.2)]
  simp only []
  rw [if_pos ⟨h2, h1⟩]

/-- Case 4 itself (right side), with the cells it reads named. -/
theorem delete_fixup_right_last_eq (t : rbtree) (curr b p d : Nat) (cp : color_t)
    (e1 : (rd t curr).parent = p) (e2 : (rd t p).color = cp) (e3 : (rd t b).left = d) :
    _rb_delete_fixup_right_last t curr b =
      (_rotate_right (set_color (set_color (set_color t b cp) p RBTREE_BLACK) d RBTREE_BLACK) p,
        (_rotate_right (set_color (set_color (set_color t b cp) p RBTREE_BLACK) d RBTREE_BLACK)
          p).root) := by
  unfold _rb_delete_fixup_right_last
  simp only [parent_set_color, left_set_color, e1, e2, e3]

/-! ### Deletion: the cases of the fix-up on the represented tree -/

/-- The focus can be moved from a left child to its sibling. -/
theorem zip_swap_left (t : rbtree) (p : Nat) (cp : color_t) (kp : Int) (s w : Tree)
    (rest : List Frame) :
    Zip t (.L p cp kp w :: rest) s ↔ Zip t (.R p cp kp s :: rest) w := by
  rw [zip_up, zip_up]; rfl

/-- Case 1, `curr` on the left: the red sibling `b` turns black, the parent
red, and the rotation puts `b` above the parent; the new sibling is the
former left subtree of `b`. -/
theorem dfix_case1_left {t : rbtree} {rest : List Frame} {s wl wr : Tree} {p b : Nat}
    {cp cw : color_t} {kp kw : Int}
    (h : Zip t (.L p cp kp (.node b cw kw wl wr) :: rest) s) :
    Zip (_rotate_left (set_color (set_color t b RBTREE_BLACK) p RBTREE_RED) p)
      (.L p RBTREE_RED kp wl :: .L b RBTREE_BLACK kw wr :: rest) s ∧
    Keeps t (_rotate_left (set_color (set_color t b RBTREE_BLACK) p RBTREE_RED) p) := by
  have z0 := (zip_swap_left t p cp kp s _ rest).mp h
  have z1 := zip_set_color RBTREE_BLACK z0
  have k1 := keeps_set_color RBTREE_BLACK (zip_focus_cell z0).2
  rw [zip_up] at z1
  have z2 := zip_set_color RBTREE_RED z1
  have k2 := keeps_set_color RBTREE_RED (zip_focus_cell z1).2
  have z3 := zip_rotate_left z2
  refine ⟨?_, (k1.trans k2).trans z3.2⟩
  rw [zip_up, zip_up]
  exact z3.1

/-- Case 2, `curr` on the left: the sibling turns red and the parent becomes
the focus. -/
theorem dfix_case2_left {t : rbtree} {rest : List Frame} {s wl wr : Tree} {p b : Nat}
    {cp cw : color_t} {kp kw : Int}
    (h : Zip t (.L p cp kp (.node b cw kw wl wr) :: rest) s) :
    Zip (set_color t b RBTREE_RED) rest (.node p cp kp s (.node b RBTREE_RED kw wl wr)) ∧
    Keeps t (set_color t b RBTREE_RED) := by
  have z0 := (zip_swap_left t p cp kp s _ rest).mp h
  have z1 := zip_set_color RBTREE_RED z0
  have k1 := keeps_set_color RBTREE_RED (zip_focus_cell z0).2
  rw [zip_up] at z1
  exact ⟨z1, k1⟩

/-- Case 3, `curr` on the left: the near child `e` of the sibling turns black,
the sibling red, and the rotation makes `e` the new sibling. -/
theorem dfix_case3_left {t : rbtree} {rest : List Frame} {s el er wr : Tree} {p b e : Nat}
    {cp cw ce : color_t} {kp kw ke : Int}
    (h : Zip t (.L p cp kp (.node b cw kw (.node e ce ke el er) wr) :: rest) s) :
    Zip (_rotate_right (set_color (set_color t e RBTREE_BLACK) b RBTREE_RED) b)
      (.L p cp kp (.node e RBTREE_BLACK ke el (.node b RBTREE_RED kw er wr)) :: rest) s ∧
    Keeps t (_rotate_right (set_color (set_color t e RBTREE_BLACK) b RBTREE_RED) b) := by
  have z0 := (zip_swap_left t p cp kp s _ rest).mp h
  have z0' : Zip t (.L b cw kw wr :: .R p cp kp s :: rest) (.node e ce ke el er) :=
    (zip_up _ _ _ _).mpr z0
  have z1 := zip_set_color RBTREE_BLACK z0'
  have k1 := keeps_set_color RBTREE_BLACK (zip_focus_cell z0').2
  rw [zip_up] at z1
  have z2 := zip_set_color RBTREE_RED z1
  have k2 := keeps_set_color RBTREE_RED (zip_focus_cell z1).2
  have z3 := zip_rotate_right z2
  refine ⟨?_, (k1.trans k2).trans z3.2⟩
  rw [zip_swap_left]
  exact z3.1

/-- Case 4, `curr` on the left: the sibling takes the parent's colour, the
parent and the far child of the sibling turn black, and the rotation puts the
sibling above the parent. -/
theorem dfix_case4_left {t : rbtree} {rest : List Frame} {s wl dl dr : Tree} {p b d : Nat}
    {cp cw cd : color_t} {kp kw kd : Int}
    (h : Zip t (.L p cp kp (.node b cw kw wl (.node d cd kd dl dr)) :: rest) s) :
    Zip (_rotate_left (set_color (set_color (set_color t b cp) p RBTREE_BLACK) d RBTREE_BLACK) p)
      rest (.node b cp kw (.node p RBTREE_BLACK kp s wl) (.node d RBTREE_BLACK kd dl dr)) ∧
    Keeps t
      (_rotate_left (set_color (set_color (set_color t b cp) p RBTREE_BLACK) d RBTREE_BLACK) p) := by
  have z0 := (zip_swap_left t p cp kp s _ rest).mp h
  have z1 := zip_set_color cp z0
  have k1 := keeps_set_color cp (zip_focus_cell z0).2
  rw [zip_up] at z1
  have z2 := zip_set_color RBTREE_BLACK z1
  have k2 := keeps_set_color RBTREE_BLACK (zip_focus_cell z1).2
  have z2' : Zip (set_color (set_color t b cp) p RBTREE_BLACK)
      (.R b cp kw wl :: .R p RBTREE_BLACK kp s :: rest) (.node d cd kd dl dr) := by
    rw [zip_up, zip_up]; exact z2
  have z3 := zip_set_color RBTREE_BLACK z2'
  have k3 := keeps_set_color RBTREE_BLACK (zip_focus_cell z2').2
  rw [zip_up, zip_up] at z3
  have z4 := zip_rotate_left z3
  exact ⟨z4.1, ((k1.trans k2).trans k3).trans z4.2⟩

/-- Case 1, `curr` on the right. -/
theorem dfix_case1_right {t : rbtree} {rest : List Frame} {s wl wr : Tree} {p b : Nat}
    {cp cw : color_t} {kp kw : Int}
    (h : Zip t (.R p cp kp (.node b cw kw wl wr) :: rest) s) :
    Zip (_rotate_right (set_color (set_color t b RBTREE_BLACK) p RBTREE_RED) p)
      (.R p RBTREE_RED kp wr :: .R b RBTREE_BLACK kw wl :: rest) s ∧
    Keeps t (_rotate_right (set_color (set_color t b RBTREE_BLACK) p RBTREE_RED) p) := by
  have z0 := (zip_swap_left t p cp kp _ s rest).mpr h
  have z1 := zip_set_color RBTREE_BLACK z0
  have k1 := keeps_set_color RBTREE_BLACK (zip_focus_cell z0).2
  rw [zip_up] at z1
  have z2 := zip_set_color RBTREE_RED z1
  have k2 := keeps_set_color RBTREE_RED (zip_focus_cell z1).2
  have z3 := zip_rotate_right z2
  refine ⟨?_, (k1.trans k2).trans z3.2⟩
  rw [zip_up, zip_up]
  exact z3.1

/-- Case 2, `curr` on the right. -/
theorem dfix_case2_right {t : rbtree} {rest : List Frame} {s wl wr : Tree} {p b : Nat}
    {cp cw : color_t} {kp kw : Int}
    (h : Zip t (.R p cp kp (.node b cw kw wl wr) :: rest) s) :
    Zip (set_color t b RBTREE_RED) rest (.node p cp kp (.node b RBTREE_RED kw wl wr) s) ∧
    Keeps t (set_color t b RBTREE_RED) := by
  have z0 := (zip_swap_left t p cp kp _ s rest).mpr h
  have z1 := zip_set_color RBTREE_RED z0
  have k1 := keeps_set_color RBTREE_RED (zip_focus_cell z0).2
  rw [zip_up] at z1
  exact ⟨z1, k1⟩

/-- Case 3, `curr` on the right. -/
theorem dfix_case3_right {t : rbtree} {rest : List Frame} {s el er wl : Tree} {p b e : Nat}
    {cp cw ce : color_t} {kp kw ke : Int}
    (h : Zip t (.R p cp kp (.node b cw kw wl (.node e ce ke el er)) :: rest) s) :
    Zip (_rotate_left (set_color (set_color t e RBTREE_BLACK) b RBTREE_RED) b)
      (.R p cp kp (.node e RBTREE_BLACK ke (.node b RBTREE_RED kw wl el) er) :: rest) s ∧
    Keeps t (_rotate_left (set_color (set_color t e RBTREE_BLACK) b RBTREE_RED) b) := by
  have z0 := (zip_swap_left t p cp kp _ s rest).mpr h
  have z0' : Zip t (.R b cw kw wl :: .L p cp kp s :: rest) (.node e ce ke el er) :=
    (zip_up _ _ _ _).mpr z0
  have z1 := zip_set_color RBTREE_BLACK z0'
  have k1 := keeps_set_color RBTREE_BLACK (zip_focus_cell z0').2
  rw [zip_up] at z1
  have z2 := zip_set_color RBTREE_RED z1
  have k2 := keeps_set_color RBTREE_RED (zip_focus_cell z1).2
  have z3 := zip_rotate_left z2
  refine ⟨?_, (k1.trans k2).trans z3.2⟩
  rw [← zip_swap_left]
  exact z3.1

/-- Case 4, `curr` on the right. -/
theorem dfix_case4_right {t : rbtree} {rest : List Frame} {s wr dl dr : Tree} {p b d : Nat}
    {cp cw cd : color_t} {kp kw kd : Int}
    (h : Zip t (.R p cp kp (.node b cw kw (.node d cd kd dl dr) wr) :: rest) s) :
    Zip (_rotate_right (set_color (set_color (set_color t b cp) p RBTREE_BLACK) d RBTREE_BLACK) p)
      rest (.node b cp kw (.node d RBTREE_BLACK kd dl dr) (.node p RBTREE_BLACK kp wr s)) ∧
    Keeps t
      (_rotate_right (set_color (set_color (set_color t b cp) p RBTREE_BLACK) d RBTREE_BLACK) p) := by
  have z0 := (zip_swap_left t p cp kp _ s rest).mpr h
  have z1 := zip_set_color cp z0
  have k1 := keeps_set_color cp (zip_focus_cell z0).2
  rw [zip_up] at z1
  have z2 := zip_set_color RBTREE_BLACK z1
  have k2 := keeps_set_color RBTREE_BLACK (zip_focus_cell z1).2
  have z2' : Zip (set_color (set_color t b cp) p RBTREE_BLACK)
      (.L b cp kw wr :: .L p RBTREE_BLACK kp s :: rest) (.node d cd kd dl dr) := by
    rw [zip_up, zip_up]; exact z2
  have z3 := zip_set_color RBTREE_BLACK z2'
  have k3 := keeps_set_color RBTREE_BLACK (zip_focus_cell z2').2
  rw [zip_up, zip_up] at z3
  have z4 := zip_rotate_right z3
  exact ⟨z4.1, ((k1.trans k2).trans k3).trans z4.2⟩

/-- The colour field of the cell a subtree pointer names is the colour of the
subtree: the colour of its top node, or black for the sentinel. -/
theorem Rep_color {t : rbtree} {par : Nat} {u : Tree} (h : Rep t par u) (hnb : NilBlack t) :
    (rd t (u.ptr t.nil)).color = u.color := by
  cases u with
  | leaf => exact hnb
  | node a c k l r => rw [Tree.ptr_node, h.2.2.1]; rfl

/-- What the fix-up reads around a focus on the left: the parent's links and
colour, the sibling's links and colour, and the colours of the sibling's
children. -/
theorem zip_read_left {t : rbtree} {rest : List Frame} {s wl wr : Tree} {p b : Nat}
    {cp cw : color_t} {kp kw : Int}
    (h : Zip t (.L p cp kp (.node b cw kw wl wr) :: rest) s) (hnb : NilBlack t) :
    (rd t p).left = s.ptr t.nil ∧ (rd t p).right = b ∧ (rd t p).color = cp ∧
    (rd t b).color = cw ∧ (rd t b).left = wl.ptr t.nil ∧ (rd t b).right = wr.ptr t.nil ∧
    (rd t (wl.ptr t.nil)).color = wl.color ∧ (rd t (wr.ptr t.nil)).color = wr.color ∧
    p ≠ t.nil ∧ b ≠ t.nil := by
  obtain ⟨⟨hp1, _, hp3, ⟨hb1, _, hb3, hwl, hwr⟩, _⟩, _, _⟩ := h
  simp only [hp3, hb3]
  exact ⟨trivial, rfl, trivial, trivial, trivial, trivial, Rep_color hwl hnb, Rep_color hwr hnb,
    hp1, hb1⟩

/-- What the fix-up reads around a focus on the right. -/
theorem zip_read_right {t : rbtree} {rest : List Frame} {s wl wr : Tree} {p b : Nat}
    {cp cw : color_t} {kp kw : Int}
    (h : Zip t (.R p cp kp (.node b cw kw wl wr) :: rest) s) (hnb : NilBlack t) :
    (rd t p).right = s.ptr t.nil ∧ (rd t p).left = b ∧ (rd t p).color = cp ∧
    (rd t b).color = cw ∧ (rd t b).left = wl.ptr t.nil ∧ (rd t b).right = wr.ptr t.nil ∧
    (rd t (wl.ptr t.nil)).color = wl.color ∧ (rd t (wr.ptr t.nil)).color = wr.color ∧
    p ≠ t.nil ∧ b ≠ t.nil := by
  obtain ⟨⟨hp1, _, hp3, ⟨hb1, _, hb3, hwl, hwr⟩, _⟩, _, _⟩ := h
  simp only [hp3, hb3]
  exact ⟨trivial, rfl, trivial, trivial, trivial, trivial, Rep_color hwl hnb, Rep_color hwr hnb,
    hp1, hb1⟩

/-! ### The red-black conditions along a path -/

theorem color_cases (c : color_t) : c = RBTREE_RED ∨ c = RBTREE_BLACK := by
  cases c <;> simp

theorem color_ne_red {c : color_t} : c ≠ RBTREE_RED ↔ c = RBTREE_BLACK := by
  cases c <;> simp

theorem color_ne_black {c : color_t} : c ≠ RBTREE_BLACK ↔ c = RBTREE_RED := by
  cases c <;> simp

@[simp]
theorem Tree.bh_leaf (n : Nat) : Tree.leaf.bh n ↔ n = 0 := by
  rw [Tree.bh]

@[simp]
theorem Tree.bh_red (a : Nat) (k : Int) (l r : Tree) (n : Nat) :
    (Tree.node a RBTREE_RED k l r).bh n ↔ l.bh n ∧ r.bh n := by
  rw [Tree.bh]

@[simp]
theorem Tree.bh_black_succ (a : Nat) (k : Int) (l r : Tree) (n : Nat) :
    (Tree.node a RBTREE_BLACK k l r).bh (n + 1) ↔ l.bh n ∧ r.bh n := by
  rw [Tree.bh]

@[simp]
theorem Tree.bh_black_zero (a : Nat) (k : Int) (l r : Tree) :
    (Tree.node a RBTREE_BLACK k l r).bh 0 ↔ False := by
  rw [Tree.bh]

/-- A tree of positive black-height is not empty. -/
theorem Tree.bh_succ_node {s : Tree} {n : Nat} (h : s.bh (n + 1)) :
    ∃ a c k l r, s = .node a c k l r := by
  cases s with
  | leaf => simp at h
  | node a c k l r => exact ⟨a, c, k, l, r, rfl⟩

/-- A black node of black-height `n` has children of black-height `n - 1`. -/
theorem Tree.bh_black {a : Nat} {k : Int} {l r : Tree} {n : Nat}
    (h : (Tree.node a RBTREE_BLACK k l r).bh n) : ∃ m, n = m + 1 ∧ l.bh m ∧ r.bh m := by
  cases n with
  | zero => simp at h
  | succ m => exact ⟨m, rfl, by simpa using h⟩

/-- The black-height of a node in terms of that of its children. -/
theorem Tree.bh_node {a : Nat} {c : color_t} {k : Int} {l r : Tree} {m : Nat}
    (hl : l.bh m) (hr : r.bh m) :
    (Tree.node a c k l r).bh (if c = RBTREE_BLACK then m + 1 else m) := by
  cases c <;> simp [hl, hr]

/-- The children of a node of black-height `n`. -/
theorem Tree.bh_kids {a : Nat} {c : color_t} {k : Int} {l r : Tree} {n : Nat}
    (h : (Tree.node a c k l r).bh n) :
    ∃ m, n = (if c = RBTREE_BLACK then m + 1 else m) ∧ l.bh m ∧ r.bh m := by
  cases c with
  | RBTREE_RED => exact ⟨n, by simp, by simpa using h⟩
  | RBTREE_BLACK =>
    obtain ⟨m, e, h1⟩ := Tree.bh_black h
    exact ⟨m, by simp [e], h1⟩

/-- The black-height of a tree is unique. -/
theorem Tree.bh_unique : ∀ (s : Tree) (n m : Nat), s.bh n → s.bh m → n = m := by
  intro s
  induction s with
  | leaf => intro n m hn hm; simp at hn hm; omega
  | node a c k l r ihl _ =>
    intro n m hn hm
    obtain ⟨n', e1, h1, _⟩ := Tree.bh_kids hn
    obtain ⟨m', e2, h2, _⟩ := Tree.bh_kids hm
    have := ihl n' m' h1 h2
    subst this
    rw [e1, e2]

theorem Tree.noRR_kids {s : Tree} (h : s.noRR) : s.kidsNoRR := by
  cases s with
  | leaf => trivial
  | node a c k l r => exact h.2

theorem Tree.noRR_of_black {s : Tree} (hc : s.color = RBTREE_BLACK) (h : s.kidsNoRR) :
    s.noRR := by
  cases s with
  | leaf => trivial
  | node a c k l r =>
    simp only [Tree.color] at hc
    subst hc
    exact ⟨fun e => absurd e (by decide), h⟩

theorem RootBlack.tail {f : Frame} {rest : List Frame} (h : RootBlack (f :: rest)) :
    RootBlack rest := by
  cases rest with
  | nil => intro g hg; simp at hg
  | cons g rest' =>
    intro x hx
    apply h x
    simpa [List.getLast?_cons_cons] using hx

theorem RootBlack.single {f : Frame} : RootBlack [f] ↔ f.color = RBTREE_BLACK := by
  constructor
  · intro h; exact h f rfl
  · intro h g hg
    simp at hg
    subst hg; exact h

theorem RootBlack.cons_cons {f g : Frame} {rest : List Frame} :
    RootBlack (f :: g :: rest) ↔ RootBlack (g :: rest) := by
  unfold RootBlack
  simp [List.getLast?_cons_cons]

/-- Only the colour of the topmost frame matters for `RootBlack`. -/
theorem RootBlack.swap_top {f f' : Frame} {rest : List Frame} (hc : f'.color = f.color)
    (h : RootBlack (f :: rest)) : RootBlack (f' :: rest) := by
  cases rest with
  | nil => rw [RootBlack.single] at h ⊢; rw [hc]; exact h
  | cons g rest' => rw [RootBlack.cons_cons] at h ⊢; exact h

/-- The root of a tree rebuilt along a non-empty path is the topmost parent. -/
theorem plug_rootBlack_cons : ∀ (rest : List Frame) (f : Frame) (s : Tree),
    (plug (f :: rest) s).rootBlack ↔ RootBlack (f :: rest) := by
  intro rest
  induction rest with
  | nil =>
    intro f s
    rw [RootBlack.single]
    cases f <;> simp [plug, Frame.fill, Tree.rootBlack, Frame.color]
  | cons g rest' ih =>
    intro f s
    rw [RootBlack.cons_cons, ← ih g (f.fill s)]
    rfl

theorem Tree.rootBlack_iff (s : Tree) : s.rootBlack ↔ s.color = RBTREE_BLACK := by
  cases s <;> simp [Tree.rootBlack, Tree.color]

theorem Frame.fill_color (f : Frame) (s : Tree) : (f.fill s).color = f.color := by
  cases f <;> rfl

/-- Filling a subtree of the right black-height into a path of a red-black
tree gives a tree with a uniform black-height and without red-red pairs. -/
theorem plug_valid : ∀ (ctx : List Frame) (s : Tree) (n : Nat), CtxOK ctx n → s.bh n → s.noRR →
    (ctxColor ctx = RBTREE_RED → s.color = RBTREE_BLACK) →
    (∃ m, (plug ctx s).bh m) ∧ (plug ctx s).noRR := by
  intro ctx
  induction ctx with
  | nil => intro s n _ hb hr _; exact ⟨⟨n, hb⟩, hr⟩
  | cons f rest ih =>
    intro s n hc hb hr hcol
    obtain ⟨h1, h2, h3, h4⟩ := hc
    refine ih (f.fill s) _ h4 ?_ ?_ ?_
    · cases f with
      | L a c k r => exact Tree.bh_node hb h1
      | R a c k l => exact Tree.bh_node h1 hb
    · cases f with
      | L a c k r => exact ⟨fun e => ⟨hcol e, (h3 e).1⟩, hr, h2⟩
      | R a c k l => exact ⟨fun e => ⟨(h3 e).1, hcol e⟩, h2, hr⟩
    · intro e
      rw [Frame.fill_color]
      rcases color_cases f.color with hf | hf
      · rw [(h3 hf).2] at e; exact absurd e (by decide)
      · exact hf

/-- The path to a subtree of a tree with a uniform black-height and without
red-red pairs satisfies the conditions of `CtxOK`, and so does the subtree. -/
theorem unplug_valid : ∀ (ctx : List Frame) (s : Tree), (∃ m, (plug ctx s).bh m) →
    (plug ctx s).noRR →
    ∃ n, CtxOK ctx n ∧ s.bh n ∧ s.noRR ∧ (ctxColor ctx = RBTREE_RED → s.color = RBTREE_BLACK) := by
  intro ctx
  induction ctx with
  | nil =>
    intro s ⟨m, hm⟩ hr
    exact ⟨m, trivial, hm, hr, fun e => absurd e (by decide)⟩
  | cons f rest ih =>
    intro s hm hr
    obtain ⟨n, h1, h2, h3, h4⟩ := ih (f.fill s) hm hr
    rw [Frame.fill_color] at h4
    cases f with
    | L a c k r =>
      obtain ⟨m, e, hl, hr'⟩ := Tree.bh_kids h2
      obtain ⟨g1, g2, g3⟩ := h3
      refine ⟨m, ⟨hr', g3, fun ec => ⟨(g1 ec).2, ?_⟩, by subst e; exact h1⟩, hl, g2,
        fun ec => (g1 ec).1⟩
      rcases color_cases (ctxColor rest) with hcc | hcc
      · have := h4 hcc
        simp only [Frame.color] at ec this
        rw [ec] at this; exact absurd this (by decide)
      · exact hcc
    | R a c k l =>
      obtain ⟨m, e, hl, hr'⟩ := Tree.bh_kids h2
      obtain ⟨g1, g2, g3⟩ := h3
      refine ⟨m, ⟨hl, g2, fun ec => ⟨(g1 ec).1, ?_⟩, by subst e; exact h1⟩, hr', g3,
        fun ec => (g1 ec).2⟩
      rcases color_cases (ctxColor rest) with hcc | hcc
      · have := h4 hcc
        simp only [Frame.color] at ec this
        rw [ec] at this; exact absurd this (by decide)
      · exact hcc

/-- The in-order keys of a tree rebuilt along a path. -/
theorem plug_keys_split : ∀ (ctx : List Frame) (s : Tree),
    (plug ctx s).keys = ctxLeftKeys ctx ++ s.keys ++ ctxRightKeys ctx := by
  intro ctx
  induction ctx with
  | nil => intro s; simp [plug, ctxLeftKeys, ctxRightKeys]
  | cons f rest ih =>
    intro s
    cases f with
    | L a c k r =>
      show (plug rest _).keys = _
      rw [ih]
      simp [Frame.fill, Tree.keys, ctxLeftKeys, ctxRightKeys]
    | R a c k l =>
      show (plug rest _).keys = _
      rw [ih]
      simp [Frame.fill, Tree.keys, ctxLeftKeys, ctxRightKeys]

/-- The height of a tree bounds the length of every path in it. -/
theorem plug_height : ∀ (ctx : List Frame) (s : Tree),
    ctx.length + s.height ≤ (plug ctx s).height := by
  intro ctx
  induction ctx with
  | nil => intro s; simp [plug]
  | cons f rest ih =>
    intro s
    have := ih (f.fill s)
    have h2 : s.height + 1 ≤ (f.fill s).height := by
      cases f <;> simp [Frame.fill, Tree.height]
    show _ ≤ (plug rest (f.fill s)).height
    simp only [List.length_cons]
    omega

/-! ### Deletion: one pass through the fix-up loop -/

/-- After a step that kept the sentinel's cell, `curr->parent` is still the
nearest parent of the focus, also when `curr` is the sentinel. -/
theorem zip_curr_parent {t t1 : rbtree} {f1 : Frame} {rest1 : List Frame} {s : Tree} {p : Nat}
    (hpar : (rd t (s.ptr t.nil)).parent = p) (hk : Keeps t t1)
    (hz1 : Zip t1 (f1 :: rest1) s) (hf : f1.addr = p) :
    (rd t1 (s.ptr t.nil)).parent = p := by
  cases s with
  | leaf =>
    simp only [Tree.ptr] at hpar ⊢
    rw [hk.2.2]; exact hpar
  | node a c k l r =>
    have := (zip_focus_cell hz1).1
    rw [Tree.ptr_node, this, ← hf]
    rfl

/-- Case 4 on the left, with the red-black bookkeeping: the loop variable
ends at the root of a tree that only needs its root painted black. -/
theorem dfix_last_left {t : rbtree} {rest : List Frame} {s wl dl dr : Tree} {p b d : Nat}
    {cp cw cd : color_t} {kp kw kd : Int} {m : Nat}
    (hz : Zip t (.L p cp kp (.node b cw kw wl (.node d cd kd dl dr)) :: rest) s)
    (hpar : (rd t (s.ptr t.nil)).parent = p)
    (hs : s.bh m) (hsr : s.noRR) (hwl : wl.bh m) (hwlr : wl.noRR)
    (hdl : dl.bh m) (hdr : dr.bh m) (hdlr : dl.noRR) (hdrr : dr.noRR)
    (hcp : cp = RBTREE_RED → ctxColor rest = RBTREE_BLACK)
    (hctx : CtxOK rest (if cp = RBTREE_BLACK then m + 2 else m + 1)) :
    ∃ t1 a1 c1 k1 l1 r1 m1, _rb_delete_fixup_left_last t (s.ptr t.nil) b = (t1, a1) ∧
      Zip t1 [] (.node a1 c1 k1 l1 r1) ∧ Keeps t t1 ∧ (Tree.node a1 c1 k1 l1 r1).bh m1 ∧
      l1.noRR ∧ r1.noRR ∧
      (Tree.node a1 c1 k1 l1 r1).keys =
        (plug (.L p cp kp (.node b cw kw wl (.node d cd kd dl dr)) :: rest) s).keys := by
  obtain ⟨z4, k4⟩ := dfix_case4_left hz
  have hpc : (rd t p).color = cp := by
    obtain ⟨⟨_, _, hp3, _⟩, _, _⟩ := hz
    rw [hp3]
  have hbr : (rd t b).right = d := by
    obtain ⟨⟨_, _, _, ⟨_, _, hb3, _⟩, _⟩, _, _⟩ := hz
    rw [hb3]; rfl
  have hev := delete_fixup_left_last_eq t (s.ptr t.nil) b p d cp hpar hpc hbr
  obtain ⟨a1, c1, k1, l1, r1, e⟩ := plug_node rest b cp kw (.node p RBTREE_BLACK kp s wl)
    (.node d RBTREE_BLACK kd dl dr)
  have hwf := (zip_plug _ rest _).mp z4
  rw [e] at hwf
  have hroot : (_rotate_left (set_color (set_color (set_color t b cp) p RBTREE_BLACK) d
      RBTREE_BLACK) p).root = a1 := hwf.1
  have hN : (Tree.node b cp kw (.node p RBTREE_BLACK kp s wl) (.node d RBTREE_BLACK kd dl dr)).bh
      (if cp = RBTREE_BLACK then m + 2 else m + 1) :=
    Tree.bh_node (by simp [hs, hwl]) (by simp [hdl, hdr])
  have hNr : (Tree.node b cp kw (.node p RBTREE_BLACK kp s wl)
      (.node d RBTREE_BLACK kd dl dr)).noRR :=
    ⟨fun _ => ⟨rfl, rfl⟩, ⟨fun h => absurd h (by decide), hsr, hwlr⟩,
      ⟨fun h => absurd h (by decide), hdlr, hdrr⟩⟩
  obtain ⟨⟨m1, hb1⟩, hr1⟩ := plug_valid rest _ _ hctx hN hNr (by
    intro h
    show cp = RBTREE_BLACK
    rcases color_cases cp with hc | hc
    · rw [hcp hc] at h; exact absurd h (by decide)
    · exact hc)
  rw [e] at hb1 hr1
  refine ⟨_, a1, c1, k1, l1, r1, m1, by rw [hev, hroot], hwf, k4, hb1, hr1.2.1, hr1.2.2, ?_⟩
  rw [← e]
  show _ = (plug rest _).keys
  apply plug_keys
  simp [Frame.fill, Tree.keys]

/-- Cases 2, 3 and 4 on the left (black sibling), with the red-black
bookkeeping. Either the parent becomes the focus, one level up and still one
black node short, or the loop variable ends at the root. -/
theorem dfix_rest_left {t : rbtree} {rest : List Frame} {s wl wr : Tree} {p b : Nat}
    {cp : color_t} {kp kw : Int} {m : Nat}
    (hz : Zip t (.L p cp kp (.node b RBTREE_BLACK kw wl wr) :: rest) s) (hnb : NilBlack t)
    (hpar : (rd t (s.ptr t.nil)).parent = p)
    (hs : s.bh m) (hsr : s.noRR) (hwl : wl.bh m) (hwr : wr.bh m) (hwlr : wl.noRR)
    (hwrr : wr.noRR)
    (hcp : cp = RBTREE_RED → ctxColor rest = RBTREE_BLACK)
    (hctx : CtxOK rest (if cp = RBTREE_BLACK then m + 2 else m + 1))
    (hrb : RootBlack (.L p cp kp (.node b RBTREE_BLACK kw wl wr) :: rest)) :
    ∃ t1 ctx1 a1 c1 k1 l1 r1 m1, _rb_delete_fixup_left_rest t (s.ptr t.nil) b = (t1, a1) ∧
      Zip t1 ctx1 (.node a1 c1 k1 l1 r1) ∧ Keeps t t1 ∧ CtxOK ctx1 (m1 + 1) ∧ RootBlack ctx1 ∧
      (Tree.node a1 c1 k1 l1 r1).bh m1 ∧ l1.noRR ∧ r1.noRR ∧
      (plug ctx1 (.node a1 c1 k1 l1 r1)).keys =
        (plug (.L p cp kp (.node b RBTREE_BLACK kw wl wr) :: rest) s).keys ∧
      ((ctx1 = rest ∧ c1 = cp) ∨ ctx1 = []) := by
  obtain ⟨_, r2, r3, r4, r5, r6, r7, r8, _, _⟩ := zip_read_left hz hnb
  rcases color_cases wr.color with hwrc | hwrc
  · -- far child red: Case 4
    cases wr with
    | leaf => exact absurd hwrc (by decide)
    | node d cd kd dl dr =>
      simp only [Tree.color] at hwrc
      subst hwrc
      simp only [Tree.bh_red] at hwr
      obtain ⟨t1, a1, c1, k1, l1, r1, m1, h1, h2, h3, h4, h5, h6, h7⟩ :=
        dfix_last_left hz hpar hs hsr hwl hwlr hwr.1 hwr.2 hwrr.2.1 hwrr.2.2 hcp hctx
      refine ⟨t1, [], a1, c1, k1, l1, r1, m1, ?_, h2, h3, trivial, ?_, h4, h5, h6, h7, Or.inr rfl⟩
      · rw [delete_fixup_left_rest_case4 t _ b (by rw [r6, r8]; rfl), h1]
      · intro f hf; simp at hf
  · rcases color_cases wl.color with hwlc | hwlc
    · -- near child red, far child black: Case 3, then Case 4
      cases wl with
      | leaf => exact absurd hwlc (by decide)
      | node e ce ke el er =>
        simp only [Tree.color] at hwlc
        subst hwlc
        simp only [Tree.bh_red] at hwl
        obtain ⟨z3, k3⟩ := dfix_case3_left hz
        have hpar3 : (rd (_rotate_right (set_color (set_color t e RBTREE_BLACK) b RBTREE_RED) b)
            (s.ptr t.nil)).parent = p :=
          zip_curr_parent hpar k3 z3 rfl
        have hbr3 : (rd (_rotate_right (set_color (set_color t e RBTREE_BLACK) b RBTREE_RED) b)
            p).right = e := by
          obtain ⟨⟨_, _, hp3, _⟩, _, _⟩ := z3
          rw [hp3]; rfl
        have hev := delete_fixup_left_rest_case3 t (s.ptr t.nil) b e r5
          (by have := r7; simpa [Tree.ptr, Tree.color] using this) (by rw [r6, r8, hwrc])
        rw [hpar3, hbr3] at hev
        obtain ⟨t1, a1, c1, k1, l1, r1, m1, h1, h2, h3, h4, h5, h6, h7⟩ :=
          dfix_last_left z3 (by rw [k3.1]; exact hpar3) hs hsr hwl.1 hwlr.2.1 hwl.2 hwr hwlr.2.2 hwrr
            hcp hctx
        refine ⟨t1, [], a1, c1, k1, l1, r1, m1, ?_, h2, k3.trans h3, trivial, ?_, h4, h5, h6, ?_,
          Or.inr rfl⟩
        · rw [hev]; rw [k3.1] at h1; exact h1
        · intro f hf; simp at hf
        · show (Tree.node a1 c1 k1 l1 r1).keys = _
          rw [h7]
          show (plug rest _).keys = (plug rest _).keys
          apply plug_keys
          simp [Frame.fill, Tree.keys]
    · -- both children black: Case 2
      obtain ⟨z2, k2⟩ := dfix_case2_left hz
      have hev := delete_fixup_left_rest_case2 t (s.ptr t.nil) b (by rw [r5, r7, hwlc])
        (by rw [r6, r8, hwrc])
      rw [hpar] at hev
      refine ⟨_, rest, p, cp, kp, s, _, (if cp = RBTREE_BLACK then m + 1 else m), hev, z2, k2, ?_,
        hrb.tail, ?_, hsr, ?_, ?_, Or.inl ⟨rfl, rfl⟩⟩
      · rcases color_cases cp with hc | hc <;> subst hc <;> simpa using hctx
      · rcases color_cases cp with hc | hc <;> subst hc <;> simp [hs, hwl, hwr]
      · exact ⟨fun _ => ⟨hwlc, hwrc⟩, hwlr, hwrr⟩
      · show (plug rest _).keys = (plug rest _).keys
        apply plug_keys
        simp [Frame.fill, Tree.keys]

/-- One pass through the loop body with `curr` on the left, with the red-black
bookkeeping: afterwards either the focus is a node higher up that is still one
black node short, or the loop is about to stop (the focus is red, or is the
root). -/
theorem dfix_step_left {t : rbtree} {rest : List Frame} {s W : Tree} {p : Nat}
    {cp : color_t} {kp : Int} {m : Nat}
    (hz : Zip t (.L p cp kp W :: rest) s) (hnb : NilBlack t)
    (hpar : (rd t (s.ptr t.nil)).parent = p)
    (hs : s.bh m) (hsr : s.noRR) (hctx : CtxOK (.L p cp kp W :: rest) (m + 1))
    (hrb : RootBlack (.L p cp kp W :: rest)) :
    ∃ t1 ctx1 a1 c1 k1 l1 r1 m1, _rb_delete_fixup_left t (s.ptr t.nil) = (t1, a1) ∧
      Zip t1 ctx1 (.node a1 c1 k1 l1 r1) ∧ Keeps t t1 ∧ CtxOK ctx1 (m1 + 1) ∧ RootBlack ctx1 ∧
      (Tree.node a1 c1 k1 l1 r1).bh m1 ∧ l1.noRR ∧ r1.noRR ∧
      (plug ctx1 (.node a1 c1 k1 l1 r1)).keys = (plug (.L p cp kp W :: rest) s).keys ∧
      (ctx1.length ≤ rest.length ∨
        ((c1 = RBTREE_RED ∨ ctx1 = []) ∧ ctx1.length ≤ rest.length + 1)) := by
  obtain ⟨hW, hWr, hcW, hrest⟩ := hctx
  simp only [Frame.sibling, Frame.color] at hW hWr hcW hrest
  obtain ⟨b, cw, kw, wl, wr, rfl⟩ := Tree.bh_succ_node hW
  obtain ⟨_, r2, _, r4, _, _, _, _, _, _⟩ := zip_read_left hz hnb
  rcases color_cases cw with hcw | hcw
  · -- red sibling: Case 1 first
    subst hcw
    have hcp : cp = RBTREE_BLACK := by
      rcases color_cases cp with hc | hc
      · exact absurd (hcW hc).1 (by simp [Tree.color])
      · exact hc
    subst hcp
    simp only [Tree.bh_red] at hW
    obtain ⟨e, ce, ke, el, er, rfl⟩ := Tree.bh_succ_node hW.1
    have hce : ce = RBTREE_BLACK := (hWr.1 rfl).1
    subst hce
    simp only [Tree.bh_black_succ] at hW
    obtain ⟨z1, k1⟩ := dfix_case1_left hz
    have hpar1 := zip_curr_parent hpar k1 z1 rfl
    have hbr1 : (rd (_rotate_left (set_color (set_color t b RBTREE_BLACK) p RBTREE_RED) p)
        p).right = e := by
      obtain ⟨⟨_, _, hp3, _⟩, _, _⟩ := z1
      rw [hp3]; rfl
    have hev := delete_fixup_left_red t (s.ptr t.nil) p b hpar r2 r4
    rw [hpar1, hbr1] at hev
    obtain ⟨t1, ctx1, a1, c1, k1', l1, r1, m1, h1, h2, h3, h4, h5, h6, h7, h8, h9, h10⟩ :=
      dfix_rest_left (m := m) z1 (k1.nilBlack hnb) (by rw [k1.1]; exact hpar1) hs hsr hW.1.1 hW.1.2
        hWr.2.1.2.1 hWr.2.1.2.2 (fun _ => rfl)
        (by
          simp only [reduceCtorEq, if_false]
          exact ⟨hW.2, hWr.2.2, fun h => by simp [Frame.color] at h, by simpa using hrest⟩)
        (by
          cases rest with
          | nil => rw [RootBlack.cons_cons, RootBlack.single]; rfl
          | cons g rest' =>
            rw [RootBlack.cons_cons, RootBlack.cons_cons]
            exact RootBlack.cons_cons.mp hrb)
    refine ⟨t1, ctx1, a1, c1, k1', l1, r1, m1, ?_, h2, k1.trans h3, h4, h5, h6, h7, h8, ?_, ?_⟩
    · rw [hev]; rw [k1.1] at h1; exact h1
    · rw [h9]
      show (plug rest _).keys = (plug rest _).keys
      apply plug_keys
      simp [Frame.fill, Tree.keys]
    · right
      rcases h10 with ⟨e1, e2⟩ | e1
      · exact ⟨Or.inl e2, by rw [e1]; simp⟩
      · exact ⟨Or.inr e1, by rw [e1]; simp⟩
  · -- black sibling
    subst hcw
    simp only [Tree.bh_black_succ] at hW
    have hev := delete_fixup_left_black t (s.ptr t.nil) p b hpar r2 (by rw [r4]; decide)
    obtain ⟨t1, ctx1, a1, c1, k1', l1, r1, m1, h1, h2, h3, h4, h5, h6, h7, h8, h9, h10⟩ :=
      dfix_rest_left hz hnb hpar hs hsr hW.1 hW.2 hWr.2.1 hWr.2.2 (fun h => (hcW h).2)
        (by rcases color_cases cp with hc | hc <;> subst hc <;> simpa using hrest) hrb
    refine ⟨t1, ctx1, a1, c1, k1', l1, r1, m1, by rw [hev, h1], h2, h3, h4, h5, h6, h7, h8, h9, ?_⟩
    rcases h10 with ⟨e1, _⟩ | e1
    · left; rw [e1]
    · right; exact ⟨Or.inr e1, by rw [e1]; simp⟩

/-- Case 4 on the right, with the red-black bookkeeping. -/
theorem dfix_last_right {t : rbtree} {rest : List Frame} {s wr dl dr : Tree} {p b d : Nat}
    {cp cw cd : color_t} {kp kw kd : Int} {m : Nat}
    (hz : Zip t (.R p cp kp (.node b cw kw (.node d cd kd dl dr) wr) :: rest) s)
    (hpar : (rd t (s.ptr t.nil)).parent = p)
    (hs : s.bh m) (hsr : s.noRR) (hwr : wr.bh m) (hwrr : wr.noRR)
    (hdl : dl.bh m) (hdr : dr.bh m) (hdlr : dl.noRR) (hdrr : dr.noRR)
    (hcp : cp = RBTREE_RED → ctxColor rest = RBTREE_BLACK)
    (hctx : CtxOK rest (if cp = RBTREE_BLACK then m + 2 else m + 1)) :
    ∃ t1 a1 c1 k1 l1 r1 m1, _rb_delete_fixup_right_last t (s.ptr t.nil) b = (t1, a1) ∧
      Zip t1 [] (.node a1 c1 k1 l1 r1) ∧ Keeps t t1 ∧ (Tree.node a1 c1 k1 l1 r1).bh m1 ∧
      l1.noRR ∧ r1.noRR ∧
      (Tree.node a1 c1 k1 l1 r1).keys =
        (plug (.R p cp kp (.node b cw kw (.node d cd kd dl dr) wr) :: rest) s).keys := by
  obtain ⟨z4, k4⟩ := dfix_case4_right hz
  have hpc : (rd t p).color = cp := by
    obtain ⟨⟨_, _, hp3, _⟩, _, _⟩ := hz
    rw [hp3]
  have hbr : (rd t b).left = d := by
    obtain ⟨⟨_, _, _, ⟨_, _, hb3, _⟩, _⟩, _, _⟩ := hz
    rw [hb3]; rfl
  have hev := delete_fixup_right_last_eq t (s.ptr t.nil) b p d cp hpar hpc hbr
  obtain ⟨a1, c1, k1, l1, r1, e⟩ := plug_node rest b cp kw (.node d RBTREE_BLACK kd dl dr)
    (.node p RBTREE_BLACK kp wr s)
  have hwf := (zip_plug _ rest _).mp z4
  rw [e] at hwf
  have hroot : (_rotate_right (set_color (set_color (set_color t b cp) p RBTREE_BLACK) d
      RBTREE_BLACK) p).root = a1 := hwf.1
  have hN : (Tree.node b cp kw (.node d RBTREE_BLACK kd dl dr) (.node p RBTREE_BLACK kp wr s)).bh
      (if cp = RBTREE_BLACK then m + 2 else m + 1) :=
    Tree.bh_node (by simp [hdl, hdr]) (by simp [hs, hwr])
  have hNr : (Tree.node b cp kw (.node d RBTREE_BLACK kd dl dr)
      (.node p RBTREE_BLACK kp wr s)).noRR :=
    ⟨fun _ => ⟨rfl, rfl⟩, ⟨fun h => absurd h (by decide), hdlr, hdrr⟩,
      ⟨fun h => absurd h (by decide), hwrr, hsr⟩⟩
  obtain ⟨⟨m1, hb1⟩, hr1⟩ := plug_valid rest _ _ hctx hN hNr (by
    intro h
    show cp = RBTREE_BLACK
    rcases color_cases cp with hc | hc
    · rw [hcp hc] at h; exact absurd h (by decide)
    · exact hc)
  rw [e] at hb1 hr1
  refine ⟨_, a1, c1, k1, l1, r1, m1, by rw [hev, hroot], hwf, k4, hb1, hr1.2.1, hr1.2.2, ?_⟩
  rw [← e]
  show _ = (plug rest _).keys
  apply plug_keys
  simp [Frame.fill, Tree.keys]

/-- Cases 2, 3 and 4 on the right (black sibling), with the red-black
bookkeeping. -/
theorem dfix_rest_right {t : rbtree} {rest : List Frame} {s wl wr : Tree} {p b : Nat}
    {cp : color_t} {kp kw : Int} {m : Nat}
    (hz : Zip t (.R p cp kp (.node b RBTREE_BLACK kw wl wr) :: rest) s) (hnb : NilBlack t)
    (hpar : (rd t (s.ptr t.nil)).parent = p)
    (hs : s.bh m) (hsr : s.noRR) (hwl : wl.bh m) (hwr : wr.bh m) (hwlr : wl.noRR)
    (hwrr : wr.noRR)
    (hcp : cp = RBTREE_RED → ctxColor rest = RBTREE_BLACK)
    (hctx : CtxOK rest (if cp = RBTREE_BLACK then m + 2 else m + 1))
    (hrb : RootBlack (.R p cp kp (.node b RBTREE_BLACK kw wl wr) :: rest)) :
    ∃ t1 ctx1 a1 c1 k1 l1 r1 m1, _rb_delete_fixup_right_rest t (s.ptr t.nil) b = (t1, a1) ∧
      Zip t1 ctx1 (.node a1 c1 k1 l1 r1) ∧ Keeps t t1 ∧ CtxOK ctx1 (m1 + 1) ∧ RootBlack ctx1 ∧
      (Tree.node a1 c1 k1 l1 r1).bh m1 ∧ l1.noRR ∧ r1.noRR ∧
      (plug ctx1 (.node a1 c1 k1 l1 r1)).keys =
        (plug (.R p cp kp (.node b RBTREE_BLACK kw wl wr) :: rest) s).keys ∧
      ((ctx1 = rest ∧ c1 = cp) ∨ ctx1 = []) := by
  obtain ⟨_, r2, r3, r4, r5, r6, r7, r8, _, _⟩ := zip_read_right hz hnb
  rcases color_cases wl.color with hwlc | hwlc
  · -- far child red: Case 4
    cases wl with
    | leaf => exact absurd hwlc (by decide)
    | node d cd kd dl dr =>
      simp only [Tree.color] at hwlc
      subst hwlc
      simp only [Tree.bh_red] at hwl
      obtain ⟨t1, a1, c1, k1, l1, r1, m1, h1, h2, h3, h4, h5, h6, h7⟩ :=
        dfix_last_right hz hpar hs hsr hwr hwrr hwl.1 hwl.2 hwlr.2.1 hwlr.2.2 hcp hctx
      refine ⟨t1, [], a1, c1, k1, l1, r1, m1, ?_, h2, h3, trivial, ?_, h4, h5, h6, h7, Or.inr rfl⟩
      · rw [delete_fixup_right_rest_case4 t _ b (by rw [r5, r7]; rfl), h1]
      · intro f hf; simp at hf
  · rcases color_cases wr.color with hwrc | hwrc
    · -- near child red, far child black: Case 3, then Case 4
      cases wr with
      | leaf => exact absurd hwrc (by decide)
      | node e ce ke el er =>
        simp only [Tree.color] at hwrc
        subst hwrc
        simp only [Tree.bh_red] at hwr
        obtain ⟨z3, k3⟩ := dfix_case3_right hz
        have hpar3 : (rd (_rotate_left (set_color (set_color t e RBTREE_BLACK) b RBTREE_RED) b)
            (s.ptr t.nil)).parent = p :=
          zip_curr_parent hpar k3 z3 rfl
        have hbr3 : (rd (_rotate_left (set_color (set_color t e RBTREE_BLACK) b RBTREE_RED) b)
            p).left = e := by
          obtain ⟨⟨_, _, hp3, _⟩, _, _⟩ := z3
          rw [hp3]; rfl
        have hev := delete_fixup_right_rest_case3 t (s.ptr t.nil) b e r6
          (by have := r8; simpa [Tree.ptr, Tree.color] using this) (by rw [r5, r7, hwlc])
        rw [hpar3, hbr3] at hev
        obtain ⟨t1, a1, c1, k1, l1, r1, m1, h1, h2, h3, h4, h5, h6, h7⟩ :=
          dfix_last_right z3 (by rw [k3.1]; exact hpar3) hs hsr hwr.2 hwrr.2.2 hwl hwr.1 hwlr
            hwrr.2.1 hcp hctx
        refine ⟨t1, [], a1, c1, k1, l1, r1, m1, ?_, h2, k3.trans h3, trivial, ?_, h4, h5, h6, ?_,
          Or.inr rfl⟩
        · rw [hev]; rw [k3.1] at h1; exact h1
        · intro f hf; simp at hf
        · show (Tree.node a1 c1 k1 l1 r1).keys = _
          rw [h7]
          show (plug rest _).keys = (plug rest _).keys
          apply plug_keys
          simp [Frame.fill, Tree.keys]
    · -- both children black: Case 2
      obtain ⟨z2, k2⟩ := dfix_case2_right hz
      have hev := delete_fixup_right_rest_case2 t (s.ptr t.nil) b (by rw [r5, r7, hwlc])
        (by rw [r6, r8, hwrc])
      rw [hpar] at hev
      refine ⟨_, rest, p, cp, kp, _, s, (if cp = RBTREE_BLACK then m + 1 else m), hev, z2, k2, ?_,
        hrb.tail, ?_, ?_, hsr, ?_, Or.inl ⟨rfl, rfl⟩⟩
      · rcases color_cases cp with hc | hc <;> subst hc <;> simpa using hctx
      · rcases color_cases cp with hc | hc <;> subst hc <;> simp [hs, hwl, hwr]
      · exact ⟨fun _ => ⟨hwlc, hwrc⟩, hwlr, hwrr⟩
      · show (plug rest _).keys = (plug rest _).keys
        apply plug_keys
        simp [Frame.fill, Tree.keys]

/-- One pass through the loop body with `curr` on the right, with the
red-black bookkeeping. -/
theorem dfix_step_right {t : rbtree} {rest : List Frame} {s W : Tree} {p : Nat}
    {cp : color_t} {kp : Int} {m : Nat}
    (hz : Zip t (.R p cp kp W :: rest) s) (hnb : NilBlack t)
    (hpar : (rd t (s.ptr t.nil)).parent = p)
    (hs : s.bh m) (hsr : s.noRR) (hctx : CtxOK (.R p cp kp W :: rest) (m + 1))
    (hrb : RootBlack (.R p cp kp W :: rest)) :
    ∃ t1 ctx1 a1 c1 k1 l1 r1 m1, _rb_delete_fixup_right t (s.ptr t.nil) = (t1, a1) ∧
      Zip t1 ctx1 (.node a1 c1 k1 l1 r1) ∧ Keeps t t1 ∧ CtxOK ctx1 (m1 + 1) ∧ RootBlack ctx1 ∧
      (Tree.node a1 c1 k1 l1 r1).bh m1 ∧ l1.noRR ∧ r1.noRR ∧
      (plug ctx1 (.node a1 c1 k1 l1 r1)).keys = (plug (.R p cp kp W :: rest) s).keys ∧
      (ctx1.length ≤ rest.length ∨
        ((c1 = RBTREE_RED ∨ ctx1 = []) ∧ ctx1.length ≤ rest.length + 1)) := by
  obtain ⟨hW, hWr, hcW, hrest⟩ := hctx
  simp only [Frame.sibling, Frame.color] at hW hWr hcW hrest
  obtain ⟨b, cw, kw, wl, wr, rfl⟩ := Tree.bh_succ_node hW
  obtain ⟨_, r2, _, r4, _, _, _, _, _, _⟩ := zip_read_right hz hnb
  rcases color_cases cw with hcw | hcw
  · -- red sibling: Case 1 first
    subst hcw
    have hcp : cp = RBTREE_BLACK := by
      rcases color_cases cp with hc | hc
      · exact absurd (hcW hc).1 (by simp [Tree.color])
      · exact hc
    subst hcp
    simp only [Tree.bh_red] at hW
    obtain ⟨e, ce, ke, el, er, rfl⟩ := Tree.bh_succ_node hW.2
    have hce : ce = RBTREE_BLACK := (hWr.1 rfl).2
    subst hce
    simp only [Tree.bh_black_succ] at hW
    obtain ⟨z1, k1⟩ := dfix_case1_right hz
    have hpar1 := zip_curr_parent hpar k1 z1 rfl
    have hbr1 : (rd (_rotate_right (set_color (set_color t b RBTREE_BLACK) p RBTREE_RED) p)
        p).left = e := by
      obtain ⟨⟨_, _, hp3, _⟩, _, _⟩ := z1
      rw [hp3]; rfl
    have hev := delete_fixup_right_red t (s.ptr t.nil) p b hpar r2 r4
    rw [hpar1, hbr1] at hev
    obtain ⟨t1, ctx1, a1, c1, k1', l1, r1, m1, h1, h2, h3, h4, h5, h6, h7, h8, h9, h10⟩ :=
      dfix_rest_right (m := m) z1 (k1.nilBlack hnb) (by rw [k1.1]; exact hpar1) hs hsr hW.2.1 hW.2.2
        hWr.2.2.2.1 hWr.2.2.2.2 (fun _ => rfl)
        (by
          simp only [reduceCtorEq, if_false]
          exact ⟨hW.1, hWr.2.1, fun h => by simp [Frame.color] at h, by simpa using hrest⟩)
        (by
          cases rest with
          | nil => rw [RootBlack.cons_cons, RootBlack.single]; rfl
          | cons g rest' =>
            rw [RootBlack.cons_cons, RootBlack.cons_cons]
            exact RootBlack.cons_cons.mp hrb)
    refine ⟨t1, ctx1, a1, c1, k1', l1, r1, m1, ?_, h2, k1.trans h3, h4, h5, h6, h7, h8, ?_, ?_⟩
    · rw [hev]; rw [k1.1] at h1; exact h1
    · rw [h9]
      show (plug rest _).keys = (plug rest _).keys
      apply plug_keys
      simp [Frame.fill, Tree.keys]
    · right
      rcases h10 with ⟨e1, e2⟩ | e1
      · exact ⟨Or.inl e2, by rw [e1]; simp⟩
      · exact ⟨Or.inr e1, by rw [e1]; simp⟩
  · -- black sibling
    subst hcw
    simp only [Tree.bh_black_succ] at hW
    have hev := delete_fixup_right_black t (s.ptr t.nil) p b hpar r2 (by rw [r4]; decide)
    obtain ⟨t1, ctx1, a1, c1, k1', l1, r1, m1, h1, h2, h3, h4, h5, h6, h7, h8, h9, h10⟩ :=
      dfix_rest_right hz hnb hpar hs hsr hW.1 hW.2 hWr.2.1 hWr.2.2 (fun h => (hcW h).2)
        (by rcases color_cases cp with hc | hc <;> subst hc <;> simpa using hrest) hrb
    refine ⟨t1, ctx1, a1, c1, k1', l1, r1, m1, by rw [hev, h1], h2, h3, h4, h5, h6, h7, h8, h9, ?_⟩
    rcases h10 with ⟨e1, _⟩ | e1
    · left; rw [e1]
    · right; exact ⟨Or.inr e1, by rw [e1]; simp⟩

/-! ### Deletion: the fix-up loop -/

/-- The loop of `_rb_delete_fixup` stops at the root and at a red node, and
paints the node black. -/
theorem delete_fixup_stop (fuel : Nat) (t : rbtree) (curr : Nat)
    (h : curr = t.root ∨ (rd t curr).color = RBTREE_RED) :
    _rb_delete_fixup (fuel + 1) t curr = some (set_color t curr RBTREE_BLACK) := by
  rw [_rb_delete_fixup, if_neg]
  rintro ⟨h1, h2⟩
  rcases h with h | h
  · exact h1 h
  · rw [h] at h2; exact absurd h2 (by decide)

theorem delete_fixup_go_left (fuel : Nat) (t t1 : rbtree) (curr a1 : Nat) (h1 : curr ≠ t.root)
    (h2 : (rd t curr).color = RBTREE_BLACK) (h3 : curr = (rd t (rd t curr).parent).left)
    (h4 : _rb_delete_fixup_left t curr = (t1, a1)) :
    _rb_delete_fixup (fuel + 1) t curr = _rb_delete_fixup fuel t1 a1 := by
  rw [_rb_delete_fixup, if_pos ⟨h1, h2⟩, if_pos h3, h4]

theorem delete_fixup_go_right (fuel : Nat) (t t1 : rbtree) (curr a1 : Nat) (h1 : curr ≠ t.root)
    (h2 : (rd t curr).color = RBTREE_BLACK) (h3 : curr ≠ (rd t (rd t curr).parent).left)
    (h4 : _rb_delete_fixup_right t curr = (t1, a1)) :
    _rb_delete_fixup (fuel + 1) t curr = _rb_delete_fixup fuel t1 a1 := by
  rw [_rb_delete_fixup, if_pos ⟨h1, h2⟩, if_neg h3, h4]

/-- The focus below a non-empty path is not the root. -/
theorem zip_focus_ne_root {t : rbtree} {f : Frame} {rest : List Frame} {s : Tree}
    (h : Zip t (f :: rest) s) : s.ptr t.nil ≠ t.root := by
  intro e
  have hm := ctxBottom_mem (f :: rest) (s.ptr t.nil) (by simp)
  rw [← RepCtx_root _ _ h.1, ← e] at hm
  cases s with
  | leaf => exact (RepCtx_bound _ _ h.1 _ hm).1 rfl
  | node a c k l r =>
    simp only [Tree.ptr] at hm
    have hcnt := List.nodup_iff_count_le_one.mp h.2.2 a
    simp only [Tree.addrs, List.count_append, count_cons_hit] at hcnt
    have := List.count_pos_iff.mpr hm; have := hit_self a; omega

/-- The loop stops at a red focus and at the root; painting the focus black
then gives a red-black tree. -/
theorem dfix_exit {t : rbtree} {ctx : List Frame} {a : Nat} {c : color_t} {k : Int} {l r : Tree}
    {m : Nat} (fuel : Nat) (hz : Zip t ctx (.node a c k l r)) (hstop : c = RBTREE_RED ∨ ctx = [])
    (hctx : CtxOK ctx (m + 1)) (hrb : RootBlack ctx) (hb : (Tree.node a c k l r).bh m)
    (hl : l.noRR) (hr : r.noRR) :
    ∃ T', _rb_delete_fixup (fuel + 1) t a = some (set_color t a RBTREE_BLACK) ∧
      WF (set_color t a RBTREE_BLACK) T' ∧ T'.rootBlack ∧ T'.noRR ∧ (∃ n, T'.bh n) ∧
      T'.keys = (plug ctx (.node a c k l r)).keys ∧ Keeps t (set_color t a RBTREE_BLACK) := by
  have hcell := zip_focus_cell hz
  have z1 := zip_set_color RBTREE_BLACK hz
  have hev : _rb_delete_fixup (fuel + 1) t a = some (set_color t a RBTREE_BLACK) := by
    apply delete_fixup_stop
    rcases hstop with h | h
    · right; rw [hcell.1, h]
    · left; subst h; exact hz.1.symm
  refine ⟨plug ctx (.node a RBTREE_BLACK k l r), hev, (zip_plug _ ctx _).mp z1, ?_, ?_, ?_,
    plug_keys ctx _ _ (by simp [Tree.keys]), keeps_set_color _ hcell.2⟩
  · cases ctx with
    | nil => rfl
    | cons f rest => rw [plug_rootBlack_cons]; exact hrb
  · cases ctx with
    | nil => exact ⟨fun h => absurd h (by decide), hl, hr⟩
    | cons f rest =>
      rcases hstop with h | h
      · subst h
        simp only [Tree.bh_red] at hb
        exact (plug_valid (f :: rest) (.node a RBTREE_BLACK k l r) (m + 1) hctx (by simp [hb])
          ⟨fun h => absurd h (by decide), hl, hr⟩ (fun _ => rfl)).2
      · exact absurd h (by simp)
  · cases ctx with
    | nil =>
      obtain ⟨m', _, h1, h2⟩ := Tree.bh_kids hb
      exact ⟨m' + 1, by simp [plug, h1, h2]⟩
    | cons f rest =>
      rcases hstop with h | h
      · subst h
        simp only [Tree.bh_red] at hb
        exact (plug_valid (f :: rest) (.node a RBTREE_BLACK k l r) (m + 1) hctx (by simp [hb])
          ⟨fun h => absurd h (by decide), hl, hr⟩ (fun _ => rfl)).1
      · exact absurd h (by simp)

/-- The loop of `_rb_delete_fixup`, started at a subtree that is one black node
short of what its place in a red-black tree requires, finishes within
`ctx.length + 1` rounds and leaves a red-black tree with the same in-order
keys. -/
theorem delete_fixup_loop_spec : ∀ (N fuel : Nat) (t : rbtree) (ctx : List Frame) (s : Tree)
    (m : Nat), ctx.length ≤ N → N + 1 ≤ fuel → Zip t ctx s → NilBlack t →
    (s = .leaf → ctx ≠ [] → (rd t t.nil).parent = ctxTop t.nil ctx) →
    CtxOK ctx (m + 1) → RootBlack ctx → s.bh m → s.kidsNoRR →
    ∃ t' T', _rb_delete_fixup fuel t (s.ptr t.nil) = some t' ∧ WF t' T' ∧ T'.rootBlack ∧
      T'.noRR ∧ (∃ n, T'.bh n) ∧ T'.keys = (plug ctx s).keys ∧ Keeps t t' := by
  intro N
  induction N with
  | zero =>
    intro fuel t ctx s m hlen hfuel hz hnb _ hctx hrb hb hk
    obtain ⟨fuel', rfl⟩ : ∃ f', fuel = f' + 1 := ⟨fuel - 1, by omega⟩
    have hc : ctx = [] := List.length_eq_zero.mp (by omega)
    subst hc
    cases s with
    | leaf =>
      refine ⟨_, .leaf, delete_fixup_stop fuel' t _ (Or.inl hz.1.symm), ⟨hz.1, trivial, by simp [ctxAddrs, Tree.addrs]⟩,
        trivial, trivial, ⟨0, by simp⟩, rfl, rfl, by simp, ?_⟩
      rw [rd_set_color]
      split
      · have := hnb
        unfold NilBlack at this
        simp only [Tree.ptr]
        rw [← this]
      · rfl
    | node a c k l r =>
      obtain ⟨T', h1, h2, h3, h4, h5, h6, h7⟩ := dfix_exit fuel' hz (Or.inr rfl) hctx hrb hb hk.1 hk.2
      exact ⟨_, T', h1, h2, h3, h4, h5, h6, h7⟩
  | succ N ih =>
    intro fuel t ctx s m hlen hfuel hz hnb hpar hctx hrb hb hk
    cases ctx with
    | nil => exact ih fuel t [] s m (by simp) (by omega) hz hnb hpar hctx hrb hb hk
    | cons f rest =>
      obtain ⟨fuel', rfl⟩ : ∃ f', fuel = f' + 1 := ⟨fuel - 1, by omega⟩
      simp only [List.length_cons] at hlen
      by_cases hred : s.color = RBTREE_RED
      · cases s with
        | leaf => exact absurd hred (by decide)
        | node a c k l r =>
          simp only [Tree.color] at hred
          obtain ⟨T', h1, h2, h3, h4, h5, h6, h7⟩ :=
            dfix_exit fuel' hz (Or.inl hred) hctx hrb hb hk.1 hk.2
          exact ⟨_, T', h1, h2, h3, h4, h5, h6, h7⟩
      · have hblack : s.color = RBTREE_BLACK := color_ne_red.mp hred
        have hsr : s.noRR := Tree.noRR_of_black hblack hk
        have hcol : (rd t (s.ptr t.nil)).color = RBTREE_BLACK := by
          rw [Rep_color hz.2.1 hnb]; exact hblack
        have hne := zip_focus_ne_root hz
        have hp : (rd t (s.ptr t.nil)).parent = f.addr := by
          cases s with
          | leaf => exact hpar rfl (by simp)
          | node a c k l r => rw [Tree.ptr_node, (zip_focus_cell hz).1]; rfl
        -- what follows a pass through the loop body
        have after : ∀ (t1 : rbtree) (ctx1 : List Frame) (a1 : Nat) (c1 : color_t) (k1 : Int)
            (l1 r1 : Tree) (m1 : Nat), Zip t1 ctx1 (.node a1 c1 k1 l1 r1) → Keeps t t1 →
            CtxOK ctx1 (m1 + 1) → RootBlack ctx1 → (Tree.node a1 c1 k1 l1 r1).bh m1 → l1.noRR →
            r1.noRR → (plug ctx1 (.node a1 c1 k1 l1 r1)).keys = (plug (f :: rest) s).keys →
            (ctx1.length ≤ rest.length ∨
              ((c1 = RBTREE_RED ∨ ctx1 = []) ∧ ctx1.length ≤ rest.length + 1)) →
            ∃ t' T', _rb_delete_fixup fuel' t1 a1 = some t' ∧ WF t' T' ∧ T'.rootBlack ∧
              T'.noRR ∧ (∃ n, T'.bh n) ∧ T'.keys = (plug (f :: rest) s).keys ∧ Keeps t t' := by
          intro t1 ctx1 a1 c1 k1 l1 r1 m1 g2 g3 g4 g5 g6 g7 g8 g9 g10
          rcases g10 with g10 | ⟨g10, _⟩
          · obtain ⟨t', T', e1, e2, e3, e4, e5, e6, e7⟩ :=
              ih fuel' t1 ctx1 (.node a1 c1 k1 l1 r1) m1 (by omega) (by omega) g2
                (g3.nilBlack hnb) (fun h => by simp at h) g4 g5 g6 ⟨g7, g8⟩
            simp only [Tree.ptr] at e1
            exact ⟨t', T', e1, e2, e3, e4, e5, by rw [e6, g9], g3.trans e7⟩
          · obtain ⟨fuel'', rfl⟩ : ∃ f', fuel' = f' + 1 := ⟨fuel' - 1, by omega⟩
            obtain ⟨T', e1, e2, e3, e4, e5, e6, e7⟩ := dfix_exit fuel'' g2 g10 g4 g5 g6 g7 g8
            exact ⟨_, T', e1, e2, e3, e4, e5, by rw [e6, g9], g3.trans e7⟩
        cases f with
        | L p cp kp W =>
          have hside : s.ptr t.nil = (rd t (rd t (s.ptr t.nil)).parent).left := by
            rw [hp]
            obtain ⟨⟨_, _, hp3, _⟩, _, _⟩ := hz
            simp only [Frame.addr]
            rw [hp3]
          obtain ⟨t1, ctx1, a1, c1, k1, l1, r1, m1, g1, g2, g3, g4, g5, g6, g7, g8, g9, g10⟩ :=
            dfix_step_left hz hnb hp hb hsr hctx hrb
          rw [delete_fixup_go_left fuel' t t1 _ a1 hne hcol hside g1]
          exact after t1 ctx1 a1 c1 k1 l1 r1 m1 g2 g3 g4 g5 g6 g7 g8 g9 g10
        | R p cp kp W =>
          have hside : s.ptr t.nil ≠ (rd t (rd t (s.ptr t.nil)).parent).left := by
            rw [hp]
            obtain ⟨b, cw, kw, wl, wr, rfl⟩ := Tree.bh_succ_node hctx.1
            have hpl : (rd t p).left = b := by
              obtain ⟨⟨_, _, hp3, _⟩, _, _⟩ := hz
              rw [hp3]; rfl
            simp only [Frame.addr]
            rw [hpl]
            cases s with
            | leaf =>
              obtain ⟨⟨_, _, _, ⟨hb1, _⟩, _⟩, _, _⟩ := hz
              exact fun e => hb1 e.symm
            | node a c k l r =>
              have := zip_sibling_ne hz
              exact fun e => this e.symm
          obtain ⟨t1, ctx1, a1, c1, k1, l1, r1, m1, g1, g2, g3, g4, g5, g6, g7, g8, g9, g10⟩ :=
            dfix_step_right hz hnb hp hb hsr hctx hrb
          rw [delete_fixup_go_right fuel' t t1 _ a1 hne hcol hside g1]
          exact after t1 ctx1 a1 c1 k1 l1 r1 m1 g2 g3 g4 g5 g6 g7 g8 g9 g10

/-! ### Deletion: `_rb_transplant` on the represented tree -/

@[simp]
theorem parent_set_left (t : rbtree) (p q r : Nat) :
    (rd (set_left t p r) q).parent = (rd t q).parent := by
  rw [rd_set_left]; split
  · next h => obtain ⟨rfl, _⟩ := h; rfl
  · rfl

@[simp]
theorem parent_set_right (t : rbtree) (p q r : Nat) :
    (rd (set_right t p r) q).parent = (rd t q).parent := by
  rw [rd_set_right]; split
  · next h => obtain ⟨rfl, _⟩ := h; rfl
  · rfl

@[simp]
theorem left_set_parent (t : rbtree) (p q r : Nat) :
    (rd (set_parent t p r) q).left = (rd t q).left := by
  rw [rd_set_parent]; split
  · next h => obtain ⟨rfl, _⟩ := h; rfl
  · rfl

@[simp]
theorem right_set_parent (t : rbtree) (p q r : Nat) :
    (rd (set_parent t p r) q).right = (rd t q).right := by
  rw [rd_set_parent]; split
  · next h => obtain ⟨rfl, _⟩ := h; rfl
  · rfl

@[simp]
theorem left_set_right (t : rbtree) (p q r : Nat) :
    (rd (set_right t p r) q).left = (rd t q).left := by
  rw [rd_set_right]; split
  · next h => obtain ⟨rfl, _⟩ := h; rfl
  · rfl

@[simp]
theorem right_set_left (t : rbtree) (p q r : Nat) :
    (rd (set_left t p r) q).right = (rd t q).right := by
  rw [rd_set_left]; split
  · next h => obtain ⟨rfl, _⟩ := h; rfl
  · rfl

/-- `_rb_transplant(t, u, v)` when `u` hangs below the path `ctx` and `v` is
the top of a represented subtree `s` (or the sentinel, for a leaf): afterwards
`s` hangs below `ctx` in place of `u`, `v->parent` is the former parent of `u`
(also when `v` is the sentinel), and no other cell outside the path changed. -/
theorem transplant_spec {t : rbtree} {ctx : List Frame} {u par_s : Nat} {s : Tree}
    (hc : RepCtx t u ctx) (hup : (rd t u).parent = ctxTop t.nil ctx)
    (hs : Rep t par_s s) (hnd : (ctxAddrs ctx ++ s.addrs).Nodup)
    (hu : u ∉ ctxAddrs ctx) (hun : u ≠ t.nil) (hnl : t.nil < t.mem.length) :
    Zip (_rb_transplant t u (s.ptr t.nil)) ctx s ∧
    (_rb_transplant t u (s.ptr t.nil)).nil = t.nil ∧
    (_rb_transplant t u (s.ptr t.nil)).mem.length = t.mem.length ∧
    rd (_rb_transplant t u (s.ptr t.nil)) (s.ptr t.nil) =
      { rd t (s.ptr t.nil) with parent := ctxTop t.nil ctx } ∧
    (∀ q, q ∉ ctxAddrs ctx → q ≠ s.ptr t.nil →
      rd (_rb_transplant t u (s.ptr t.nil)) q = rd t q) := by
  have hcnt := fun q => List.nodup_iff_count_le_one.mp hnd q
  simp only [List.count_append] at hcnt
  have hndc : (ctxAddrs ctx).Nodup := (List.nodup_append.mp hnd).1
  have hnds : s.addrs.Nodup := (List.nodup_append.mp hnd).2.1
  have hvm : s.ptr t.nil ≠ t.nil → s.ptr t.nil ∈ s.addrs := Tree.ptr_mem_addrs t.nil s
  have hvlen : s.ptr t.nil < t.mem.length := by
    by_cases h : s.ptr t.nil = t.nil
    · rw [h]; exact hnl
    · exact (Rep_bound s par_s hs _ (hvm h)).2
  have hvc : ∀ a ∈ ctxAddrs ctx, a ≠ s.ptr t.nil := by
    intro a ha e
    by_cases h : s.ptr t.nil = t.nil
    · exact (RepCtx_bound ctx u hc a ha).1 (e.trans h)
    · have h2 := hvm h
      rw [← e] at h2
      have := hcnt a; have := List.count_pos_iff.mpr ha; have := List.count_pos_iff.mpr h2
      omega
  have hsc : ∀ a ∈ s.addrs, a ∉ ctxAddrs ctx := by
    intro a ha h2
    have := hcnt a; have := List.count_pos_iff.mpr ha; have := List.count_pos_iff.mpr h2
    omega
  cases ctx with
  | nil =>
    have e : _rb_transplant t u (s.ptr t.nil) = set_parent (set_root t (s.ptr t.nil))
        (s.ptr t.nil) t.nil := by
      unfold _rb_transplant
      simp only [hup, ctxTop, if_true, rd_set_root]
    rw [e]
    have hcell : rd (set_parent (set_root t (s.ptr t.nil)) (s.ptr t.nil) t.nil) (s.ptr t.nil) =
        { rd t (s.ptr t.nil) with parent := t.nil } := by
      rw [rd_set_parent, if_pos ⟨rfl, by simpa using hvlen⟩]; rfl
    have hoth : ∀ q, q ≠ s.ptr t.nil →
        rd (set_parent (set_root t (s.ptr t.nil)) (s.ptr t.nil) t.nil) q = rd t q := by
      intro q hq
      rw [rd_set_parent, if_neg (fun h => hq h.1)]; rfl
    refine ⟨⟨rfl, ?_, hnd⟩, rfl, by simp, hcell, fun q _ hq => hoth q hq⟩
    exact Rep_reparent t (set_parent (set_root t (s.ptr t.nil)) (s.ptr t.nil) t.nil) rfl (by simp)
      s par_s _ (fun _ => hcell) (fun a _ hne => hoth a hne) hnds hs
  | cons f rest =>
    have hpn : f.addr ≠ t.nil := ctxTop_ne_nil hc
    have hpl : f.addr < t.mem.length := (RepCtx_bound _ u hc f.addr (by simp [ctxAddrs])).2
    have hpv : f.addr ≠ s.ptr t.nil := hvc f.addr (by simp [ctxAddrs])
    simp only [ctxTop] at hup ⊢
    cases f with
    | L p cp kp w =>
      simp only [Frame.addr] at hup hpn hpl hpv ⊢
      have hp3 : rd t p = ⟨cp, kp, ctxTop t.nil rest, u, w.ptr t.nil⟩ := hc.2.2.1
      have e : _rb_transplant t u (s.ptr t.nil) = set_parent (set_left t p (s.ptr t.nil))
          (s.ptr t.nil) p := by
        unfold _rb_transplant
        simp only [hup, hpn, if_false, hp3, if_true, parent_set_left]
      rw [e]
      have hcell : rd (set_parent (set_left t p (s.ptr t.nil)) (s.ptr t.nil) p) (s.ptr t.nil) =
          { rd t (s.ptr t.nil) with parent := p } := by
        rw [rd_set_parent, if_pos ⟨rfl, by simpa using hvlen⟩, rd_set_left,
          if_neg (fun h => hpv h.1.symm)]
      have hpc : rd (set_parent (set_left t p (s.ptr t.nil)) (s.ptr t.nil) p) p =
          { rd t p with left := s.ptr t.nil } := by
        rw [rd_set_parent, if_neg (fun h => hpv h.1), rd_set_left, if_pos ⟨rfl, hpl⟩]
      have hoth : ∀ q, q ≠ p → q ≠ s.ptr t.nil →
          rd (set_parent (set_left t p (s.ptr t.nil)) (s.ptr t.nil) p) q = rd t q := by
        intro q hq1 hq2
        rw [rd_set_parent, if_neg (fun h => hq2 h.1), rd_set_left, if_neg (fun h => hq1 h.1)]
      refine ⟨⟨?_, ?_, hnd⟩, rfl, by simp, hcell, fun q hq1 hq2 =>
        hoth q (fun e => hq1 (by rw [e]; simp [ctxAddrs, Frame.addr])) hq2⟩
      · exact RepCtx_rehole t (set_parent (set_left t p (s.ptr t.nil)) (s.ptr t.nil) p) rfl
          (by simp) rfl (.L p cp kp w) rest u _ hpc
          (fun a ha hne => hoth a hne (hvc a ha)) hndc hc
      · exact Rep_reparent t (set_parent (set_left t p (s.ptr t.nil)) (s.ptr t.nil) p) rfl
          (by simp) s par_s _ (fun _ => hcell)
          (fun a ha hne => hoth a (fun e => hsc a ha (by rw [e]; simp [ctxAddrs, Frame.addr])) hne)
          hnds hs
    | R p cp kp w =>
      simp only [Frame.addr] at hup hpn hpl hpv ⊢
      have hp3 : rd t p = ⟨cp, kp, ctxTop t.nil rest, w.ptr t.nil, u⟩ := hc.2.2.1
      have hwu : w.ptr t.nil ≠ u := by
        intro e1
        have h1 := Tree.ptr_mem_addrs t.nil w (by rw [e1]; exact hun)
        rw [e1] at h1
        exact hu (by simp [ctxAddrs, Frame.sibling, h1])
      have e : _rb_transplant t u (s.ptr t.nil) = set_parent (set_right t p (s.ptr t.nil))
          (s.ptr t.nil) p := by
        unfold _rb_transplant
        simp only [hup, hpn, if_false, hp3, hwu, parent_set_right]
      rw [e]
      have hcell : rd (set_parent (set_right t p (s.ptr t.nil)) (s.ptr t.nil) p) (s.ptr t.nil) =
          { rd t (s.ptr t.nil) with parent := p } := by
        rw [rd_set_parent, if_pos ⟨rfl, by simpa using hvlen⟩, rd_set_right,
          if_neg (fun h => hpv h.1.symm)]
      have hpc : rd (set_parent (set_right t p (s.ptr t.nil)) (s.ptr t.nil) p) p =
          { rd t p with right := s.ptr t.nil } := by
        rw [rd_set_parent, if_neg (fun h => hpv h.1), rd_set_right, if_pos ⟨rfl, hpl⟩]
      have hoth : ∀ q, q ≠ p → q ≠ s.ptr t.nil →
          rd (set_parent (set_right t p (s.ptr t.nil)) (s.ptr t.nil) p) q = rd t q := by
        intro q hq1 hq2
        rw [rd_set_parent, if_neg (fun h => hq2 h.1), rd_set_right, if_neg (fun h => hq1 h.1)]
      refine ⟨⟨?_, ?_, hnd⟩, rfl, by simp, hcell, fun q hq1 hq2 =>
        hoth q (fun e => hq1 (by rw [e]; simp [ctxAddrs, Frame.addr])) hq2⟩
      · exact RepCtx_rehole t (set_parent (set_right t p (s.ptr t.nil)) (s.ptr t.nil) p) rfl
          (by simp) rfl (.R p cp kp w) rest u _ hpc
          (fun a ha hne => hoth a hne (hvc a ha)) hndc hc
      · exact Rep_reparent t (set_parent (set_right t p (s.ptr t.nil)) (s.ptr t.nil) p) rfl
          (by simp) s par_s _ (fun _ => hcell)
          (fun a ha hne => hoth a (fun e => hsc a ha (by rw [e]; simp [ctxAddrs, Frame.addr])) hne)
          hnds hs

/-! ### Deletion: taking the node out of the tree -/

/-- Framing for focused layouts: a layout stays one when none of its cells
changes. -/
theorem zip_frame {t t' : rbtree} {ctx : List Frame} {s : Tree} (h : Zip t ctx s)
    (hnil : t'.nil = t.nil) (hlen : t'.mem.length = t.mem.length) (hroot : t'.root = t.root)
    (hc : ∀ q ∈ ctxAddrs ctx ++ s.addrs, rd t' q = rd t q) : Zip t' ctx s := by
  obtain ⟨h1, h2, h3⟩ := h
  refine ⟨?_, ?_, h3⟩
  · rw [hnil]
    exact RepCtx_frame t t' hnil hlen hroot ctx _ (fun a ha => hc a (List.mem_append_left _ ha)) h1
  · rw [hnil]
    exact Rep_frame t t' hnil hlen s _ (fun a ha => hc a (List.mem_append_right _ ha)) h2

/-- A focused layout below a composed path. -/
theorem zip_append (t : rbtree) : ∀ (c1 c2 : List Frame) (s : Tree),
    Zip t (c1 ++ c2) s ↔ Zip t c2 (plug c1 s) := by
  intro c1
  induction c1 with
  | nil => intro c2 s; rfl
  | cons f rest ih =>
    intro c2 s
    show Zip t (f :: (rest ++ c2)) s ↔ Zip t c2 (plug rest (f.fill s))
    rw [zip_up, ih]

theorem AllLeft.append : ∀ (c1 c2 : List Frame), AllLeft c1 → AllLeft c2 → AllLeft (c1 ++ c2) := by
  intro c1
  induction c1 with
  | nil => intro c2 _ h; exact h
  | cons f rest ih =>
    intro c2 h1 h2
    cases f with
    | L a c k r => exact ih c2 h1 h2
    | R a c k l => exact absurd h1 (by simp [AllLeft])

theorem AllLeft.leftKeys : ∀ (cr : List Frame), AllLeft cr → ctxLeftKeys cr = [] := by
  intro cr
  induction cr with
  | nil => intro _; rfl
  | cons f rest ih =>
    intro h
    cases f with
    | L a c k r => exact ih h
    | R a c k l => exact absurd h (by simp [AllLeft])

/-- The loop of `_find_subtree_min` on a represented non-empty tree ends at the
node at the lower end of the left spine, which has no left child. -/
theorem leftmost_focus (t : rbtree) : ∀ (s : Tree) (fuel par : Nat), Rep t par s →
    s.ptr t.nil ≠ t.nil → s.height ≤ fuel →
    ∃ cr y cy ky yr, AllLeft cr ∧ s = plug cr (.node y cy ky .leaf yr) ∧
      leftmost_loop fuel t t.nil (s.ptr t.nil) = some y := by
  intro s
  induction s with
  | leaf => intro fuel par _ hne _; exact absurd rfl hne
  | node a c k l r ihl _ =>
    intro fuel par hr _ hf
    simp only [Tree.height] at hf
    obtain ⟨fuel', rfl⟩ : ∃ f', fuel = f' + 1 := ⟨fuel - 1, by omega⟩
    obtain ⟨h1, h2, h3, h4, h5⟩ := hr
    rw [leftmost_loop]
    simp only [Tree.ptr_node, h3]
    cases l with
    | leaf =>
      simp only [Tree.ptr, ne_eq, not_true_eq_false, if_false]
      exact ⟨[], a, c, k, r, trivial, rfl, rfl⟩
    | node b cb kb bl br =>
      have hl : (Tree.node b cb kb bl br).ptr t.nil ≠ t.nil := h4.1
      simp only [ne_eq, hl, not_false_eq_true, if_true]
      obtain ⟨cr, y, cy, ky, yr, g1, g2, g3⟩ := ihl fuel' a h4 hl (by omega)
      refine ⟨cr ++ [.L a c k r], y, cy, ky, yr, AllLeft.append cr [.L a c k r] g1 (by simp [AllLeft]), ?_, g3⟩
      rw [plug_append, ← g2]; rfl

/-- The second half of the two-children case of `rbtree_erase`: `y`, the top
of a represented subtree `y(-, R)`, takes the place, the left subtree and the
colour of `z`. -/
theorem erase_two_tail {t : rbtree} {ctx : List Frame} {z y la par_y zr : Nat}
    {c cy cl : color_t} {k ky kl : Int} {ll lr R : Tree}
    (hc : RepCtx t z ctx) (hzc : rd t z = ⟨c, k, ctxTop t.nil ctx, la, zr⟩)
    (hzn : z ≠ t.nil)
    (hl : Rep t z (.node la cl kl ll lr)) (hy : Rep t par_y (.node y cy ky .leaf R))
    (hnd : (ctxAddrs ctx ++ ((Tree.node la cl kl ll lr).addrs ++ z :: y :: R.addrs)).Nodup)
    (hnl : t.nil < t.mem.length) :
    (rd (_rb_transplant t z y) z).left = la ∧
    (rd (set_left (_rb_transplant t z y) y la) y).left = la ∧
    (rd (set_parent (set_left (_rb_transplant t z y) y la) la y) z).color = c ∧
    Zip (set_color (set_parent (set_left (_rb_transplant t z y) y la) la y) y c) ctx
      (.node y c ky (.node la cl kl ll lr) R) ∧
    (set_color (set_parent (set_left (_rb_transplant t z y) y la) la y) y c).nil = t.nil ∧
    (set_color (set_parent (set_left (_rb_transplant t z y) y la) la y) y c).mem.length =
      t.mem.length ∧
    rd (set_color (set_parent (set_left (_rb_transplant t z y) y la) la y) y c) t.nil =
      rd t t.nil := by
  have hcnt := fun q => List.nodup_iff_count_le_one.mp hnd q
  simp only [Tree.addrs, List.count_append, count_cons_hit] at hcnt
  have hzctx : z ∉ ctxAddrs ctx := by
    intro h
    have := hcnt z; have := List.count_pos_iff.mpr h; have := hit_self z; omega
  have hnd1 : (ctxAddrs ctx ++ (Tree.node y cy ky .leaf R).addrs).Nodup := by
    refine List.nodup_iff_count_le_one.mpr (fun q => ?_)
    have := hcnt q
    simp only [Tree.addrs, List.count_append, count_cons_hit, List.count_nil]
    omega
  obtain ⟨zd, nd, ld, cd, od⟩ :=
    transplant_spec (s := .node y cy ky .leaf R) hc (by rw [hzc]) hy hnd1 hzctx hzn hnl
  simp only [Tree.ptr_node] at zd nd ld cd od
  obtain ⟨hy1, hy2, hy3, _, hyR⟩ := hy
  have hyctx : y ∉ ctxAddrs ctx := by
    intro h
    have := hcnt y; have := List.count_pos_iff.mpr h; have := hit_self y; omega
  have hzy : z ≠ y := by
    rintro rfl
    have := hcnt z; have := hit_self z; omega
  have hlay : la ≠ y := by
    rintro rfl
    have := hcnt la; have := hit_self la; omega
  have hlaz : la ≠ z := by
    rintro rfl
    have := hcnt la; have := hit_self la; omega
  have hlactx : la ∉ ctxAddrs ctx := by
    intro h
    have := hcnt la; have := List.count_pos_iff.mpr h; have := hit_self la; omega
  have hzd : rd (_rb_transplant t z y) z = rd t z := od z hzctx hzy
  have hlad : rd (_rb_transplant t z y) la = rd t la := od la hlactx hlay
  have hyl : y < (_rb_transplant t z y).mem.length := by rw [ld]; exact hy2
  have hlal : la < (_rb_transplant t z y).mem.length := by rw [ld]; exact hl.2.1
  have e1 : (rd (_rb_transplant t z y) z).left = la := by rw [hzd, hzc]
  -- the cells of the final state
  have cellY : rd (set_color (set_parent (set_left (_rb_transplant t z y) y la) la y) y c) y =
      ⟨c, ky, ctxTop t.nil ctx, la, R.ptr t.nil⟩ := by
    rw [rd_set_color, if_pos ⟨rfl, by simpa using hyl⟩, rd_set_parent,
      if_neg (fun h => hlay h.1.symm), rd_set_left, if_pos ⟨rfl, hyl⟩, cd, hy3]
  have cellLa : rd (set_color (set_parent (set_left (_rb_transplant t z y) y la) la y) y c) la =
      { rd t la with parent := y } := by
    rw [rd_set_color, if_neg (fun h => hlay h.1), rd_set_parent,
      if_pos ⟨rfl, by simpa using hlal⟩, rd_set_left, if_neg (fun h => hlay h.1), hlad]
  have cellO : ∀ q, q ≠ y → q ≠ la →
      rd (set_color (set_parent (set_left (_rb_transplant t z y) y la) la y) y c) q =
        rd (_rb_transplant t z y) q := by
    intro q h1 h2
    rw [rd_set_color, if_neg (fun h => h1 h.1), rd_set_parent, if_neg (fun h => h2 h.1),
      rd_set_left, if_neg (fun h => h1 h.1)]
  have e2 : (rd (set_left (_rb_transplant t z y) y la) y).left = la := by
    rw [rd_set_left, if_pos ⟨rfl, hyl⟩]
  have e3 : (rd (set_parent (set_left (_rb_transplant t z y) y la) la y) z).color = c := by
    rw [rd_set_parent, if_neg (fun h => hlaz h.1.symm), rd_set_left, if_neg (fun h => hzy h.1),
      hzd, hzc]
  have hnilcell : rd (set_color (set_parent (set_left (_rb_transplant t z y) y la) la y) y c)
      t.nil = rd t t.nil := by
    rw [cellO t.nil (fun h => hy1 h.symm) (fun h => hl.1 h.symm)]
    exact od t.nil (fun h => (RepCtx_bound ctx z hc _ h).1 rfl) (fun h => hy1 h.symm)
  have hTn : (set_color (set_parent (set_left (_rb_transplant t z y) y la) la y) y c).nil =
      t.nil := by simp [nd]
  have hTl : (set_color (set_parent (set_left (_rb_transplant t z y) y la) la y) y c).mem.length =
      t.mem.length := by simp [ld]
  have hTr : (set_color (set_parent (set_left (_rb_transplant t z y) y la) la y) y c).root =
      (_rb_transplant t z y).root := by simp
  refine ⟨e1, e2, e3, ?_, hTn, hTl, hnilcell⟩
  generalize set_color (set_parent (set_left (_rb_transplant t z y) y la) la y) y c = T
    at cellY cellLa cellO hnilcell hTn hTl hTr
  refine ⟨?_, ?_, ?_⟩
  · -- the path above
    have := zd.1
    rw [nd] at this
    rw [hTn, Tree.ptr_node]
    refine RepCtx_frame (_rb_transplant t z y) T (by rw [hTn, nd]) (by rw [hTl, ld]) hTr ctx y ?_
      this
    intro a ha
    apply cellO
    · rintro rfl; exact hyctx ha
    · rintro rfl; exact hlactx ha
  · refine ⟨by rw [hTn]; exact hy1, by rw [hTl]; exact hy2, by rw [hTn, cellY]; rfl, ?_, ?_⟩
    · -- the left subtree moves below y
      have hndl : (Tree.node la cl kl ll lr).addrs.Nodup := by
        refine List.nodup_iff_count_le_one.mpr (fun q => ?_)
        have := hcnt q
        simp only [Tree.addrs, List.count_append, count_cons_hit]
        omega
      refine Rep_reparent t T hTn hTl (.node la cl kl ll lr) z y (fun _ => cellLa) ?_ hndl hl
      intro a ha hne
      simp only [Tree.ptr_node] at hne
      have hm : 0 < List.count a ll.addrs + List.count a lr.addrs + hit a la := by
        have := List.count_pos_iff.mpr ha
        simp only [Tree.addrs, List.count_append, count_cons_hit] at this
        omega
      have hay : a ≠ y := by
        rintro rfl
        have := hcnt a; have := hit_self a; omega
      rw [cellO a hay hne]
      apply od a _ hay
      intro h
      have := hcnt a; have := List.count_pos_iff.mpr h; omega
    · -- the right subtree of y stays
      refine Rep_frame t T hTn hTl R y ?_ ?_
      · intro a ha
        have hay : a ≠ y := by
          rintro rfl
          have := hcnt a; have := List.count_pos_iff.mpr ha; have := hit_self a; omega
        have hala : a ≠ la := by
          rintro rfl
          have := hcnt a; have := List.count_pos_iff.mpr ha; have := hit_self a; omega
        rw [cellO a hay hala]
        apply od a _ hay
        intro h
        have := hcnt a; have := List.count_pos_iff.mpr ha; have := List.count_pos_iff.mpr h; omega
      · exact hyR
  · refine List.nodup_iff_count_le_one.mpr (fun q => ?_)
    have := hcnt q
    simp only [Tree.addrs, List.count_append, count_cons_hit]
    omega

/-! ### Deletion: the two-children case before the common tail -/

theorem ctxAddrs_append_count (q : Nat) : ∀ (c1 c2 : List Frame),
    List.count q (ctxAddrs (c1 ++ c2)) = List.count q (ctxAddrs c1) + List.count q (ctxAddrs c2) := by
  intro c1
  induction c1 with
  | nil => intro c2; simp [ctxAddrs]
  | cons f rest ih =>
    intro c2
    show List.count q (ctxAddrs (f :: (rest ++ c2))) = _
    simp only [ctxAddrs, count_cons_hit, List.count_append, ih]
    omega

theorem plug_addrs_count (q : Nat) : ∀ (c : List Frame) (s : Tree),
    List.count q (plug c s).addrs = List.count q (ctxAddrs c) + List.count q s.addrs := by
  intro c
  induction c with
  | nil => intro s; simp [plug, ctxAddrs]
  | cons f rest ih =>
    intro s
    show List.count q (plug rest (f.fill s)).addrs = _
    rw [ih]
    cases f <;>
      simp only [Frame.fill, Tree.addrs, ctxAddrs, Frame.addr, Frame.sibling, count_cons_hit,
        List.count_append] <;> omega

/-- A tree rebuilt along a non-empty path is not empty. -/
theorem plug_cons_node (f : Frame) (rest : List Frame) (s : Tree) :
    ∃ a c k l r, plug (f :: rest) s = .node a c k l r := by
  cases f with
  | L b cb kb sr => exact plug_node rest b cb kb s sr
  | R b cb kb sl => exact plug_node rest b cb kb sl s

/-- The two-children case when the successor `y` is the right child of `z`:
`fixup_start_node->parent = y` changes at most the sentinel's parent field. -/
theorem erase_two_direct {t : rbtree} {ctx : List Frame} {z y : Nat} {c cy : color_t}
    {k ky : Int} {l yr : Tree} (hz : Zip t ctx (.node z c k l (.node y cy ky .leaf yr)))
    (hnl : t.nil < t.mem.length) :
    Zip (set_parent t (yr.ptr t.nil) y) ctx (.node z c k l (.node y cy ky .leaf yr)) ∧
    (set_parent t (yr.ptr t.nil) y).nil = t.nil ∧
    (set_parent t (yr.ptr t.nil) y).mem.length = t.mem.length ∧
    (yr = .leaf → (rd (set_parent t (yr.ptr t.nil) y) t.nil).parent = y) ∧
    (rd (set_parent t (yr.ptr t.nil) y) t.nil).color = (rd t t.nil).color ∧
    (rd (set_parent t (yr.ptr t.nil) y) t.nil).left = (rd t t.nil).left ∧
    (rd (set_parent t (yr.ptr t.nil) y) t.nil).right = (rd t t.nil).right := by
  have hyr : Rep t y yr := hz.2.1.2.2.2.2.2.2.2.2
  have hcells : ∀ q, q ≠ t.nil → rd (set_parent t (yr.ptr t.nil) y) q = rd t q := by
    intro q hq
    rw [rd_set_parent]
    split
    · next h =>
      obtain ⟨rfl, _⟩ := h
      cases yr with
      | leaf => exact absurd rfl hq
      | node a ca ka al ar =>
        simp only [Tree.ptr_node]
        rw [hyr.2.2.1]
    · rfl
  refine ⟨zip_frame hz rfl (by simp) rfl ?_, rfl, by simp, ?_, color_set_parent t _ _ _,
    left_set_parent t _ _ _, right_set_parent t _ _ _⟩
  · intro q hq
    apply hcells
    rcases List.mem_append.mp hq with h | h
    · exact (RepCtx_bound ctx _ hz.1 q h).1
    · exact (Rep_bound _ _ hz.2.1 q h).1
  · rintro rfl
    rw [rd_set_parent, if_pos ⟨rfl, hnl⟩]

/-- The two-children case when the successor `y` lies deeper in the right
subtree of `z`: `y` is replaced by its right subtree, and the right subtree of
`z` (without `y`) is hung below `y`. -/
theorem erase_two_deep {t : rbtree} {ctx cr' : List Frame} {f : Frame} {z y : Nat}
    {c cy : color_t} {k ky : Int} {l yr : Tree}
    (hz : Zip t ctx (.node z c k l (plug (f :: cr') (.node y cy ky .leaf yr))))
    (hnl : t.nil < t.mem.length) :
    y ≠ (rd t z).right ∧ (rd t y).right = yr.ptr t.nil ∧
    (rd (_rb_transplant t y (yr.ptr t.nil)) z).right = (plug (f :: cr') yr).ptr t.nil ∧
    (rd (set_right (_rb_transplant t y (yr.ptr t.nil)) y ((plug (f :: cr') yr).ptr t.nil))
      y).right = (plug (f :: cr') yr).ptr t.nil ∧
    RepCtx (set_parent (set_right (_rb_transplant t y (yr.ptr t.nil)) y
      ((plug (f :: cr') yr).ptr t.nil)) ((plug (f :: cr') yr).ptr t.nil) y) z ctx ∧
    rd (set_parent (set_right (_rb_transplant t y (yr.ptr t.nil)) y
      ((plug (f :: cr') yr).ptr t.nil)) ((plug (f :: cr') yr).ptr t.nil) y) z =
      ⟨c, k, ctxTop t.nil ctx, l.ptr t.nil, (plug (f :: cr') yr).ptr t.nil⟩ ∧
    Rep (set_parent (set_right (_rb_transplant t y (yr.ptr t.nil)) y
      ((plug (f :: cr') yr).ptr t.nil)) ((plug (f :: cr') yr).ptr t.nil) y) z l ∧
    Rep (set_parent (set_right (_rb_transplant t y (yr.ptr t.nil)) y
      ((plug (f :: cr') yr).ptr t.nil)) ((plug (f :: cr') yr).ptr t.nil) y) f.addr
      (.node y cy ky .leaf (plug (f :: cr') yr)) ∧
    (set_parent (set_right (_rb_transplant t y (yr.ptr t.nil)) y
      ((plug (f :: cr') yr).ptr t.nil)) ((plug (f :: cr') yr).ptr t.nil) y).nil = t.nil ∧
    (set_parent (set_right (_rb_transplant t y (yr.ptr t.nil)) y
      ((plug (f :: cr') yr).ptr t.nil)) ((plug (f :: cr') yr).ptr t.nil) y).mem.length =
      t.mem.length ∧
    (yr = .leaf → (rd (set_parent (set_right (_rb_transplant t y (yr.ptr t.nil)) y
      ((plug (f :: cr') yr).ptr t.nil)) ((plug (f :: cr') yr).ptr t.nil) y) t.nil).parent =
        f.addr) ∧
    (rd (set_parent (set_right (_rb_transplant t y (yr.ptr t.nil)) y
      ((plug (f :: cr') yr).ptr t.nil)) ((plug (f :: cr') yr).ptr t.nil) y) t.nil).color =
      (rd t t.nil).color ∧
    (rd (set_parent (set_right (_rb_transplant t y (yr.ptr t.nil)) y
      ((plug (f :: cr') yr).ptr t.nil)) ((plug (f :: cr') yr).ptr t.nil) y) t.nil).left =
      (rd t t.nil).left ∧
    (rd (set_parent (set_right (_rb_transplant t y (yr.ptr t.nil)) y
      ((plug (f :: cr') yr).ptr t.nil)) ((plug (f :: cr') yr).ptr t.nil) y) t.nil).right =
      (rd t t.nil).right ∧
    (ctxAddrs ctx ++ (l.addrs ++ z :: y :: (plug (f :: cr') yr).addrs)).Nodup ∧
    (yr ≠ .leaf → (rd (set_parent (set_right (_rb_transplant t y (yr.ptr t.nil)) y
      ((plug (f :: cr') yr).ptr t.nil)) ((plug (f :: cr') yr).ptr t.nil) y) t.nil).parent =
        (rd t t.nil).parent) := by
  have hzcell := (zip_focus_cell hz).1
  have hzy : Zip t ((f :: cr') ++ .R z c k l :: ctx) (.node y cy ky .leaf yr) := by
    rw [zip_append, zip_up]; exact hz
  obtain ⟨hcy, ⟨hy1, hy2, hy3, _, hyr⟩, hndy⟩ := hzy
  have hRc : ∀ q, List.count q (ctxAddrs (.R z c k l :: ctx)) =
      hit q z + List.count q l.addrs + List.count q (ctxAddrs ctx) := by
    intro q
    simp only [ctxAddrs, Frame.addr, Frame.sibling, count_cons_hit, List.count_append]
    omega
  have hcnt := fun q => List.nodup_iff_count_le_one.mp hndy q
  simp only [Tree.addrs, List.count_append, count_cons_hit, ctxAddrs_append_count, hRc,
    List.count_nil, List.nil_append] at hcnt
  have hctop : ctxTop t.nil ((f :: cr') ++ .R z c k l :: ctx) = f.addr := rfl
  rw [hctop] at hy3
  simp only [Tree.ptr_node] at hcy
  have hfm : 0 < List.count f.addr (ctxAddrs (f :: cr')) :=
    List.count_pos_iff.mpr (by simp [ctxAddrs])
  have hfz : f.addr ≠ z := by
    intro e
    rw [e] at hfm
    have := hcnt z; have := hit_self z
    omega
  have hzy' : z ≠ y := by
    rintro rfl
    have := hcnt z; have := hit_self z; omega
  -- the first `_rb_transplant`
  have hnd' : (ctxAddrs ((f :: cr') ++ .R z c k l :: ctx) ++ yr.addrs).Nodup := by
    refine List.nodup_iff_count_le_one.mpr (fun q => ?_)
    have := hcnt q
    simp only [List.count_append, ctxAddrs_append_count, hRc]
    omega
  have hu : y ∉ ctxAddrs ((f :: cr') ++ .R z c k l :: ctx) := by
    intro h
    have h1 := List.count_pos_iff.mpr h
    simp only [ctxAddrs_append_count, hRc] at h1
    have := hcnt y; have := hit_self y; omega
  obtain ⟨Z1, na, la, ca, oa⟩ := transplant_spec hcy (by rw [hy3]; rfl) hyr hnd' hu hy1 hnl
  rw [zip_append, zip_up] at Z1
  obtain ⟨ra, cra, kra, ral, rar, eR⟩ := plug_cons_node f cr' yr
  have hRcnt := fun q => plug_addrs_count q (f :: cr') yr
  obtain ⟨r0, cr0, kr0, r0l, r0r, eR0⟩ := plug_cons_node f cr' (.node y cy ky .leaf yr)
  have hyne : y ≠ (rd t z).right := by
    rw [hzcell, eR0]
    simp only [Tree.ptr_node]
    rintro rfl
    have h0 : Rep t z (plug (f :: cr') (.node y cy ky .leaf yr)) := hz.2.1.2.2.2.2
    rw [eR0] at h0
    have := h0.2.2.1
    rw [hy3] at this
    injection this with _ _ h3 _ _
    exact hfz h3
  have hyrr : (rd t y).right = yr.ptr t.nil := by rw [hy3]
  simp only [Frame.fill] at Z1
  obtain ⟨hc1, ⟨hz1, hz2, hz3, hl1, hR1⟩, hnd1⟩ := Z1
  simp only [na, Tree.ptr_node] at hc1 hz1 hz3
  rw [la] at hz2
  have hcnt1 := fun q => List.nodup_iff_count_le_one.mp hnd1 q
  simp only [Tree.addrs, List.count_append, count_cons_hit, hRcnt] at hcnt1
  rw [eR] at hR1 hz3 ⊢
  simp only [Tree.ptr_node] at hz3 ⊢
  have hram : 0 < List.count ra (plug (f :: cr') yr).addrs := by
    rw [eR]; simp [Tree.addrs]
  rw [hRcnt] at hram
  have hray : ra ≠ y := by
    rintro rfl
    have := hcnt ra; have := hit_self ra; omega
  have hraz : ra ≠ z := by
    rintro rfl
    have := hcnt ra; have := hit_self ra; omega
  have hran : ra ≠ t.nil := by have := hR1.1; rwa [na] at this
  have hyla : y < (_rb_transplant t y (yr.ptr t.nil)).mem.length := by rw [la]; exact hy2
  have hyreq : y ≠ yr.ptr t.nil := by
    intro e
    have h1 := Tree.ptr_mem_addrs t.nil yr (by rw [← e]; exact hy1)
    rw [← e] at h1
    have := hcnt y; have := List.count_pos_iff.mpr h1; have := hit_self y; omega
  have hya : rd (_rb_transplant t y (yr.ptr t.nil)) y = rd t y := oa y hu hyreq
  have cellY : rd (set_parent (set_right (_rb_transplant t y (yr.ptr t.nil)) y ra) ra y) y =
      ⟨cy, ky, f.addr, t.nil, ra⟩ := by
    rw [rd_set_parent, if_neg (fun h => hray h.1.symm), rd_set_right, if_pos ⟨rfl, hyla⟩, hya, hy3]
    rfl
  have cellRa : rd (set_parent (set_right (_rb_transplant t y (yr.ptr t.nil)) y ra) ra y) ra =
      { rd (_rb_transplant t y (yr.ptr t.nil)) ra with parent := y } := by
    rw [rd_set_parent, if_pos ⟨rfl, by simpa [la] using hR1.2.1⟩, rd_set_right,
      if_neg (fun h => hray h.1)]
  have cellO : ∀ q, q ≠ y → q ≠ ra →
      rd (set_parent (set_right (_rb_transplant t y (yr.ptr t.nil)) y ra) ra y) q =
        rd (_rb_transplant t y (yr.ptr t.nil)) q := by
    intro q h1 h2
    rw [rd_set_parent, if_neg (fun h => h2 h.1), rd_set_right, if_neg (fun h => h1 h.1)]
  have hTn : (set_parent (set_right (_rb_transplant t y (yr.ptr t.nil)) y ra) ra y).nil =
      t.nil := by simp [na]
  have hTl : (set_parent (set_right (_rb_transplant t y (yr.ptr t.nil)) y ra) ra y).mem.length =
      t.mem.length := by simp [la]
  have hTr : (set_parent (set_right (_rb_transplant t y (yr.ptr t.nil)) y ra) ra y).root =
      (_rb_transplant t y (yr.ptr t.nil)).root := by simp
  have e4 : (rd (set_right (_rb_transplant t y (yr.ptr t.nil)) y ra) y).right = ra := by
    rw [rd_set_right, if_pos ⟨rfl, hyla⟩]
  have hnilc : rd (set_parent (set_right (_rb_transplant t y (yr.ptr t.nil)) y ra) ra y) t.nil =
      rd (_rb_transplant t y (yr.ptr t.nil)) t.nil :=
    cellO t.nil (fun h => hy1 h.symm) (fun h => hran h.symm)
  have hnila : (rd (_rb_transplant t y (yr.ptr t.nil)) t.nil).color = (rd t t.nil).color ∧
      (rd (_rb_transplant t y (yr.ptr t.nil)) t.nil).left = (rd t t.nil).left ∧
      (rd (_rb_transplant t y (yr.ptr t.nil)) t.nil).right = (rd t t.nil).right := by
    by_cases h : yr.ptr t.nil = t.nil
    · have c2 := ca
      rw [h] at c2 ⊢
      rw [c2]; exact ⟨rfl, rfl, rfl⟩
    · rw [oa t.nil (fun h1 => (RepCtx_bound _ _ hcy _ h1).1 rfl) (fun h1 => h h1.symm)]
      exact ⟨rfl, rfl, rfl⟩
  have hnilp : yr ≠ .leaf → (rd (set_parent (set_right (_rb_transplant t y (yr.ptr t.nil)) y ra)
      ra y) t.nil).parent = (rd t t.nil).parent := by
    intro hne
    have h : yr.ptr t.nil ≠ t.nil := by
      cases yr with
      | leaf => exact absurd rfl hne
      | node a ca ka al ar => exact hyr.1
    rw [hnilc, oa t.nil (fun h1 => (RepCtx_bound _ _ hcy _ h1).1 rfl) (fun h1 => h h1.symm)]
  refine ⟨hyne, hyrr, by rw [hz3], e4, ?_, ?_, ?_, ?_, hTn, hTl, ?_, by rw [hnilc]; exact hnila.1,
    by rw [hnilc]; exact hnila.2.1, by rw [hnilc]; exact hnila.2.2, ?_, hnilp⟩
  · refine RepCtx_frame (_rb_transplant t y (yr.ptr t.nil)) _ (by rw [hTn, na]) (by rw [hTl, la])
      hTr ctx z ?_ hc1
    intro a ha
    apply cellO
    · rintro rfl
      have := hcnt a; have := List.count_pos_iff.mpr ha; have := hit_self a; omega
    · rintro rfl
      have := hcnt1 a; have := List.count_pos_iff.mpr ha; omega
  · rw [cellO z hzy' (fun h => hraz h.symm), hz3]
  · refine Rep_frame (_rb_transplant t y (yr.ptr t.nil)) _ (by rw [hTn, na]) (by rw [hTl, la]) l z
      ?_ hl1
    intro a ha
    apply cellO
    · rintro rfl
      have := hcnt a; have := List.count_pos_iff.mpr ha; have := hit_self a; omega
    · rintro rfl
      have := hcnt1 a; have := List.count_pos_iff.mpr ha; omega
  · refine ⟨by rw [hTn]; exact hy1, by rw [hTl]; exact hy2, by rw [hTn, cellY]; rfl, trivial, ?_⟩
    have hndR : (Tree.node ra cra kra ral rar).addrs.Nodup := by
      rw [← eR]
      refine List.nodup_iff_count_le_one.mpr (fun q => ?_)
      rw [hRcnt]
      have := hcnt q; omega
    refine Rep_reparent (_rb_transplant t y (yr.ptr t.nil)) _ (by rw [hTn, na]) (by rw [hTl, la])
      (.node ra cra kra ral rar) z y ?_ ?_ hndR hR1
    · intro _
      simp only [Tree.ptr_node, na]
      exact cellRa
    · intro a ha hne
      simp only [Tree.ptr_node, na] at hne
      apply cellO a _ hne
      rintro rfl
      have h1 := List.count_pos_iff.mpr ha
      rw [← eR, hRcnt] at h1
      have := hcnt a; have := hit_self a; omega
  · rintro rfl
    rw [hnilc]
    exact congrArg node_t.parent ca
  · refine List.nodup_iff_count_le_one.mpr (fun q => ?_)
    have := hcnt q
    simp only [List.count_append, count_cons_hit, ← eR, hRcnt]
    omega

/-! ### Deletion: the four cases of `rbtree_erase` -/

/-- The sentinel's colour, left and right fields after `_rb_transplant`, and
its parent field when the sentinel was transplanted. -/
theorem transplant_sentinel {t t1 : rbtree} {ctx : List Frame} {s : Tree} {z : Nat}
    (hc : RepCtx t z ctx) (hsent : SentinelOK t) (hn : t1.nil = t.nil)
    (hcell : rd t1 (s.ptr t.nil) = { rd t (s.ptr t.nil) with parent := ctxTop t.nil ctx })
    (hoth : ∀ q, q ∉ ctxAddrs ctx → q ≠ s.ptr t.nil → rd t1 q = rd t q) :
    SentinelOK t1 ∧ (s = .leaf → (rd t1 t.nil).parent = ctxTop t.nil ctx) := by
  constructor
  · unfold SentinelOK at *
    rw [hn]
    by_cases h : s.ptr t.nil = t.nil
    · rw [h] at hcell
      rw [hcell]
      exact hsent
    · rw [hoth t.nil (fun h1 => (RepCtx_bound _ _ hc _ h1).1 rfl) (fun h1 => h h1.symm)]
      exact hsent
  · rintro rfl
    exact congrArg node_t.parent hcell

/-- The cases of `rbtree_erase` with at most one child: the child (or the
sentinel) takes the place of `z`. -/
theorem erase_unlink_left_leaf {t : rbtree} {ctx : List Frame} {z : Nat} {c : color_t} {k : Int}
    {r : Tree} (fuel : Nat) (hz : Zip t ctx (.node z c k .leaf r)) (hsent : SentinelOK t)
    (hnl : t.nil < t.mem.length) :
    ∃ t1, rbtree_erase_unlink fuel t z = some (t1, r.ptr t.nil, c) ∧ Zip t1 ctx r ∧
      t1.nil = t.nil ∧ t1.mem.length = t.mem.length ∧ SentinelOK t1 ∧
      (r = .leaf → (rd t1 t.nil).parent = ctxTop t.nil ctx) ∧
      (r ≠ .leaf → (rd t1 t.nil).parent = (rd t t.nil).parent) := by
  obtain ⟨hcell, hzn⟩ := zip_focus_cell hz
  have hcnt := fun q => List.nodup_iff_count_le_one.mp hz.2.2 q
  simp only [Tree.addrs, List.count_append, count_cons_hit, List.count_nil] at hcnt
  have hnd : (ctxAddrs ctx ++ r.addrs).Nodup := by
    refine List.nodup_iff_count_le_one.mpr (fun q => ?_)
    have := hcnt q
    simp only [List.count_append]
    omega
  have hu : z ∉ ctxAddrs ctx := by
    intro h
    have := hcnt z; have := List.count_pos_iff.mpr h; have := hit_self z; omega
  obtain ⟨Z1, n1, l1, c1, o1⟩ :=
    transplant_spec (u := z) (s := r) hz.1 (by rw [hcell]) hz.2.1.2.2.2.2 hnd hu hzn hnl
  obtain ⟨s1, s2⟩ := transplant_sentinel (z := z) hz.1 hsent n1 c1 o1
  have s3 : r ≠ .leaf → (rd (_rb_transplant t z (r.ptr t.nil)) t.nil).parent =
      (rd t t.nil).parent := by
    intro hne
    have h : r.ptr t.nil ≠ t.nil := by
      cases r with
      | leaf => exact absurd rfl hne
      | node a ca ka al ar => exact hz.2.1.2.2.2.2.1
    rw [o1 t.nil (fun h1 => (RepCtx_bound _ _ hz.1 _ h1).1 rfl) (fun h1 => h h1.symm)]
  refine ⟨_, ?_, Z1, n1, l1, s1, s2, s3⟩
  unfold rbtree_erase_unlink
  cases r with
  | leaf => simp only [hcell, Tree.ptr, and_self, if_true]
  | node b cb kb bl br =>
    have hb : b ≠ t.nil := hz.2.1.2.2.2.2.1
    simp only [hcell, Tree.ptr, hb, and_false, if_false, if_true]

/-- The case of `rbtree_erase` with only a left child. -/
theorem erase_unlink_right_leaf {t : rbtree} {ctx : List Frame} {z la : Nat} {c cl : color_t}
    {k kl : Int} {ll lr : Tree} (fuel : Nat)
    (hz : Zip t ctx (.node z c k (.node la cl kl ll lr) .leaf)) (hsent : SentinelOK t)
    (hnl : t.nil < t.mem.length) :
    ∃ t1, rbtree_erase_unlink fuel t z = some (t1, la, c) ∧
      Zip t1 ctx (.node la cl kl ll lr) ∧
      t1.nil = t.nil ∧ t1.mem.length = t.mem.length ∧ SentinelOK t1 ∧
      (rd t1 t.nil).parent = (rd t t.nil).parent := by
  obtain ⟨hcell, hzn⟩ := zip_focus_cell hz
  have hcnt := fun q => List.nodup_iff_count_le_one.mp hz.2.2 q
  simp only [Tree.addrs, List.count_append, count_cons_hit, List.count_nil] at hcnt
  have hnd : (ctxAddrs ctx ++ (Tree.node la cl kl ll lr).addrs).Nodup := by
    refine List.nodup_iff_count_le_one.mpr (fun q => ?_)
    have := hcnt q
    simp only [Tree.addrs, List.count_append, count_cons_hit]
    omega
  have hu : z ∉ ctxAddrs ctx := by
    intro h
    have := hcnt z; have := List.count_pos_iff.mpr h; have := hit_self z; omega
  obtain ⟨Z1, n1, l1, c1, o1⟩ :=
    transplant_spec (u := z) (s := .node la cl kl ll lr) hz.1 (by rw [hcell]) hz.2.1.2.2.2.1 hnd hu hzn hnl
  obtain ⟨s1, _⟩ := transplant_sentinel (z := z) hz.1 hsent n1 c1 o1
  have hb : la ≠ t.nil := hz.2.1.2.2.2.1.1
  simp only [Tree.ptr_node] at o1
  have s3 : (rd (_rb_transplant t z la) t.nil).parent = (rd t t.nil).parent := by
    rw [o1 t.nil (fun h1 => (RepCtx_bound _ _ hz.1 _ h1).1 rfl) (fun h1 => hb h1.symm)]
  refine ⟨_, ?_, Z1, n1, l1, s1, s3⟩
  unfold rbtree_erase_unlink
  simp only [hcell, Tree.ptr, hb, false_and, if_false, if_true]

/-- The sentinel conditions carry over when the sentinel's colour, left and
right fields are the same. -/
theorem SentinelOK.of_fields {t t1 : rbtree} (hsent : SentinelOK t) (hn : t1.nil = t.nil)
    (h1 : (rd t1 t.nil).color = (rd t t.nil).color) (h2 : (rd t1 t.nil).left = (rd t t.nil).left)
    (h3 : (rd t1 t.nil).right = (rd t t.nil).right) : SentinelOK t1 := by
  unfold SentinelOK at *
  rw [hn, h1, h2, h3]
  exact hsent

/-- The two-children case of `rbtree_erase` when the successor `y` is the
right child of `z`. -/
theorem erase_unlink_two_direct {t : rbtree} {ctx : List Frame} {z la y : Nat}
    {c cl cy : color_t} {k kl ky : Int} {ll lr yr : Tree} (fuel : Nat)
    (hz : Zip t ctx (.node z c k (.node la cl kl ll lr) (.node y cy ky .leaf yr)))
    (hsent : SentinelOK t) (hnl : t.nil < t.mem.length)
    (hloop : leftmost_loop fuel t t.nil y = some y) :
    ∃ t1, rbtree_erase_unlink fuel t z = some (t1, yr.ptr t.nil, cy) ∧
      Zip t1 (.R y c ky (.node la cl kl ll lr) :: ctx) yr ∧
      t1.nil = t.nil ∧ t1.mem.length = t.mem.length ∧ SentinelOK t1 ∧
      (yr = .leaf → (rd t1 t.nil).parent = y) ∧
      (yr ≠ .leaf → (rd t1 t.nil).parent = (rd t t.nil).parent) := by
  obtain ⟨hcell, hzn⟩ := zip_focus_cell hz
  have hycell : rd t y = ⟨cy, ky, z, t.nil, yr.ptr t.nil⟩ := hz.2.1.2.2.2.2.2.2.1
  have hyn : y ≠ t.nil := hz.2.1.2.2.2.2.1
  have hlan : la ≠ t.nil := hz.2.1.2.2.2.1.1
  obtain ⟨Zc, nc, lc, pc, c1, c2, c3⟩ := erase_two_direct hz hnl
  obtain ⟨hc', ⟨hz1, _, hz3, hL, hY⟩, hnd'⟩ := Zc
  simp only [Tree.ptr_node] at hc' hz3
  obtain ⟨e1, e2, e3, ZG, nG, lG, cG⟩ :=
    erase_two_tail (t := set_parent t (yr.ptr t.nil) y) (R := yr) (z := z) (y := y) hc' hz3 hz1
      hL hY hnd' (by rw [nc, lc]; exact hnl)
  rw [nc] at nG cG
  rw [lc] at lG
  refine ⟨_, ?_, (zip_up _ _ _ _).mpr ZG, nG, lG, ?_, ?_, ?_⟩
  · unfold rbtree_erase_unlink
    simp only [hcell, Tree.ptr_node, hlan, hyn, false_and, and_false, if_false, _find_subtree_min,
      hloop, ne_eq, not_true_eq_false, hycell, e1, e2, e3]
  · exact hsent.of_fields nG (by rw [cG]; exact c1) (by rw [cG]; exact c2) (by rw [cG]; exact c3)
  · intro h
    rw [cG]; exact pc h
  · intro hne
    have h : yr.ptr t.nil ≠ t.nil := by
      cases yr with
      | leaf => exact absurd rfl hne
      | node a ca ka al ar => exact hz.2.1.2.2.2.2.2.2.2.2.1
    rw [cG, rd_set_parent, if_neg (fun g => h g.1.symm)]

/-- The two-children case of `rbtree_erase` when the successor `y` lies deeper
in the right subtree of `z`. -/
theorem erase_unlink_two_deep {t : rbtree} {ctx cr' : List Frame} {f : Frame} {z la y : Nat}
    {c cl cy : color_t} {k kl ky : Int} {ll lr yr : Tree} (fuel : Nat)
    (hz : Zip t ctx (.node z c k (.node la cl kl ll lr)
      (plug (f :: cr') (.node y cy ky .leaf yr))))
    (hsent : SentinelOK t) (hnl : t.nil < t.mem.length)
    (hloop : leftmost_loop fuel t t.nil
      ((plug (f :: cr') (.node y cy ky .leaf yr)).ptr t.nil) = some y) :
    ∃ t1, rbtree_erase_unlink fuel t z = some (t1, yr.ptr t.nil, cy) ∧
      Zip t1 ((f :: cr') ++ .R y c ky (.node la cl kl ll lr) :: ctx) yr ∧
      t1.nil = t.nil ∧ t1.mem.length = t.mem.length ∧ SentinelOK t1 ∧
      (yr = .leaf → (rd t1 t.nil).parent = f.addr) ∧
      (yr ≠ .leaf → (rd t1 t.nil).parent = (rd t t.nil).parent) := by
  obtain ⟨hcell, hzn⟩ := zip_focus_cell hz
  have hlan : la ≠ t.nil := hz.2.1.2.2.2.1.1
  obtain ⟨r0, cr0, kr0, r0l, r0r, eR0⟩ := plug_cons_node f cr' (.node y cy ky .leaf yr)
  have hr0n : r0 ≠ t.nil := by
    have := hz.2.1.2.2.2.2
    rw [eR0] at this
    exact this.1
  obtain ⟨d1, d2, d3, d4, d5, d6, d7, d8, nc, lc, pc, c1, c2, c3, hnd, pn⟩ :=
    erase_two_deep hz hnl
  simp only [Tree.ptr_node] at d6
  have hycell : (rd t y).color = cy := by
    have hzy : Zip t ((f :: cr') ++ .R z c k (.node la cl kl ll lr) :: ctx)
        (.node y cy ky .leaf yr) := by
      rw [zip_append, zip_up]; exact hz
    rw [(zip_focus_cell hzy).1]
  obtain ⟨e1, e2, e3, ZG, nG, lG, cG⟩ :=
    erase_two_tail (R := plug (f :: cr') yr) (z := z) (y := y) d5 (by rw [nc]; exact d6)
      (by rw [nc]; exact hzn) d7 d8 hnd (by rw [nc, lc]; exact hnl)
  rw [nc] at nG cG
  rw [lc] at lG
  refine ⟨_, ?_, ?_, nG, lG, ?_, ?_, fun hne => by rw [cG]; exact pn hne⟩
  · unfold rbtree_erase_unlink
    rw [hcell, eR0] at d1
    simp only [Tree.ptr_node] at d1
    rw [eR0] at hloop
    simp only [Tree.ptr_node] at hloop
    simp only [hcell, eR0, Tree.ptr_node, hlan, hr0n, false_and, and_false, if_false,
      _find_subtree_min, hloop, ne_eq, d1, not_false_eq_true, if_true, hycell, d2, d3, d4, e1,
      e2, e3]
  · rw [zip_append, zip_up]; exact ZG
  · exact hsent.of_fields nG (by rw [cG]; exact c1) (by rw [cG]; exact c2) (by rw [cG]; exact c3)
  · intro h
    rw [cG]; exact pc h

/-- The two-children case of `rbtree_erase`: the leftmost node `y` of the
right subtree takes the place and colour of `z`, and the right subtree of `y`
takes the place of `y`. -/
theorem erase_unlink_two {t : rbtree} {ctx : List Frame} {z la : Nat} {c cl : color_t}
    {k kl : Int} {ll lr r : Tree} (fuel : Nat)
    (hz : Zip t ctx (.node z c k (.node la cl kl ll lr) r)) (hrn : r.ptr t.nil ≠ t.nil)
    (hsent : SentinelOK t) (hnl : t.nil < t.mem.length) (hfuel : r.height ≤ fuel) :
    ∃ t1 cr y cy ky yr, AllLeft cr ∧ r = plug cr (.node y cy ky .leaf yr) ∧
      rbtree_erase_unlink fuel t z = some (t1, yr.ptr t.nil, cy) ∧
      Zip t1 (cr ++ .R y c ky (.node la cl kl ll lr) :: ctx) yr ∧
      t1.nil = t.nil ∧ t1.mem.length = t.mem.length ∧ SentinelOK t1 ∧
      (yr = .leaf → (rd t1 t.nil).parent =
        ctxTop t.nil (cr ++ .R y c ky (.node la cl kl ll lr) :: ctx)) ∧
      (yr ≠ .leaf → (rd t1 t.nil).parent = (rd t t.nil).parent) := by
  obtain ⟨cr, y, cy, ky, yr, g1, g2, g3⟩ := leftmost_focus t r fuel z hz.2.1.2.2.2.2 hrn hfuel
  subst g2
  cases cr with
  | nil =>
    obtain ⟨t1, h1, h2, h3, h4, h5, h6, h7⟩ := erase_unlink_two_direct fuel hz hsent hnl g3
    exact ⟨t1, [], y, cy, ky, yr, g1, rfl, h1, h2, h3, h4, h5, h6, h7⟩
  | cons f cr' =>
    obtain ⟨t1, h1, h2, h3, h4, h5, h6, h7⟩ := erase_unlink_two_deep fuel hz hsent hnl g3
    exact ⟨t1, f :: cr', y, cy, ky, yr, g1, rfl, h1, h2, h3, h4, h5, h6, h7⟩

/-! ### Deletion: the lookup, and the red-black bookkeeping of the unlinking -/

/-- The key of a cell of a represented tree is among its keys. -/
theorem Rep_key_mem {t : rbtree} : ∀ (s : Tree) (par : Nat), Rep t par s → ∀ a ∈ s.addrs,
    (rd t a).key ∈ s.keys := by
  intro s
  induction s with
  | leaf => intro par _ a ha; simp [Tree.addrs] at ha
  | node b c k l r ihl ihr =>
    intro par h a ha
    obtain ⟨_, _, h3, h4, h5⟩ := h
    simp only [Tree.addrs, List.mem_append, List.mem_cons] at ha
    simp only [Tree.keys, List.mem_append, List.mem_cons]
    rcases ha with ha | rfl | ha
    · exact Or.inl (ihl b h4 a ha)
    · right; left; rw [h3]
    · exact Or.inr (Or.inr (ihr b h5 a ha))

/-- On a represented tree with sorted in-order keys, `rbtree_find` for a key
of the tree ends at a node that holds the key. -/
theorem find_focus (t : rbtree) (key : Int) : ∀ (s : Tree) (fuel par : Nat), Rep t par s →
    s.keys.Pairwise (· ≤ ·) → key ∈ s.keys → s.height + 1 ≤ fuel →
    ∃ ctx z c l r, rbtree_find_loop fuel t key (s.ptr t.nil) = some (some z) ∧
      s = plug ctx (.node z c key l r) := by
  intro s
  induction s with
  | leaf => intro fuel par _ _ hk _; simp [Tree.keys] at hk
  | node a c k l r ihl ihr =>
    intro fuel par hr hs hk hf
    simp only [Tree.height] at hf
    obtain ⟨fuel', rfl⟩ : ∃ f', fuel = f' + 1 := ⟨fuel - 1, by omega⟩
    obtain ⟨h1, h2, h3, h4, h5⟩ := hr
    simp only [Tree.keys] at hs hk
    rw [List.pairwise_append] at hs
    obtain ⟨hsl, hsr, hlr⟩ := hs
    rw [List.pairwise_cons] at hsr
    rw [rbtree_find_loop]
    simp only [Tree.ptr_node, ne_eq, h1, not_false_eq_true, if_true, h3]
    by_cases hlt : k < key
    · simp only [hlt, if_true]
      have hkr : key ∈ r.keys := by
        rcases List.mem_append.mp hk with h | h
        · have := hlr key h k (by simp); omega
        · rcases List.mem_cons.mp h with h | h
          · omega
          · exact h
      obtain ⟨ctx, z, cz, zl, zr, e1, e2⟩ := ihr fuel' a h5 hsr.2 hkr (by omega)
      refine ⟨ctx ++ [.R a c k l], z, cz, zl, zr, e1, ?_⟩
      rw [plug_append, ← e2]; rfl
    · simp only [hlt, if_false]
      by_cases hgt : k > key
      · simp only [hgt, if_true]
        have hkl : key ∈ l.keys := by
          rcases List.mem_append.mp hk with h | h
          · exact h
          · rcases List.mem_cons.mp h with h | h
            · omega
            · have := hsr.1 key h; omega
        obtain ⟨ctx, z, cz, zl, zr, e1, e2⟩ := ihl fuel' a h4 hsl hkl (by omega)
        refine ⟨ctx ++ [.L a c k r], z, cz, zl, zr, e1, ?_⟩
        rw [plug_append, ← e2]; rfl
      · simp only [hgt, if_false]
        have : k = key := by omega
        subst this
        exact ⟨[], a, c, l, r, rfl, rfl⟩

theorem RootBlack.of_plug {ctx : List Frame} {s : Tree} (h : (plug ctx s).rootBlack) :
    RootBlack ctx := by
  cases ctx with
  | nil => intro f hf; simp at hf
  | cons f rest => exact (plug_rootBlack_cons rest f s).mp h

theorem RootBlack.cons_ne_nil {g : Frame} {rest : List Frame} (h : rest ≠ []) :
    RootBlack (g :: rest) ↔ RootBlack rest := by
  cases rest with
  | nil => exact absurd rfl h
  | cons f rest' => exact RootBlack.cons_cons

/-- Replacing a frame of a path by one with the same colour keeps the root
black. -/
theorem RootBlack.swap_frame {f f' : Frame} (hc : f'.color = f.color) : ∀ (c1 c2 : List Frame),
    RootBlack (c1 ++ f :: c2) → RootBlack (c1 ++ f' :: c2) := by
  intro c1
  induction c1 with
  | nil => intro c2 h; exact RootBlack.swap_top hc h
  | cons g c1' ih =>
    intro c2 h
    show RootBlack (g :: (c1' ++ f' :: c2))
    rw [RootBlack.cons_ne_nil (by simp)]
    apply ih
    exact (RootBlack.cons_ne_nil (by simp)).mp h

theorem ctxColor_append_cons (c1 c2 : List Frame) (f f' : Frame) (hc : f'.color = f.color) :
    ctxColor (c1 ++ f' :: c2) = ctxColor (c1 ++ f :: c2) := by
  cases c1 with
  | nil => exact hc
  | cons g c1' => rfl

/-- Replacing a frame of a path by one with the same colour and sibling keeps
the red-black conditions of the path. -/
theorem CtxOK.swap_path {f f' : Frame} (hc : f'.color = f.color) (hs : f'.sibling = f.sibling) :
    ∀ (c1 c2 : List Frame) (n : Nat), CtxOK (c1 ++ f :: c2) n → CtxOK (c1 ++ f' :: c2) n := by
  intro c1
  induction c1 with
  | nil =>
    intro c2 n h
    obtain ⟨h1, h2, h3, h4⟩ := h
    exact ⟨by rw [hs]; exact h1, by rw [hs]; exact h2, by rw [hs, hc]; exact h3,
      by rw [hc]; exact h4⟩
  | cons g c1' ih =>
    intro c2 n h
    have h' : CtxOK (g :: (c1' ++ f :: c2)) n := h
    obtain ⟨h1, h2, h3, h4⟩ := h'
    show CtxOK (g :: (c1' ++ f' :: c2)) n
    exact ⟨h1, h2, fun e => ⟨(h3 e).1, (ctxColor_append_cons c1' c2 f f' hc).trans (h3 e).2⟩,
      ih c2 _ h4⟩

theorem ctxLeftKeys_append : ∀ (c1 c2 : List Frame),
    ctxLeftKeys (c1 ++ c2) = ctxLeftKeys c2 ++ ctxLeftKeys c1 := by
  intro c1
  induction c1 with
  | nil => intro c2; simp [ctxLeftKeys]
  | cons f rest ih =>
    intro c2
    cases f with
    | L a c k r => show ctxLeftKeys (rest ++ c2) = _; rw [ih]; rfl
    | R a c k l =>
      show ctxLeftKeys (rest ++ c2) ++ l.keys ++ [k] = _
      rw [ih]; simp [ctxLeftKeys]

theorem ctxRightKeys_append : ∀ (c1 c2 : List Frame),
    ctxRightKeys (c1 ++ c2) = ctxRightKeys c1 ++ ctxRightKeys c2 := by
  intro c1
  induction c1 with
  | nil => intro c2; simp [ctxRightKeys]
  | cons f rest ih =>
    intro c2
    cases f with
    | L a c k r =>
      show k :: r.keys ++ ctxRightKeys (rest ++ c2) = _
      rw [ih]; simp [ctxRightKeys]
    | R a c k l => show ctxRightKeys (rest ++ c2) = _; rw [ih]; rfl

/-- A black node has positive black-height, so a subtree of black-height 0
with a black top is empty. -/
theorem Tree.leaf_of_bh_zero {s : Tree} (hb : s.bh 0) (hc : s.color = RBTREE_BLACK) :
    s = .leaf := by
  cases s with
  | leaf => rfl
  | node a c k l r =>
    simp only [Tree.color] at hc
    subst hc
    simp at hb

/-- What the unlinking of `rbtree_erase` does to the red-black conditions: the
in-order keys lose the key of `z`; when the node taken out of its place was
black, the subtree at which the fix-up starts is one black node short and
everything else is in order; when it was red, the tree is a red-black tree
already. -/
theorem unlinked_valid {ctx ctx1 : List Frame} {z : Nat} {c rc : color_t} {k : Int}
    {l r s1 : Tree} (hU : Unlinked ctx c l r ctx1 s1 rc)
    (hroot : (plug ctx (.node z c k l r)).rootBlack) (hrr : (plug ctx (.node z c k l r)).noRR)
    (hbh : ∃ n, (plug ctx (.node z c k l r)).bh n) :
    (∃ A B, (plug ctx (.node z c k l r)).keys = A ++ k :: B ∧ (plug ctx1 s1).keys = A ++ B) ∧
    ctx1.length < (plug ctx (.node z c k l r)).height ∧
    (rc = RBTREE_BLACK → ∃ m, CtxOK ctx1 (m + 1) ∧ RootBlack ctx1 ∧ s1.bh m ∧ s1.kidsNoRR) ∧
    (rc = RBTREE_RED →
      (plug ctx1 s1).rootBlack ∧ (plug ctx1 s1).noRR ∧ ∃ n, (plug ctx1 s1).bh n) := by
  rcases hU with ⟨rfl, rfl, rfl, rfl⟩ | ⟨rfl, rfl, rfl, rfl⟩ | ⟨cr, y, cy, ky, yr, hcr, rfl, rfl, rfl, rfl⟩
  · -- no left child: the right subtree takes the place of z
    obtain ⟨n, h1, h2, h3, h4⟩ := unplug_valid ctx1 (.node z rc k .leaf s1) hbh hrr
    have hrb := RootBlack.of_plug hroot
    refine ⟨⟨ctxLeftKeys ctx1, s1.keys ++ ctxRightKeys ctx1, by simp [plug_keys_split, Tree.keys],
      by simp [plug_keys_split]⟩, ?_, ?_, ?_⟩
    · have := plug_height ctx1 (.node z rc k .leaf s1)
      simp only [Tree.height] at this
      omega
    · rintro rfl
      obtain ⟨m, _, hl, hr⟩ := Tree.bh_black h2
      subst n
      exact ⟨m, h1, hrb, hr, Tree.noRR_kids h3.2.2⟩
    · rintro rfl
      simp only [Tree.bh_red, Tree.bh_leaf] at h2
      obtain ⟨rfl, hr⟩ := h2
      have hs := Tree.leaf_of_bh_zero hr (h3.1 rfl).2
      subst hs
      have hv := plug_valid ctx1 .leaf 0 h1 (by simp) trivial (fun _ => rfl)
      refine ⟨?_, hv.2, hv.1⟩
      cases ctx1 with
      | nil => exact absurd hroot (by simp [plug, Tree.rootBlack])
      | cons f rest => rw [plug_rootBlack_cons]; exact hrb
  · -- no right child: the left subtree takes the place of z
    obtain ⟨n, h1, h2, h3, h4⟩ := unplug_valid ctx1 (.node z rc k s1 .leaf) hbh hrr
    have hrb := RootBlack.of_plug hroot
    refine ⟨⟨ctxLeftKeys ctx1 ++ s1.keys, ctxRightKeys ctx1, by simp [plug_keys_split, Tree.keys],
      by simp [plug_keys_split]⟩, ?_, ?_, ?_⟩
    · have := plug_height ctx1 (.node z rc k s1 .leaf)
      simp only [Tree.height] at this
      omega
    · rintro rfl
      obtain ⟨m, _, hl, hr⟩ := Tree.bh_black h2
      subst n
      exact ⟨m, h1, hrb, hl, Tree.noRR_kids h3.2.1⟩
    · rintro rfl
      simp only [Tree.bh_red, Tree.bh_leaf] at h2
      obtain ⟨hl, rfl⟩ := h2
      have hs := Tree.leaf_of_bh_zero hl (h3.1 rfl).1
      subst hs
      have hv := plug_valid ctx1 .leaf 0 h1 (by simp) trivial (fun _ => rfl)
      refine ⟨?_, hv.2, hv.1⟩
      cases ctx1 with
      | nil => exact absurd hroot (by simp [plug, Tree.rootBlack])
      | cons f rest => rw [plug_rootBlack_cons]; exact hrb
  · -- two children: the successor y takes the place of z
    have hT : plug ctx (.node z c k l (plug cr (.node y rc ky .leaf s1))) =
        plug (cr ++ .R z c k l :: ctx) (.node y rc ky .leaf s1) := by
      rw [plug_append]; rfl
    rw [hT] at hroot hrr hbh ⊢
    obtain ⟨n, h1, h2, h3, h4⟩ :=
      unplug_valid (cr ++ .R z c k l :: ctx) (.node y rc ky .leaf s1) hbh hrr
    have hrb : RootBlack (cr ++ .R y c ky l :: ctx) :=
      @RootBlack.swap_frame (.R z c k l) (.R y c ky l) rfl cr ctx (RootBlack.of_plug hroot)
    have hok : CtxOK (cr ++ .R y c ky l :: ctx) n := @CtxOK.swap_path (.R z c k l) (.R y c ky l) rfl rfl cr ctx n h1
    refine ⟨⟨ctxLeftKeys ctx ++ l.keys, ky :: s1.keys ++ ctxRightKeys cr ++ ctxRightKeys ctx,
      by simp [plug_keys_split, Tree.keys, ctxLeftKeys_append, ctxRightKeys_append,
        AllLeft.leftKeys cr hcr, ctxLeftKeys, ctxRightKeys],
      by simp [plug_keys_split, Tree.keys, ctxLeftKeys_append, ctxRightKeys_append,
        AllLeft.leftKeys cr hcr, ctxLeftKeys, ctxRightKeys]⟩, ?_, ?_, ?_⟩
    · have := plug_height (cr ++ .R z c k l :: ctx) (.node y rc ky .leaf s1)
      simp only [Tree.height, List.length_append, List.length_cons] at this ⊢
      omega
    · rintro rfl
      obtain ⟨m, _, hl, hr⟩ := Tree.bh_black h2
      subst n
      exact ⟨m, hok, hrb, hr, Tree.noRR_kids h3.2.2⟩
    · rintro rfl
      simp only [Tree.bh_red, Tree.bh_leaf] at h2
      obtain ⟨rfl, hr⟩ := h2
      have hs := Tree.leaf_of_bh_zero hr (h3.1 rfl).2
      subst hs
      have hv := plug_valid (cr ++ .R y c ky l :: ctx) .leaf 0 hok (by simp) trivial (fun _ => rfl)
      refine ⟨?_, hv.2, hv.1⟩
      have hne : cr ++ Frame.R y c ky l :: ctx ≠ [] := by simp
      obtain ⟨f, rest, e⟩ : ∃ f rest, cr ++ Frame.R y c ky l :: ctx = f :: rest := by
        cases h : cr ++ Frame.R y c ky l :: ctx with
        | nil => exact absurd h hne
        | cons f rest => exact ⟨f, rest, rfl⟩
      rw [e] at hrb ⊢
      rw [plug_rootBlack_cons]; exact hrb

/-! ### Deletion: `rbtree_erase` on a red-black tree -/

/-- `rbtree_erase` once the lookup has found `z`: unlink, fix up when the
removed colour was black, free. -/
theorem rbtree_erase_eq (fuel : Nat) (t : rbtree) (p z : Nat)
    (hfind : rbtree_find fuel t (rd t p).key = some (some z)) :
    rbtree_erase fuel t p =
      match rbtree_erase_unlink fuel t z with
      | none => none
      | some (t1, x, rc) =>
        match (if rc = RBTREE_BLACK then _rb_delete_fixup fuel t1 x else some t1) with
        | none => none
        | some t2 => some (free t2 z, 0) := by
  unfold rbtree_erase
  rw [hfind]
  rfl

/-- The unlinking part of `rbtree_erase` at a node `z` of the represented
tree: it returns, the new state lays out the tree without `z` seen from the
place where the fix-up starts, the sentinel keeps its colour and its left and
right links, and it is the parent link of the sentinel that names the place
when the fix-up starts at the sentinel. -/
theorem erase_unlink_spec {t : rbtree} {ctx : List Frame} {z : Nat} {c : color_t} {k : Int}
    {l r : Tree} (fuel : Nat) (hz : Zip t ctx (.node z c k l r)) (hsent : SentinelOK t)
    (hnl : t.nil < t.mem.length) (hfuel : r.height ≤ fuel) :
    ∃ t1 ctx1 s1 rc, rbtree_erase_unlink fuel t z = some (t1, s1.ptr t.nil, rc) ∧
      Zip t1 ctx1 s1 ∧ t1.nil = t.nil ∧ t1.mem.length = t.mem.length ∧ SentinelOK t1 ∧
      (s1 = .leaf → ctx1 ≠ [] → (rd t1 t.nil).parent = ctxTop t.nil ctx1) ∧
      Unlinked ctx c l r ctx1 s1 rc ∧
      (s1 = .leaf → (rd t1 t.nil).parent = ctxTop t.nil ctx1) ∧
      (s1 ≠ .leaf → (rd t1 t.nil).parent = (rd t t.nil).parent) := by
  cases l with
  | leaf =>
    obtain ⟨t1, h1, h2, h3, h4, h5, h6, h7⟩ := erase_unlink_left_leaf fuel hz hsent hnl
    exact ⟨t1, ctx, r, c, h1, h2, h3, h4, h5, fun e _ => h6 e, Or.inl ⟨rfl, rfl, rfl, rfl⟩,
      h6, h7⟩
  | node la cl kl ll lr =>
    cases r with
    | leaf =>
      obtain ⟨t1, h1, h2, h3, h4, h5, h6⟩ := erase_unlink_right_leaf fuel hz hsent hnl
      exact ⟨t1, ctx, .node la cl kl ll lr, c, h1, h2, h3, h4, h5, fun e => by simp at e,
        Or.inr (Or.inl ⟨rfl, rfl, rfl, rfl⟩), fun e => by simp at e, fun _ => h6⟩
    | node rb cb kb bl br =>
      have hrn : (Tree.node rb cb kb bl br).ptr t.nil ≠ t.nil := hz.2.1.2.2.2.2.1
      obtain ⟨t1, cr, y, cy, ky, yr, g1, g2, g3, g4, g5, g6, g7, g8, g9⟩ :=
        erase_unlink_two fuel hz hrn hsent hnl hfuel
      exact ⟨t1, _, yr, cy, g3, g4, g5, g6, g7, fun e _ => g8 e,
        Or.inr (Or.inr ⟨cr, y, cy, ky, yr, g1, g2, rfl, rfl, rfl⟩), g8, g9⟩

/-- Erasing one occurrence of a key from a sorted list, wherever it stands. -/
theorem erase_of_sorted (A B : List Int) (k : Int) (h : (A ++ k :: B).Pairwise (· ≤ ·)) :
    (A ++ B).Pairwise (· ≤ ·) ∧ (A ++ k :: B).erase k = A ++ B := by
  have hsub : (A ++ B).Sublist (A ++ k :: B) :=
    List.Sublist.append (List.Sublist.refl A) (List.sublist_cons_self k B)
  have hs : (A ++ B).Pairwise (· ≤ ·) := h.sublist hsub
  refine ⟨hs, ?_⟩
  have hp : ((A ++ k :: B).erase k).Perm (A ++ B) := by
    have h1 : (A ++ k :: B).Perm (k :: (A ++ B)) := List.perm_middle
    have h2 := h1.erase k
    rwa [List.erase_cons_head] at h2
  exact List.eq_of_perm_of_sorted hp (h.sublist (List.erase_sublist k _)) hs

/-- A black sentinel is an allocated cell. -/
theorem SentinelOK.allocated {t : rbtree} (h : SentinelOK t) : t.nil < t.mem.length := by
  by_contra hge
  have : rd t t.nil = default := by
    unfold rd
    exact List.getD_eq_default _ _ (by omega)
  have h1 := h.1
  rw [this] at h1
  exact absurd h1 (by decide)

/-- `free` records the cell and leaves the layout alone. -/
theorem wf_free {t : rbtree} {T : Tree} (p : Nat) (h : WF t T) : WF (free t p) T :=
  zip_frame h rfl rfl rfl (fun _ _ => rfl)

/-- `rbtree_erase` on a red-black tree, for a node of the tree: the call
returns 0 within a budget larger than the number of keys, and the new state
lays out a red-black tree whose in-order keys are the old ones without one
occurrence of the key of the node. -/
theorem rbtree_erase_spec (t : rbtree) (T : Tree) (z fuel : Nat) (hwf : WF t T)
    (hsent : SentinelOK t) (hv : RBValid T) (hz : z ∈ T.addrs)
    (hfuel : T.keys.length + 1 ≤ fuel) :
    ∃ t' T', rbtree_erase fuel t z = some (t', 0) ∧ WF t' T' ∧ SentinelOK t' ∧ RBValid T' ∧
      T'.keys = T.keys.erase (rd t z).key ∧ t'.nil = t.nil ∧ t'.mem.length = t.mem.length := by
  obtain ⟨hroot, hrr, hbh, hsorted⟩ := hv
  have hnl := hsent.allocated
  have hkey := Rep_key_mem T _ hwf.2.1 z hz
  have hh := Tree.height_le_keys T
  obtain ⟨ctx, z', c, l, r, hfind, e⟩ :=
    find_focus t (rd t z).key T fuel _ hwf.2.1 hsorted hkey (by omega)
  have hfind' : rbtree_find fuel t (rd t z).key = some (some z') := by
    unfold rbtree_find
    rw [hwf.1]; exact hfind
  subst e
  have hzip := (zip_plug t ctx _).mpr hwf
  have hrh : r.height ≤ fuel := by
    have h1 := plug_height ctx (.node z' c (rd t z).key l r)
    simp only [Tree.height] at h1
    omega
  obtain ⟨t1, ctx1, s1, rc, u1, u2, u3, u4, u5, u6, u7, -, -⟩ :=
    erase_unlink_spec fuel hzip hsent hnl hrh
  obtain ⟨⟨A, B, k1, k2⟩, v2, v3, v4⟩ := unlinked_valid u7 hroot hrr hbh
  rw [k1] at hsorted
  obtain ⟨s1', s2'⟩ := erase_of_sorted A B _ hsorted
  rw [rbtree_erase_eq fuel t z z' hfind', u1]
  simp only []
  rcases color_cases rc with hrc | hrc
  · -- a red node was removed: nothing to fix
    subst hrc
    obtain ⟨w1, w2, w3⟩ := v4 rfl
    simp only [reduceCtorEq, if_false]
    refine ⟨free t1 z', plug ctx1 s1, rfl, wf_free z' ((zip_plug t1 ctx1 s1).mp u2), u5,
      ⟨w1, w2, w3, by rw [k2]; exact s1'⟩, by rw [k1, k2, s2'], u3, u4⟩
  · -- a black node was removed: fix up
    subst hrc
    obtain ⟨m, w1, w2, w3, w4⟩ := v3 rfl
    obtain ⟨t', T', x1, x2, x3, x4, x5, x6, x7⟩ :=
      delete_fixup_loop_spec ctx1.length fuel t1 ctx1 s1 m (le_refl _) (by omega) u2
        (by unfold NilBlack; exact u5.1) (by rw [u3]; exact u6) w1 w2 w3 w4
    rw [u3] at x1
    simp only [if_true, x1]
    have hs' : SentinelOK t' := by
      unfold SentinelOK at u5 ⊢
      rw [x7.1, x7.2.2]; exact u5
    refine ⟨free t' z', T', rfl, wf_free z' x2, hs', ⟨x3, x4, x5, by rw [x6, k2]; exact s1'⟩,
      by rw [x6, k1, k2, s2'], by show t'.nil = t.nil; rw [x7.1, u3],
      by show t'.mem.length = t.mem.length; rw [x7.2.1, u4]⟩

/-! ### The red-black conditions, read from the heap -/

/-- On a represented tree of black-height `n`, `path_blacks` counts `n` black
nodes on every path. -/
theorem path_blacks_spec (t : rbtree) : ∀ (s : Tree) (fuel par n : Nat), Rep t par s → s.bh n →
    s.height + 1 ≤ fuel →
    ∃ l, path_blacks fuel t (s.ptr t.nil) = some l ∧ ∀ x ∈ l, x = n := by
  intro s
  induction s with
  | leaf =>
    intro fuel par n _ hb hf
    obtain ⟨fuel', rfl⟩ : ∃ f', fuel = f' + 1 := ⟨fuel - 1, by omega⟩
    simp only [Tree.bh_leaf] at hb
    subst hb
    exact ⟨[0], by simp [path_blacks, Tree.ptr], by simp⟩
  | node a c k l r ihl ihr =>
    intro fuel par n hr hb hf
    simp only [Tree.height] at hf
    obtain ⟨fuel', rfl⟩ : ∃ f', fuel = f' + 1 := ⟨fuel - 1, by omega⟩
    obtain ⟨h1, h2, h3, h4, h5⟩ := hr
    obtain ⟨m, e, hl, hr'⟩ := Tree.bh_kids hb
    obtain ⟨ll, e1, g1⟩ := ihl fuel' a m h4 hl (by omega)
    obtain ⟨lr, e2, g2⟩ := ihr fuel' a m h5 hr' (by omega)
    refine ⟨(ll ++ lr).map (fun x => if c = RBTREE_BLACK then x + 1 else x), ?_, ?_⟩
    · rw [path_blacks]
      simp only [Tree.ptr_node, h1, if_false, h3, e1, e2]
    · intro x hx
      simp only [List.mem_map, List.mem_append] at hx
      obtain ⟨y, hy, rfl⟩ := hx
      have : y = m := by
        rcases hy with hy | hy
        · exact g1 y hy
        · exact g2 y hy
      subst this
      exact e.symm

/-- On a represented tree without red-red pairs, `red_red_pairs` finds none. -/
theorem red_red_pairs_spec (t : rbtree) : ∀ (s : Tree) (fuel par : Nat), Rep t par s → s.noRR →
    s.height + 1 ≤ fuel → red_red_pairs fuel t (s.ptr t.nil) = some [] := by
  intro s
  induction s with
  | leaf =>
    intro fuel par _ _ hf
    obtain ⟨fuel', rfl⟩ : ∃ f', fuel = f' + 1 := ⟨fuel - 1, by omega⟩
    simp [red_red_pairs, Tree.ptr]
  | node a c k l r ihl ihr =>
    intro fuel par hr hn hf
    simp only [Tree.height] at hf
    obtain ⟨fuel', rfl⟩ : ∃ f', fuel = f' + 1 := ⟨fuel - 1, by omega⟩
    obtain ⟨h1, h2, h3, h4, h5⟩ := hr
    obtain ⟨n1, n2, n3⟩ := hn
    have e1 := ihl fuel' a h4 n2 (by omega)
    have e2 := ihr fuel' a h5 n3 (by omega)
    have hcl : ¬ (l.ptr t.nil ≠ t.nil ∧ c = RBTREE_RED ∧
        (rd t (l.ptr t.nil)).color = RBTREE_RED) := by
      rintro ⟨g1, g2, g3⟩
      cases l with
      | leaf => exact g1 rfl
      | node b cb kb bl br =>
        rw [Tree.ptr_node, h4.2.2.1] at g3
        have := (n1 g2).1
        simp only [Tree.color] at this
        rw [this] at g3
        simp at g3
    have hcr : ¬ (r.ptr t.nil ≠ t.nil ∧ c = RBTREE_RED ∧
        (rd t (r.ptr t.nil)).color = RBTREE_RED) := by
      rintro ⟨g1, g2, g3⟩
      cases r with
      | leaf => exact g1 rfl
      | node b cb kb bl br =>
        rw [Tree.ptr_node, h5.2.2.1] at g3
        have := (n1 g2).2
        simp only [Tree.color] at this
        rw [this] at g3
        simp at g3
    rw [red_red_pairs]
    simp only [Tree.ptr_node, h1, if_false, h3, e1, e2, hcl, hcr, List.append_nil]

/-- The colour field of the root cell of a heap that lays out a tree with a
black root, under a black sentinel. -/
theorem wf_root_color {t : rbtree} {T : Tree} (hwf : WF t T) (hs : SentinelOK t)
    (hr : T.rootBlack) : (rd t t.root).color = RBTREE_BLACK := by
  rw [hwf.1, Rep_color hwf.2.1 hs.1]
  exact (Tree.rootBlack_iff T).mp hr

theorem sentinel_scenario_c : SentinelOK tree_scenario_c := by
  rw [scenario_c_heap]
  exact ⟨rfl, rfl, rfl⟩

theorem rbvalid_scenario_c : RBValid shape_scenario_c := by
  refine ⟨rfl, ?_, ⟨2, ?_⟩, by decide⟩
  · simp [shape_scenario_c, Tree.noRR, Tree.color]
  · exact ⟨⟨⟨rfl, rfl⟩, ⟨rfl, rfl⟩⟩, ⟨⟨rfl, rfl⟩, ⟨rfl, rfl⟩⟩⟩

/-- A tree that is ordered at every node, in the strict or in the non-strict
form, has non-decreasing in-order keys: the ordering clause of `RBValid` holds
for every tree that satisfies the strict ordering invariant. -/
theorem sorted_of_ordered (strict : Bool) : ∀ T : Tree, T.ordered strict = true →
    T.keys.Pairwise (· ≤ ·) := by
  intro T
  induction T with
  | leaf => intro _; simp [Tree.keys]
  | node a c k l r ihl ihr =>
    intro h
    simp only [Tree.ordered, Bool.and_eq_true, List.all_eq_true, decide_eq_true_eq] at h
    obtain ⟨⟨⟨hl, hr⟩, hlk⟩, hrk⟩ := h
    have hlk' : ∀ x ∈ l.keys, x ≤ k := by
      intro x hx
      have := hlk x hx
      cases strict
      · simpa using this
      · exact le_of_lt (by simpa using this)
    simp only [Tree.keys, List.pairwise_append, List.pairwise_cons, List.mem_cons]
    refine ⟨ihl hl, ⟨hrk, ihr hr⟩, ?_⟩
    rintro x hx y (rfl | hy)
    · exact hlk' x hx
    · exact le_trans (hlk' x hx) (hrk y hy)

theorem heap_5_3_5_5 : tree_5_3_5_5 = ⟨1, 0,
    [⟨RBTREE_BLACK, 0, 0, 0, 0⟩, ⟨RBTREE_BLACK, 5, 0, 2, 3⟩, ⟨RBTREE_BLACK, 3, 1, 0, 0⟩,
      ⟨RBTREE_BLACK, 5, 1, 0, 4⟩, ⟨RBTREE_RED, 5, 3, 0, 0⟩], []⟩ := by
  decide

/-- Claim C17, counterexample: the tree built by inserting 5, 3, 5, 5 satisfies
every invariant the claim lists, the ordering in its strict form included
(left keys strictly smaller, right keys greater or equal): it is laid out with
consistent parent links, the sentinel is black with left and right links to
itself, the root is black, no red node has a red child, and every path counts
2 black nodes. Erasing its node with key 3 (cell 2) returns, and afterwards
the root is cell 3 (key 5) with cell 1 (key 5) as left child: an equal key
stands in the left subtree of the root, and the strict ordering check
fails. -/
theorem C17_erase_leaves_equal_key_on_the_left :
    WF tree_5_3_5_5 shape_5_3_5_5 ∧ SentinelOK tree_5_3_5_5 ∧
    (rd tree_5_3_5_5 tree_5_3_5_5.root).color = RBTREE_BLACK ∧
    red_red_pairs 10 tree_5_3_5_5 tree_5_3_5_5.root = some [] ∧
    path_blacks 10 tree_5_3_5_5 tree_5_3_5_5.root = some [2, 2, 2, 2, 2] ∧
    bst_ordered true 10 tree_5_3_5_5 tree_5_3_5_5.root = some true ∧
    (rd tree_5_3_5_5 2).key = 3 ∧
    (rbtree_erase 10 tree_5_3_5_5 2).map
      (fun s => [s.1.root, (rd s.1 s.1.root).left, (rd s.1 s.1.root).right]) = some [3, 1, 4] ∧
    (rbtree_erase 10 tree_5_3_5_5 2).map
      (fun s => [(rd s.1 3).key, (rd s.1 1).key, (rd s.1 4).key]) = some [5, 5, 5] ∧
    (rbtree_erase 10 tree_5_3_5_5 2).bind (fun s => inorder_keys 10 s.1 s.1.root) =
      some [5, 5, 5] ∧
    (rbtree_erase 10 tree_5_3_5_5 2).bind (fun s => bst_ordered true 10 s.1 s.1.root) =
      some false := by
  rw [heap_5_3_5_5]
  refine ⟨by decide, ⟨rfl, rfl, rfl⟩, ?_⟩
  decide

/-- Claim C17, amended: erase preserves a red-black tree whose keys are ordered
in the non-strict form. Let the heap `t` lay out a tree `T` (every node a cell
of its own whose parent, left and right links are those of `T`), let the
sentinel be black with left and right links to itself, and let `T` be a
red-black tree: black root, no red node with a red child, the same number of
black nodes on every path, and non-decreasing in-order keys (at every node the
keys of the left subtree are below or equal and those of the right subtree
above or equal; every strictly ordered tree is of this kind). Then for every
node `z` of `T` the call `rbtree_erase(t, z)` returns 0 within any budget
above the number of keys, and the new heap again lays out a tree `T'` with all
of these properties whose in-order keys are those of `T` with one occurrence
of the key of `z` removed; they are strictly increasing if those of `T` were,
so without equal keys the strict ordering is kept. Read from the new heap: the
in-order keys are that sequence, the root cell is black, no red-red pair is
found, every path counts the same number of black nodes, and every node has
the keys of its left subtree below or equal and those of its right subtree
above or equal to its own. -/
theorem C17_erase_preserves_red_black (t : rbtree) (T : Tree) (z fuel : Nat) (hwf : WF t T)
    (hsent : SentinelOK t) (hv : RBValid T) (hz : z ∈ T.addrs)
    (hfuel : T.keys.length + 1 ≤ fuel) :
    ∃ t' T', rbtree_erase fuel t z = some (t', 0) ∧ WF t' T' ∧ SentinelOK t' ∧ RBValid T' ∧
      T'.keys = T.keys.erase (rd t z).key ∧
      (T.keys.Pairwise (· < ·) → T'.keys.Pairwise (· < ·)) ∧
      t'.nil = t.nil ∧
      inorder_keys fuel t t.root = some T.keys ∧
      inorder_keys fuel t' t'.root = some (T.keys.erase (rd t z).key) ∧
      (rd t' t'.root).color = RBTREE_BLACK ∧
      red_red_pairs fuel t' t'.root = some [] ∧
      (∃ n l, path_blacks fuel t' t'.root = some l ∧ ∀ x ∈ l, x = n) ∧
      bst_ordered false fuel t' t'.root = some true := by
  obtain ⟨t', T', h1, h2, h3, h4, h5, h6, _⟩ := rbtree_erase_spec t T z fuel hwf hsent hv hz hfuel
  have hlen : T'.keys.length ≤ T.keys.length := by
    rw [h5]; exact (List.erase_sublist _ _).length_le
  have hh := Tree.height_le_keys T'
  have hroot : t'.root = T'.ptr t'.nil := h2.1
  obtain ⟨n, hn⟩ := h4.2.2.1
  obtain ⟨l, p1, p2⟩ := path_blacks_spec t' T' fuel _ n h2.2.1 hn (by omega)
  refine ⟨t', T', h1, h2, h3, h4, h5, ?_, h6, wf_inorder_keys fuel hwf (by omega), ?_,
    wf_root_color h2 h3 h4.1, ?_, ⟨n, l, by rw [hroot]; exact p1, p2⟩, ?_⟩
  · intro hs
    rw [h5]
    exact hs.sublist (List.erase_sublist _ _)
  · rw [← h5]; exact wf_inorder_keys fuel h2 (by omega)
  · rw [hroot]; exact red_red_pairs_spec t' T' fuel _ h2.2.1 h4.2.1 (by omega)
  · rw [hroot, bst_ordered_spec t' false T' fuel _ h2.2.1 (by omega),
      ordered_of_sorted T' h4.2.2.2]

/-- Claim C17, witness: the heap after inserting 15, 10, 20, 8, 12, 17, 25 and
its node 10 (cell 2). -/
theorem C17_erase_preserves_red_black_witness :
    WF tree_scenario_c shape_scenario_c ∧ SentinelOK tree_scenario_c ∧
    RBValid shape_scenario_c ∧ 2 ∈ shape_scenario_c.addrs ∧
    shape_scenario_c.keys.length + 1 ≤ 8 ∧
    ∃ t' T', rbtree_erase 8 tree_scenario_c 2 = some (t', 0) ∧ WF t' T' ∧ SentinelOK t' ∧
      RBValid T' ∧ T'.keys = [8, 12, 15, 17, 20, 25] := by
  refine ⟨wf_scenario_c, sentinel_scenario_c, rbvalid_scenario_c, by decide, by decide, ?_⟩
  obtain ⟨t', T', h1, h2, h3, h4, h5, _⟩ :=
    C17_erase_preserves_red_black tree_scenario_c shape_scenario_c 2 8 wf_scenario_c
      sentinel_scenario_c rbvalid_scenario_c (by decide) (by decide)
  refine ⟨t', T', h1, h2, h3, h4, ?_⟩
  rw [h5, scenario_c_heap]
  decide

/-! ### Link-closed sets of cells

Whatever the colours are, the fix-up of `rbtree_erase` only follows links and
only stores pointers it has read, so a set of cells that is closed under the
links stays closed. -/

/-- Every node reachable from the root lies in a closed set, and is not the
sentinel. -/
theorem closed_reachable {S : List Nat} {t : rbtree} (h : Closed S t) {q : Nat}
    (hq : Reachable t q) : q ∈ S ∧ q ≠ t.nil := by
  induction hq with
  | root hr => exact ⟨h.2.1, hr⟩
  | left p _ hl ih => exact ⟨(h.2.2 p ih.1).2.2.1, hl⟩
  | right p _ hr ih => exact ⟨(h.2.2 p ih.1).2.2.2, hr⟩

theorem closed_set_color {S : List Nat} {t : rbtree} (p : Nat) (c : color_t) (h : Closed S t) :
    Closed S (set_color t p c) := by
  refine ⟨h.1, h.2.1, fun q hq => ?_⟩
  obtain ⟨h1, h2, h3, h4⟩ := h.2.2 q hq
  simp only [set_color_length, parent_set_color, left_set_color, right_set_color]
  exact ⟨h1, h2, h3, h4⟩

theorem closed_set_root {S : List Nat} {t : rbtree} (q : Nat) (h : Closed S t)
    (hq : Closed S t → q ∈ S) : Closed S (set_root t q) :=
  ⟨h.1, hq h, h.2.2⟩

theorem closed_set_parent {S : List Nat} {t : rbtree} (p q : Nat) (h : Closed S t)
    (hq : Closed S t → q ∈ S) : Closed S (set_parent t p q) := by
  refine ⟨h.1, h.2.1, fun c hc => ?_⟩
  obtain ⟨h1, h2, h3, h4⟩ := h.2.2 c hc
  simp only [set_parent_length, left_set_parent, right_set_parent]
  refine ⟨h1, ?_, h3, h4⟩
  rw [rd_set_parent]
  split
  · exact hq h
  · exact h2

theorem closed_set_left {S : List Nat} {t : rbtree} (p q : Nat) (h : Closed S t)
    (hq : Closed S t → q ∈ S) : Closed S (set_left t p q) := by
  refine ⟨h.1, h.2.1, fun c hc => ?_⟩
  obtain ⟨h1, h2, h3, h4⟩ := h.2.2 c hc
  simp only [set_left_length, parent_set_left, right_set_left]
  refine ⟨h1, h2, ?_, h4⟩
  rw [rd_set_left]
  split
  · exact hq h
  · exact h3

theorem closed_set_right {S : List Nat} {t : rbtree} (p q : Nat) (h : Closed S t)
    (hq : Closed S t → q ∈ S) : Closed S (set_right t p q) := by
  refine ⟨h.1, h.2.1, fun c hc => ?_⟩
  obtain ⟨h1, h2, h3, h4⟩ := h.2.2 c hc
  simp only [set_right_length, parent_set_right, left_set_right]
  refine ⟨h1, h2, h3, ?_⟩
  rw [rd_set_right]
  split
  · exact hq h
  · exact h4

/-- `_rotate_left` at a cell of a closed set keeps the set closed, on any
heap. -/
theorem closed_rotate_left {S : List Nat} {t : rbtree} (x : Nat) (h : Closed S t) (hx : x ∈ S) :
    Closed S (_rotate_left t x) := by
  have hy : (rd t x).right ∈ S := (h.2.2 x hx).2.2.2
  have hb : (rd t (rd t x).right).left ∈ S := (h.2.2 _ hy).2.2.1
  unfold _rotate_left
  simp only []
  split_ifs <;>
    repeat' first
      | exact h
      | exact hx
      | exact hy
      | exact hb
      | exact (g.2.2 x hx).2.1
      | refine closed_set_parent _ _ ?_ (fun g => ?_)
      | refine closed_set_left _ _ ?_ (fun g => ?_)
      | refine closed_set_right _ _ ?_ (fun g => ?_)
      | refine closed_set_root _ ?_ (fun g => ?_)

/-- `_rotate_right` at a cell of a closed set keeps the set closed, on any
heap. -/
theorem closed_rotate_right {S : List Nat} {t : rbtree} (y : Nat) (h : Closed S t) (hy : y ∈ S) :
    Closed S (_rotate_right t y) := by
  have hx : (rd t y).left ∈ S := (h.2.2 y hy).2.2.1
  have hb : (rd t (rd t y).left).right ∈ S := (h.2.2 _ hx).2.2.2
  unfold _rotate_right
  simp only []
  split_ifs <;>
    repeat' first
      | exact h
      | exact hx
      | exact hy
      | exact hb
      | exact (g.2.2 y hy).2.1
      | refine closed_set_parent _ _ ?_ (fun g => ?_)
      | refine closed_set_left _ _ ?_ (fun g => ?_)
      | refine closed_set_right _ _ ?_ (fun g => ?_)
      | refine closed_set_root _ ?_ (fun g => ?_)

/-! ### One pass of the fix-up loop on a closed set -/

theorem closed_left_last {S : List Nat} {t : rbtree} (curr b : Nat) (h : Closed S t)
    (hc : curr ∈ S) :
    Closed S (_rb_delete_fixup_left_last t curr b).1 ∧
      (_rb_delete_fixup_left_last t curr b).2 = (_rb_delete_fixup_left_last t curr b).1.root := by
  rw [delete_fixup_left_last_eq t curr b _ _ _ rfl rfl rfl]
  refine ⟨closed_rotate_left _ (closed_set_color _ _ (closed_set_color _ _
    (closed_set_color _ _ h))) (h.2.2 curr hc).2.1, rfl⟩

theorem closed_right_last {S : List Nat} {t : rbtree} (curr b : Nat) (h : Closed S t)
    (hc : curr ∈ S) :
    Closed S (_rb_delete_fixup_right_last t curr b).1 ∧
      (_rb_delete_fixup_right_last t curr b).2 =
        (_rb_delete_fixup_right_last t curr b).1.root := by
  rw [delete_fixup_right_last_eq t curr b _ _ _ rfl rfl rfl]
  refine ⟨closed_rotate_right _ (closed_set_color _ _ (closed_set_color _ _
    (closed_set_color _ _ h))) (h.2.2 curr hc).2.1, rfl⟩

/-- Cases 2, 3 and 4 of the loop body (left side) on a closed set: the set stays
closed, and the pass either ends at the root or was Case 2. -/
theorem closed_left_rest {S : List Nat} {t : rbtree} (curr b : Nat) (h : Closed S t)
    (hc : curr ∈ S) (hb : b ∈ S) :
    Closed S (_rb_delete_fixup_left_rest t curr b).1 ∧
    ((_rb_delete_fixup_left_rest t curr b).2 = (_rb_delete_fixup_left_rest t curr b).1.root ∨
      _rb_delete_fixup_left_rest t curr b = (set_color t b RBTREE_RED, (rd t curr).parent)) := by
  by_cases h2 : (rd t (rd t b).right).color = RBTREE_BLACK
  · by_cases h1 : (rd t (rd t b).left).color = RBTREE_BLACK
    · rw [delete_fixup_left_rest_case2 t curr b h1 h2]
      exact ⟨closed_set_color _ _ h, Or.inr rfl⟩
    · rw [delete_fixup_left_rest_case3 t curr b _ rfl (color_ne_black.mp h1) h2]
      have hC : Closed S (_rotate_right (set_color (set_color t (rd t b).left RBTREE_BLACK) b
          RBTREE_RED) b) :=
        closed_rotate_right _ (closed_set_color _ _ (closed_set_color _ _ h)) hb
      obtain ⟨g1, g2⟩ := closed_left_last curr
        (rd (_rotate_right (set_color (set_color t (rd t b).left RBTREE_BLACK) b RBTREE_RED) b)
          (rd (_rotate_right (set_color (set_color t (rd t b).left RBTREE_BLACK) b RBTREE_RED) b)
            curr).parent).right hC hc
      exact ⟨g1, Or.inl g2⟩
  · rw [delete_fixup_left_rest_case4 t curr b (color_ne_black.mp h2)]
    obtain ⟨g1, g2⟩ := closed_left_last curr b h hc
    exact ⟨g1, Or.inl g2⟩

/-- Cases 2, 3 and 4 of the loop body (right side) on a closed set. -/
theorem closed_right_rest {S : List Nat} {t : rbtree} (curr b : Nat) (h : Closed S t)
    (hc : curr ∈ S) (hb : b ∈ S) :
    Closed S (_rb_delete_fixup_right_rest t curr b).1 ∧
    ((_rb_delete_fixup_right_rest t curr b).2 = (_rb_delete_fixup_right_rest t curr b).1.root ∨
      _rb_delete_fixup_right_rest t curr b = (set_color t b RBTREE_RED, (rd t curr).parent)) := by
  by_cases h2 : (rd t (rd t b).left).color = RBTREE_BLACK
  · by_cases h1 : (rd t (rd t b).right).color = RBTREE_BLACK
    · rw [delete_fixup_right_rest_case2 t curr b h2 h1]
      exact ⟨closed_set_color _ _ h, Or.inr rfl⟩
    · rw [delete_fixup_right_rest_case3 t curr b _ rfl (color_ne_black.mp h1) h2]
      have hC : Closed S (_rotate_left (set_color (set_color t (rd t b).right RBTREE_BLACK) b
          RBTREE_RED) b) :=
        closed_rotate_left _ (closed_set_color _ _ (closed_set_color _ _ h)) hb
      obtain ⟨g1, g2⟩ := closed_right_last curr
        (rd (_rotate_left (set_color (set_color t (rd t b).right RBTREE_BLACK) b RBTREE_RED) b)
          (rd (_rotate_left (set_color (set_color t (rd t b).right RBTREE_BLACK) b RBTREE_RED) b)
            curr).parent).left hC hc
      exact ⟨g1, Or.inl g2⟩
  · rw [delete_fixup_right_rest_case4 t curr b (color_ne_black.mp h2)]
    obtain ⟨g1, g2⟩ := closed_right_last curr b h hc
    exact ⟨g1, Or.inl g2⟩

/-- The parent field of a cell that `_rotate_left` does not re-hang. -/
theorem parent_rotate_left (t : rbtree) (x c : Nat) (h1 : c ≠ x) (h2 : c ≠ (rd t x).right)
    (h3 : (rd t (rd t x).right).left = t.nil ∨ c ≠ (rd t (rd t x).right).left) :
    (rd (_rotate_left t x) c).parent = (rd t c).parent := by
  unfold _rotate_left
  simp only []
  have e : ∀ (T : rbtree) (p q : Nat), c ≠ p → (rd (set_parent T p q) c).parent = (rd T c).parent := by
    intro T p q hne
    rw [rd_set_parent, if_neg (fun g => hne g.1)]
  rcases h3 with h3 | h3
  · split_ifs <;> simp only [e _ _ _ h1, e _ _ _ h2, parent_set_left, parent_set_right,
      rd_set_root] <;> first | rfl | (exfalso; simp_all)
  · split_ifs <;> simp only [e _ _ _ h1, e _ _ _ h2, e _ _ _ h3, parent_set_left,
      parent_set_right, rd_set_root, left_set_right]

/-- The parent field of a cell that `_rotate_right` does not re-hang. -/
theorem parent_rotate_right (t : rbtree) (y c : Nat) (h1 : c ≠ y) (h2 : c ≠ (rd t y).left)
    (h3 : (rd t (rd t y).left).right = t.nil ∨ c ≠ (rd t (rd t y).left).right) :
    (rd (_rotate_right t y) c).parent = (rd t c).parent := by
  unfold _rotate_right
  simp only []
  have e : ∀ (T : rbtree) (p q : Nat), c ≠ p → (rd (set_parent T p q) c).parent = (rd T c).parent := by
    intro T p q hne
    rw [rd_set_parent, if_neg (fun g => hne g.1)]
  rcases h3 with h3 | h3
  · split_ifs <;> simp only [e _ _ _ h1, e _ _ _ h2, parent_set_left, parent_set_right,
      rd_set_root] <;> first | rfl | (exfalso; simp_all)
  · split_ifs <;> simp only [e _ _ _ h1, e _ _ _ h2, e _ _ _ h3, parent_set_left,
      parent_set_right, rd_set_root, right_set_left]

/-! ### One pass of the fix-up loop, whatever the colours -/

/-- The colour field of a cell after `p->color = c`. -/
theorem color_after_set_color (t : rbtree) (p q : Nat) (c : color_t) :
    (rd (set_color t p c) q).color = c ∨ (rd (set_color t p c) q).color = (rd t q).color := by
  rw [rd_set_color]
  split
  · exact Or.inl rfl
  · exact Or.inr rfl

/-- One pass of the loop body on the left side, on a closed set: the set stays
closed and the new `curr` is in it; the pass ends at the root, or at a red
node, or it was Case 2 alone. The side conditions say that Case 1, when it
runs, does not re-hang `curr`. -/
theorem fixup_left_round {S : List Nat} {t : rbtree} (curr : Nat) (h : Closed S t)
    (hc : curr ∈ S)
    (hside : (rd t (rd t (rd t curr).parent).right).color = RBTREE_RED →
      curr ≠ (rd t curr).parent ∧ curr ≠ (rd t (rd t curr).parent).right ∧
      ((rd t (rd t (rd t curr).parent).right).left = t.nil ∨
        curr ≠ (rd t (rd t (rd t curr).parent).right).left) ∧
      (rd t curr).parent < t.mem.length) :
    Closed S (_rb_delete_fixup_left t curr).1 ∧ (_rb_delete_fixup_left t curr).2 ∈ S ∧
    ((_rb_delete_fixup_left t curr).2 = (_rb_delete_fixup_left t curr).1.root ∨
      (rd (_rb_delete_fixup_left t curr).1 (_rb_delete_fixup_left t curr).2).color = RBTREE_RED ∨
      ((rd t (rd t (rd t curr).parent).right).color ≠ RBTREE_RED ∧
        _rb_delete_fixup_left t curr =
          (set_color t (rd t (rd t curr).parent).right RBTREE_RED, (rd t curr).parent))) := by
  have hp : (rd t curr).parent ∈ S := (h.2.2 curr hc).2.1
  have hbS : (rd t (rd t curr).parent).right ∈ S := (h.2.2 _ hp).2.2.2
  by_cases hb : (rd t (rd t (rd t curr).parent).right).color = RBTREE_RED
  · obtain ⟨s1, s2, s3, s4⟩ := hside hb
    rw [delete_fixup_left_red t curr _ _ rfl rfl hb]
    have hC : Closed S (_rotate_left (set_color (set_color t (rd t (rd t curr).parent).right
        RBTREE_BLACK) (rd t curr).parent RBTREE_RED) (rd t curr).parent) :=
      closed_rotate_left _ (closed_set_color _ _ (closed_set_color _ _ h)) hp
    have hpar : (rd (_rotate_left (set_color (set_color t (rd t (rd t curr).parent).right
        RBTREE_BLACK) (rd t curr).parent RBTREE_RED) (rd t curr).parent) curr).parent =
        (rd t curr).parent := by
      rw [parent_rotate_left _ _ _ s1 (by simpa using s2) (by simpa using s3)]
      simp only [parent_set_color]
    have hcol : (rd (_rotate_left (set_color (set_color t (rd t (rd t curr).parent).right
        RBTREE_BLACK) (rd t curr).parent RBTREE_RED) (rd t curr).parent)
        (rd t curr).parent).color = RBTREE_RED := by
      rw [color_rotate_left, rd_set_color, if_pos ⟨rfl, by simpa using s4⟩]
    generalize _rotate_left (set_color (set_color t (rd t (rd t curr).parent).right
        RBTREE_BLACK) (rd t curr).parent RBTREE_RED) (rd t curr).parent = tC at hC hpar hcol ⊢
    have hpC : (rd tC curr).parent ∈ S := (hC.2.2 curr hc).2.1
    have hbC : (rd tC (rd tC curr).parent).right ∈ S := (hC.2.2 _ hpC).2.2.2
    obtain ⟨g1, g2⟩ := closed_left_rest curr (rd tC (rd tC curr).parent).right hC hc hbC
    refine ⟨g1, ?_, ?_⟩
    · rcases g2 with g2 | g2
      · rw [g2]; exact g1.2.1
      · rw [g2]; exact hpC
    · rcases g2 with g2 | g2
      · exact Or.inl g2
      · right; left
        rw [g2]
        simp only []
        rw [hpar]
        rcases color_after_set_color tC (rd tC (rd t curr).parent).right (rd t curr).parent
          RBTREE_RED with e | e
        · exact e
        · rw [e]; exact hcol
  · rw [delete_fixup_left_black t curr _ _ rfl rfl hb]
    obtain ⟨g1, g2⟩ := closed_left_rest curr (rd t (rd t curr).parent).right h hc hbS
    refine ⟨g1, ?_, ?_⟩
    · rcases g2 with g2 | g2
      · rw [g2]; exact g1.2.1
      · rw [g2]; exact hp
    · rcases g2 with g2 | g2
      · exact Or.inl g2
      · exact Or.inr (Or.inr ⟨hb, g2⟩)

/-- One pass of the loop body on the right side, on a closed set. -/
theorem fixup_right_round {S : List Nat} {t : rbtree} (curr : Nat) (h : Closed S t)
    (hc : curr ∈ S)
    (hside : (rd t (rd t (rd t curr).parent).left).color = RBTREE_RED →
      curr ≠ (rd t curr).parent ∧ curr ≠ (rd t (rd t curr).parent).left ∧
      ((rd t (rd t (rd t curr).parent).left).right = t.nil ∨
        curr ≠ (rd t (rd t (rd t curr).parent).left).right) ∧
      (rd t curr).parent < t.mem.length) :
    Closed S (_rb_delete_fixup_right t curr).1 ∧ (_rb_delete_fixup_right t curr).2 ∈ S ∧
    ((_rb_delete_fixup_right t curr).2 = (_rb_delete_fixup_right t curr).1.root ∨
      (rd (_rb_delete_fixup_right t curr).1 (_rb_delete_fixup_right t curr).2).color =
        RBTREE_RED ∨
      ((rd t (rd t (rd t curr).parent).left).color ≠ RBTREE_RED ∧
        _rb_delete_fixup_right t curr =
          (set_color t (rd t (rd t curr).parent).left RBTREE_RED, (rd t curr).parent))) := by
  have hp : (rd t curr).parent ∈ S := (h.2.2 curr hc).2.1
  have hbS : (rd t (rd t curr).parent).left ∈ S := (h.2.2 _ hp).2.2.1
  by_cases hb : (rd t (rd t (rd t curr).parent).left).color = RBTREE_RED
  · obtain ⟨s1, s2, s3, s4⟩ := hside hb
    rw [delete_fixup_right_red t curr _ _ rfl rfl hb]
    have hC : Closed S (_rotate_right (set_color (set_color t (rd t (rd t curr).parent).left
        RBTREE_BLACK) (rd t curr).parent RBTREE_RED) (rd t curr).parent) :=
      closed_rotate_right _ (closed_set_color _ _ (closed_set_color _ _ h)) hp
    have hpar : (rd (_rotate_right (set_color (set_color t (rd t (rd t curr).parent).left
        RBTREE_BLACK) (rd t curr).parent RBTREE_RED) (rd t curr).parent) curr).parent =
        (rd t curr).parent := by
      rw [parent_rotate_right _ _ _ s1 (by simpa using s2) (by simpa using s3)]
      simp only [parent_set_color]
    have hcol : (rd (_rotate_right (set_color (set_color t (rd t (rd t curr).parent).left
        RBTREE_BLACK) (rd t curr).parent RBTREE_RED) (rd t curr).parent)
        (rd t curr).parent).color = RBTREE_RED := by
      rw [color_rotate_right, rd_set_color, if_pos ⟨rfl, by simpa using s4⟩]
    generalize _rotate_right (set_color (set_color t (rd t (rd t curr).parent).left
        RBTREE_BLACK) (rd t curr).parent RBTREE_RED) (rd t curr).parent = tC at hC hpar hcol ⊢
    have hpC : (rd tC curr).parent ∈ S := (hC.2.2 curr hc).2.1
    have hbC : (rd tC (rd tC curr).parent).left ∈ S := (hC.2.2 _ hpC).2.2.1
    obtain ⟨g1, g2⟩ := closed_right_rest curr (rd tC (rd tC curr).parent).left hC hc hbC
    refine ⟨g1, ?_, ?_⟩
    · rcases g2 with g2 | g2
      · rw [g2]; exact g1.2.1
      · rw [g2]; exact hpC
    · rcases g2 with g2 | g2
      · exact Or.inl g2
      · right; left
        rw [g2]
        simp only []
        rw [hpar]
        rcases color_after_set_color tC (rd tC (rd t curr).parent).left (rd t curr).parent
          RBTREE_RED with e | e
        · exact e
        · rw [e]; exact hcol
  · rw [delete_fixup_right_black t curr _ _ rfl rfl hb]
    obtain ⟨g1, g2⟩ := closed_right_rest curr (rd t (rd t curr).parent).left h hc hbS
    refine ⟨g1, ?_, ?_⟩
    · rcases g2 with g2 | g2
      · rw [g2]; exact g1.2.1
      · rw [g2]; exact hp
    · rcases g2 with g2 | g2
      · exact Or.inl g2
      · exact Or.inr (Or.inr ⟨hb, g2⟩)

/-! ### The fix-up loop finishes, whatever the colours -/

/-- The nearest parent, its links and the sibling, read from the heap. -/
theorem zip_parent_links {t : rbtree} {f : Frame} {rest : List Frame} {s : Tree}
    (hz : Zip t (f :: rest) s) :
    f.addr ≠ t.nil ∧ f.addr < t.mem.length ∧ Rep t f.addr f.sibling ∧
    (((rd t f.addr).left = s.ptr t.nil ∧ (rd t f.addr).right = f.sibling.ptr t.nil) ∨
      ((rd t f.addr).left = f.sibling.ptr t.nil ∧ (rd t f.addr).right = s.ptr t.nil ∧
        (s.ptr t.nil ≠ f.sibling.ptr t.nil ∨ (s = .leaf ∧ f.sibling = .leaf)))) := by
  obtain ⟨hc, hs, hnd⟩ := hz
  have hcnt := fun q => List.nodup_iff_count_le_one.mp hnd q
  cases f with
  | L p cp kp w =>
    obtain ⟨h1, h2, h3, h4, _⟩ := hc
    refine ⟨h1, h2, h4, Or.inl ?_⟩
    simp only [Frame.addr, Frame.sibling, h3, and_self]
  | R p cp kp w =>
    obtain ⟨h1, h2, h3, h4, _⟩ := hc
    refine ⟨h1, h2, h4, Or.inr ?_⟩
    simp only [Frame.addr, Frame.sibling, h3, true_and]
    cases s with
    | leaf =>
      cases w with
      | leaf => exact Or.inr ⟨rfl, rfl⟩
      | node b cw kw wl wr => exact Or.inl (fun e => h4.1 e.symm)
    | node a c k l r =>
      left
      cases w with
      | leaf => exact hs.1
      | node b cw kw wl wr =>
        simp only [Tree.ptr_node]
        rintro rfl
        have := hcnt a
        simp only [ctxAddrs, Frame.addr, Frame.sibling, Tree.addrs, List.count_append,
          count_cons_hit] at this
        have := hit_self a
        omega

/-- When the sibling of the focus is red, Case 1 of the fix-up does not re-hang
the focus: the focus is neither the parent, nor the sibling, nor a child of
the sibling. -/
theorem zip_side {t : rbtree} {f : Frame} {rest : List Frame} {s : Tree}
    (hz : Zip t (f :: rest) s) (hl : (rd t t.nil).left = t.nil) (hr : (rd t t.nil).right = t.nil)
    (hleaf : s = .leaf → NilBlack t)
    (hred : (rd t (f.sibling.ptr t.nil)).color = RBTREE_RED) :
    s.ptr t.nil ≠ f.addr ∧ s.ptr t.nil ≠ f.sibling.ptr t.nil ∧
    ((rd t (f.sibling.ptr t.nil)).left = t.nil ∨
      s.ptr t.nil ≠ (rd t (f.sibling.ptr t.nil)).left) ∧
    ((rd t (f.sibling.ptr t.nil)).right = t.nil ∨
      s.ptr t.nil ≠ (rd t (f.sibling.ptr t.nil)).right) := by
  obtain ⟨hf1, _, hsib, _⟩ := zip_parent_links hz
  obtain ⟨_, hs, hnd⟩ := hz
  have hcnt := fun q => List.nodup_iff_count_le_one.mp hnd q
  simp only [ctxAddrs, List.count_append, count_cons_hit] at hcnt
  generalize f.sibling = w at *
  generalize f.addr = p at *
  cases s with
  | leaf =>
    have hnb := hleaf rfl
    cases w with
    | leaf =>
      simp only [Tree.ptr] at hred
      rw [hnb] at hred
      exact absurd hred (by decide)
    | node b cw kw wl wr =>
      obtain ⟨hb1, _, hb3, hwl, hwr⟩ := hsib
      simp only [Tree.ptr, hb3]
      refine ⟨fun e => hf1 e.symm, fun e => hb1 e.symm, ?_, ?_⟩
      · cases wl with
        | leaf => exact Or.inl rfl
        | node e ce ke el er => exact Or.inr (fun g => hwl.1 g.symm)
      · cases wr with
        | leaf => exact Or.inl rfl
        | node e ce ke el er => exact Or.inr (fun g => hwr.1 g.symm)
  | node a c k l r =>
    have ha : a ≠ t.nil := hs.1
    have hap : a ≠ p := by
      rintro rfl
      have := hcnt a
      simp only [Tree.addrs, List.count_append, count_cons_hit] at this
      have := hit_self a
      omega
    cases w with
    | leaf =>
      simp only [Tree.ptr]
      exact ⟨hap, ha, Or.inl hl, Or.inl hr⟩
    | node b cw kw wl wr =>
      obtain ⟨hb1, _, hb3, hwl, hwr⟩ := hsib
      simp only [Tree.ptr, hb3]
      have hc2 := hcnt a
      simp only [Tree.addrs, List.count_append, count_cons_hit] at hc2
      have h0 := hit_self a
      refine ⟨hap, ?_, ?_, ?_⟩
      · rintro rfl
        omega
      · cases wl with
        | leaf => exact Or.inl rfl
        | node e ce ke el er =>
          right
          simp only [Tree.ptr]
          rintro rfl
          simp only [Tree.addrs, List.count_append, count_cons_hit] at hc2
          omega
      · cases wr with
        | leaf => exact Or.inl rfl
        | node e ce ke el er =>
          right
          simp only [Tree.ptr]
          rintro rfl
          simp only [Tree.addrs, List.count_append, count_cons_hit] at hc2
          omega

/-- Case 2 alone, whatever the colours: the sibling is painted red and the
parent becomes the focus. -/
theorem zip_pure_step {t : rbtree} {f : Frame} {rest : List Frame} {s : Tree}
    (hz : Zip t (f :: rest) s) :
    ∃ s2, Zip (set_color t (f.sibling.ptr t.nil) RBTREE_RED) rest s2 ∧
      s2.ptr t.nil = f.addr ∧ s2 ≠ .leaf := by
  cases f with
  | L p cp kp w =>
    cases w with
    | leaf =>
      refine ⟨.node p cp kp s .leaf, ?_, rfl, by simp⟩
      have z0 := (zip_up _ _ _ _).mp hz
      refine zip_frame z0 rfl (by simp) rfl (fun q hq => ?_)
      rw [rd_set_color, if_neg]
      rintro ⟨e, _⟩
      rcases List.mem_append.mp hq with g | g
      · exact (RepCtx_bound _ _ z0.1 q g).1 e
      · exact (Rep_bound _ _ z0.2.1 q g).1 e
    | node b cw kw wl wr =>
      exact ⟨_, (dfix_case2_left hz).1, rfl, by simp⟩
  | R p cp kp w =>
    cases w with
    | leaf =>
      refine ⟨.node p cp kp .leaf s, ?_, rfl, by simp⟩
      have z0 := (zip_up _ _ _ _).mp hz
      refine zip_frame z0 rfl (by simp) rfl (fun q hq => ?_)
      rw [rd_set_color, if_neg]
      rintro ⟨e, _⟩
      rcases List.mem_append.mp hq with g | g
      · exact (RepCtx_bound _ _ z0.1 q g).1 e
      · exact (Rep_bound _ _ z0.2.1 q g).1 e
    | node b cw kw wl wr =>
      exact ⟨_, (dfix_case2_right hz).1, rfl, by simp⟩

/-- One pass of the loop of `_rb_delete_fixup` below a non-empty path, whatever
the colours: the closed set stays closed, and either the next test of the loop
condition fails (the new `curr` is the root or red) or the pass was Case 2
alone. -/
theorem zip_round {S : List Nat} {t : rbtree} {f : Frame} {rest : List Frame} {s : Tree}
    (k : Nat) (hz : Zip t (f :: rest) s) (hcl : Closed S t) (hs : s.ptr t.nil ∈ S)
    (hl : (rd t t.nil).left = t.nil) (hr : (rd t t.nil).right = t.nil)
    (hleaf : s = .leaf → NilBlack t ∧ (rd t t.nil).parent = f.addr)
    (h1 : s.ptr t.nil ≠ t.root) (h2 : (rd t (s.ptr t.nil)).color = RBTREE_BLACK) :
    ∃ r : rbtree × Nat,
      _rb_delete_fixup (k + 1) t (s.ptr t.nil) = _rb_delete_fixup k r.1 r.2 ∧
      Closed S r.1 ∧ r.2 ∈ S ∧
      (r.2 = r.1.root ∨ (rd r.1 r.2).color = RBTREE_RED ∨
        r = (set_color t (f.sibling.ptr t.nil) RBTREE_RED, f.addr)) := by
  obtain ⟨hf1, hf2, hsib, hlinks⟩ := zip_parent_links hz
  have hpar : (rd t (s.ptr t.nil)).parent = f.addr := by
    cases s with
    | leaf => exact (hleaf rfl).2
    | node a c k l r => rw [Tree.ptr_node, (zip_focus_cell hz).1]; rfl
  rcases hlinks with ⟨e1, e2⟩ | ⟨e1, e2, e3⟩
  · have hbr : s.ptr t.nil = (rd t (rd t (s.ptr t.nil)).parent).left := by rw [hpar, e1]
    obtain ⟨g1, g2, g3⟩ := fixup_left_round (s.ptr t.nil) hcl hs (by
      rw [hpar, e2]
      intro hred
      obtain ⟨a, b, c, _⟩ := zip_side hz hl hr (fun e => (hleaf e).1) hred
      exact ⟨a, b, c, hf2⟩)
    refine ⟨_rb_delete_fixup_left t (s.ptr t.nil),
      delete_fixup_go_left k t _ _ _ h1 h2 hbr rfl, g1, g2, ?_⟩
    rcases g3 with g | g | ⟨_, g⟩
    · exact Or.inl g
    · exact Or.inr (Or.inl g)
    · right; right
      rw [g, hpar, e2]
  · rcases e3 with e3 | ⟨e3, e4⟩
    · have hbr : s.ptr t.nil ≠ (rd t (rd t (s.ptr t.nil)).parent).left := by rw [hpar, e1]; exact e3
      obtain ⟨g1, g2, g3⟩ := fixup_right_round (s.ptr t.nil) hcl hs (by
        rw [hpar, e1]
        intro hred
        obtain ⟨a, b, _, d⟩ := zip_side hz hl hr (fun e => (hleaf e).1) hred
        exact ⟨a, b, d, hf2⟩)
      refine ⟨_rb_delete_fixup_right t (s.ptr t.nil),
        delete_fixup_go_right k t _ _ _ h1 h2 hbr rfl, g1, g2, ?_⟩
      rcases g3 with g | g | ⟨_, g⟩
      · exact Or.inl g
      · exact Or.inr (Or.inl g)
      · right; right
        rw [g, hpar, e1]
    · -- both children of the parent are the sentinel: the test `curr ==
      -- curr->parent->left` succeeds
      have hsp : s.ptr t.nil = t.nil := by rw [e3]; rfl
      have hwp : f.sibling.ptr t.nil = t.nil := by rw [e4]; rfl
      have hbr : s.ptr t.nil = (rd t (rd t (s.ptr t.nil)).parent).left := by
        rw [hpar, e1, hsp, hwp]
      obtain ⟨g1, g2, g3⟩ := fixup_left_round (s.ptr t.nil) hcl hs (by
        rw [hpar, e2]
        intro hred
        rw [h2] at hred
        exact absurd hred (by decide))
      refine ⟨_rb_delete_fixup_left t (s.ptr t.nil),
        delete_fixup_go_left k t _ _ _ h1 h2 hbr rfl, g1, g2, ?_⟩
      rcases g3 with g | g | ⟨_, g⟩
      · exact Or.inl g
      · exact Or.inr (Or.inl g)
      · right; right
        rw [g, hpar, e2, hsp, hwp]

/-- The loop of `_rb_delete_fixup` finishes on every laid-out tree, whatever
the colours of its nodes, within a budget of two more than the depth of the
start node, and it keeps a closed set of cells closed. -/
theorem delete_fixup_total (S : List Nat) : ∀ (ctx : List Frame) (fuel : Nat) (t : rbtree)
    (s : Tree), ctx.length + 2 ≤ fuel → Zip t ctx s → Closed S t → s.ptr t.nil ∈ S →
    (rd t t.nil).left = t.nil → (rd t t.nil).right = t.nil →
    (s = .leaf → NilBlack t ∧ (ctx ≠ [] → (rd t t.nil).parent = ctxTop t.nil ctx)) →
    ∃ t', _rb_delete_fixup fuel t (s.ptr t.nil) = some t' ∧ Closed S t' := by
  intro ctx
  induction ctx with
  | nil =>
    intro fuel t s hf hz hcl _ _ _ _
    obtain ⟨k, rfl⟩ : ∃ k, fuel = k + 1 := ⟨fuel - 1, by omega⟩
    exact ⟨_, delete_fixup_stop k t _ (Or.inl hz.1.symm), closed_set_color _ _ hcl⟩
  | cons f rest ih =>
    intro fuel t s hf hz hcl hs hl hr hleaf
    simp only [List.length_cons] at hf
    obtain ⟨k, rfl⟩ : ∃ k, fuel = k + 1 := ⟨fuel - 1, by omega⟩
    by_cases hstop : s.ptr t.nil = t.root ∨ (rd t (s.ptr t.nil)).color = RBTREE_RED
    · exact ⟨_, delete_fixup_stop k t _ hstop, closed_set_color _ _ hcl⟩
    · have h1 : s.ptr t.nil ≠ t.root := fun e => hstop (Or.inl e)
      have h2 : (rd t (s.ptr t.nil)).color = RBTREE_BLACK :=
        color_ne_red.mp (fun e => hstop (Or.inr e))
      obtain ⟨r, er, c1, c2, c3⟩ := zip_round k hz hcl hs hl hr
        (fun e => ⟨(hleaf e).1, (hleaf e).2 (by simp)⟩) h1 h2
      rw [er]
      obtain ⟨k', rfl⟩ : ∃ k', k = k' + 1 := ⟨k - 1, by omega⟩
      rcases c3 with c3 | c3 | c3
      · exact ⟨_, delete_fixup_stop k' r.1 r.2 (Or.inl c3), closed_set_color _ _ c1⟩
      · exact ⟨_, delete_fixup_stop k' r.1 r.2 (Or.inr c3), closed_set_color _ _ c1⟩
      · subst c3
        obtain ⟨s2, z2, p2, n2⟩ := zip_pure_step hz
        have p2' : s2.ptr (set_color t (f.sibling.ptr t.nil) RBTREE_RED).nil = f.addr := p2
        have := ih (k' + 1) (set_color t (f.sibling.ptr t.nil) RBTREE_RED) s2 (by omega) z2 c1
          (by rw [p2']; exact c2) (by simpa using hl) (by simpa using hr)
          (fun e => absurd e n2)
        rw [p2'] at this
        exact this

/-! ### The fix-up keeps the sentinel pointer -/

theorem rotate_left_nil (t : rbtree) (x : Nat) : (_rotate_left t x).nil = t.nil := by
  unfold _rotate_left
  simp only []
  split_ifs <;> simp

theorem rotate_right_nil (t : rbtree) (x : Nat) : (_rotate_right t x).nil = t.nil := by
  unfold _rotate_right
  simp only []
  split_ifs <;> simp

theorem left_last_nil (t : rbtree) (curr b : Nat) :
    (_rb_delete_fixup_left_last t curr b).1.nil = t.nil := by
  rw [delete_fixup_left_last_eq t curr b _ _ _ rfl rfl rfl]
  simp [rotate_left_nil]

theorem right_last_nil (t : rbtree) (curr b : Nat) :
    (_rb_delete_fixup_right_last t curr b).1.nil = t.nil := by
  rw [delete_fixup_right_last_eq t curr b _ _ _ rfl rfl rfl]
  simp [rotate_right_nil]

theorem left_rest_nil (t : rbtree) (curr b : Nat) :
    (_rb_delete_fixup_left_rest t curr b).1.nil = t.nil := by
  by_cases h2 : (rd t (rd t b).right).color = RBTREE_BLACK
  · by_cases h1 : (rd t (rd t b).left).color = RBTREE_BLACK
    · rw [delete_fixup_left_rest_case2 t curr b h1 h2]; simp
    · rw [delete_fixup_left_rest_case3 t curr b _ rfl (color_ne_black.mp h1) h2, left_last_nil]
      simp [rotate_right_nil]
  · rw [delete_fixup_left_rest_case4 t curr b (color_ne_black.mp h2), left_last_nil]

theorem right_rest_nil (t : rbtree) (curr b : Nat) :
    (_rb_delete_fixup_right_rest t curr b).1.nil = t.nil := by
  by_cases h2 : (rd t (rd t b).left).color = RBTREE_BLACK
  · by_cases h1 : (rd t (rd t b).right).color = RBTREE_BLACK
    · rw [delete_fixup_right_rest_case2 t curr b h2 h1]; simp
    · rw [delete_fixup_right_rest_case3 t curr b _ rfl (color_ne_black.mp h1) h2, right_last_nil]
      simp [rotate_left_nil]
  · rw [delete_fixup_right_rest_case4 t curr b (color_ne_black.mp h2), right_last_nil]

theorem fixup_left_nil (t : rbtree) (curr : Nat) : (_rb_delete_fixup_left t curr).1.nil = t.nil := by
  by_cases hb : (rd t (rd t (rd t curr).parent).right).color = RBTREE_RED
  · rw [delete_fixup_left_red t curr _ _ rfl rfl hb, left_rest_nil]
    simp [rotate_left_nil]
  · rw [delete_fixup_left_black t curr _ _ rfl rfl hb, left_rest_nil]

theorem fixup_right_nil (t : rbtree) (curr : Nat) :
    (_rb_delete_fixup_right t curr).1.nil = t.nil := by
  by_cases hb : (rd t (rd t (rd t curr).parent).left).color = RBTREE_RED
  · rw [delete_fixup_right_red t curr _ _ rfl rfl hb, right_rest_nil]
    simp [rotate_right_nil]
  · rw [delete_fixup_right_black t curr _ _ rfl rfl hb, right_rest_nil]

/-- `_rb_delete_fixup` never assigns `t->nil`. -/
theorem delete_fixup_nil : ∀ (fuel : Nat) (t : rbtree) (curr : Nat) (t' : rbtree),
    _rb_delete_fixup fuel t curr = some t' → t'.nil = t.nil := by
  intro fuel
  induction fuel with
  | zero => intro t curr t' h; simp [_rb_delete_fixup] at h
  | succ fuel ih =>
    intro t curr t' h
    rw [_rb_delete_fixup] at h
    split_ifs at h with h1 h2
    · have h' : _rb_delete_fixup fuel (_rb_delete_fixup_left t curr).1
          (_rb_delete_fixup_left t curr).2 = some t' := h
      exact (ih _ _ _ h').trans (fixup_left_nil t curr)
    · have h' : _rb_delete_fixup fuel (_rb_delete_fixup_right t curr).1
          (_rb_delete_fixup_right t curr).2 = some t' := h
      exact (ih _ _ _ h').trans (fixup_right_nil t curr)
    · simp only [Option.some.injEq] at h
      rw [← h]; simp

/-! ### The cells of a laid-out tree -/

theorem Tree.addrs_length : ∀ T : Tree, T.addrs.length = T.keys.length := by
  intro T
  induction T with
  | leaf => rfl
  | node a c k l r ihl ihr => simp [Tree.addrs, Tree.keys, ihl, ihr]

/-- The keys of the cells of a laid-out tree, in in-order, are its keys. -/
theorem Rep_keys_map {t : rbtree} : ∀ (s : Tree) (par : Nat), Rep t par s →
    s.addrs.map (fun a => (rd t a).key) = s.keys := by
  intro s
  induction s with
  | leaf => intro par _; rfl
  | node a c k l r ihl ihr =>
    intro par h
    obtain ⟨_, _, h3, h4, h5⟩ := h
    simp only [Tree.addrs, Tree.keys, List.map_append, List.map_cons, ihl a h4, ihr a h5, h3]

/-- The links of the cells of a laid-out subtree lead to its parent slot, to
the sentinel, or to cells of the subtree. -/
theorem Rep_fields {t : rbtree} : ∀ (s : Tree) (par : Nat), Rep t par s → ∀ a ∈ s.addrs,
    a < t.mem.length ∧ ((rd t a).parent = par ∨ (rd t a).parent ∈ s.addrs) ∧
    ((rd t a).left = t.nil ∨ (rd t a).left ∈ s.addrs) ∧
    ((rd t a).right = t.nil ∨ (rd t a).right ∈ s.addrs) := by
  intro s
  induction s with
  | leaf => intro par _ a ha; simp [Tree.addrs] at ha
  | node b c k l r ihl ihr =>
    intro par h a ha
    obtain ⟨_, h2, h3, h4, h5⟩ := h
    simp only [Tree.addrs, List.mem_append, List.mem_cons] at ha ⊢
    rcases ha with ha | rfl | ha
    · obtain ⟨g1, g2, g3, g4⟩ := ihl b h4 a ha
      refine ⟨g1, ?_, ?_, ?_⟩
      · rcases g2 with g | g
        · exact Or.inr (Or.inr (Or.inl g))
        · exact Or.inr (Or.inl g)
      · rcases g3 with g | g
        · exact Or.inl g
        · exact Or.inr (Or.inl g)
      · rcases g4 with g | g
        · exact Or.inl g
        · exact Or.inr (Or.inl g)
    · refine ⟨h2, Or.inl (by rw [h3]), ?_, ?_⟩
      · rw [h3]
        by_cases e : l.ptr t.nil = t.nil
        · exact Or.inl e
        · exact Or.inr (Or.inl (Tree.ptr_mem_addrs t.nil l e))
      · rw [h3]
        by_cases e : r.ptr t.nil = t.nil
        · exact Or.inl e
        · exact Or.inr (Or.inr (Or.inr (Tree.ptr_mem_addrs t.nil r e)))
    · obtain ⟨g1, g2, g3, g4⟩ := ihr b h5 a ha
      refine ⟨g1, ?_, ?_, ?_⟩
      · rcases g2 with g | g
        · exact Or.inr (Or.inr (Or.inl g))
        · exact Or.inr (Or.inr (Or.inr g))
      · rcases g3 with g | g
        · exact Or.inl g
        · exact Or.inr (Or.inr (Or.inr g))
      · rcases g4 with g | g
        · exact Or.inl g
        · exact Or.inr (Or.inr (Or.inr g))

/-- The sentinel together with the cells of a laid-out tree is a closed set,
when the links of the sentinel stay in it. -/
theorem wf_closed {t : rbtree} {T : Tree} (hwf : WF t T) (hnl : t.nil < t.mem.length)
    (hl : (rd t t.nil).left = t.nil) (hr : (rd t t.nil).right = t.nil)
    (hp : (rd t t.nil).parent ∈ t.nil :: T.addrs) : Closed (t.nil :: T.addrs) t := by
  refine ⟨List.mem_cons_self _ _, ?_, ?_⟩
  · have h1 : t.root = T.ptr t.nil := hwf.1
    rw [h1]
    by_cases e : T.ptr t.nil = t.nil
    · rw [e]; exact List.mem_cons_self _ _
    · exact List.mem_cons_of_mem _ (Tree.ptr_mem_addrs t.nil T e)
  · intro c hc
    rcases List.mem_cons.mp hc with rfl | hc
    · exact ⟨hnl, hp, by rw [hl]; exact List.mem_cons_self _ _,
        by rw [hr]; exact List.mem_cons_self _ _⟩
    · obtain ⟨g1, g2, g3, g4⟩ := Rep_fields T _ hwf.2.1 c hc
      refine ⟨g1, ?_, ?_, ?_⟩
      · rcases g2 with g | g
        · rw [g]; exact List.mem_cons_self _ _
        · exact List.mem_cons_of_mem _ g
      · rcases g3 with g | g
        · rw [g]; exact List.mem_cons_self _ _
        · exact List.mem_cons_of_mem _ g
      · rcases g4 with g | g
        · rw [g]; exact List.mem_cons_self _ _
        · exact List.mem_cons_of_mem _ g

/-- Every cell of a laid-out subtree is reachable once its top is. -/
theorem Rep_reachable {t : rbtree} : ∀ (s : Tree) (par : Nat), Rep t par s →
    (s ≠ .leaf → Reachable t (s.ptr t.nil)) → ∀ a ∈ s.addrs, Reachable t a := by
  intro s
  induction s with
  | leaf => intro par _ _ a ha; simp [Tree.addrs] at ha
  | node b c k l r ihl ihr =>
    intro par h htop a ha
    obtain ⟨_, _, h3, h4, h5⟩ := h
    have hb : Reachable t b := htop (by simp)
    simp only [Tree.addrs, List.mem_append, List.mem_cons] at ha
    rcases ha with ha | rfl | ha
    · refine ihl b h4 (fun hne => ?_) a ha
      have e : (rd t b).left = l.ptr t.nil := by rw [h3]
      have hn : l.ptr t.nil ≠ t.nil := by
        cases l with
        | leaf => exact absurd rfl hne
        | node _ _ _ _ _ => exact h4.1
      rw [← e]
      exact Reachable.left b hb (by rw [e]; exact hn)
    · exact hb
    · refine ihr b h5 (fun hne => ?_) a ha
      have e : (rd t b).right = r.ptr t.nil := by rw [h3]
      have hn : r.ptr t.nil ≠ t.nil := by
        cases r with
        | leaf => exact absurd rfl hne
        | node _ _ _ _ _ => exact h5.1
      rw [← e]
      exact Reachable.right b hb (by rw [e]; exact hn)

/-- Every node of the tree a heap lays out is reachable from the root. -/
theorem wf_reachable {t : rbtree} {T : Tree} (hwf : WF t T) : ∀ a ∈ T.addrs, Reachable t a := by
  refine Rep_reachable T _ hwf.2.1 (fun hne => ?_)
  have h1 : t.root = T.ptr t.nil := hwf.1
  have hn : T.ptr t.nil ≠ t.nil := by
    cases T with
    | leaf => exact absurd rfl hne
    | node _ _ _ _ _ => exact hwf.2.1.1
  rw [← h1]
  exact Reachable.root (by rw [h1]; exact hn)

/-- The cells of the tree after the unlinking are those before it without the
node taken out. -/
theorem unlinked_addrs {ctx ctx1 : List Frame} {z : Nat} {c rc : color_t} {k : Int}
    {l r s1 : Tree} (h : Unlinked ctx c l r ctx1 s1 rc) (q : Nat) :
    List.count q (plug ctx1 s1).addrs + hit q z =
      List.count q (plug ctx (.node z c k l r)).addrs := by
  rcases h with ⟨rfl, rfl, rfl, -⟩ | ⟨rfl, rfl, rfl, -⟩ | ⟨cr, y, cy, ky, yr, -, rfl, rfl, rfl, -⟩
  · simp only [plug_addrs_count, Tree.addrs, List.count_append, count_cons_hit, List.count_nil]
    omega
  · simp only [plug_addrs_count, Tree.addrs, List.count_append, count_cons_hit, List.count_nil]
    omega
  · simp only [plug_addrs_count, ctxAddrs_append_count, ctxAddrs, Frame.addr, Frame.sibling,
      Tree.addrs, List.count_append, count_cons_hit, List.count_nil]
    omega

/-! ### `rbtree_erase` takes the node it finds out of the tree -/

/-- `rbtree_erase` on a laid-out search tree, whatever the colours of its
nodes: the lookup finds a node `z` with the key of `p` (`p` itself when no key
occurs twice), the call returns 0 within a budget larger than the number of
keys, `z` is the one cell freed, and afterwards only nodes of the old tree
other than `z` can be reached from the root. On a red-black tree every node
other than `z` can still be reached. -/
theorem rbtree_erase_removes (t : rbtree) (T : Tree) (p fuel : Nat) (hwf : WF t T)
    (hsent : SentinelOK t) (hnp : (rd t t.nil).parent = t.nil)
    (hsorted : T.keys.Pairwise (· ≤ ·)) (hp : p ∈ T.addrs) (hfuel : T.keys.length + 1 ≤ fuel) :
    ∃ z t', rbtree_find fuel t (rd t p).key = some (some z) ∧ z ∈ T.addrs ∧
      (rd t z).key = (rd t p).key ∧ (T.keys.Nodup → z = p) ∧
      rbtree_erase fuel t p = some (t', 0) ∧ t'.freed = z :: t.freed ∧ t'.nil = t.nil ∧
      (∀ q, Reachable t' q → q ∈ T.addrs ∧ q ≠ z) ∧
      (RBValid T → ∀ q ∈ T.addrs, q ≠ z → Reachable t' q) := by
  have hnl := hsent.allocated
  have hkey := Rep_key_mem T _ hwf.2.1 p hp
  have hh := Tree.height_le_keys T
  have hndT : T.addrs.Nodup := by simpa [ctxAddrs] using hwf.2.2
  obtain ⟨ctx, z, c, l, r, hfind, e⟩ :=
    find_focus t (rd t p).key T fuel _ hwf.2.1 hsorted hkey (by omega)
  have hfind' : rbtree_find fuel t (rd t p).key = some (some z) := by
    unfold rbtree_find
    rw [hwf.1]; exact hfind
  have hzip : Zip t ctx (.node z c (rd t p).key l r) := (zip_plug t ctx _).mpr (e ▸ hwf)
  have hzcell := zip_focus_cell hzip
  have hzT : z ∈ T.addrs := by
    rw [e]
    apply List.count_pos_iff.mp
    rw [plug_addrs_count]
    simp only [Tree.addrs, List.count_append, count_cons_hit]
    have := hit_self z
    omega
  have hzkey : (rd t z).key = (rd t p).key := by rw [hzcell.1]
  have hzp : T.keys.Nodup → z = p := by
    intro hnd
    rw [← Rep_keys_map T _ hwf.2.1] at hnd
    exact List.inj_on_of_nodup_map hnd hzT hp hzkey
  have hrh : r.height ≤ fuel := by
    have h1 := plug_height ctx (.node z c (rd t p).key l r)
    rw [← e] at h1
    simp only [Tree.height] at h1
    omega
  obtain ⟨t1, ctx1, s1, rc, u1, u2, u3, u4, u5, -, u7, u8, u9⟩ :=
    erase_unlink_spec fuel hzip hsent hnl hrh
  -- the cells of the tree after the unlinking
  have hcount : ∀ q, List.count q (plug ctx1 s1).addrs + hit q z = List.count q T.addrs := by
    intro q
    rw [e]
    exact unlinked_addrs u7 q
  have hsub : ∀ q, q ∈ (plug ctx1 s1).addrs → q ∈ T.addrs ∧ q ≠ z := by
    intro q hq
    have h1 := List.count_pos_iff.mpr hq
    have h2 := hcount q
    have h3 := List.nodup_iff_count_le_one.mp hndT q
    refine ⟨List.count_pos_iff.mp (by omega), ?_⟩
    rintro rfl
    have := hit_self q
    omega
  have hlen : (plug ctx1 s1).addrs.length + 1 = T.addrs.length := by
    have hperm : (z :: (plug ctx1 s1).addrs).Perm T.addrs := by
      rw [List.perm_iff_count]
      intro q
      rw [count_cons_hit]
      exact hcount q
    simpa using hperm.length_eq
  have hwf1 : WF t1 (plug ctx1 s1) := (zip_plug t1 ctx1 s1).mp u2
  have hcl : Closed (t.nil :: (plug ctx1 s1).addrs) t1 := by
    have := wf_closed hwf1 (by rw [u3, u4]; exact hnl) u5.2.1 u5.2.2 (by
      rw [u3]
      by_cases hs : s1 = .leaf
      · rw [u8 hs]
        cases ctx1 with
        | nil => exact List.mem_cons_self _ _
        | cons f rest =>
          refine List.mem_cons_of_mem _ (List.count_pos_iff.mp ?_)
          rw [plug_addrs_count]
          have : 0 < List.count f.addr (ctxAddrs (f :: rest)) :=
            List.count_pos_iff.mpr (by simp [ctxAddrs])
          simp only [ctxTop]
          omega
      · rw [u9 hs, hnp]
        exact List.mem_cons_self _ _)
    rwa [u3] at this
  have hs1 : s1.ptr t1.nil ∈ t.nil :: (plug ctx1 s1).addrs := by
    rw [u3]
    by_cases hn : s1.ptr t.nil = t.nil
    · rw [hn]; exact List.mem_cons_self _ _
    · refine List.mem_cons_of_mem _ (List.count_pos_iff.mp ?_)
      rw [plug_addrs_count]
      have := List.count_pos_iff.mpr (Tree.ptr_mem_addrs t.nil s1 hn)
      omega
  have hdepth : ctx1.length + 2 ≤ fuel := by
    have h1 := plug_height ctx1 s1
    have h2 := Tree.height_le_keys (plug ctx1 s1)
    have h3 := Tree.addrs_length (plug ctx1 s1)
    have h4 := Tree.addrs_length T
    omega
  -- the call
  have hcall : ∃ t', rbtree_erase fuel t p = some (t', 0) ∧ t'.nil = t.nil ∧
      Closed (t.nil :: (plug ctx1 s1).addrs) t' := by
    rw [rbtree_erase_eq fuel t p z hfind', u1]
    simp only []
    rcases color_cases rc with hrc | hrc
    · subst hrc
      simp only [reduceCtorEq, if_false]
      exact ⟨free t1 z, rfl, u3, hcl⟩
    · subst hrc
      obtain ⟨t2, f1, f2⟩ := delete_fixup_total _ ctx1 fuel t1 s1 hdepth u2 hcl hs1 u5.2.1 u5.2.2
        (fun hs => ⟨u5.1, fun _ => by rw [u3]; exact u8 hs⟩)
      rw [u3] at f1
      simp only [if_true, f1]
      have hn2 : t2.nil = t.nil := by
        have := delete_fixup_nil _ _ _ _ f1
        rw [this, u3]
      exact ⟨free t2 z, rfl, hn2, f2⟩
  obtain ⟨t', hret, hnil', hcl'⟩ := hcall
  have hreach : ∀ q, Reachable t' q → q ∈ T.addrs ∧ q ≠ z := by
    intro q hq
    obtain ⟨g1, g2⟩ := closed_reachable hcl' hq
    rw [hnil'] at g2
    rcases List.mem_cons.mp g1 with g | g
    · exact absurd g g2
    · exact hsub q g
  refine ⟨z, t', hfind', hzT, hzkey, hzp, hret, (erase_freed fuel t t' p z 0 hfind' hret).1, hnil',
    hreach, ?_⟩
  intro hv q hq hqz
  obtain ⟨t'', T', x1, x2, -, -, x5, -, -⟩ := rbtree_erase_spec t T p fuel hwf hsent hv hp hfuel
  rw [hret] at x1
  simp only [Option.some.injEq, Prod.mk.injEq, and_true] at x1
  subst x1
  have hnd' : T'.addrs.Nodup := by simpa [ctxAddrs] using x2.2.2
  have hsub' : T'.addrs ⊆ T.addrs.erase z := by
    intro a ha
    obtain ⟨g1, g2⟩ := hreach a (wf_reachable x2 a ha)
    exact (List.mem_erase_of_ne g2).mpr g1
  have hlen' : (T.addrs.erase z).length ≤ T'.addrs.length := by
    rw [List.length_erase_of_mem hzT, Tree.addrs_length, Tree.addrs_length, x5,
      List.length_erase_of_mem hkey]
  have hperm := (List.subperm_of_subset hnd' hsub').perm_of_length_le hlen'
  exact wf_reachable x2 q (hperm.mem_iff.mpr ((List.mem_erase_of_ne hqz).mpr hq))

/-! ### Erasing from a tree built by insertions -/

/-- `rbtree_insert` leaves the sentinel's cell as it was. -/
theorem rbtree_insert_sentinel (t : rbtree) (T : Tree) (key : Int) (fuel : Nat) (hg : Good t T)
    (hf : T.height + 2 ≤ fuel) (t' : rbtree) (r : Nat)
    (h : rbtree_insert fuel t key = some (t', r)) : rd t' t'.nil = rd t t.nil := by
  obtain ⟨hwf, hnl, hnb, hrb⟩ := hg
  obtain ⟨t3, e3, z3, n3, l3, c3⟩ := insert_spec t T key fuel hwf hnl (by omega)
  have hnb3 : NilBlack t3 := by
    unfold NilBlack at *
    rw [n3, c3]; exact hnb
  have hlen : (descend key [] T).length + 2 ≤ fuel := by
    have := descend_length key T []
    simp only [List.length_nil] at this
    omega
  obtain ⟨t4, a', c', k', l', r', e4, wf4, hk4, kp4⟩ :=
    insert_fixup_loop_spec fuel t3 (descend key [] T) t.mem.length RBTREE_RED key .leaf .leaf
      hlen z3 hnb3 (descend_rootBlack key T hrb)
  have hpar : (rd t3 t.mem.length).parent = ctxTop t3.nil (descend key [] T) := by
    rw [(zip_focus_cell z3).1]
  have hroot4 : t4.root = a' := wf4.1
  have kp5 := keeps_set_color RBTREE_BLACK (zip_focus_cell wf4).2
  have kp := kp4.trans kp5
  have heq : rbtree_insert fuel t key =
      some (set_color t4 a' RBTREE_BLACK, (set_color t4 a' RBTREE_BLACK).root) := by
    unfold rbtree_insert
    rw [e3]
    simp only [_insert_fixup, hpar, e4, hroot4]
  rw [heq] at h
  simp only [Option.some.injEq, Prod.mk.injEq] at h
  rw [← h.1, kp.1, kp.2.2, n3, c3]

/-- Inserting a list of keys leaves the sentinel's cell as it was. -/
theorem insert_all_sentinel : ∀ (keys : List Int) (t : rbtree) (T : Tree) (fuel : Nat),
    Good t T → T.keys.length + keys.length < fuel → T.keys.Pairwise (· ≤ ·) →
    ∀ t', insert_all fuel t keys = some t' → rd t' t'.nil = rd t t.nil := by
  intro keys
  induction keys with
  | nil =>
    intro t T fuel _ _ _ t' h
    simp only [insert_all, Option.some.injEq] at h
    rw [← h]
  | cons key rest ih =>
    intro t T fuel hg hf hs t' h
    simp only [List.length_cons] at hf
    have hh := Tree.height_le_keys T
    obtain ⟨t1, T1, e1, g1, hk1, hn1, -, -⟩ := rbtree_insert_spec t T key fuel hg (by omega)
    have hp1 : T1.keys.Perm (key :: T.keys) := by rw [hk1]; exact ins_keys_perm _ _ _
    have hs1 : T1.keys.Pairwise (· ≤ ·) := by rw [hk1]; exact ins_keys_sorted _ _ _ hs
    have hl1 : T1.keys.length = T.keys.length + 1 := by rw [hp1.length_eq]; simp
    simp only [insert_all, e1] at h
    rw [ih t1 T1 fuel g1 (by omega) hs1 t' h]
    exact rbtree_insert_sentinel t T key fuel hg (by omega) t1 _ e1

/-- Claim C10, amended: for every tree built by `rbtree_insert` calls from a new
tree (duplicate keys allowed) and every node `p` reachable from its root,
`rbtree_erase(t, p)` returns 0 within any budget larger than the number of
keys. The node it removes is the node `z` that `rbtree_find` returns for the
key of `p`: a node of the tree that holds this key, `p` itself when no key was
inserted twice. `z` is the cell passed to `free`, it is no longer reachable
from the root, and no node becomes reachable that was not. When the tree
before the call is a red-black tree, every node other than `z` is still
reachable. -/
theorem C10_erase_removes_found_node (keys : List Int) (fuel : Nat)
    (hfuel : keys.length < fuel) :
    ∃ t T, insert_all fuel new_rbtree keys = some t ∧ WF t T ∧
      (∀ q, Reachable t q ↔ q ∈ T.addrs) ∧
      ∀ p, Reachable t p →
        ∃ z t', rbtree_find fuel t (rd t p).key = some (some z) ∧ Reachable t z ∧
          (rd t z).key = (rd t p).key ∧ (keys.Nodup → z = p) ∧
          rbtree_erase fuel t p = some (t', 0) ∧ t'.freed = z :: t.freed ∧
          ¬ Reachable t' z ∧ (∀ q, Reachable t' q → Reachable t q) ∧
          (RBValid T → ∀ q, Reachable t q → q ≠ z → Reachable t' q) := by
  obtain ⟨t, T, e, hg, hs, hp, hn⟩ :=
    insert_all_spec keys new_rbtree .leaf fuel good_new (by simp [Tree.keys]; omega)
      (by simp [Tree.keys])
  have hcell : rd t t.nil = rd new_rbtree new_rbtree.nil :=
    insert_all_sentinel keys new_rbtree .leaf fuel good_new (by simp [Tree.keys]; omega)
      (by simp [Tree.keys]) t e
  have hnil0 : t.nil = 0 := hn
  have hsent : SentinelOK t := by
    unfold SentinelOK
    rw [hcell, hnil0]
    exact ⟨rfl, rfl, rfl⟩
  have hnp : (rd t t.nil).parent = t.nil := by
    rw [hcell, hnil0]
    rfl
  have hp' : T.keys.Perm keys := by simpa [Tree.keys] using hp
  have hl : T.keys.length = keys.length := hp'.length_eq
  have hwf := hg.1
  have hcl : Closed (t.nil :: T.addrs) t :=
    wf_closed hwf hg.2.1 hsent.2.1 hsent.2.2 (by rw [hnp]; exact List.mem_cons_self _ _)
  have hiff : ∀ q, Reachable t q ↔ q ∈ T.addrs := by
    intro q
    constructor
    · intro hq
      obtain ⟨g1, g2⟩ := closed_reachable hcl hq
      rcases List.mem_cons.mp g1 with g | g
      · exact absurd g g2
      · exact g
    · exact wf_reachable hwf q
  refine ⟨t, T, e, hwf, hiff, ?_⟩
  intro p hpr
  obtain ⟨z, t', h1, h2, h3, h4, h5, h6, -, h8, h9⟩ :=
    rbtree_erase_removes t T p fuel hwf hsent hnp hs ((hiff p).mp hpr) (by omega)
  refine ⟨z, t', h1, (hiff z).mpr h2, h3, fun hnd => h4 (hp'.nodup_iff.mpr hnd), h5, h6,
    fun hz => (h8 z hz).2 rfl, fun q hq => (hiff q).mpr (h8 q hq).1,
    fun hv q hq hne => h9 hv q ((hiff q).mp hq) hne⟩

/-- Claim C10, witness: the tree with the key 1 twice, `p` the second node (cell
2, the right child of the root): the node found, freed and taken out of the
tree is the first one. -/
theorem C10_erase_removes_found_node_witness :
    [(1 : Int), 1].length < 10 ∧
    ∃ t z t', insert_all 10 new_rbtree [1, 1] = some t ∧ Reachable t 2 ∧
      rbtree_find 10 t (rd t 2).key = some (some z) ∧ z = 1 ∧
      rbtree_erase 10 t 2 = some (t', 0) ∧ t'.freed = z :: t.freed ∧ ¬ Reachable t' z := by
  refine ⟨by decide, ?_⟩
  obtain ⟨t, T, e, -, -, h⟩ := C10_erase_removes_found_node [1, 1] 10 (by decide)
  have e2 : insert_all 10 new_rbtree [1, 1] = some ⟨1, 0,
      [⟨RBTREE_BLACK, 0, 0, 0, 0⟩, ⟨RBTREE_BLACK, 1, 0, 0, 2⟩, ⟨RBTREE_RED, 1, 1, 0, 0⟩], []⟩ := by
    decide
  rw [e2] at e
  simp only [Option.some.injEq] at e
  subst e
  have hr : Reachable (⟨1, 0, [⟨RBTREE_BLACK, 0, 0, 0, 0⟩, ⟨RBTREE_BLACK, 1, 0, 0, 2⟩,
      ⟨RBTREE_RED, 1, 1, 0, 0⟩], []⟩ : rbtree) 2 :=
    Reachable.right 1 (Reachable.root (by decide)) (by decide)
  obtain ⟨z, t', h1, -, -, -, h5, h6, h7, -, -⟩ := h 2 hr
  have hz : z = 1 := by
    have : rbtree_find 10 (⟨1, 0, [⟨RBTREE_BLACK, 0, 0, 0, 0⟩, ⟨RBTREE_BLACK, 1, 0, 0, 2⟩,
      ⟨RBTREE_RED, 1, 1, 0, 0⟩], []⟩ : rbtree) 1 = some (some 1) := by decide
    have h1' : rbtree_find 10 (⟨1, 0, [⟨RBTREE_BLACK, 0, 0, 0, 0⟩, ⟨RBTREE_BLACK, 1, 0, 0, 2⟩,
      ⟨RBTREE_RED, 1, 1, 0, 0⟩], []⟩ : rbtree) 1 = some (some z) := h1
    rw [this] at h1'
    simp only [Option.some.injEq] at h1'
    exact h1'.symm
  exact ⟨_, z, t', e2, hr, h1, hz, h5, h6, h7⟩

/-- Why the last part of C10 asks for a red-black tree: inserting 1, 5, 4, 2, 3
ends (through the stale `parent` of `_insert_fixup`) with a tree that is not a
red-black tree, and erasing its node 5 (cell 2) then frees that cell only but
leaves just the cells 1 and 4 reachable: the nodes 3 and 5 (keys 4 and 3) are
lost. -/
theorem erase_loses_nodes_on_damaged_tree :
    (insert_all 10 new_rbtree [1, 5, 4, 2, 3]).bind (fun t => inorder_nodes 10 t t.root) =
      some [1, 4, 5, 3, 2] ∧
    (insert_all 10 new_rbtree [1, 5, 4, 2, 3]).bind (fun t => path_blacks 10 t t.root) =
      some [2, 2, 1, 2, 3, 3] ∧
    (insert_all 10 new_rbtree [1, 5, 4, 2, 3]).bind
      (fun t => (rbtree_erase 10 t 2).map (fun s => s.1.freed)) = some [2] ∧
    (insert_all 10 new_rbtree [1, 5, 4, 2, 3]).bind
      (fun t => (rbtree_erase 10 t 2).bind (fun s => inorder_nodes 10 s.1 s.1.root)) =
      some [1, 4] := by
  decide

end RBTreeLab
